import Mathlib

/-!
# GsswWrapper: sequence-to-graph alignment

A shallow embedding of `GraphAligner.h` (the banded affine-gap aligner over a
sequence graph) and of `AlignmentGraph.cpp` (the bit-packed split-node graph
store), followed by theorems about them.

Conventions of the embedding.

* `std::vector` and `std::string` are lists; `v[i]` is `List.getD` with the
  value-initialised element as default wherever the index is in range by
  construction.
* `assert` is a check: a failing assertion ends the run with `Except.error`.
* `LengthType` is `size_t` (64 bit) and `ScoreType` is `int32_t`, the
  instantiation used by `GraphAlignerWrapper.cpp`.  Sizes and positions are
  natural numbers, scores are integers; a conversion is written out where the
  source computes in one type and stores in the other.
* `getBandedRows` reads one element before the first and one element after the
  last entry of a row vector.  What such a read yields is not determined by the
  program, so it is a parameter of the model (`before`, `after`).
-/

namespace GsswWrapper

/-! ## GraphAligner.h: data -/

/-- A cell of the DP matrix: `(graph position, query row)`, the source's
`std::pair<LengthType, LengthType>`. -/
abbrev MatrixPosition := Nat × Nat

/-- The source's `GraphAligner::SeedHit`. -/
structure SeedHit where
  sequencePosition : Nat
  nodeId : Int
deriving DecidableEq, Repr

/-- The source's `GraphAligner::MatrixSlice`. -/
structure MatrixSlice where
  M : List Int
  Q : List Int
  R : List Int
  Rbacktrace : List MatrixPosition
  Qbacktrace : List MatrixPosition
  backtrace : List (List MatrixPosition)
  insideBand : List Bool
deriving DecidableEq, Repr

/-- The data members of the source's `GraphAligner`; `nodeLookup` is the
`std::map<int, LengthType>` as an association list. -/
structure GraphAligner where
  notInOrder : List Bool
  nodeStart : List Nat
  nodeEnd : List Nat
  indexToNode : List Nat
  nodeLookup : List (Int × Nat)
  nodeIDs : List Int
  inNeighbors : List (List Nat)
  outNeighbors : List (List Nat)
  nodeSequences : List Char
  gapStartPenalty : Int
  gapContinuePenalty : Int
  finalized : Bool
deriving DecidableEq, Repr

/-- One `vg::Mapping` of the result path, with the fields the aligner sets. -/
structure Mapping where
  rank : Int
  node_id : Int
  is_reverse : Bool
deriving DecidableEq, Repr

/-- The `vg::Alignment` the aligner returns, with the fields it sets. -/
structure Alignment where
  name : String
  path : List Mapping
  score : Int
deriving DecidableEq, Repr

/-- Smallest value of `ScoreType`. -/
def ScoreType.min : Int := -2147483648

/-- Largest value of `ScoreType`. -/
def ScoreType.max : Int := 2147483647

/-- Conversion of an integer to `ScoreType` (two's complement, 32 bit). -/
def toScoreType (x : Int) : Int := (x + 2147483648) % 4294967296 - 2147483648

/-- Conversion of an integer to `LengthType` (unsigned, 64 bit). -/
def toLengthType (x : Int) : Nat := (x % 18446744073709551616).toNat

/-- The source's `std::vector::resize(n, v)`. -/
def resize {α : Type} (l : List α) (n : Nat) (v : α) : List α :=
  l.take n ++ List.replicate (n - l.length) v

/-- Read of `m[w][j]` in a vector of vectors. -/
def getCell {α : Type} (m : List (List α)) (w j : Nat) (d : α) : α :=
  (m.getD w []).getD j d

/-- Write of `m[w][j] = v` in a vector of vectors. -/
def setCell {α : Type} (m : List (List α)) (w j : Nat) (v : α) : List (List α) :=
  m.set w ((m.getD w []).set j v)

/-- An `assert` of the source. -/
def assert (c : Bool) (msg : String) : Except String Unit :=
  if c then .ok () else .error msg

/-! ## GraphAligner.h: building the graph -/

/-- The constructor `GraphAligner()`: the dummy node is the first node. -/
def GraphAligner.ctor : GraphAligner :=
  { notInOrder := [false]
    nodeStart := [0]
    nodeEnd := [1]
    indexToNode := [0]
    nodeLookup := []
    nodeIDs := [0]
    inNeighbors := [[]]
    outNeighbors := [[]]
    nodeSequences := ['N']
    gapStartPenalty := 1
    gapContinuePenalty := 1
    finalized := false }

/-- The source's `GraphAligner::AddNode`. -/
def GraphAligner.AddNode (g : GraphAligner) (nodeId : Int) (sequence : String) :
    Except String GraphAligner :=
  if (g.nodeLookup.lookup nodeId).isSome then .ok g
  else if ¬ (18446744073709551615 - sequence.length > g.nodeSequences.length) then
    .error "AddNode: size"
  else
    let nodeSequences := g.nodeSequences ++ sequence.data
    .ok { g with
      nodeLookup := g.nodeLookup ++ [(nodeId, g.nodeStart.length)]
      nodeIDs := g.nodeIDs ++ [nodeId]
      nodeStart := g.nodeStart ++ [g.nodeSequences.length]
      inNeighbors := g.inNeighbors ++ [[]]
      outNeighbors := g.outNeighbors ++ [[]]
      nodeSequences := nodeSequences
      indexToNode := resize g.indexToNode nodeSequences.length g.nodeStart.length
      nodeEnd := g.nodeEnd ++ [nodeSequences.length]
      notInOrder := g.notInOrder ++ [false] }

/-- The source's `GraphAligner::AddEdgeNodeId`. -/
def GraphAligner.AddEdgeNodeId (g : GraphAligner) (node_id_from node_id_to : Int) :
    Except String GraphAligner :=
  match g.nodeLookup.lookup node_id_from, g.nodeLookup.lookup node_id_to with
  | some src, some dst =>
    if ¬ (dst < g.inNeighbors.length) then .error "AddEdgeNodeId: to"
    else if ¬ (src < g.nodeStart.length) then .error "AddEdgeNodeId: from"
    else if (g.inNeighbors.getD dst []).contains src then .ok g
    else
      .ok { g with
        inNeighbors := g.inNeighbors.set dst (g.inNeighbors.getD dst [] ++ [src])
        outNeighbors := g.outNeighbors.set src (g.outNeighbors.getD src [] ++ [dst])
        notInOrder := if src ≥ dst then g.notInOrder.set dst true else g.notInOrder }
  | _, _ => .error "AddEdgeNodeId: unknown node id"

/-- The source's `GraphAligner::Finalize`: every node without an in-edge gets
the dummy node as in-neighbor. -/
def GraphAligner.Finalize (g : GraphAligner) : GraphAligner :=
  let inNeighbors := (List.range g.nodeSequences.length).foldl (fun inN i =>
    let node := g.indexToNode.getD i 0
    if g.nodeStart.getD node 0 = i then
      if (inN.getD node []).length = 0 then inN.set node (inN.getD node [] ++ [0])
      else inN
    else inN) g.inNeighbors
  { g with inNeighbors := inNeighbors, finalized := true }

/-! ## GraphAligner.h: scores and distances -/

/-- The source's `GraphAligner::gapPenalty`; the product is formed in
`LengthType` and the result is returned as `ScoreType`. -/
def GraphAligner.gapPenalty (g : GraphAligner) (length : Nat) : Int :=
  if length = 0 then 0
  else toScoreType (g.gapStartPenalty + g.gapContinuePenalty * ((length : Int) - 1))

/-- The source's `GraphAligner::matchScore`. -/
def GraphAligner.matchScore (graph sequence : Char) : Int :=
  if graph = sequence then 1 else -4

/-- The source's `GraphAligner::distanceFromSeqToSeq`. -/
def GraphAligner.distanceFromSeqToSeq (g : GraphAligner) (start end_ : Nat)
    (distanceMatrix : List (List Nat)) : Nat :=
  let startNode := g.indexToNode.getD start 0
  let endNode := g.indexToNode.getD end_ 0
  if startNode = endNode ∧ end_ ≥ start then end_ - start
  else toLengthType (((getCell distanceMatrix startNode endNode 0 : Nat) : Int)
    + g.nodeStart.getD startNode 0 + end_ - g.nodeStart.getD endNode 0 - start)

/-- Largest value of `int`, the "unreachable" mark of the Boost routine. -/
def INT_MAX : Int := 2147483647

/-- One relaxation round of the shortest-path computation through vertex `k`. -/
def relaxThrough (V k : Nat) (D : List (List Int)) : List (List Int) :=
  (List.range V).foldl (fun D i =>
    (List.range V).foldl (fun D j =>
      let dik := getCell D i k INT_MAX
      let dkj := getCell D k j INT_MAX
      if dik ≠ INT_MAX ∧ dkj ≠ INT_MAX ∧ dik + dkj < getCell D i j INT_MAX then
        setCell D i j (dik + dkj)
      else D) D) D

/-- Boost's `johnson_all_pairs_shortest_paths`, modelled from its contract: for
non-negative edge weights it fills `D[u][v]` with the length of a shortest path
from `u` to `v` (`0` for `u = v`) and with `INT_MAX` when there is none. -/
def johnson_all_pairs_shortest_paths (V : Nat) (edges : List (Nat × Nat × Int)) :
    List (List Int) :=
  let D0 := (List.range V).map (fun i => (List.range V).map (fun j =>
    if i = j then (0 : Int) else INT_MAX))
  let D1 := edges.foldl (fun D e =>
    if e.2.2 < getCell D e.1 e.2.1 INT_MAX then setCell D e.1 e.2.1 e.2.2 else D) D0
  (List.range V).foldl (fun D k => relaxThrough V k D) D1

/-- The edges `(source, target, weight)` that `getDistanceMatrixBoostJohnson`
hands to the shortest-path routine: one edge per entry of `inNeighbors`, with
the weight `nodeEnd[startIndex] - nodeStart[startIndex]` of source lines
952-956. -/
def GraphAligner.johnsonEdges (g : GraphAligner) : List (Nat × Nat × Int) :=
  (List.range g.inNeighbors.length).flatMap (fun i => (g.inNeighbors.getD i []).map (fun src =>
    (src, i, ((g.nodeEnd.getD src 0 - g.nodeStart.getD src 0 : Nat) : Int))))

/-- The source's `GraphAligner::getDistanceMatrixBoostJohnson`. -/
def GraphAligner.getDistanceMatrixBoostJohnson (g : GraphAligner) : List (List Nat) :=
  let V := g.inNeighbors.length
  let D := johnson_all_pairs_shortest_paths V g.johnsonEdges
  let result : List (List Nat) := (List.range V).map (fun i => (List.range V).map (fun j =>
    if getCell D i j 0 = INT_MAX then g.nodeSequences.length + 1
    else toLengthType (getCell D i j 0)))
  (List.range V).foldl (fun result i =>
    (List.range V).foldl (fun result j =>
      if j = i then result
      else setCell result i i
        (Nat.min (getCell result i i 0) (getCell result i j 0 + getCell result j i 0)))
      (setCell result i i (g.nodeSequences.length + 1))) result

/-! ## GraphAligner.h: seed hits -/

/-- The `while` loop of `longestExactMatch`, run for at most `maxlen - length`
further rounds: the loop leaves as soon as `length` reaches `maxlen`. -/
def longestExactMatchLoop (left nodeSequences : List Char) (leftpos nodeSequencesPos : Nat) :
    Nat → Nat → Nat
  | 0, length => length
  | remaining + 1, length =>
    if left.getD (leftpos + length) (Char.ofNat 0)
        = nodeSequences.getD (nodeSequencesPos + length) (Char.ofNat 0) then
      longestExactMatchLoop left nodeSequences leftpos nodeSequencesPos remaining (length + 1)
    else length

/-- The source's `GraphAligner::longestExactMatch`. -/
def GraphAligner.longestExactMatch (g : GraphAligner) (left : List Char)
    (leftpos nodeSequencesPos maxlen : Nat) : Except String Nat := do
  assert (nodeSequencesPos < g.nodeSequences.length) "longestExactMatch: nodeSequencesPos"
  assert (nodeSequencesPos + maxlen ≤ g.nodeSequences.length) "longestExactMatch: maxlen"
  assert (leftpos < left.length) "longestExactMatch: leftpos"
  assert (leftpos + maxlen ≤ left.length) "longestExactMatch: leftpos + maxlen"
  pure (longestExactMatchLoop left g.nodeSequences leftpos nodeSequencesPos maxlen 0)

/-- The source's `GraphAligner::getLongestExactMatch`; its parameter `nodeId`
is a node index. -/
def GraphAligner.getLongestExactMatch (g : GraphAligner) (sequence : List Char)
    (seqPos : Nat) (nodeId : Nat) : Except String (MatrixPosition × Nat) := do
  assert (nodeId < g.nodeStart.length) "getLongestExactMatch: nodeId"
  let nodeStart := g.nodeStart.getD nodeId 0
  let nodeEnd := g.nodeEnd.getD nodeId 0
  (List.range' nodeStart (nodeEnd - nodeStart)).foldlM
    (fun (best : MatrixPosition × Nat) i => do
      let matchHere ← g.longestExactMatch sequence seqPos i
        (Nat.min (nodeEnd - i) (toLengthType ((sequence.length : Int) - seqPos)))
      if matchHere > best.2 then pure ((i, seqPos), matchHere) else pure best)
    ((0, 0), 0)

/-- The source's `GraphAligner::getSeedHitPositionsInMatrix`. -/
def GraphAligner.getSeedHitPositionsInMatrix (g : GraphAligner) (sequence : List Char)
    (seedHits : List (SeedHit × SeedHit)) : Except String (List MatrixPosition) :=
  seedHits.foldlM (fun result hit => do
    match g.nodeLookup.lookup hit.1.nodeId, g.nodeLookup.lookup hit.2.nodeId with
    | some first, some second =>
      let forwardMatch ← g.getLongestExactMatch sequence hit.1.sequencePosition first
      let backwardMatch ← g.getLongestExactMatch sequence hit.2.sequencePosition second
      if forwardMatch.2 > backwardMatch.2 then pure (result ++ [forwardMatch.1])
      else pure (result ++ [backwardMatch.1])
    | _, _ => .error "getSeedHitPositionsInMatrix: unknown node id") []

/-! ## GraphAligner.h: the band -/

/-- The `while` loop of `expandBandRightwards`.  It returns the matrix, the
position and the band width it stopped with, and whether the function returned
from inside the loop. -/
def expandBandRightwardsLoop (endPos j : Nat) :
    List (List Int) → Nat → Nat → List (List Int) × Nat × Nat × Bool
  | matrix, w, 0 => (matrix, w, 0, false)
  | matrix, w, bandWidth + 1 =>
    if w ≠ endPos then
      let matrix := setCell matrix w j ((bandWidth : Int) + 1)
      if w + 1 ≠ endPos ∧ getCell matrix (w + 1) j 0 ≥ (bandWidth : Int) then
        (matrix, w + 1, bandWidth, true)
      else expandBandRightwardsLoop endPos j matrix (w + 1) bandWidth
    else (matrix, w, bandWidth + 1, false)

/-- The source's `GraphAligner::expandBandRightwards`.  The recursion of the
source ends unless it runs through empty nodes forever; `fuel` bounds its depth
and running out of it is reported as an error. -/
def GraphAligner.expandBandRightwards (g : GraphAligner) :
    Nat → List (List Int) → Nat → Nat → Nat → Except String (List (List Int))
  | 0, _, _, _, _ => .error "expandBandRightwards: recursion does not end"
  | fuel + 1, matrix, w, j, bandWidth =>
    let nodeIndex := g.indexToNode.getD w 0
    let endPos := g.nodeEnd.getD nodeIndex 0
    let r := expandBandRightwardsLoop endPos j matrix w bandWidth
    if r.2.2.2 then .ok r.1
    else if r.2.1 = endPos ∧ r.2.2.1 > 0 then
      (g.outNeighbors.getD nodeIndex []).foldlM (fun matrix nb =>
        expandBandRightwards g fuel matrix (g.nodeStart.getD nb 0) j r.2.2.1) r.1
    else .ok r.1

/-- The `while` loop of `expandBandLeftwards`, with the same result as
`expandBandRightwardsLoop`. -/
def expandBandLeftwardsLoop (startPos j : Nat) :
    List (List Int) → Nat → Nat → List (List Int) × Nat × Nat × Bool
  | matrix, w, 0 => (matrix, w, 0, false)
  | matrix, w, bandWidth + 1 =>
    if w ≠ startPos then
      let matrix := setCell matrix w j ((bandWidth : Int) + 1)
      if w - 1 ≠ startPos ∧ getCell matrix (w - 1) j 0 ≥ (bandWidth : Int) then
        (matrix, w - 1, bandWidth, true)
      else expandBandLeftwardsLoop startPos j matrix (w - 1) bandWidth
    else (matrix, w, bandWidth + 1, false)

/-- The source's `GraphAligner::expandBandLeftwards`.  Every recursive call has
a smaller band width, so a `fuel` above the band width is never used up. -/
def GraphAligner.expandBandLeftwards (g : GraphAligner) :
    Nat → List (List Int) → Nat → Nat → Nat → Except String (List (List Int))
  | 0, _, _, _, _ => .error "expandBandLeftwards: recursion does not end"
  | fuel + 1, matrix, w, j, bandWidth =>
    let nodeIndex := g.indexToNode.getD w 0
    let startPos := g.nodeStart.getD nodeIndex 0
    let r := expandBandLeftwardsLoop startPos j matrix w bandWidth
    if r.2.2.2 then .ok r.1
    else if r.2.1 = startPos ∧ r.2.2.1 > 0 then
      (g.inNeighbors.getD nodeIndex []).foldlM (fun matrix nb =>
        expandBandLeftwards g fuel matrix (g.nodeEnd.getD nb 0 - 1) j (r.2.2.1 - 1))
        (setCell r.1 r.2.1 j (r.2.2.1 : Int))
    else .ok r.1

/-- One round `(j, w)` of the forward fill of `getBandedRows`.  In row `j = 0`
the source reads `forward[u][j-1]` with `j - 1` wrapped around, the element
before the first one of `forward[u]`: the model reads `before u` there. -/
def GraphAligner.forwardFillCell (g : GraphAligner) (before : Nat → Int)
    (forward : List (List Int)) (j w : Nat) : List (List Int) :=
  if getCell forward w j 0 > 0 then forward
  else
    let nodeIndex := g.indexToNode.getD w 0
    if g.nodeStart.getD nodeIndex 0 = w then
      (g.inNeighbors.getD nodeIndex []).foldl (fun forward nb =>
        let u := g.nodeEnd.getD nb 0 - 1
        if (if j = 0 then before u else getCell forward u (j - 1) 0) > 0 then
          setCell forward w j 1
        else forward) forward
    else if (if j = 0 then before (w - 1) else getCell forward (w - 1) (j - 1) 0) > 0 then
      setCell forward w j 1
    else forward

/-- One round `(j, w)` of the backward fill of `getBandedRows`.  In the last
row `j = sequenceLength` the source reads `backward[u][j+1]`, the element after
the last one of `backward[u]`: the model reads `after u` there. -/
def GraphAligner.backwardFillCell (g : GraphAligner) (after : Nat → Int)
    (sequenceLength : Nat) (backward : List (List Int)) (j w : Nat) : List (List Int) :=
  if getCell backward w j 0 > 0 then backward
  else
    let nodeIndex := g.indexToNode.getD w 0
    if g.nodeEnd.getD nodeIndex 0 - 1 = w then
      (g.outNeighbors.getD nodeIndex []).foldl (fun backward nb =>
        let u := g.nodeStart.getD nb 0
        if (if j = sequenceLength then after u else getCell backward u (j + 1) 0) > 0 then
          setCell backward w j 1
        else backward) backward
    else if (if j = sequenceLength then after (w + 1)
        else getCell backward (w + 1) (j + 1) 0) > 0 then
      setCell backward w j 1
    else backward

/-- The seed loop of `getBandedRows`: both matrices get the seed cell and both
expansions of every seed. -/
def GraphAligner.seedBand (g : GraphAligner) (seedHits : List MatrixPosition)
    (bandWidth : Int) (sequenceLength : Nat) :
    Except String (List (List Int) × List (List Int)) :=
  let N := g.nodeSequences.length
  let zero : List (List Int) := List.replicate N (List.replicate (sequenceLength + 1) 0)
  let fuel := (bandWidth.toNat + 1) * (g.nodeStart.length + 1)
  seedHits.foldlM (fun (fb : List (List Int) × List (List Int)) pos => do
    let forward := setCell fb.1 pos.1 pos.2 bandWidth
    let backward := setCell fb.2 pos.1 pos.2 bandWidth
    let forward ← g.expandBandRightwards fuel forward pos.1 pos.2 bandWidth.toNat
    let backward ← g.expandBandRightwards fuel backward pos.1 pos.2 bandWidth.toNat
    let forward ← g.expandBandLeftwards fuel forward pos.1 pos.2 bandWidth.toNat
    let backward ← g.expandBandLeftwards fuel backward pos.1 pos.2 bandWidth.toNat
    pure (forward, backward)) (zero, zero)

/-- Row `j` of the forward fill of `getBandedRows`: positions in ascending
order. -/
def GraphAligner.forwardFillRow (g : GraphAligner) (before : Nat → Int)
    (forward : List (List Int)) (j : Nat) : List (List Int) :=
  (List.range g.nodeSequences.length).foldl (fun forward w =>
    g.forwardFillCell before forward j w) forward

/-- The forward fill of `getBandedRows`: rows `0 .. sequenceLength` in
ascending order. -/
def GraphAligner.forwardFill (g : GraphAligner) (before : Nat → Int)
    (sequenceLength : Nat) (forward : List (List Int)) : List (List Int) :=
  (List.range (sequenceLength + 1)).foldl (fun forward j =>
    g.forwardFillRow before forward j) forward

/-- Row `j` of the backward fill of `getBandedRows`: positions in descending
order. -/
def GraphAligner.backwardFillRow (g : GraphAligner) (after : Nat → Int)
    (sequenceLength : Nat) (backward : List (List Int)) (j : Nat) : List (List Int) :=
  (List.range g.nodeSequences.length).reverse.foldl (fun backward w =>
    g.backwardFillCell after sequenceLength backward j w) backward

/-- The backward fill of `getBandedRows`: rows `sequenceLength .. 0` in
descending order. -/
def GraphAligner.backwardFill (g : GraphAligner) (after : Nat → Int)
    (sequenceLength : Nat) (backward : List (List Int)) : List (List Int) :=
  (List.range (sequenceLength + 1)).reverse.foldl (fun backward j =>
    g.backwardFillRow after sequenceLength backward j) backward

/-- The last loops of `getBandedRows`: the dummy position is inside the band
in every row, any other cell when either matrix is positive there. -/
def GraphAligner.bandOfMatrices (g : GraphAligner) (sequenceLength : Nat)
    (forward backward : List (List Int)) : List (List Bool) :=
  (List.range g.nodeSequences.length).map (fun w =>
    (List.range (sequenceLength + 1)).map (fun j =>
      if w = 0 then true
      else decide (getCell forward w j 0 > 0) || decide (getCell backward w j 0 > 0)))

/-- The source's `GraphAligner::getBandedRows`. -/
def GraphAligner.getBandedRows (g : GraphAligner) (before after : Nat → Int)
    (seedHits : List MatrixPosition) (bandWidth : Int) (sequenceLength : Nat) :
    Except String (List (List Bool)) := do
  let fb ← g.seedBand seedHits bandWidth sequenceLength
  pure (g.bandOfMatrices sequenceLength (g.forwardFill before sequenceLength fb.1)
    (g.backwardFill after sequenceLength fb.2))

/-! ## GraphAligner.h: the rows of the DP matrix -/

/-- The right-hand side of the lower-bound assertions of the source,
`-std::numeric_limits<ScoreType>::min() + 100`: the negation is formed in
`ScoreType`, where it wraps to the minimum itself. -/
def scoreFloor : Int := toScoreType (-ScoreType.min) + 100

/-- The order assertion of the row loop: `p.second < row`, or `p.second == row`
and `q.first < w`. -/
def orderOk (p q : MatrixPosition) (w row : Nat) : Bool :=
  decide (p.2 < row) || (decide (p.2 = row) && decide (q.1 < w))

/-- The source's `GraphAligner::getRHelperZero`. -/
def GraphAligner.getRHelperZero (g : GraphAligner) : List (Nat × Int) :=
  (List.range g.nodeSequences.length).map (fun v => (v, 0))

/-- The source's `GraphAligner::getRHelperOne`. -/
def GraphAligner.getRHelperOne (g : GraphAligner) : List (Nat × Int) :=
  (List.range g.nodeSequences.length).map (fun v => (v, 0))

/-- The body shared by both branches of the loop of `getRHelper`: candidate `v`
reached from the previous-row position `u`. -/
def GraphAligner.getRHelperCandidate (g : GraphAligner) (j : Nat) (previousM : List Int)
    (sequence : List Char) (previousInsideBand : List Bool) (v nodeIndex : Nat)
    (bestPerNode : List (Nat × Int × Int)) (u : Nat) : List (Nat × Int × Int) :=
  if !previousInsideBand.getD u false then bestPerNode
  else
    let scoreHere := previousM.getD u 0
      + GraphAligner.matchScore (g.nodeSequences.getD v (Char.ofNat 0))
          (sequence.getD (j - 1) (Char.ofNat 0))
    let inNode := toScoreType ((g.nodeEnd.getD nodeIndex 0 - v : Nat) : Int)
      * g.gapContinuePenalty
    let best := bestPerNode.getD nodeIndex (0, 0, 0)
    if scoreHere - inNode > best.2.1 - best.2.2 then
      bestPerNode.set nodeIndex (v, scoreHere, inNode)
    else bestPerNode

/-- The source's `GraphAligner::getRHelper`. -/
def GraphAligner.getRHelper (g : GraphAligner) (j start : Nat) (previousM : List Int)
    (sequence : List Char) (previousInsideBand : List Bool)
    (previousProcessableColumns : List Nat) : Except String (List (Nat × Int)) :=
  if j = 0 then .ok g.getRHelperZero
  else if j = 1 ∧ start = 0 then .ok g.getRHelperOne
  else
    let bestPerNode := previousProcessableColumns.foldl (fun bestPerNode v =>
      let nodeIndex := g.indexToNode.getD v 0
      if g.nodeStart.getD nodeIndex 0 = v then
        (g.inNeighbors.getD nodeIndex []).foldl (fun bestPerNode nb =>
          g.getRHelperCandidate j previousM sequence previousInsideBand v nodeIndex
            bestPerNode (g.nodeEnd.getD nb 0 - 1)) bestPerNode
      else
        g.getRHelperCandidate j previousM sequence previousInsideBand v nodeIndex
          bestPerNode (v - 1))
      (List.replicate g.nodeStart.length (0, ScoreType.min + 99, 0))
    let result := bestPerNode.filterMap (fun b =>
      if b.2.1 > ScoreType.min + 100 then some (b.1, b.2.1) else none)
    if result.length ≥ 1 then .ok result else .error "getRHelper: empty"

/-- The source's `GraphAligner::hasInNeighborInsideBand`. -/
def GraphAligner.hasInNeighborInsideBand (g : GraphAligner) (w : Nat)
    (currentInsideBand : List Bool) : Bool :=
  let nodeIndex := g.indexToNode.getD w 0
  if g.nodeStart.getD nodeIndex 0 = w then
    (g.inNeighbors.getD nodeIndex []).any (fun nb =>
      currentInsideBand.getD (g.nodeEnd.getD nb 0 - 1) false)
  else currentInsideBand.getD (w - 1) false

/-- The source's `GraphAligner::recurrenceR`. -/
def GraphAligner.recurrenceR (g : GraphAligner) (w j : Nat) (currentM currentR : List Int)
    (currentRbacktrace : List MatrixPosition) (start : Nat) (currentInsideBand : List Bool) :
    Except String (Int × MatrixPosition) := do
  assert (currentInsideBand.getD w false) "recurrenceR: outside the band"
  let nodeIndex := g.indexToNode.getD w 0
  assert (decide (g.nodeStart.getD nodeIndex 0 ≠ w) || !g.notInOrder.getD nodeIndex false)
    "recurrenceR: start of a node that is not in order"
  let r ←
    if g.nodeStart.getD nodeIndex 0 = w then
      (g.inNeighbors.getD nodeIndex []).foldlM (fun (r : Int × MatrixPosition) nb => do
        let u := g.nodeEnd.getD nb 0 - 1
        if !currentInsideBand.getD u false then pure r
        else
          assert (u < w) "recurrenceR: u < w"
          let r := if currentM.getD u 0 - g.gapPenalty 1 > r.1 then
            (currentM.getD u 0 - g.gapPenalty 1, (u, j + start)) else r
          let r := if currentR.getD u 0 - g.gapContinuePenalty > r.1 then
            (currentR.getD u 0 - g.gapContinuePenalty, currentRbacktrace.getD u (0, 0)) else r
          pure r) (ScoreType.min + 99, (0, 0))
    else
      let u := w - 1
      if currentInsideBand.getD u false then
        let r : Int × MatrixPosition :=
          (currentR.getD u 0 - g.gapContinuePenalty, currentRbacktrace.getD u (0, 0))
        pure (if currentM.getD u 0 - g.gapPenalty 1 > r.1 then
          (currentM.getD u 0 - g.gapPenalty 1, (u, j + start)) else r)
      else pure (ScoreType.min + 99, (0, 0))
  assert (r.1 ≥ scoreFloor) "recurrenceR: maxValue too small"
  assert (r.1 ≤ ScoreType.max - 100) "recurrenceR: maxValue too large"
  pure r

/-- The source's `GraphAligner::fullR`. -/
def GraphAligner.fullR (g : GraphAligner) (w j : Nat) (RHelper : List (Nat × Int))
    (distanceMatrix : List (List Nat)) (start : Nat) : Except String (Int × MatrixPosition) := do
  assert (j > 0) "fullR: j"
  assert (w > 0) "fullR: w"
  let nodeIndex := g.indexToNode.getD w 0
  assert (decide (g.nodeStart.getD nodeIndex 0 = w) && g.notInOrder.getD nodeIndex false)
    "fullR: not the start of a node that is not in order"
  let r := RHelper.foldl (fun (r : Int × MatrixPosition) pair =>
    let v := pair.1
    if v = w then r
    else
      let scoreHere := pair.2 - g.gapPenalty (g.distanceFromSeqToSeq v w distanceMatrix)
      if scoreHere > r.1 then (scoreHere, (v, j - 1 + start)) else r)
    (ScoreType.min + 99, (0, 0))
  assert (r.1 ≥ scoreFloor) "fullR: maxValue too small"
  assert (r.1 ≤ ScoreType.max - 100) "fullR: maxValue too large"
  pure r

/-- The vectors of `getScoreAndBacktraceMatrixSlice` that live across its row
loop.  `current*` and `previous*` are the two buffers the source swaps at the
end of every row. -/
structure SliceState where
  currentM : List Int
  previousM : List Int
  currentQ : List Int
  previousQ : List Int
  currentR : List Int
  previousR : List Int
  currentRbacktrace : List MatrixPosition
  previousRbacktrace : List MatrixPosition
  Qbacktrace : List MatrixPosition
  backtrace : List (List MatrixPosition)
  currentInsideBand : List Bool
  previousInsideBand : List Bool
  currentProcessableColumns : List Nat
  previousProcessableColumns : List Nat
deriving DecidableEq, Repr

/-- Whether `w` is the first position of a node that is not in order, the
condition under which the row loop uses `fullR`. -/
def GraphAligner.usesFullR (g : GraphAligner) (w : Nat) : Bool :=
  decide (w = g.nodeStart.getD (g.indexToNode.getD w 0) 0)
    && g.notInOrder.getD (g.indexToNode.getD w 0) false

/-- Row loop body, part 1 (source lines 458-463): the update of `Q`. -/
def GraphAligner.cellQ (g : GraphAligner) (start j : Nat) (s : SliceState) (w : Nat) :
    SliceState :=
  let s := { s with currentQ := s.currentQ.set w (s.previousQ.getD w 0 - g.gapContinuePenalty) }
  if s.previousM.getD w 0 - g.gapPenalty 1 > s.currentQ.getD w 0 then
    { s with
      currentQ := s.currentQ.set w (s.previousM.getD w 0 - g.gapPenalty 1)
      Qbacktrace := s.Qbacktrace.set w (w, j - 1 + start) }
  else s

/-- Row loop body, part 2 (source lines 464-481): `R` by `fullR` or by
`recurrenceR`. -/
def GraphAligner.cellR (g : GraphAligner) (hasWrongOrders : Bool)
    (distanceMatrix : List (List Nat)) (Rhelper : List (Nat × Int)) (start j : Nat)
    (neighborInsideBand : Bool) (s : SliceState) (w : Nat) : Except String SliceState :=
  if g.usesFullR w then do
    assert hasWrongOrders "row loop: hasWrongOrders"
    let rr ← g.fullR w j Rhelper distanceMatrix start
    let s := { s with
      currentR := s.currentR.set w rr.1
      currentRbacktrace := s.currentRbacktrace.set w rr.2 }
    assert (orderOk (s.currentRbacktrace.getD w (0, 0)) (getCell s.backtrace w j (0, 0)) w
      (j + start)) "row loop: order after fullR"
    pure s
  else if neighborInsideBand then do
    let rr ← g.recurrenceR w j s.currentM s.currentR s.currentRbacktrace start
      s.currentInsideBand
    let s := { s with
      currentR := s.currentR.set w rr.1
      currentRbacktrace := s.currentRbacktrace.set w rr.2 }
    assert (orderOk (s.currentRbacktrace.getD w (0, 0)) (getCell s.backtrace w j (0, 0)) w
      (j + start)) "row loop: order after recurrenceR"
    pure s
  else pure s

/-- Row loop body, part 3 (source lines 482-498): `M` from `Q` and from `R`. -/
def GraphAligner.cellMQR (g : GraphAligner) (start j : Nat) (neighborInsideBand : Bool)
    (s : SliceState) (w : Nat) : Except String SliceState := do
  let s := { s with currentM := s.currentM.set w (ScoreType.min + 99) }
  let s ←
    if s.previousInsideBand.getD w false then do
      let s := { s with backtrace := setCell s.backtrace w j (s.Qbacktrace.getD w (0, 0)) }
      assert (orderOk (getCell s.backtrace w j (0, 0)) (getCell s.backtrace w j (0, 0)) w
        (j + start)) "row loop: order after Q"
      pure { s with currentM := s.currentM.set w (s.currentQ.getD w 0) }
    else pure s
  if g.usesFullR w || (!g.usesFullR w && neighborInsideBand) then
    if s.currentR.getD w 0 > s.currentM.getD w 0 then do
      let s := { s with
        currentM := s.currentM.set w (s.currentR.getD w 0)
        backtrace := setCell s.backtrace w j (s.currentRbacktrace.getD w (0, 0)) }
      assert (orderOk (getCell s.backtrace w j (0, 0)) (getCell s.backtrace w j (0, 0)) w
        (j + start)) "row loop: order after R"
      pure s
    else pure s
  else pure s

/-- Row loop body, the match candidate from the previous-row position `u`
(source lines 504-511 and 517-525). -/
def GraphAligner.cellMatchFrom (g : GraphAligner) (sequence : List Char) (start j : Nat)
    (w : Nat) (s : SliceState) (u : Nat) : Except String SliceState :=
  if !s.previousInsideBand.getD u false then pure s
  else
    let candidate := s.previousM.getD u 0
      + GraphAligner.matchScore (g.nodeSequences.getD w (Char.ofNat 0))
          (sequence.getD (j + start - 1) (Char.ofNat 0))
    if candidate > s.currentM.getD w 0 then do
      let s := { s with
        currentM := s.currentM.set w candidate
        backtrace := setCell s.backtrace w j (u, j - 1 + start) }
      assert (orderOk (getCell s.backtrace w j (0, 0)) (getCell s.backtrace w j (0, 0)) w
        (j + start)) "row loop: order after match"
      pure s
    else pure s

/-- Row loop body, part 4 (source lines 499-527): the match candidates. -/
def GraphAligner.cellMatch (g : GraphAligner) (sequence : List Char) (start j : Nat)
    (s : SliceState) (w : Nat) : Except String SliceState :=
  let nodeIndex := g.indexToNode.getD w 0
  if w = g.nodeStart.getD nodeIndex 0 then
    (g.inNeighbors.getD nodeIndex []).foldlM (fun s nb =>
      g.cellMatchFrom sequence start j w s (g.nodeEnd.getD nb 0 - 1)) s
  else g.cellMatchFrom sequence start j w s (w - 1)

/-- Row loop body, part 5 (source lines 528-542): `Q` and `R` are set to `M`
where they could not be computed, and the closing assertions. -/
def GraphAligner.cellReset (g : GraphAligner) (start j : Nat) (neighborInsideBand : Bool)
    (s : SliceState) (w : Nat) : Except String SliceState := do
  let s :=
    if !s.previousInsideBand.getD w false then
      { s with
        currentQ := s.currentQ.set w (s.currentM.getD w 0)
        Qbacktrace := s.Qbacktrace.set w (w, j + start) }
    else s
  let s :=
    if !g.usesFullR w && !neighborInsideBand then
      { s with
        currentR := s.currentR.set w (s.currentM.getD w 0)
        currentRbacktrace := s.currentRbacktrace.set w (w, j + start) }
    else s
  assert (s.currentM.getD w 0 ≥ scoreFloor) "row loop: M too small"
  assert (s.currentM.getD w 0 ≤ ScoreType.max - 100) "row loop: M too large"
  assert (orderOk (getCell s.backtrace w j (0, 0)) (getCell s.backtrace w j (0, 0)) w
    (j + start)) "row loop: order"
  pure s

/-- The body of the loop over `currentProcessableColumns` (source lines
453-543) for the position `w` in row `j` of the slice. -/
def GraphAligner.sliceCell (g : GraphAligner) (sequence : List Char) (hasWrongOrders : Bool)
    (distanceMatrix : List (List Nat)) (Rhelper : List (Nat × Int)) (start j : Nat)
    (s : SliceState) (w : Nat) : Except String SliceState := do
  assert (s.currentInsideBand.getD w false) "row loop: outside the band"
  let neighborInsideBand := g.hasInNeighborInsideBand w s.currentInsideBand
  let s := g.cellQ start j s w
  let s ← g.cellR hasWrongOrders distanceMatrix Rhelper start j neighborInsideBand s w
  let s ← g.cellMQR start j neighborInsideBand s w
  let s ← g.cellMatch sequence start j s w
  g.cellReset start j neighborInsideBand s w

/-- The body of the loop over the rows `j` of a slice (source lines 428-551). -/
def GraphAligner.sliceRow (g : GraphAligner) (sequence : List Char) (hasWrongOrders : Bool)
    (nodeOrdering : List Nat) (distanceMatrix : List (List Nat)) (start : Nat)
    (band : List (List Bool)) (s : SliceState) (j : Nat) : Except String SliceState := do
  let N := g.nodeSequences.length
  let currentInsideBand := (List.range N).map (fun w => getCell band w (start + j) false)
  let previousInsideBand := (List.range N).map (fun w => getCell band w (start + j - 1) false)
  let s := { s with
    currentInsideBand := currentInsideBand
    previousInsideBand := previousInsideBand
    currentProcessableColumns := nodeOrdering.filter (fun w => currentInsideBand.getD w false)
    currentM := s.currentM.set 0 (-(g.gapPenalty (start + j)))
    currentR := s.currentR.set 0 (ScoreType.min + g.gapContinuePenalty + 100) }
  let Rhelper ←
    if hasWrongOrders then
      g.getRHelper j start s.previousM sequence s.previousInsideBand
        s.previousProcessableColumns
    else pure []
  let s ← s.currentProcessableColumns.foldlM
    (g.sliceCell sequence hasWrongOrders distanceMatrix Rhelper start j) s
  pure { s with
    currentM := s.previousM, previousM := s.currentM
    currentQ := s.previousQ, previousQ := s.currentQ
    currentR := s.previousR, previousR := s.currentR
    currentRbacktrace := s.previousRbacktrace, previousRbacktrace := s.currentRbacktrace
    currentInsideBand := s.previousInsideBand, previousInsideBand := s.currentInsideBand
    currentProcessableColumns := s.previousProcessableColumns
    previousProcessableColumns := s.currentProcessableColumns }

/-- The source's `GraphAligner::getScoreAndBacktraceMatrixSlice`. -/
def GraphAligner.getScoreAndBacktraceMatrixSlice (g : GraphAligner) (sequence : List Char)
    (hasWrongOrders : Bool) (nodeOrdering : List Nat) (distanceMatrix : List (List Nat))
    (previous : MatrixSlice) (start end_ : Nat) (band : List (List Bool)) :
    Except String MatrixSlice := do
  let N := g.nodeSequences.length
  assert (previous.M.length = N) "slice: previous.M"
  assert (previous.R.length = N) "slice: previous.R"
  assert (previous.Q.length = N) "slice: previous.Q"
  assert (previous.Rbacktrace.length = N) "slice: previous.Rbacktrace"
  assert (previous.Qbacktrace.length = N) "slice: previous.Qbacktrace"
  assert (previous.backtrace.length = N) "slice: previous.backtrace"
  let s : SliceState :=
    { currentM := (List.replicate N 0).set 0 (-(g.gapPenalty (start + 1)))
      previousM := previous.M.set 0 (-(g.gapPenalty start))
      currentQ := List.replicate N 0
      previousQ := previous.Q
      currentR := (List.replicate N 0).set 0 (ScoreType.min + g.gapContinuePenalty + 100)
      previousR := previous.R.set 0 (ScoreType.min + g.gapContinuePenalty + 100)
      currentRbacktrace := List.replicate N (0, 0)
      previousRbacktrace := previous.Rbacktrace
      Qbacktrace := previous.Qbacktrace
      backtrace := (List.range N).map (fun w =>
        (List.replicate (end_ - start) (0, 0)).set 0
          ((previous.backtrace.getD w []).getLastD (0, 0)))
      currentInsideBand := List.replicate N false
      previousInsideBand := List.replicate N false
      currentProcessableColumns := []
      previousProcessableColumns := [] }
  let s ← (List.range' 1 (end_ - start - 1)).foldlM
    (g.sliceRow sequence hasWrongOrders nodeOrdering distanceMatrix start band) s
  pure
    { M := s.previousM
      Q := s.previousQ
      R := s.previousR
      Rbacktrace := s.previousRbacktrace
      Qbacktrace := s.Qbacktrace
      backtrace := s.backtrace
      insideBand := s.previousInsideBand }

/-! ## GraphAligner.h: slices, backtrace and the result -/

/-- The source's `GraphAligner::addBacktraceMatrix`. -/
def GraphAligner.addBacktraceMatrix (g : GraphAligner) (backtrace : List (List MatrixPosition))
    (addThese : List (List MatrixPosition)) : Except String (List (List MatrixPosition)) := do
  assert (backtrace.length = g.nodeSequences.length) "addBacktraceMatrix: size"
  assert (backtrace.length = addThese.length) "addBacktraceMatrix: sizes differ"
  assert (backtrace.length > 0) "addBacktraceMatrix: empty"
  assert ((addThese.getD 0 []).length > 1) "addBacktraceMatrix: no rows"
  (List.range backtrace.length).foldlM (fun result w => do
    assert (decide (w = 0)
      || decide ((addThese.getD w []).length = (addThese.getD (w - 1) []).length))
      "addBacktraceMatrix: ragged"
    pure (result.set w (result.getD w [] ++ (addThese.getD w []).drop 1))) backtrace

/-- The source's `GraphAligner::getFirstSlice`. -/
def GraphAligner.getFirstSlice (g : GraphAligner) (distanceMatrix : List (List Nat))
    (bandWidth : Int) : MatrixSlice :=
  let N := g.nodeSequences.length
  { M := List.replicate N 0
    R := (List.replicate N 0).set 0 (ScoreType.min + g.gapContinuePenalty + 100)
    Q := List.replicate N 0
    Rbacktrace := (List.range N).map (fun i => (i, 0))
    Qbacktrace := (List.range N).map (fun i => (i, 0))
    backtrace := (List.range N).map (fun i => [(i, 0)])
    insideBand := (List.range N).map (fun i =>
      if i = 0 then true
      else decide (g.distanceFromSeqToSeq 0 i distanceMatrix < toLengthType bandWidth)) }

/-- The node ordering built at the start of `backtrackWithSquareRootSlices`:
the first positions of the nodes that are not in order, then all other
positions, and the flag `hasWrongOrders`. -/
def GraphAligner.nodeOrdering (g : GraphAligner) : List Nat × Bool :=
  let positions := List.range' 1 (g.nodeSequences.length - 1)
  let wrong := positions.filter (fun i => g.usesFullR i)
  let rest := positions.filter (fun i => !g.usesFullR i)
  (wrong ++ rest, !wrong.isEmpty)

/-- The walk of `GraphAligner::backtrace` (source lines 269-293): from
`currentPosition` along the recorded predecessors down to row `0`.  The trace
is built back to front.  Every round passes the order assertion, so the walk
takes fewer rounds than the matrix has cells and `fuel` is never used up. -/
def backtraceWalk (nodeSequencesSize : Nat) (backtrace : List (List MatrixPosition)) :
    Nat → MatrixPosition → List MatrixPosition → Except String (List MatrixPosition)
  | 0, currentPosition, trace =>
    if currentPosition.2 > 0 then .error "backtrace: walk does not end" else .ok trace
  | fuel + 1, currentPosition, trace =>
    if currentPosition.2 > 0 then do
      assert (currentPosition.2 < (backtrace.getD 0 []).length) "backtrace: row"
      assert (currentPosition.1 < nodeSequencesSize) "backtrace: position"
      let newPos := getCell backtrace currentPosition.1 currentPosition.2 (0, 0)
      assert (if currentPosition.1 = 0 then decide (newPos.1 = 0) else true)
        "backtrace: left the dummy node"
      assert (decide (newPos.2 < currentPosition.2)
        || (decide (newPos.2 = currentPosition.2) && decide (newPos.1 < currentPosition.1)))
        "backtrace: order"
      backtraceWalk nodeSequencesSize backtrace fuel newPos (trace ++ [newPos])
    else .ok trace

/-- The source's `GraphAligner::backtrace`.  The band locations and the
distances computed from them only go to the diagnostic output and are left
out. -/
def GraphAligner.backtrace (g : GraphAligner) (Mslice : List Int)
    (backtrace : List (List MatrixPosition)) (insideBand : List Bool) :
    Except String (Int × List MatrixPosition) := do
  assert (backtrace.length = g.nodeSequences.length) "backtrace: size"
  assert ((backtrace.getD 0 []).length > 0) "backtrace: no rows"
  let lastRow := (backtrace.getD 0 []).length - 1
  let start := (List.range Mslice.length).foldl
    (fun (cf : MatrixPosition × Bool) i =>
      if !insideBand.getD i false then cf
      else
        let currentPosition : MatrixPosition := if !cf.2 then (i, lastRow) else cf.1
        if Mslice.getD i 0 > Mslice.getD currentPosition.1 0 then ((i, lastRow), true)
        else (currentPosition, true))
    ((0, lastRow), false)
  let currentPosition := start.1
  assert (insideBand.getD currentPosition.1 false) "backtrace: start outside the band"
  let score := Mslice.getD currentPosition.1 0
  let trace ← backtraceWalk g.nodeSequences.length backtrace
    ((backtrace.getD 0 []).length * g.nodeSequences.length + 1) currentPosition
    [currentPosition]
  pure (score, trace.reverse)

/-- The slice loop of `backtrackWithSquareRootSlices` (source lines 733-742).
Every round moves `start` forward, so `fuel = sequence.size()` rounds are
enough. -/
def GraphAligner.sliceLoop (g : GraphAligner) (sequence : List Char) (hasWrongOrders : Bool)
    (nodeOrdering : List Nat) (distanceMatrix : List (List Nat)) (band : List (List Bool))
    (sliceSize : Nat) :
    Nat → Nat → MatrixSlice → List (List MatrixPosition) →
      Except String (MatrixSlice × List (List MatrixPosition))
  | 0, start, lastRow, backtraceMatrix =>
    if start < sequence.length + 1 then .error "slices: loop does not end"
    else .ok (lastRow, backtraceMatrix)
  | fuel + 1, start, lastRow, backtraceMatrix =>
    if start < sequence.length + 1 then do
      let end_ := if start + sliceSize > sequence.length + 1 then sequence.length
        else start + sliceSize
      let slice ← g.getScoreAndBacktraceMatrixSlice sequence hasWrongOrders nodeOrdering
        distanceMatrix lastRow (start - 1) end_ band
      let backtraceMatrix ← g.addBacktraceMatrix backtraceMatrix slice.backtrace
      sliceLoop g sequence hasWrongOrders nodeOrdering distanceMatrix band sliceSize fuel
        end_ slice backtraceMatrix
    else .ok (lastRow, backtraceMatrix)

/-- The part of `backtrackWithSquareRootSlices` after the call of
`getBandedRows` (source lines 699-744). -/
def GraphAligner.backtrackWithBand (g : GraphAligner) (sequence : List Char)
    (bandWidth : Int) (band : List (List Bool)) : Except String (Int × List MatrixPosition) := do
  let distanceMatrix := g.getDistanceMatrixBoostJohnson
  let ordering := g.nodeOrdering
  assert (ordering.1.length = g.nodeSequences.length - 1) "nodeOrdering: size"
  let lastRow := g.getFirstSlice distanceMatrix bandWidth
  assert (lastRow.backtrace.length = g.nodeSequences.length) "first slice: size"
  let backtraceMatrix ← (List.range g.nodeSequences.length).foldlM (fun result w => do
    assert ((lastRow.backtrace.getD w []).length = 1) "first slice: rows"
    pure (result.set w (result.getD w [] ++ [getCell lastRow.backtrace w 0 (0, 0)])))
    (List.replicate g.nodeSequences.length [])
  let r ← g.sliceLoop sequence ordering.2 ordering.1 distanceMatrix band sequence.length
    sequence.length 1 lastRow backtraceMatrix
  g.backtrace r.1.M r.2 r.1.insideBand

/-- The source's `GraphAligner::backtrackWithSquareRootSlices`. -/
def GraphAligner.backtrackWithSquareRootSlices (g : GraphAligner) (before after : Nat → Int)
    (sequence : List Char) (bandWidth : Int) (seedHits : List MatrixPosition) :
    Except String (Int × List MatrixPosition) := do
  let band ← g.getBandedRows before after seedHits bandWidth sequence.length
  g.backtrackWithBand sequence bandWidth band

/-- The first loop of `traceToAlignment` (source lines 209-215): skip the
trace entries that lie in a node with id `0`.  It returns the index reached and
the node found there. -/
def GraphAligner.skipDummy (g : GraphAligner) (trace : List MatrixPosition) :
    Nat → Nat → Nat → Except String (Nat × Nat)
  | 0, _, _ => .error "traceToAlignment: pos < trace.size()"
  | fuel + 1, pos, oldNode =>
    if g.nodeIDs.getD oldNode 0 = 0 then do
      assert (pos + 1 < trace.length) "traceToAlignment: pos < trace.size()"
      let oldNode := g.indexToNode.getD (trace.getD (pos + 1) (0, 0)).1 0
      assert (oldNode < g.nodeIDs.length) "traceToAlignment: oldNode"
      skipDummy g trace fuel (pos + 1) oldNode
    else .ok (pos, oldNode)

/-- The second loop of `traceToAlignment` (source lines 223-235) over the
remaining trace entries: a new mapping whenever the node changes, until a node
with id `0` is met. -/
def GraphAligner.addMappings (g : GraphAligner) (reverse : Bool) :
    List MatrixPosition → Nat → Int → List Mapping → List Mapping
  | [], _, _, path => path
  | p :: rest, oldNode, rank, path =>
    if g.indexToNode.getD p.1 0 = oldNode then addMappings g reverse rest oldNode rank path
    else
      let oldNode := g.indexToNode.getD p.1 0
      if g.nodeIDs.getD oldNode 0 = 0 then path
      else
        addMappings g reverse rest oldNode (rank + 1)
          (path ++ [{ rank := rank + 1, node_id := g.nodeIDs.getD oldNode 0,
                      is_reverse := reverse }])

/-- The source's `GraphAligner::traceToAlignment`. -/
def GraphAligner.traceToAlignment (g : GraphAligner) (seq_id : String)
    (traceWithScore : Int × List MatrixPosition) (reverse : Bool) : Except String Alignment := do
  let trace := traceWithScore.2
  let r ← g.skipDummy trace (trace.length + 1) 0 (g.indexToNode.getD (trace.getD 0 (0, 0)).1 0)
  let path := g.addMappings reverse (trace.drop r.1) r.2 0
    [{ rank := 0, node_id := g.nodeIDs.getD r.2 0, is_reverse := reverse }]
  pure { name := seq_id, path := path, score := traceWithScore.1 }

/-- The source's `GraphAligner::AlignOneWay`.  `before` and `after` are what
the two out-of-range reads of `getBandedRows` yield. -/
def GraphAligner.AlignOneWay (g : GraphAligner) (before after : Nat → Int) (seq_id : String)
    (sequence : String) (reverse : Bool) (bandWidth : Int)
    (seedHits : List (SeedHit × SeedHit)) : Except String Alignment := do
  assert g.finalized "AlignOneWay: finalized"
  let seedHitsInMatrix ← g.getSeedHitPositionsInMatrix sequence.data seedHits
  let trace ← g.backtrackWithSquareRootSlices before after sequence.data bandWidth
    seedHitsInMatrix
  g.traceToAlignment seq_id trace reverse

/-! ## GraphAligner.h: the scenarios of the specification -/

/-- The seed pair of the scenarios: both hits are `(0, nodeId)`. -/
def seedPair (nodeId : Int) : SeedHit × SeedHit :=
  (⟨0, nodeId⟩, ⟨0, nodeId⟩)

/-- Scenarios S1, S3 and S4: the single node `2 = "ACGT"`, finalized. -/
def graphS1 : Except String GraphAligner := do
  let g ← GraphAligner.ctor.AddNode 2 "ACGT"
  pure g.Finalize

/-- Scenario S2: nodes `2 = "ACG"` and `4 = "TAC"` with the edge `2 → 4`,
finalized. -/
def graphS2 : Except String GraphAligner := do
  let g ← GraphAligner.ctor.AddNode 2 "ACG"
  let g ← g.AddNode 4 "TAC"
  let g ← g.AddEdgeNodeId 2 4
  pure g.Finalize

/-- Scenario S5: nodes `2 = "A"`, `4 = "C"`, `6 = "G"` with the edges `2 → 4`
and `2 → 6`, finalized. -/
def graphS5 : Except String GraphAligner := do
  let g ← GraphAligner.ctor.AddNode 2 "A"
  let g ← g.AddNode 4 "C"
  let g ← g.AddNode 6 "G"
  let g ← g.AddEdgeNodeId 2 4
  let g ← g.AddEdgeNodeId 2 6
  pure g.Finalize

/-! ## Tools for the out-of-range reads of `getBandedRows` -/

/-- The alignment computed from a given band: `backtrackWithBand` followed by
`traceToAlignment`. -/
def GraphAligner.alignInBand (g : GraphAligner) (seq_id : String) (sequence : List Char)
    (reverse : Bool) (bandWidth : Int) (band : List (List Bool)) : Except String Alignment := do
  let trace ← g.backtrackWithBand sequence bandWidth band
  g.traceToAlignment seq_id trace reverse

/-- All lists of `n` booleans. -/
def allBits : Nat → List (List Bool)
  | 0 => [[]]
  | n + 1 => (allBits n).flatMap (fun l => [false :: l, true :: l])

/-- The signs of the first `n` values of `f`. -/
def bitsOf (f : Nat → Int) (n : Nat) : List Bool :=
  (List.range n).map (fun u => decide (f u > 0))

/-- A read function with the given signs. -/
def ofBits (bits : List Bool) : Nat → Int :=
  fun u => if bits.getD u false then 1 else 0

/-- Every position that the two fills of `getBandedRows` read from lies inside
the graph. -/
def GraphAligner.readsInRange (g : GraphAligner) : Prop :=
  (∀ l ∈ g.inNeighbors, ∀ nb ∈ l, g.nodeEnd.getD nb 0 - 1 < g.nodeSequences.length)
  ∧ (∀ l ∈ g.outNeighbors, ∀ nb ∈ l, g.nodeStart.getD nb 0 < g.nodeSequences.length)
  ∧ (∀ w < g.nodeSequences.length,
      g.nodeEnd.getD (g.indexToNode.getD w 0) 0 - 1 ≠ w → w + 1 < g.nodeSequences.length)

instance (g : GraphAligner) : Decidable g.readsInRange := by
  unfold GraphAligner.readsInRange; infer_instance

/-- The bands `getBandedRows` can return after the seed loop has produced the
matrices `fb`, over all signs of the values read out of range.  Only row `0` of
the forward fill and row `sequenceLength` of the backward fill read out of
range. -/
def GraphAligner.possibleBands (g : GraphAligner) (sequenceLength : Nat)
    (fb : List (List Int) × List (List Int)) : List (List (List Bool)) :=
  let bits := allBits g.nodeSequences.length
  let forwards := ((bits.map (fun b => g.forwardFillRow (ofBits b) fb.1 0)).dedup).map
    (fun m => (List.range' 1 sequenceLength).foldl (fun forward j =>
      g.forwardFillRow (fun _ => 0) forward j) m)
  let backwards :=
    ((bits.map (fun b => g.backwardFillRow (ofBits b) sequenceLength fb.2
      sequenceLength)).dedup).map
    (fun m => (List.range sequenceLength).reverse.foldl (fun backward j =>
      g.backwardFillRow (fun _ => 0) sequenceLength backward j) m)
  ((forwards.product backwards).map (fun p => g.bandOfMatrices sequenceLength p.1 p.2)).dedup

deriving instance DecidableEq for Except

/-- A decidable test for "`AlignOneWay` gives `r`, but for the name, whatever
the out-of-range reads yield": the graph is finalized, its fills read inside the
graph, and `alignInBand` gives `r` in every possible band. -/
def GraphAligner.alignsInEveryBand (g : GraphAligner) (sequence : String) (reverse : Bool)
    (bandWidth : Int) (seedHits : List (SeedHit × SeedHit)) (r : Except String Alignment) :
    Bool :=
  g.finalized && decide g.readsInRange &&
  match g.getSeedHitPositionsInMatrix sequence.data seedHits with
  | .error _ => false
  | .ok seedHitsInMatrix =>
    match g.seedBand seedHitsInMatrix bandWidth sequence.data.length with
    | .error _ => false
    | .ok fb =>
      (g.possibleBands sequence.data.length fb).all (fun band =>
        decide (g.alignInBand "" sequence.data reverse bandWidth band = r))

/-- The test `alignsInEveryBand` for a graph that is the result of a build. -/
def scenarioHolds (build : Except String GraphAligner) (sequence : String) (reverse : Bool)
    (bandWidth : Int) (seedHits : List (SeedHit × SeedHit)) (r : Except String Alignment) :
    Bool :=
  match build with
  | .error _ => false
  | .ok g => g.alignsInEveryBand sequence reverse bandWidth seedHits r

/-- The graph of one node `2 = "A"` with the edge `2 → 2`, finalized. -/
def graphLoop : Except String GraphAligner := do
  let g ← GraphAligner.ctor.AddNode 2 "A"
  let g ← g.AddEdgeNodeId 2 2
  pure g.Finalize

/-- The signs of the entries of a band matrix. -/
def signs (m : List (List Int)) : List (List Bool) :=
  m.map (fun row => row.map (fun v => decide (v > 0)))

/-! ## GraphAligner.h: graphs built by calls -/

/-- A call of one of the three operations that build a `GraphAligner` graph. -/
inductive BuildOp where
  | addNode (nodeId : Int) (sequence : String)
  | addEdge (node_id_from node_id_to : Int)
  | finalize
deriving DecidableEq, Repr

/-- The effect of one call on a `GraphAligner` graph. -/
def GraphAligner.apply (g : GraphAligner) : BuildOp → Except String GraphAligner
  | .addNode nodeId sequence => g.AddNode nodeId sequence
  | .addEdge a b => g.AddEdgeNodeId a b
  | .finalize => .ok g.Finalize

/-- The graph reached from the constructor by a list of calls, when none of
them fails. -/
def GraphAligner.build (ops : List BuildOp) : Except String GraphAligner :=
  ops.foldlM GraphAligner.apply GraphAligner.ctor

/-! ## AlignmentGraph.cpp -/

/-- Modelled from the spec: the constants of `AlignmentGraph.h`, which is not
among the sources.  `SPLIT_NODE_SIZE` is the largest number of bases of a split
node and `BP_IN_CHUNK` the number of bases, two bits each, that one machine
word of a packed sequence holds; both are positive.  A word has
`2 * BP_IN_CHUNK` bits and the packed sequence of a split node is an array of
`CHUNKS_IN_NODE` words, enough for `SPLIT_NODE_SIZE` bases. -/
structure Constants where
  SPLIT_NODE_SIZE : Nat
  BP_IN_CHUNK : Nat
deriving DecidableEq, Repr

/-- Modelled from the spec: the number of words of a packed node sequence. -/
def Constants.CHUNKS_IN_NODE (c : Constants) : Nat :=
  (c.SPLIT_NODE_SIZE + c.BP_IN_CHUNK - 1) / c.BP_IN_CHUNK

/-- Conversion of a natural number to a machine word of `2 * BP_IN_CHUNK`
bits. -/
def Constants.toWord (c : Constants) (x : Nat) : Nat :=
  x % 2 ^ (2 * c.BP_IN_CHUNK)

/-- The data members of the source's `AlignmentGraph`; `nodeLookup` maps an
original node id to the indices of its split nodes and is kept as an
association list.  Node ids and offsets, `int` in the source, are taken
exactly. -/
structure AlignmentGraph where
  DBGOverlap : Nat
  nodeLength : List Nat
  nodeLookup : List (Int × List Nat)
  nodeIDs : List Int
  inNeighbors : List (List Nat)
  outNeighbors : List (List Nat)
  reverse : List Bool
  nodeOffset : List Nat
  nodeSequences : List (List Nat)
  finalized : Bool
deriving DecidableEq, Repr

/-- The constructor `AlignmentGraph()`. -/
def AlignmentGraph.ctor : AlignmentGraph :=
  { DBGOverlap := 0
    nodeLength := []
    nodeLookup := []
    nodeIDs := []
    inNeighbors := []
    outNeighbors := []
    reverse := []
    nodeOffset := []
    nodeSequences := []
    finalized := false }

/-- The `switch` of the packing loop: the two-bit code of a base, `none` in the
`default` case. -/
def baseCode (ch : Char) : Option Nat :=
  if ch = 'a' ∨ ch = 'A' then some 0
  else if ch = 'c' ∨ ch = 'C' then some 1
  else if ch = 'g' ∨ ch = 'G' then some 2
  else if ch = 't' ∨ ch = 'T' then some 3
  else none

/-- The packing loop of `AddNode` (source lines 68-95) from position `i` on:
`nodeSequences.back()[chunk] |= c << offset`. -/
def packBases (c : Constants) : List Char → Nat → List Nat → Except String (List Nat)
  | [], _, words => .ok words
  | ch :: rest, i, words =>
    match baseCode ch with
    | none => .error "AddNode: not one of ACGT"
    | some code =>
      let chunk := i / c.BP_IN_CHUNK
      let offset := (i % c.BP_IN_CHUNK) * 2
      packBases c rest (i + 1)
        (words.set chunk (words.getD chunk 0 ||| c.toWord (code <<< offset)))

/-- The statement `nodeLookup[nodeId].push_back(x)` on the association list. -/
def lookupPush : List (Int × List Nat) → Int → Nat → List (Int × List Nat)
  | [], nodeId, x => [(nodeId, [x])]
  | (k, v) :: rest, nodeId, x =>
    if k = nodeId then (k, v ++ [x]) :: rest else (k, v) :: lookupPush rest nodeId x

/-- The source's `AlignmentGraph::AddNode(int, int, const std::string&, bool)`,
the overload that adds one split node. -/
def AlignmentGraph.AddNodeOffset (c : Constants) (g : AlignmentGraph) (nodeId : Int)
    (offset : Nat) (sequence : List Char) (reverseNode : Bool) :
    Except String AlignmentGraph := do
  assert (!g.finalized) "AddNode: finalized"
  assert (sequence.length ≤ c.SPLIT_NODE_SIZE) "AddNode: longer than SPLIT_NODE_SIZE"
  let words ← packBases c sequence 0 (List.replicate c.CHUNKS_IN_NODE 0)
  let g : AlignmentGraph :=
    { g with
      nodeLookup := lookupPush g.nodeLookup nodeId g.nodeLength.length
      nodeLength := g.nodeLength ++ [sequence.length]
      nodeIDs := g.nodeIDs ++ [nodeId]
      inNeighbors := g.inNeighbors ++ [[]]
      outNeighbors := g.outNeighbors ++ [[]]
      reverse := g.reverse ++ [reverseNode]
      nodeOffset := g.nodeOffset ++ [offset]
      nodeSequences := g.nodeSequences ++ [words] }
  assert (g.nodeIDs.length = g.nodeLength.length) "AddNode: nodeIDs"
  assert (g.nodeLength.length = g.inNeighbors.length) "AddNode: inNeighbors"
  assert (g.inNeighbors.length = g.outNeighbors.length) "AddNode: outNeighbors"
  pure g

/-- The body of the loop of `AddNode` (source lines 40-52) for the chunk that
starts at `i`. -/
def AlignmentGraph.AddNodeStep (c : Constants) (nodeId : Int) (sequence : List Char)
    (reverseNode : Bool) (g : AlignmentGraph) (i : Nat) : Except String AlignmentGraph := do
  let g ← g.AddNodeOffset c nodeId i ((sequence.drop i).take c.SPLIT_NODE_SIZE) reverseNode
  if i > 0 then
    let size := g.outNeighbors.length
    assert (size ≥ 2) "AddNode: two nodes"
    assert (size = g.inNeighbors.length) "AddNode: inNeighbors"
    assert (g.nodeIDs.length = size) "AddNode: nodeIDs"
    assert (g.nodeOffset.length = size) "AddNode: nodeOffset"
    assert (g.nodeIDs.getD (size - 2) 0 = g.nodeIDs.getD (size - 1) 0) "AddNode: same id"
    assert (g.nodeOffset.getD (size - 2) 0 + c.SPLIT_NODE_SIZE = g.nodeOffset.getD (size - 1) 0)
      "AddNode: offsets"
    pure { g with
      outNeighbors := g.outNeighbors.set (size - 2) (g.outNeighbors.getD (size - 2) [] ++ [size - 1])
      inNeighbors := g.inNeighbors.set (size - 1) (g.inNeighbors.getD (size - 1) [] ++ [size - 2]) }
  else pure g

/-- The source's `AlignmentGraph::AddNode(int, const std::string&, bool)`.  The
loop runs over the chunk starts `i = 0, SPLIT_NODE_SIZE, 2 * SPLIT_NODE_SIZE, ...`
below the length of the sequence. -/
def AlignmentGraph.AddNode (c : Constants) (g : AlignmentGraph) (nodeId : Int)
    (sequence : String) (reverseNode : Bool) : Except String AlignmentGraph := do
  assert (!g.finalized) "AddNode: finalized"
  if (g.nodeLookup.lookup nodeId).isSome then pure g
  else
    (List.range ((sequence.length + c.SPLIT_NODE_SIZE - 1) / c.SPLIT_NODE_SIZE)).foldlM
      (fun g k => AlignmentGraph.AddNodeStep c nodeId sequence.data reverseNode g
        (k * c.SPLIT_NODE_SIZE)) g

/-- The source's `AlignmentGraph::AddEdgeNodeId`. -/
def AlignmentGraph.AddEdgeNodeId (g : AlignmentGraph) (node_id_from node_id_to : Int) :
    Except String AlignmentGraph := do
  assert (!g.finalized) "AddEdgeNodeId: finalized"
  match g.nodeLookup.lookup node_id_from, g.nodeLookup.lookup node_id_to with
  | some fromChunks, some toChunks =>
    let src := fromChunks.getLastD 0
    let dst := toChunks.getD 0 0
    assert (dst < g.inNeighbors.length) "AddEdgeNodeId: to"
    assert (src < g.nodeLength.length) "AddEdgeNodeId: from"
    let inNeighbors :=
      if (g.inNeighbors.getD dst []).contains src then g.inNeighbors
      else g.inNeighbors.set dst (g.inNeighbors.getD dst [] ++ [src])
    let outNeighbors :=
      if (g.outNeighbors.getD src []).contains dst then g.outNeighbors
      else g.outNeighbors.set src (g.outNeighbors.getD src [] ++ [dst])
    pure { g with inNeighbors := inNeighbors, outNeighbors := outNeighbors }
  | _, _ => .error "AddEdgeNodeId: unknown node id"

/-- The source's `AlignmentGraph::Finalize`; the counts it prints and the
`shrink_to_fit` calls leave the state as it is. -/
def AlignmentGraph.Finalize (g : AlignmentGraph) (_wordSize : Int) :
    Except String AlignmentGraph := do
  assert (g.nodeSequences.length = g.nodeLength.length) "Finalize: nodeSequences"
  assert (g.inNeighbors.length = g.nodeLength.length) "Finalize: inNeighbors"
  assert (g.outNeighbors.length = g.nodeLength.length) "Finalize: outNeighbors"
  assert (g.reverse.length = g.nodeLength.length) "Finalize: reverse"
  assert (g.nodeIDs.length = g.nodeLength.length) "Finalize: nodeIDs"
  assert (g.nodeOffset.length = g.nodeLength.length) "Finalize: nodeOffset"
  pure { g with finalized := true }

/-- The source's `AlignmentGraph::NodeLength`. -/
def AlignmentGraph.NodeLength (g : AlignmentGraph) (index : Nat) : Nat :=
  g.nodeLength.getD index 0

/-- The source's `AlignmentGraph::NodeSequences`. -/
def AlignmentGraph.NodeSequences (c : Constants) (g : AlignmentGraph) (node pos : Nat) :
    Except String Char := do
  assert (node < g.nodeSequences.length) "NodeSequences: node"
  assert (pos < g.nodeLength.getD node 0) "NodeSequences: pos"
  let chunk := pos / c.BP_IN_CHUNK
  let offset := (pos % c.BP_IN_CHUNK) * 2
  pure (['A', 'C', 'G', 'T'].getD ((getCell g.nodeSequences node chunk 0 >>> offset) &&& 3) 'A')

/-- The source's `AlignmentGraph::NodeSize`. -/
def AlignmentGraph.NodeSize (g : AlignmentGraph) : Nat :=
  g.nodeLength.length

/-- The source's `AlignmentGraph::GetReverseNode`; the division and the
remainder of the node id round towards zero, as in the source. -/
def AlignmentGraph.GetReverseNode (c : Constants) (g : AlignmentGraph) (node : Nat) :
    Except String Nat := do
  assert (node < g.nodeLength.length) "GetReverseNode: node"
  match g.nodeLookup.lookup (g.nodeIDs.getD node 0) with
  | none => .error "GetReverseNode: nodeLookup.at"
  | some chunks =>
    let originalNodeSize := (chunks.length - 1) * c.SPLIT_NODE_SIZE
      + g.NodeLength (chunks.getLastD 0)
    let currentOffset := g.nodeOffset.getD node 0
    assert (currentOffset < originalNodeSize) "GetReverseNode: currentOffset"
    let reverseOffset := originalNodeSize - currentOffset - 1
    assert (reverseOffset < originalNodeSize) "GetReverseNode: reverseOffset"
    let reverseNodeOriginalId : Int :=
      if Int.tmod (g.nodeIDs.getD node 0) 2 = 0 then Int.tdiv (g.nodeIDs.getD node 0) 2 * 2 + 1
      else Int.tdiv (g.nodeIDs.getD node 0) 2 * 2
    match g.nodeLookup.lookup reverseNodeOriginalId with
    | none => .error "GetReverseNode: partner"
    | some reverseChunks =>
      assert (reverseChunks.length > reverseOffset / c.SPLIT_NODE_SIZE)
        "GetReverseNode: partner chunk"
      pure (reverseChunks.getD (reverseOffset / c.SPLIT_NODE_SIZE) 0)

/-- A call of one of the three operations that build a graph. -/
inductive Op where
  | addNode (nodeId : Int) (sequence : String) (reverseNode : Bool)
  | addEdge (node_id_from node_id_to : Int)
  | finalize (wordSize : Int)
deriving DecidableEq, Repr

/-- The effect of one call on a graph. -/
def AlignmentGraph.apply (c : Constants) (g : AlignmentGraph) : Op → Except String AlignmentGraph
  | .addNode nodeId sequence reverseNode => g.AddNode c nodeId sequence reverseNode
  | .addEdge a b => g.AddEdgeNodeId a b
  | .finalize wordSize => g.Finalize wordSize

/-- The graph reached from the constructor by a list of calls, when none of
them fails. -/
def AlignmentGraph.run (c : Constants) (ops : List Op) : Except String AlignmentGraph :=
  ops.foldlM (AlignmentGraph.apply c) AlignmentGraph.ctor

/-- The sequence with which a node id was added by a list of calls: that of the
first `AddNode` call for the id with a sequence that is not empty. -/
def addedSequence (ops : List Op) (nodeId : Int) : Option (List Char) :=
  ops.findSome? (fun op =>
    match op with
    | .addNode i sequence _ => if i = nodeId ∧ sequence.data ≠ [] then some sequence.data else none
    | _ => none)

/-! ## AlignmentGraph.cpp: notions for the theorems -/

/-- All vectors of the graph have the size of `nodeLength`. -/
def Sized (g : AlignmentGraph) : Prop :=
  g.nodeIDs.length = g.nodeLength.length ∧ g.inNeighbors.length = g.nodeLength.length
  ∧ g.outNeighbors.length = g.nodeLength.length ∧ g.reverse.length = g.nodeLength.length
  ∧ g.nodeOffset.length = g.nodeLength.length ∧ g.nodeSequences.length = g.nodeLength.length

/-- Chunk `i` of a sequence: `sequence.substr(i * SPLIT_NODE_SIZE, SPLIT_NODE_SIZE)`. -/
def chunkAt (c : Constants) (sequence : List Char) (i : Nat) : List Char :=
  (sequence.drop (i * c.SPLIT_NODE_SIZE)).take c.SPLIT_NODE_SIZE

/-- The number of rounds of the loop of `AddNode` for a sequence of the given
length. -/
def numChunks (c : Constants) (length : Nat) : Nat :=
  (length + c.SPLIT_NODE_SIZE - 1) / c.SPLIT_NODE_SIZE

/-- The split nodes `first, ..., first + m - 1` of `g` are the first `m` chunks
of `sequence`, added under `nodeId`. -/
def ChunksOK (c : Constants) (g : AlignmentGraph) (nodeId : Int) (sequence : List Char)
    (first m : Nat) : Prop :=
  ∀ i < m, g.nodeIDs.getD (first + i) 0 = nodeId
    ∧ g.nodeOffset.getD (first + i) 0 = i * c.SPLIT_NODE_SIZE
    ∧ g.nodeLength.getD (first + i) 0 = (chunkAt c sequence i).length
    ∧ packBases c (chunkAt c sequence i) 0 (List.replicate c.CHUNKS_IN_NODE 0)
        = .ok (g.nodeSequences.getD (first + i) [])

/-- The state of the loop of `AddNode` after `m` rounds, started in `g0`. -/
def Partial (c : Constants) (g0 g : AlignmentGraph) (nodeId : Int) (sequence : List Char)
    (m : Nat) : Prop :=
  g.finalized = false ∧ Sized g
  ∧ g.nodeLength.length = g0.nodeLength.length + m
  ∧ (∀ id, id ≠ nodeId → g.nodeLookup.lookup id = g0.nodeLookup.lookup id)
  ∧ g.nodeLookup.lookup nodeId
      = (if m = 0 then none else some (List.range' g0.nodeLength.length m))
  ∧ g0.nodeLength <+: g.nodeLength ∧ g0.nodeIDs <+: g.nodeIDs
  ∧ g0.nodeOffset <+: g.nodeOffset ∧ g0.nodeSequences <+: g.nodeSequences
  ∧ ChunksOK c g nodeId sequence g0.nodeLength.length m

/-- The invariant of the graphs reached by `run`: the vectors have one size,
the ids in `nodeLookup` are the ids that were added with a sequence, the split
nodes of an id are consecutive and are the chunks of its sequence, and every
split node is listed under its id. -/
def Inv (c : Constants) (ops : List Op) (g : AlignmentGraph) : Prop :=
  Sized g
  ∧ (∀ id, g.nodeLookup.lookup id = none → addedSequence ops id = none)
  ∧ (∀ id chunks, g.nodeLookup.lookup id = some chunks →
      ∃ seq first, addedSequence ops id = some seq
        ∧ chunks = List.range' first (numChunks c seq.length)
        ∧ first + numChunks c seq.length ≤ g.nodeLength.length
        ∧ ChunksOK c g id seq first (numChunks c seq.length))
  ∧ (∀ w < g.nodeLength.length,
      ∃ chunks, g.nodeLookup.lookup (g.nodeIDs.getD w 0) = some chunks ∧ w ∈ chunks)

/-- The constants of the reference build: 64 bases in a split node, 32 bases in
a word. -/
def constants64 : Constants := ⟨64, 32⟩

/-- Scenario S6: the node `2` with 131 bases `A`. -/
def opsS6 : List Op := [.addNode 2 (String.mk (List.replicate 131 'A')) false]

/-- The two bits that `NodeSequences` reads for position `p` of a packed
sequence. -/
def decodeAt (c : Constants) (words : List Nat) (p : Nat) : Nat :=
  (words.getD (p / c.BP_IN_CHUNK) 0 >>> ((p % c.BP_IN_CHUNK) * 2)) &&& 3

/-- Small constants that make short sequences span several chunks and words:
4 bases in a split node, 2 bases in a word. -/
def constantsSmall : Constants := ⟨4, 2⟩

/-- The strand partner of a node id as the specification gives it: `id + 1` for
an even id, `id - 1` for an odd id. -/
def strandPartner (id : Int) : Int :=
  if id % 2 = 0 then id + 1 else id - 1

/-! ## GraphAligner.h: notions for the theorems -/

/-- The state of the flags in a built graph: the vectors have one size, an id
is looked up to a real node, the dummy node is not flagged, and a real node is
flagged exactly when one of its in-neighbors does not come before it. -/
def FlagsOK (g : GraphAligner) : Prop :=
  g.notInOrder.length = g.nodeStart.length ∧ g.inNeighbors.length = g.nodeStart.length
  ∧ 1 ≤ g.nodeStart.length
  ∧ (∀ id v, g.nodeLookup.lookup id = some v → 1 ≤ v ∧ v < g.nodeStart.length)
  ∧ g.notInOrder.getD 0 false = false
  ∧ (∀ v, 1 ≤ v → v < g.nodeStart.length →
      (g.notInOrder.getD v false = true ↔ ∃ u ∈ g.inNeighbors.getD v [], v ≤ u))

/-- The adjacency of a graph reached by `run`: no list holds an index twice,
a split node with an offset other than `0` (a later chunk of its node) has the
split node before it as its only in-neighbor, and the split node before such a
chunk has it as its only out-neighbor. -/
def AdjOK (g : AlignmentGraph) : Prop :=
  (∀ w, (g.inNeighbors.getD w []).Nodup) ∧ (∀ w, (g.outNeighbors.getD w []).Nodup)
  ∧ (∀ w, w < g.nodeLength.length → g.nodeOffset.getD w 0 ≠ 0 →
      g.inNeighbors.getD w [] = [w - 1])
  ∧ (∀ w, w + 1 < g.nodeLength.length → g.nodeOffset.getD (w + 1) 0 ≠ 0 →
      g.outNeighbors.getD w [] = [w + 1])

/-- The predecessor order of a backtrace matrix with the rows `0 .. n` over `N`
positions: in every row from `1` on the entry of a position points to a
position of the graph, stays in the dummy position `0` when it starts there, and
comes strictly before its cell in the order by row and then by position. -/
def WalkOK (N n : Nat) (backtrace : List (List MatrixPosition)) : Prop :=
  ∀ w j, w < N → 0 < j → j ≤ n →
    (getCell backtrace w j (0, 0)).1 < N
    ∧ (w = 0 → (getCell backtrace w j (0, 0)).1 = 0)
    ∧ ((getCell backtrace w j (0, 0)).2 < j
        ∨ ((getCell backtrace w j (0, 0)).2 = j ∧ (getCell backtrace w j (0, 0)).1 < w))

/-! ## The projection of a trace as the specification describes it -/

/-- Stated from the specification: the node in which each entry of a trace
lies. -/
def traceNodes (g : GraphAligner) (trace : List MatrixPosition) : List Nat :=
  trace.map (fun p => g.indexToNode.getD p.1 0)

/-- Stated from the specification: a trace entry is a dummy entry when the
original id of its node is `0`, the id of the dummy node. -/
def isDummyNode (g : GraphAligner) (node : Nat) : Bool :=
  decide (g.nodeIDs.getD node 0 = 0)

/-- Stated from the specification: one element for every maximal run of equal
consecutive elements of a list. -/
def nodeRuns : List Nat → List Nat
  | [] => []
  | [a] => [a]
  | a :: b :: rest => if a = b then nodeRuns (b :: rest) else a :: nodeRuns (b :: rest)

/-- Stated from the specification: the path of a trace.  The leading dummy
entries are skipped, the entries up to the next dummy entry are kept, and every
maximal run of kept entries in one node gives one mapping; the mappings carry
the original id of the node, the ranks `0, 1, 2, ...` and the strand flag. -/
def specPath (g : GraphAligner) (trace : List MatrixPosition) (reverse : Bool) :
    List Mapping :=
  let kept := ((traceNodes g trace).dropWhile (isDummyNode g)).takeWhile
    (fun node => !isDummyNode g node)
  (nodeRuns kept).enum.map (fun p =>
    { rank := (p.1 : Int), node_id := g.nodeIDs.getD p.2 0, is_reverse := reverse })

/-- A decidable test for "`AlignOneWay` ends in a failing assertion, whatever
the out-of-range reads yield": the graph is finalized, its fills read inside the
graph, and `alignInBand` gives an error in every possible band. -/
def GraphAligner.failsInEveryBand (g : GraphAligner) (sequence : String) (reverse : Bool)
    (bandWidth : Int) (seedHits : List (SeedHit × SeedHit)) : Bool :=
  g.finalized && decide g.readsInRange &&
  match g.getSeedHitPositionsInMatrix sequence.data seedHits with
  | .error _ => false
  | .ok seedHitsInMatrix =>
    match g.seedBand seedHitsInMatrix bandWidth sequence.data.length with
    | .error _ => false
    | .ok fb =>
      (g.possibleBands sequence.data.length fb).all (fun band =>
        !(g.alignInBand "" sequence.data reverse bandWidth band).toBool)

/-- The test `failsInEveryBand` for a graph that is the result of a build. -/
def scenarioFails (build : Except String GraphAligner) (sequence : String) (reverse : Bool)
    (bandWidth : Int) (seedHits : List (SeedHit × SeedHit)) : Bool :=
  match build with
  | .error _ => false
  | .ok g => g.failsInEveryBand sequence reverse bandWidth seedHits

/-! ## The recurrences as the specification describes them -/

/-- Stated from the specification: the predecessor positions of the position
`w`, the position `w - 1` inside a node and the last base of every in-neighbor
at the first base of a node. -/
def GraphAligner.predecessors (g : GraphAligner) (w : Nat) : List Nat :=
  if w = g.nodeStart.getD (g.indexToNode.getD w 0) 0 then
    (g.inNeighbors.getD (g.indexToNode.getD w 0) []).map (fun nb => g.nodeEnd.getD nb 0 - 1)
  else [w - 1]

/-- Stated from the specification: a candidate replaces the value of a cell,
and its recorded predecessor, only when it is strictly greater. -/
def better (best c : Int × MatrixPosition) : Int × MatrixPosition :=
  if c.1 > best.1 then c else best

/-- Stated from the specification: the match candidate for the cell `(w, j)` of
a slice that starts at row `start`, from the previous-row position `u`. -/
def GraphAligner.matchCandidate (g : GraphAligner) (sequence : List Char) (start j : Nat)
    (previousM : List Int) (w u : Nat) : Int × MatrixPosition :=
  (previousM.getD u 0
    + GraphAligner.matchScore (g.nodeSequences.getD w (Char.ofNat 0))
        (sequence.getD (j + start - 1) (Char.ofNat 0)),
   (u, j - 1 + start))

/-- The vectors of the row loop have one entry per position of the graph, and
every row of positions of the backtrace matrix has `rows` entries. -/
def SliceState.Shaped (s : SliceState) (N rows : Nat) : Prop :=
  s.currentM.length = N ∧ s.currentQ.length = N ∧ s.currentR.length = N
  ∧ s.currentRbacktrace.length = N ∧ s.Qbacktrace.length = N ∧ s.backtrace.length = N
  ∧ ∀ u, u < N → (s.backtrace.getD u []).length = rows

instance (s : SliceState) (N rows : Nat) : Decidable (s.Shaped N rows) := by
  unfold SliceState.Shaped; infer_instance

/-- A state of the row loop on the graph of scenario S1 (five positions) at the
start of row `1` of a slice of five rows that starts at row `0`: the positions
`0 .. 2` are inside the band in row `1` and the positions `0, 1` in row `0`. -/
def stateS1 : SliceState :=
  { currentM := [-1, 0, 0, 0, 0]
    previousM := [0, 0, 0, 0, 0]
    currentQ := [0, 0, 0, 0, 0]
    previousQ := [0, 0, 0, 0, 0]
    currentR := [ScoreType.min + 101, 0, 0, 0, 0]
    previousR := [ScoreType.min + 101, 0, 0, 0, 0]
    currentRbacktrace := [(0, 0), (0, 0), (0, 0), (0, 0), (0, 0)]
    previousRbacktrace := [(0, 0), (1, 0), (2, 0), (3, 0), (4, 0)]
    Qbacktrace := [(0, 0), (1, 0), (2, 0), (3, 0), (4, 0)]
    backtrace := (List.range 5).map (fun w => [(w, 0), (0, 0), (0, 0), (0, 0), (0, 0)])
    currentInsideBand := [true, true, true, false, false]
    previousInsideBand := [true, true, false, false, false]
    currentProcessableColumns := [1, 2]
    previousProcessableColumns := [] }

/-- Stated from the specification: the candidates for `M[w][j]` with their
predecessors, in the order Q, R, match.  The values of `Q` and `R` are those of
the row, taken from the state `s'` after the body of the row loop; `R` is a
candidate when it was computed for `w` in this row; the match candidates come
from the predecessor positions inside the band of the previous row, in the order
of the in-neighbor list, with the values of the state `s` before the body. -/
def GraphAligner.candidatesM (g : GraphAligner) (sequence : List Char) (start j : Nat)
    (s s' : SliceState) (w : Nat) : List (Int × MatrixPosition) :=
  (s'.currentQ.getD w 0, s'.Qbacktrace.getD w (0, 0))
    :: ((if g.usesFullR w || g.hasInNeighborInsideBand w s.currentInsideBand
          then [(s'.currentR.getD w 0, s'.currentRbacktrace.getD w (0, 0))] else [])
        ++ ((g.predecessors w).filter (fun u => s.previousInsideBand.getD u false)).map
            (g.matchCandidate sequence start j s.previousM w))

/-- The graph of one node `2 = "AC"` with the edge `2 → 2`, finalized. -/
def graphLoopAC : Except String GraphAligner := do
  let g ← GraphAligner.ctor.AddNode 2 "AC"
  let g ← g.AddEdgeNodeId 2 2
  pure g.Finalize

/-- The graph of the nodes `2 = "AC"`, `4 = "G"`, `6 = "A"` with the edges
`2 → 4` and `2 → 6`, finalized: the positions `1, 2` of node `2`, then `3` of
node `4` and `4` of node `6`. -/
def graphFork : Except String GraphAligner := do
  let g ← GraphAligner.ctor.AddNode 2 "AC"
  let g ← g.AddNode 4 "G"
  let g ← g.AddNode 6 "A"
  let g ← g.AddEdgeNodeId 2 4
  let g ← g.AddEdgeNodeId 2 6
  pure g.Finalize

/-! ## The predecessor order -/

/-- The messages of the six order assertions of the row loop. -/
def orderMessages : List String :=
  ["row loop: order after fullR", "row loop: order after recurrenceR",
   "row loop: order after Q", "row loop: order after R", "row loop: order after match",
   "row loop: order"]

/-- The computation `x` does not end in a failing order assertion, and when it
ends without a failing assertion its result satisfies `P`. -/
def NoOrderFailure {α : Type} (x : Except String α) (P : α → Prop) : Prop :=
  match x with
  | .ok a => P a
  | .error e => e ∉ orderMessages

/-- Stated from the specification: the position `p` is a predecessor of the
cell `(w, row)` in the strict order by row, then by position. -/
def ordered (p : MatrixPosition) (w row : Nat) : Prop :=
  p.2 < row ∨ (p.2 = row ∧ p.1 < w)

/-- The state of the row loop in row `j` of a slice that starts at row `start`,
as far as the order of the recorded predecessors goes.  `doneQ` are the
positions whose `Qbacktrace` may already point to this row, `doneB` the
positions whose cell of this row may already be written. -/
def RowInv (start j : Nat) (doneQ doneB : List Nat) (s : SliceState) : Prop :=
  (∀ u, u ∉ doneQ → (s.Qbacktrace.getD u (0, 0)).2 < j + start)
  ∧ (∀ u, (s.Qbacktrace.getD u (0, 0)).2 ≤ j + start)
  ∧ (∀ u, (s.currentRbacktrace.getD u (0, 0)).2 < j + start
      ∨ ((s.currentRbacktrace.getD u (0, 0)).2 = j + start
        ∧ (s.currentRbacktrace.getD u (0, 0)).1 ≤ u))
  ∧ (∀ u, (s.previousRbacktrace.getD u (0, 0)).2 < j + start)
  ∧ (∀ u j', (j < j' ∨ (j' = j ∧ u ∉ doneB)) → getCell s.backtrace u j' (0, 0) = (0, 0))
  ∧ (∀ u j', 1 ≤ j' → ordered (getCell s.backtrace u j' (0, 0)) u (j' + start))

/-! ## The seed positions as the specification describes them -/

/-- Stated from the specification: the length of the longest common prefix of
two strings. -/
def commonPrefixLength : List Char → List Char → Nat
  | a :: as, b :: bs => if a = b then commonPrefixLength as bs + 1 else 0
  | _, _ => 0

/-- Stated from the specification: the exact match at the base position `i` of
the node with the index `node`, the length of the common prefix of the node's
remaining bases and the query from `seqPos`. -/
def GraphAligner.exactMatchAt (g : GraphAligner) (sequence : List Char)
    (seqPos node i : Nat) : Nat :=
  commonPrefixLength ((g.nodeSequences.drop i).take (g.nodeEnd.getD node 0 - i))
    (sequence.drop seqPos)

/-- Stated from the specification: `len` is the length of the longest exact
match of the query from `seqPos` inside the node, and when it is positive, `pos`
is `(i, seqPos)` for the lowest base position `i` of the node with an exact match
of this length; without a positive match `pos` is the position `(0, 0)` that the
source starts from. -/
def GraphAligner.LongestMatch (g : GraphAligner) (sequence : List Char) (seqPos node : Nat)
    (pos : MatrixPosition) (len : Nat) : Prop :=
  (∀ i, g.nodeStart.getD node 0 ≤ i → i < g.nodeEnd.getD node 0 →
    g.exactMatchAt sequence seqPos node i ≤ len)
  ∧ ((len = 0 ∧ pos = (0, 0))
    ∨ ∃ i, pos = (i, seqPos) ∧ g.nodeStart.getD node 0 ≤ i ∧ i < g.nodeEnd.getD node 0
        ∧ g.exactMatchAt sequence seqPos node i = len ∧ 0 < len
        ∧ ∀ k, g.nodeStart.getD node 0 ≤ k → k < i →
            g.exactMatchAt sequence seqPos node k < len)

/-- The matrix position of the seed pair `hit` in the words of the
specification: both node ids are known, and `pos` is the position of the longest
exact match of the hit whose longest exact match is the longer one.  When the two
are equally long, it is the one of the second hit, which is what the source
does. -/
def GraphAligner.SeedPosition (g : GraphAligner) (sequence : List Char)
    (hit : SeedHit × SeedHit) (pos : MatrixPosition) : Prop :=
  ∃ first second forwardPos forwardLen backwardPos backwardLen,
    g.nodeLookup.lookup hit.1.nodeId = some first
    ∧ g.nodeLookup.lookup hit.2.nodeId = some second
    ∧ g.LongestMatch sequence hit.1.sequencePosition first forwardPos forwardLen
    ∧ g.LongestMatch sequence hit.2.sequencePosition second backwardPos backwardLen
    ∧ (backwardLen < forwardLen → pos = forwardPos)
    ∧ (forwardLen ≤ backwardLen → pos = backwardPos)

/-! ## The distance between two base positions as the specification describes it -/

/-- Stated from the specification: the positions that walks of exactly `k` base
steps from the position `s` end in.  A base step leads from a predecessor
position to the position. -/
def GraphAligner.reachedIn (g : GraphAligner) (s : Nat) : Nat → List Nat
  | 0 => [s]
  | k + 1 => (List.range g.nodeSequences.length).filter (fun p =>
      (g.predecessors p).any (fun u => (g.reachedIn s k).contains u))

/-- Stated from the specification: the number of base steps of a shortest walk
of at least one base step from the position `s` to the position `e`, if there is
a walk.  A shortest walk does not take more steps than the graph has
positions. -/
def GraphAligner.walkDistance (g : GraphAligner) (s e : Nat) : Option Nat :=
  (List.range' 1 g.nodeSequences.length).find? (fun k => (g.reachedIn s k).contains e)

/-- The graph of the nodes `2 = "AC"` and `4 = "G"` with the edges `2 → 4` and
`4 → 2`, finalized: a cycle through two nodes. -/
def graphCycle : Except String GraphAligner := do
  let g ← GraphAligner.ctor.AddNode 2 "AC"
  let g ← g.AddNode 4 "G"
  let g ← g.AddEdgeNodeId 2 4
  let g ← g.AddEdgeNodeId 4 2
  pure g.Finalize

/-! ## The bound of the scores -/

/-- The computation `x`, when it ends without a failing assertion, gives a
result that satisfies `P`. -/
def Yields {α : Type} (x : Except String α) (P : α → Prop) : Prop :=
  match x with
  | .ok a => P a
  | .error _ => True

/-- The state of the row loop in the row with the index `B`, as far as the size
of the scores goes: no entry of the vectors of this row is above `B`, no entry of
the vectors of the previous row is above `B - 1`, and the positions visited in the
previous row and in this row are positions of the graph. -/
def ScoreBound (B : Int) (N : Nat) (s : SliceState) : Prop :=
  (∀ u, s.currentM.getD u 0 ≤ B) ∧ (∀ u, s.currentQ.getD u 0 ≤ B)
  ∧ (∀ u, s.currentR.getD u 0 ≤ B)
  ∧ (∀ u, s.previousM.getD u 0 ≤ B - 1) ∧ (∀ u, s.previousQ.getD u 0 ≤ B - 1)
  ∧ (∀ u, s.previousR.getD u 0 ≤ B - 1)
  ∧ (∀ v ∈ s.previousProcessableColumns, v < N)
  ∧ (∀ v ∈ s.currentProcessableColumns, v < N)

/-! ## Theorems: the out-of-range reads of `getBandedRows` -/

theorem mem_allBits (n : Nat) (l : List Bool) (h : l.length = n) : l ∈ allBits n := by
  induction n generalizing l with
  | zero =>
    have : l = [] := List.length_eq_zero.mp h
    simp [allBits, this]
  | succ n ih =>
    match l, h with
    | b :: t, h =>
      have ht : t.length = n := by simpa using h
      simp only [allBits, List.mem_flatMap]
      refine ⟨t, ih t ht, ?_⟩
      cases b <;> simp

theorem bitsOf_length (f : Nat → Int) (n : Nat) : (bitsOf f n).length = n := by
  simp [bitsOf]

theorem ofBits_bitsOf (f : Nat → Int) (n u : Nat) (h : u < n) :
    (ofBits (bitsOf f n) u > 0) ↔ (f u > 0) := by
  by_cases hf : f u > 0 <;>
    simp [ofBits, bitsOf, List.getD_eq_getElem?_getD, List.getElem?_range h, hf]

theorem getD_nil_or_mem {α : Type} (l : List (List α)) (i : Nat) :
    l.getD i [] = [] ∨ l.getD i [] ∈ l := by
  by_cases h : i < l.length
  · right
    rw [List.getD_eq_getElem _ _ h]
    exact List.getElem_mem h
  · left
    rw [List.getD_eq_default _ _ (by omega)]

theorem forwardFillCell_congr (g : GraphAligner) (b b' : Nat → Int) (hg : g.readsInRange)
    (h : ∀ u < g.nodeSequences.length, (b u > 0 ↔ b' u > 0))
    (m : List (List Int)) (j w : Nat) (hw : w < g.nodeSequences.length) :
    g.forwardFillCell b m j w = g.forwardFillCell b' m j w := by
  unfold GraphAligner.forwardFillCell
  by_cases hj : j = 0
  · subst hj
    simp only [if_true]
    split
    · rfl
    · split
      · apply List.foldl_ext
        intro a nb hnb
        have hu : g.nodeEnd.getD nb 0 - 1 < g.nodeSequences.length := by
          rcases getD_nil_or_mem g.inNeighbors (g.indexToNode.getD w 0) with h0 | h1
          · rw [h0] at hnb; simp at hnb
          · exact hg.1 _ h1 nb hnb
        simp only [h _ hu]
      · have hu : w - 1 < g.nodeSequences.length := by omega
        simp only [h _ hu]
  · simp only [hj, if_false]

theorem backwardFillCell_congr (g : GraphAligner) (b b' : Nat → Int) (hg : g.readsInRange)
    (h : ∀ u < g.nodeSequences.length, (b u > 0 ↔ b' u > 0))
    (n : Nat) (m : List (List Int)) (j w : Nat) (hw : w < g.nodeSequences.length) :
    g.backwardFillCell b n m j w = g.backwardFillCell b' n m j w := by
  unfold GraphAligner.backwardFillCell
  by_cases hj : j = n
  · subst hj
    simp only [if_true]
    split
    · rfl
    · split
      · apply List.foldl_ext
        intro a nb hnb
        have hu : g.nodeStart.getD nb 0 < g.nodeSequences.length := by
          rcases getD_nil_or_mem g.outNeighbors (g.indexToNode.getD w 0) with h0 | h1
          · rw [h0] at hnb; simp at hnb
          · exact hg.2.1 _ h1 nb hnb
        simp only [h _ hu]
      · rename_i hne
        have hu : w + 1 < g.nodeSequences.length := hg.2.2 w hw hne
        simp only [h _ hu]
  · simp only [hj, if_false]

theorem forwardFillRow_congr (g : GraphAligner) (b b' : Nat → Int) (hg : g.readsInRange)
    (h : ∀ u < g.nodeSequences.length, (b u > 0 ↔ b' u > 0))
    (m : List (List Int)) (j : Nat) :
    g.forwardFillRow b m j = g.forwardFillRow b' m j := by
  unfold GraphAligner.forwardFillRow
  apply List.foldl_ext
  intro a w hw
  exact forwardFillCell_congr g b b' hg h a j w (List.mem_range.mp hw)

theorem backwardFillRow_congr (g : GraphAligner) (b b' : Nat → Int) (hg : g.readsInRange)
    (h : ∀ u < g.nodeSequences.length, (b u > 0 ↔ b' u > 0))
    (n : Nat) (m : List (List Int)) (j : Nat) :
    g.backwardFillRow b n m j = g.backwardFillRow b' n m j := by
  unfold GraphAligner.backwardFillRow
  apply List.foldl_ext
  intro a w hw
  exact backwardFillCell_congr g b b' hg h n a j w
    (List.mem_range.mp (List.mem_reverse.mp hw))

theorem forwardFillRow_inner (g : GraphAligner) (b b' : Nat → Int)
    (m : List (List Int)) (j : Nat) (hj : j ≠ 0) :
    g.forwardFillRow b m j = g.forwardFillRow b' m j := by
  unfold GraphAligner.forwardFillRow
  apply List.foldl_ext
  intro a w _
  unfold GraphAligner.forwardFillCell
  simp only [hj, if_false]

theorem backwardFillRow_inner (g : GraphAligner) (b b' : Nat → Int) (n : Nat)
    (m : List (List Int)) (j : Nat) (hj : j ≠ n) :
    g.backwardFillRow b n m j = g.backwardFillRow b' n m j := by
  unfold GraphAligner.backwardFillRow
  apply List.foldl_ext
  intro a w _
  unfold GraphAligner.backwardFillCell
  simp only [hj, if_false]

theorem forwardFill_split (g : GraphAligner) (b : Nat → Int) (n : Nat) (m : List (List Int)) :
    g.forwardFill b n m = (List.range' 1 n).foldl (fun forward j =>
      g.forwardFillRow (fun _ => 0) forward j) (g.forwardFillRow b m 0) := by
  unfold GraphAligner.forwardFill
  rw [List.range_eq_range', List.range'_succ, List.foldl_cons]
  apply List.foldl_ext
  intro a j hj
  apply forwardFillRow_inner
  have := (List.mem_range'_1.mp hj).1
  omega

theorem backwardFill_split (g : GraphAligner) (b : Nat → Int) (n : Nat) (m : List (List Int)) :
    g.backwardFill b n m = (List.range n).reverse.foldl (fun backward j =>
      g.backwardFillRow (fun _ => 0) n backward j) (g.backwardFillRow b n m n) := by
  unfold GraphAligner.backwardFill
  rw [List.range_succ, List.reverse_append, List.reverse_singleton, List.singleton_append,
    List.foldl_cons]
  apply List.foldl_ext
  intro a j hj
  apply backwardFillRow_inner
  have := List.mem_range.mp (List.mem_reverse.mp hj)
  omega

/-- Whatever the out-of-range reads yield, the band that `getBandedRows`
returns is one of `possibleBands`. -/
theorem getBandedRows_possible (g : GraphAligner) (before after : Nat → Int)
    (seedHits : List MatrixPosition) (bandWidth : Int) (n : Nat)
    (fb : List (List Int) × List (List Int)) (hg : g.readsInRange)
    (hfb : g.seedBand seedHits bandWidth n = .ok fb) :
    ∃ band ∈ g.possibleBands n fb,
      g.getBandedRows before after seedHits bandWidth n = .ok band := by
  refine ⟨g.bandOfMatrices n (g.forwardFill before n fb.1) (g.backwardFill after n fb.2),
    ?_, ?_⟩
  rotate_left
  · unfold GraphAligner.getBandedRows
    rw [hfb]
    rfl
  · unfold GraphAligner.possibleBands
    simp only [List.mem_dedup, List.mem_map]
    refine ⟨(_, _), List.pair_mem_product.mpr
      ⟨List.mem_map.mpr ⟨_, List.mem_dedup.mpr (List.mem_map.mpr
        ⟨bitsOf before g.nodeSequences.length, mem_allBits _ _ (bitsOf_length _ _), rfl⟩), rfl⟩,
       List.mem_map.mpr ⟨_, List.mem_dedup.mpr (List.mem_map.mpr
        ⟨bitsOf after g.nodeSequences.length, mem_allBits _ _ (bitsOf_length _ _), rfl⟩), rfl⟩⟩,
      ?_⟩
    rw [forwardFill_split, backwardFill_split]
    rw [forwardFillRow_congr g before (ofBits (bitsOf before g.nodeSequences.length)) hg
      (fun u hu => (ofBits_bitsOf before _ u hu).symm)]
    rw [backwardFillRow_congr g after (ofBits (bitsOf after g.nodeSequences.length)) hg
      (fun u hu => (ofBits_bitsOf after _ u hu).symm)]

theorem traceToAlignment_name (g : GraphAligner) (seq_id : String)
    (trace : Int × List MatrixPosition) (reverse : Bool) (a : Alignment)
    (h : g.traceToAlignment "" trace reverse = .ok a) :
    g.traceToAlignment seq_id trace reverse = .ok { a with name := seq_id } := by
  simp only [GraphAligner.traceToAlignment, bind, Except.bind, pure, Except.pure] at h ⊢
  split at h
  · cases h
  · injection h with h
    subst h
    rfl

theorem alignInBand_name (g : GraphAligner) (seq_id : String) (sequence : List Char)
    (reverse : Bool) (bandWidth : Int) (band : List (List Bool)) (a : Alignment)
    (h : g.alignInBand "" sequence reverse bandWidth band = .ok a) :
    g.alignInBand seq_id sequence reverse bandWidth band = .ok { a with name := seq_id } := by
  unfold GraphAligner.alignInBand at h ⊢
  cases ht : g.backtrackWithBand sequence bandWidth band with
  | error e => rw [ht] at h; cases h
  | ok t =>
    rw [ht] at h
    exact traceToAlignment_name g seq_id t reverse a h

/-- The result of `AlignOneWay` is the same for everything the out-of-range
reads can yield, as soon as it is the same for every possible band. -/
theorem AlignOneWay_of_possibleBands (g : GraphAligner) (sequence : String) (reverse : Bool)
    (bandWidth : Int) (seedHits : List (SeedHit × SeedHit))
    (seedHitsInMatrix : List MatrixPosition) (fb : List (List Int) × List (List Int))
    (r : Except String Alignment)
    (hfin : g.finalized = true) (hg : g.readsInRange)
    (hseeds : g.getSeedHitPositionsInMatrix sequence.data seedHits = .ok seedHitsInMatrix)
    (hfb : g.seedBand seedHitsInMatrix bandWidth sequence.data.length = .ok fb)
    (hall : ∀ band ∈ g.possibleBands sequence.data.length fb,
      g.alignInBand "" sequence.data reverse bandWidth band = r)
    (before after : Nat → Int) (seq_id : String) :
    g.AlignOneWay before after seq_id sequence reverse bandWidth seedHits
      = r.map (fun a => { a with name := seq_id }) := by
  obtain ⟨band, hmem, hband⟩ :=
    getBandedRows_possible g before after seedHitsInMatrix bandWidth _ fb hg hfb
  have hr := hall band hmem
  unfold GraphAligner.AlignOneWay GraphAligner.backtrackWithSquareRootSlices
  simp only [hfin, hseeds, hband, assert, if_true, bind, Except.bind]
  cases hres : g.alignInBand "" sequence.data reverse bandWidth band with
  | error e =>
    rw [hres] at hr
    subst hr
    unfold GraphAligner.alignInBand at hres
    simp only [bind, Except.bind] at hres
    simp only [Except.map]
    split at hres
    · exact hres
    · simp only [GraphAligner.traceToAlignment, bind, Except.bind, pure, Except.pure] at hres ⊢
      split at hres
      · exact hres
      · cases hres
  | ok a =>
    rw [hres] at hr
    subst hr
    have hn := alignInBand_name g seq_id sequence.data reverse bandWidth band a hres
    unfold GraphAligner.alignInBand at hn
    simp only [bind, Except.bind] at hn
    exact hn

theorem AlignOneWay_of_alignsInEveryBand (g : GraphAligner) (sequence : String)
    (reverse : Bool) (bandWidth : Int) (seedHits : List (SeedHit × SeedHit))
    (r : Except String Alignment)
    (h : g.alignsInEveryBand sequence reverse bandWidth seedHits r = true)
    (before after : Nat → Int) (seq_id : String) :
    g.AlignOneWay before after seq_id sequence reverse bandWidth seedHits
      = r.map (fun a => { a with name := seq_id }) := by
  unfold GraphAligner.alignsInEveryBand at h
  simp only [Bool.and_eq_true, decide_eq_true_eq] at h
  obtain ⟨⟨hfin, hg⟩, h⟩ := h
  split at h
  · cases h
  · rename_i sh hseeds
    split at h
    · cases h
    · rename_i fb hfb
      refine AlignOneWay_of_possibleBands g sequence reverse bandWidth seedHits sh fb r
        hfin hg hseeds hfb ?_ before after seq_id
      intro band hband
      have := List.all_eq_true.mp h band hband
      simpa using this

theorem AlignOneWay_of_scenarioHolds (build : Except String GraphAligner) (sequence : String)
    (reverse : Bool) (bandWidth : Int) (seedHits : List (SeedHit × SeedHit))
    (r : Except String Alignment)
    (h : scenarioHolds build sequence reverse bandWidth seedHits r = true)
    (before after : Nat → Int) (seq_id : String) :
    (do let g ← build
        g.AlignOneWay before after seq_id sequence reverse bandWidth seedHits)
      = r.map (fun a => { a with name := seq_id }) := by
  cases build with
  | error e => cases h
  | ok g =>
    exact AlignOneWay_of_alignsInEveryBand g sequence reverse bandWidth seedHits r h
      before after seq_id

/-! ## Theorems: the band of scenario S1 for wide band widths -/

theorem getCell_signs (m : List (List Int)) (w j : Nat) :
    getCell (signs m) w j false = decide (getCell m w j 0 > 0) := by
  unfold getCell signs
  have h : (m.map (fun row => row.map (fun v => decide (v > 0)))).getD w []
      = (m.getD w []).map (fun v => decide (v > 0)) := by
    have := List.getD_map m [] (n := w) (fun row : List Int => row.map (fun v => decide (v > 0)))
    simpa using this
  rw [h]
  have := List.getD_map (m.getD w []) 0 (n := j) (fun v : Int => decide (v > 0))
  simpa using this

theorem getCell_pos_of_signs (m m' : List (List Int)) (h : signs m = signs m') (w j : Nat) :
    (getCell m w j 0 > 0) ↔ (getCell m' w j 0 > 0) := by
  have h1 := getCell_signs m w j
  have h2 := getCell_signs m' w j
  rw [h] at h1
  rw [h1] at h2
  simpa using h2

theorem signs_setCell (m : List (List Int)) (w j : Nat) (v : Int) :
    signs (setCell m w j v) = setCell (signs m) w j (decide (v > 0)) := by
  unfold setCell signs
  rw [List.map_set, List.map_set]
  congr 2
  have := List.getD_map m [] (n := w) (fun row : List Int => row.map (fun v => decide (v > 0)))
  simpa using this.symm

theorem signs_setCell_congr (m m' : List (List Int)) (h : signs m = signs m') (w j : Nat)
    (v v' : Int) (hv : (v > 0) ↔ (v' > 0)) :
    signs (setCell m w j v) = signs (setCell m' w j v') := by
  rw [signs_setCell, signs_setCell, h]
  congr 1
  simp [hv]

theorem foldl_signs {β : Type} (f f' : List (List Int) → β → List (List Int))
    (hf : ∀ m m' x, signs m = signs m' → signs (f m x) = signs (f' m' x)) (l : List β) :
    ∀ m m', signs m = signs m' → signs (l.foldl f m) = signs (l.foldl f' m') := by
  induction l with
  | nil => intro m m' h; exact h
  | cons x t ih => intro m m' h; exact ih _ _ (hf m m' x h)

theorem forwardFillCell_signs (g : GraphAligner) (before : Nat → Int)
    (m m' : List (List Int)) (h : signs m = signs m') (j w : Nat) :
    signs (g.forwardFillCell before m j w) = signs (g.forwardFillCell before m' j w) := by
  unfold GraphAligner.forwardFillCell
  have h0 := getCell_pos_of_signs m m' h w j
  by_cases hc : getCell m w j 0 > 0
  · rw [if_pos hc, if_pos (h0.mp hc)]
    exact h
  · rw [if_neg hc, if_neg (fun x => hc (h0.mpr x))]
    simp only []
    split
    · refine foldl_signs _ _ ?_ _ m m' h
      intro a a' nb ha
      have h1 := getCell_pos_of_signs a a' ha (g.nodeEnd.getD nb 0 - 1) (j - 1)
      by_cases hj : j = 0
      · simp only [hj, if_true]
        split
        · exact signs_setCell_congr a a' ha _ _ 1 1 Iff.rfl
        · exact ha
      · simp only [hj, if_false]
        by_cases hp : getCell a (g.nodeEnd.getD nb 0 - 1) (j - 1) 0 > 0
        · rw [if_pos hp, if_pos (h1.mp hp)]
          exact signs_setCell_congr a a' ha _ _ 1 1 Iff.rfl
        · rw [if_neg hp, if_neg (fun x => hp (h1.mpr x))]
          exact ha
    · have h1 := getCell_pos_of_signs m m' h (w - 1) (j - 1)
      by_cases hj : j = 0
      · simp only [hj, if_true]
        split
        · exact signs_setCell_congr m m' h _ _ 1 1 Iff.rfl
        · exact h
      · simp only [hj, if_false]
        by_cases hp : getCell m (w - 1) (j - 1) 0 > 0
        · rw [if_pos hp, if_pos (h1.mp hp)]
          exact signs_setCell_congr m m' h _ _ 1 1 Iff.rfl
        · rw [if_neg hp, if_neg (fun x => hp (h1.mpr x))]
          exact h

theorem backwardFillCell_signs (g : GraphAligner) (after : Nat → Int) (n : Nat)
    (m m' : List (List Int)) (h : signs m = signs m') (j w : Nat) :
    signs (g.backwardFillCell after n m j w) = signs (g.backwardFillCell after n m' j w) := by
  unfold GraphAligner.backwardFillCell
  have h0 := getCell_pos_of_signs m m' h w j
  by_cases hc : getCell m w j 0 > 0
  · rw [if_pos hc, if_pos (h0.mp hc)]
    exact h
  · rw [if_neg hc, if_neg (fun x => hc (h0.mpr x))]
    simp only []
    split
    · refine foldl_signs _ _ ?_ _ m m' h
      intro a a' nb ha
      have h1 := getCell_pos_of_signs a a' ha (g.nodeStart.getD nb 0) (j + 1)
      by_cases hj : j = n
      · simp only [hj, if_true]
        split
        · exact signs_setCell_congr a a' ha _ _ 1 1 Iff.rfl
        · exact ha
      · simp only [hj, if_false]
        by_cases hp : getCell a (g.nodeStart.getD nb 0) (j + 1) 0 > 0
        · rw [if_pos hp, if_pos (h1.mp hp)]
          exact signs_setCell_congr a a' ha _ _ 1 1 Iff.rfl
        · rw [if_neg hp, if_neg (fun x => hp (h1.mpr x))]
          exact ha
    · have h1 := getCell_pos_of_signs m m' h (w + 1) (j + 1)
      by_cases hj : j = n
      · simp only [hj, if_true]
        split
        · exact signs_setCell_congr m m' h _ _ 1 1 Iff.rfl
        · exact h
      · simp only [hj, if_false]
        by_cases hp : getCell m (w + 1) (j + 1) 0 > 0
        · rw [if_pos hp, if_pos (h1.mp hp)]
          exact signs_setCell_congr m m' h _ _ 1 1 Iff.rfl
        · rw [if_neg hp, if_neg (fun x => hp (h1.mpr x))]
          exact h

theorem forwardFill_signs (g : GraphAligner) (before : Nat → Int) (n : Nat)
    (m m' : List (List Int)) (h : signs m = signs m') :
    signs (g.forwardFill before n m) = signs (g.forwardFill before n m') := by
  unfold GraphAligner.forwardFill
  refine foldl_signs _ _ ?_ _ m m' h
  intro a a' j ha
  unfold GraphAligner.forwardFillRow
  refine foldl_signs _ _ ?_ _ a a' ha
  intro c c' w hc
  exact forwardFillCell_signs g before c c' hc j w

theorem backwardFill_signs (g : GraphAligner) (after : Nat → Int) (n : Nat)
    (m m' : List (List Int)) (h : signs m = signs m') :
    signs (g.backwardFill after n m) = signs (g.backwardFill after n m') := by
  unfold GraphAligner.backwardFill
  refine foldl_signs _ _ ?_ _ m m' h
  intro a a' j ha
  unfold GraphAligner.backwardFillRow
  refine foldl_signs _ _ ?_ _ a a' ha
  intro c c' w hc
  exact backwardFillCell_signs g after n c c' hc j w

theorem bandOfMatrices_signs (g : GraphAligner) (n : Nat)
    (f f' b b' : List (List Int)) (hf : signs f = signs f') (hb : signs b = signs b') :
    g.bandOfMatrices n f b = g.bandOfMatrices n f' b' := by
  unfold GraphAligner.bandOfMatrices
  apply List.map_congr_left
  intro w _
  apply List.map_congr_left
  intro j _
  rw [← getCell_signs f, ← getCell_signs b, ← getCell_signs f', ← getCell_signs b', hf, hb]

/-- The band depends on the matrices of the seed loop only through the signs of
their entries. -/
theorem getBandedRows_signs (g : GraphAligner) (before after : Nat → Int)
    (seedHits : List MatrixPosition) (bandWidth bandWidth' : Int) (n : Nat)
    (fb fb' : List (List Int) × List (List Int))
    (h : g.seedBand seedHits bandWidth n = .ok fb)
    (h' : g.seedBand seedHits bandWidth' n = .ok fb')
    (h1 : signs fb.1 = signs fb'.1) (h2 : signs fb.2 = signs fb'.2) :
    g.getBandedRows before after seedHits bandWidth n
      = g.getBandedRows before after seedHits bandWidth' n := by
  unfold GraphAligner.getBandedRows
  rw [h, h']
  simp only [bind, Except.bind, pure, Except.pure]
  exact congrArg Except.ok (bandOfMatrices_signs g n _ _ _ _
    (forwardFill_signs g before n _ _ h1) (backwardFill_signs g after n _ _ h2))


/-- For a non-empty query the band width reaches the result only through the
band: the `insideBand` of the first slice is never read. -/
theorem backtrackWithBand_bandWidth (g : GraphAligner) (sequence : List Char)
    (hne : sequence ≠ []) (bandWidth bandWidth' : Int) (band : List (List Bool)) :
    g.backtrackWithBand sequence bandWidth band = g.backtrackWithBand sequence bandWidth' band := by
  match sequence, hne with
  | c :: t, _ =>
    have h1 : 1 < t.length + 1 + 1 := by omega
    simp only [GraphAligner.backtrackWithBand, List.length_cons, GraphAligner.sliceLoop,
      GraphAligner.getScoreAndBacktraceMatrixSlice, GraphAligner.getFirstSlice, if_pos h1]


theorem setCell_setCell {α : Type} (m : List (List α)) (w j : Nat) (v v' : α) :
    setCell (setCell m w j v) w j v' = setCell m w j v' := by
  unfold setCell
  rw [List.set_set]
  congr 1
  by_cases hw : w < m.length
  · have h : (m.set w ((m.getD w []).set j v)).getD w [] = (m.getD w []).set j v := by
      simp [List.getD_eq_getElem?_getD, hw]
    rw [h, List.set_set]
  · have h1 : m.getD w [] = [] := by
      simp [List.getD_eq_getElem?_getD, List.getElem?_eq_none (Nat.le_of_not_lt hw)]
    have h2 : (m.set w ((m.getD w []).set j v)).getD w [] = [] := by
      simp [List.getD_eq_getElem?_getD, List.getElem?_set, hw,
        List.getElem?_eq_none (Nat.le_of_not_lt hw)]
    rw [h2, h1]

theorem graphS1_eq : graphS1 = .ok
    { notInOrder := [false, false], nodeStart := [0, 1], nodeEnd := [1, 5],
      indexToNode := [0, 1, 1, 1, 1], nodeLookup := [(2, 1)], nodeIDs := [0, 2],
      inNeighbors := [[0], [0]], outNeighbors := [[], []],
      nodeSequences := ['N', 'A', 'C', 'G', 'T'], gapStartPenalty := 1,
      gapContinuePenalty := 1, finalized := true } := by
  decide

theorem expandBandLeftwards_dummy (g : GraphAligner) (hg : graphS1 = .ok g) (b : Nat) :
    ∀ (fuel : Nat) (m : List (List Int)), b < fuel →
      ∃ m1, g.expandBandLeftwards fuel m 0 0 b = .ok m1
        ∧ signs m1 = signs (if b = 0 then m else setCell m 0 0 1) := by
  rw [graphS1_eq] at hg
  injection hg with hg
  subst hg
  induction b with
  | zero =>
    intro fuel m h
    obtain ⟨f, rfl⟩ : ∃ f, fuel = f + 1 := ⟨fuel - 1, by omega⟩
    refine ⟨m, ?_, by simp⟩
    simp [GraphAligner.expandBandLeftwards, expandBandLeftwardsLoop]
  | succ b ih =>
    intro fuel m h
    obtain ⟨f, rfl⟩ : ∃ f, fuel = f + 1 := ⟨fuel - 1, by omega⟩
    obtain ⟨m1, h1, h2⟩ := ih f (setCell m 0 0 ((b : Int) + 1)) (by omega)
    refine ⟨m1, ?_, ?_⟩
    · simp [GraphAligner.expandBandLeftwards, expandBandLeftwardsLoop]
      exact h1
    · rw [h2, if_neg (Nat.succ_ne_zero b)]
      split
      · exact signs_setCell_congr _ _ rfl 0 0 _ _ (by omega)
      · rw [setCell_setCell]

theorem expandBandRightwardsLoop_end (e j : Nat) (m : List (List Int)) (b : Nat) :
    expandBandRightwardsLoop e j m e b = (m, e, b, false) := by
  cases b <;> simp [expandBandRightwardsLoop]

theorem expandBandLeftwardsLoop_start (e j : Nat) (m : List (List Int)) (b : Nat) :
    expandBandLeftwardsLoop e j m e b = (m, e, b, false) := by
  cases b <;> simp [expandBandLeftwardsLoop]

theorem expandBandRightwards_S1 (g : GraphAligner) (hg : graphS1 = .ok g) (k f : Nat) :
    g.expandBandRightwards (f + 1)
        (setCell (List.replicate 5 (List.replicate 5 0)) 1 0 ((k + 4 : Nat) : Int)) 1 0 (k + 4)
      = .ok [[0, 0, 0, 0, 0], [(k : Int) + 3 + 1, 0, 0, 0, 0], [(k : Int) + 2 + 1, 0, 0, 0, 0],
          [(k : Int) + 1 + 1, 0, 0, 0, 0], [(k : Int) + 1, 0, 0, 0, 0]] := by
  rw [graphS1_eq] at hg
  injection hg with hg
  subst hg
  have h3 : ¬ ((k : Int) + 3 ≤ 0) := by omega
  have h2 : ¬ ((k : Int) + 2 ≤ 0) := by omega
  have h1 : ¬ ((k : Int) + 1 ≤ 0) := by omega
  simp [GraphAligner.expandBandRightwards, expandBandRightwardsLoop, setCell, getCell,
    List.replicate, h1, h2, h3, expandBandRightwardsLoop_end]
  intro _
  rfl

theorem expandBandLeftwards_S1 (g : GraphAligner) (hg : graphS1 = .ok g) (k f : Nat)
    (hf : k + 3 < f) :
    ∃ m1, g.expandBandLeftwards (f + 1)
        [[0, 0, 0, 0, 0], [(k : Int) + 3 + 1, 0, 0, 0, 0], [(k : Int) + 2 + 1, 0, 0, 0, 0],
          [(k : Int) + 1 + 1, 0, 0, 0, 0], [(k : Int) + 1, 0, 0, 0, 0]] 1 0 (k + 4) = .ok m1
      ∧ signs m1 = List.replicate 5 [true, false, false, false, false] := by
  obtain ⟨m1, h1, h2⟩ := expandBandLeftwards_dummy g hg (k + 3) f
    [[0, 0, 0, 0, 0], [(k : Int) + 4, 0, 0, 0, 0], [(k : Int) + 2 + 1, 0, 0, 0, 0],
      [(k : Int) + 1 + 1, 0, 0, 0, 0], [(k : Int) + 1, 0, 0, 0, 0]] hf
  rw [graphS1_eq] at hg
  injection hg with hg
  subst hg
  refine ⟨m1, ?_, ?_⟩
  · simp [GraphAligner.expandBandLeftwards, expandBandLeftwardsLoop_start, setCell, getCell]
    exact h1
  · rw [h2]
    simp [signs, setCell]
    refine ⟨by omega, by omega, by omega⟩

theorem seedBand_S1 (g : GraphAligner) (hg : graphS1 = .ok g) (k : Nat) :
    ∃ fb, g.seedBand [(1, 0)] ((k + 4 : Nat) : Int) 4 = .ok fb
      ∧ signs fb.1 = List.replicate 5 [true, false, false, false, false]
      ∧ signs fb.2 = List.replicate 5 [true, false, false, false, false] := by
  obtain ⟨f, hfuel, hf⟩ : ∃ f, (k + 4 + 1) * (g.nodeStart.length + 1) = f + 1
      ∧ k + 3 < f := by
    rw [graphS1_eq] at hg
    injection hg with hg
    subst hg
    refine ⟨(k + 4 + 1) * 3 - 1, ?_, ?_⟩
    · show (k + 4 + 1) * (2 + 1) = _
      omega
    · omega
  have hr := expandBandRightwards_S1 g hg k f
  obtain ⟨m1, hl, hs⟩ := expandBandLeftwards_S1 g hg k f hf
  refine ⟨(m1, m1), ?_, hs, hs⟩
  have hN : g.nodeSequences.length = 5 := by
    rw [graphS1_eq] at hg
    injection hg with hg
    subst hg
    rfl
  simp only [GraphAligner.seedBand, List.foldlM, hN, Int.toNat_ofNat, bind, Except.bind,
    pure, Except.pure]
  rw [hfuel, show (4 : Nat) + 1 = 5 from rfl, hr]
  simp only [hl]


/-- On the graph of scenario S1 every band width from `4` on gives the band of
band width `4`, and with it the same alignment. -/
theorem AlignOneWay_S1_wide (before after : Nat → Int) (seq_id : String) (k : Nat) :
    (do let g ← graphS1
        g.AlignOneWay before after seq_id "ACGT" false ((k + 4 : Nat) : Int) [seedPair 2])
      = (do let g ← graphS1
            g.AlignOneWay before after seq_id "ACGT" false 4 [seedPair 2]) := by
  cases hg : graphS1 with
  | error e => rfl
  | ok g =>
    obtain ⟨fb, hfb, h1, h2⟩ := seedBand_S1 g hg k
    obtain ⟨fb0, hfb0, h01, h02⟩ := seedBand_S1 g hg 0
    have hseeds : g.getSeedHitPositionsInMatrix "ACGT".data [seedPair 2] = .ok [(1, 0)] := by
      rw [graphS1_eq] at hg
      injection hg with hg
      subst hg
      decide
    have hband := getBandedRows_signs g before after [(1, 0)] ((k + 4 : Nat) : Int)
      ((0 + 4 : Nat) : Int) 4 fb fb0 hfb hfb0 (h1.trans h01.symm) (h2.trans h02.symm)
    have hlen : "ACGT".data.length = 4 := rfl
    simp only [bind, Except.bind, GraphAligner.AlignOneWay,
      GraphAligner.backtrackWithSquareRootSlices, hseeds, hlen]
    rw [hband]
    have h4 : ((0 + 4 : Nat) : Int) = 4 := rfl
    rw [h4]
    have hb : ∀ band, g.backtrackWithBand ['A', 'C', 'G', 'T'] ((k + 4 : Nat) : Int) band
        = g.backtrackWithBand ['A', 'C', 'G', 'T'] 4 band :=
      fun band => backtrackWithBand_bandWidth g _ (by decide) _ _ band
    simp only [hb]

/-! ## Theorems: the scenarios of the specification -/

set_option maxRecDepth 1000000 in
/-- C1 fails on the code.  The one-node cycle `2 = "A"`, `2 → 2` is finalized and
holds the edge from node `2` to itself in both adjacency lists, so the query
`"AA"` is the concatenation of the node sequences along the path `2, 2`.  With the
band width `3` and the seed pair `(0, 2)`, `AlignOneWay` ends in the failing
assertion of `fullR` instead of returning an alignment of score `2`, whatever the
out-of-range reads of `getBandedRows` yield.  On the graph of scenario S1 with the
query `"ACGT"` and band width `1` it ends in a failing assertion of
`traceToAlignment` instead of returning an alignment of score `4`, when those
reads yield `0`. -/
theorem C1_cycle_path_fails :
    graphLoop = .ok
      { notInOrder := [false, true], nodeStart := [0, 1], nodeEnd := [1, 2],
        indexToNode := [0, 1], nodeLookup := [(2, 1)], nodeIDs := [0, 2],
        inNeighbors := [[0], [1]], outNeighbors := [[], [1]],
        nodeSequences := ['N', 'A'], gapStartPenalty := 1,
        gapContinuePenalty := 1, finalized := true }
    ∧ (∀ before after : Nat → Int,
      (do let g ← graphLoop
          g.AlignOneWay before after "read" "AA" false 3 [seedPair 2])
        = .error "fullR: maxValue too small")
    ∧ (do let g ← graphS1
          g.AlignOneWay (fun _ => 0) (fun _ => 0) "read" "ACGT" false 1 [seedPair 2])
      = .error "traceToAlignment: pos < trace.size()" :=
  ⟨by decide,
   fun before after => AlignOneWay_of_scenarioHolds graphLoop "AA" false 3 [seedPair 2]
      (.error "fullR: maxValue too small") (by decide!) before after "read",
   by decide!⟩

set_option maxRecDepth 1000000 in
/-- Scenario S1 for every band width from `2` on.  On the finalized graph with
the single node `2 = "ACGT"`, `AlignOneWay` with the query `"ACGT"`, any band
width of at least `2` and the seed pair `(0, 2)` returns an alignment whose score
is the query length `4` and whose path is the single mapping
`(rank 0, node 2, not reverse)`, for every name and whatever the out-of-range
reads of `getBandedRows` yield. -/
theorem S1_exact_match (before after : Nat → Int) (seq_id : String) (bandWidth : Int)
    (h : 2 ≤ bandWidth) :
    (do let g ← graphS1
        g.AlignOneWay before after seq_id "ACGT" false bandWidth [seedPair 2])
      = .ok { name := seq_id, path := [{ rank := 0, node_id := 2, is_reverse := false }],
              score := ("ACGT".length : Int) } := by
  by_cases h2 : bandWidth = 2
  · subst h2
    exact AlignOneWay_of_scenarioHolds graphS1 "ACGT" false 2 [seedPair 2]
      (.ok { name := "", path := [{ rank := 0, node_id := 2, is_reverse := false }], score := 4 })
      (by decide!) before after seq_id
  · by_cases h3 : bandWidth = 3
    · subst h3
      exact AlignOneWay_of_scenarioHolds graphS1 "ACGT" false 3 [seedPair 2]
        (.ok { name := "", path := [{ rank := 0, node_id := 2, is_reverse := false }],
               score := 4 })
        (by decide!) before after seq_id
    · obtain ⟨k, rfl⟩ : ∃ k : Nat, bandWidth = ((k + 4 : Nat) : Int) :=
        ⟨(bandWidth - 4).toNat, by omega⟩
      rw [AlignOneWay_S1_wide]
      exact AlignOneWay_of_scenarioHolds graphS1 "ACGT" false 4 [seedPair 2]
        (.ok { name := "", path := [{ rank := 0, node_id := 2, is_reverse := false }],
               score := 4 })
        (by decide!) before after seq_id

set_option maxRecDepth 1000000 in
/-- Scenario S1 itself: band width `3`, the out-of-range reads yield `0`. -/
theorem S1_exact_match_band3 :
    (2 : Int) ≤ 3
    ∧ (do let g ← graphS1
          g.AlignOneWay (fun _ => 0) (fun _ => 0) "read" "ACGT" false 3 [seedPair 2])
      = .ok { name := "read", path := [{ rank := 0, node_id := 2, is_reverse := false }],
              score := 4 } :=
  ⟨by decide, S1_exact_match (fun _ => 0) (fun _ => 0) "read" 3 (by decide)⟩

set_option maxRecDepth 1000000 in
/-- C2, scenario S2.  On the finalized graph with the nodes `2 = "ACG"`,
`4 = "TAC"` and the edge `2 → 4`, `AlignOneWay` with the query `"ACGTAC"`,
`reverse = false`, band width `3` and the seed pair `(0, 2)` returns score `6`
and the path of exactly the two mappings `(rank 0, node 2, not reverse)`,
`(rank 1, node 4, not reverse)`, for every name and whatever the out-of-range
reads of `getBandedRows` yield. -/
theorem C2_S2_two_nodes (before after : Nat → Int) (seq_id : String) :
    (do let g ← graphS2
        g.AlignOneWay before after seq_id "ACGTAC" false 3 [seedPair 2])
      = .ok { name := seq_id,
              path := [{ rank := 0, node_id := 2, is_reverse := false },
                       { rank := 1, node_id := 4, is_reverse := false }],
              score := 6 } :=
  AlignOneWay_of_scenarioHolds graphS2 "ACGTAC" false 3 [seedPair 2]
    (.ok { name := "",
           path := [{ rank := 0, node_id := 2, is_reverse := false },
                    { rank := 1, node_id := 4, is_reverse := false }],
           score := 6 })
    (by decide!) before after seq_id

set_option maxRecDepth 1000000 in
/-- C3, the claim as stated fails.  In scenario S3 (node `2 = "ACGT"`, query
`"ACCT"`, band width `3`, seed pair `(0, 2)`) `AlignOneWay` returns the score
`1`, not `-1`; the run is taken with the out-of-range reads yielding `0`. -/
theorem C3_counterexample :
    (do let g ← graphS1
        g.AlignOneWay (fun _ => 0) (fun _ => 0) "read" "ACCT" false 3 [seedPair 2])
      = .ok { name := "read", path := [{ rank := 0, node_id := 2, is_reverse := false }],
              score := 1 }
    ∧ (1 : Int) ≠ 1 + 1 - 4 + 1 := by
  decide!

set_option maxRecDepth 1000000 in
/-- C3, amended.  In scenario S3 (node `2 = "ACGT"`, query `"ACCT"`, band width
`3`, seed pair `(0, 2)`) `AlignOneWay` returns the score `1` (two matches, one
query base and one graph base skipped at gap cost `1` each, one match:
`1 + 1 - 1 - 1 + 1`) and the path of the single mapping to node `2`, for every
name and whatever the out-of-range reads of `getBandedRows` yield. -/
theorem C3_S3_one_mismatch (before after : Nat → Int) (seq_id : String) :
    (do let g ← graphS1
        g.AlignOneWay before after seq_id "ACCT" false 3 [seedPair 2])
      = .ok { name := seq_id, path := [{ rank := 0, node_id := 2, is_reverse := false }],
              score := 1 + 1 - 1 - 1 + 1 } :=
  AlignOneWay_of_scenarioHolds graphS1 "ACCT" false 3 [seedPair 2]
    (.ok { name := "", path := [{ rank := 0, node_id := 2, is_reverse := false }], score := 1 })
    (by decide!) before after seq_id

set_option maxRecDepth 1000000 in
/-- C4, scenario S4.  On the finalized graph with the single node `2 = "ACGT"`,
`AlignOneWay` with the query `"ACT"`, band width `3` and the seed pair `(0, 2)`
returns the score `2 = 1 + 1 - gap_open + 1` with `gap_open = 1`, for every
name and whatever the out-of-range reads of `getBandedRows` yield. -/
theorem C4_S4_graph_gap (before after : Nat → Int) (seq_id : String) :
    (do let g ← graphS1
        g.AlignOneWay before after seq_id "ACT" false 3 [seedPair 2])
      = .ok { name := seq_id, path := [{ rank := 0, node_id := 2, is_reverse := false }],
              score := 1 + 1 - GraphAligner.ctor.gapStartPenalty + 1 }
    ∧ GraphAligner.ctor.gapStartPenalty = 1 :=
  ⟨AlignOneWay_of_scenarioHolds graphS1 "ACT" false 3 [seedPair 2]
    (.ok { name := "", path := [{ rank := 0, node_id := 2, is_reverse := false }], score := 2 })
    (by decide!) before after seq_id, rfl⟩

set_option maxRecDepth 1000000 in
/-- C5, scenario S5.  On the finalized graph with the nodes `2 = "A"`,
`4 = "C"`, `6 = "G"` and the edges `2 → 4`, `2 → 6`, `AlignOneWay` with the
query `"AG"`, band width `2` and the seed pair `(0, 2)` returns score `2` and
the path node `2` (rank 0), node `6` (rank 1); node `4` is not on the path.
This holds for every name and whatever the out-of-range reads of
`getBandedRows` yield. -/
theorem C5_S5_branch (before after : Nat → Int) (seq_id : String) :
    (do let g ← graphS5
        g.AlignOneWay before after seq_id "AG" false 2 [seedPair 2])
      = .ok { name := seq_id,
              path := [{ rank := 0, node_id := 2, is_reverse := false },
                       { rank := 1, node_id := 6, is_reverse := false }],
              score := 2 } :=
  AlignOneWay_of_scenarioHolds graphS5 "AG" false 2 [seedPair 2]
    (.ok { name := "",
           path := [{ rank := 0, node_id := 2, is_reverse := false },
                    { rank := 1, node_id := 6, is_reverse := false }],
           score := 2 })
    (by decide!) before after seq_id

/-! ## Theorems: the split-node graph of `AlignmentGraph.cpp` -/

theorem assert_bind {α : Type} (b : Bool) (msg : String) (f : Unit → Except String α) :
    (assert b msg >>= f) = if b = true then f () else .error msg := by
  cases b <;> rfl

theorem assert_ok {b : Bool} {msg : String} {u : Unit} (h : assert b msg = .ok u) : b = true := by
  cases b
  · cases h
  · rfl

theorem AddNodeOffset_ok (c : Constants) (g g' : AlignmentGraph) (nodeId : Int) (offset : Nat)
    (sequence : List Char) (reverseNode : Bool)
    (h : g.AddNodeOffset c nodeId offset sequence reverseNode = .ok g') :
    g.finalized = false ∧ sequence.length ≤ c.SPLIT_NODE_SIZE ∧
    ∃ words, packBases c sequence 0 (List.replicate c.CHUNKS_IN_NODE 0) = .ok words ∧
      g' = { g with
        nodeLookup := lookupPush g.nodeLookup nodeId g.nodeLength.length
        nodeLength := g.nodeLength ++ [sequence.length]
        nodeIDs := g.nodeIDs ++ [nodeId]
        inNeighbors := g.inNeighbors ++ [[]]
        outNeighbors := g.outNeighbors ++ [[]]
        reverse := g.reverse ++ [reverseNode]
        nodeOffset := g.nodeOffset ++ [offset]
        nodeSequences := g.nodeSequences ++ [words] } := by
  unfold AlignmentGraph.AddNodeOffset at h
  simp only [assert_bind, bind_assoc] at h
  split at h
  swap; · cases h
  rename_i h1
  split at h
  swap; · cases h
  rename_i h2
  cases hp : packBases c sequence 0 (List.replicate c.CHUNKS_IN_NODE 0) with
  | error e => rw [hp] at h; cases h
  | ok words =>
    rw [hp] at h
    simp only [bind, Except.bind, pure, Except.pure] at h
    split at h
    swap; · cases h
    split at h
    swap; · cases h
    split at h
    swap; · cases h
    injection h with h
    refine ⟨by simpa using h1, by simpa using h2, words, rfl, h.symm⟩

theorem lookup_lookupPush_self (l : List (Int × List Nat)) (k : Int) (x : Nat) :
    (lookupPush l k x).lookup k = some ((l.lookup k).getD [] ++ [x]) := by
  induction l with
  | nil => simp [lookupPush, List.lookup]
  | cons e rest ih =>
    obtain ⟨k', v⟩ := e
    by_cases h : k' = k
    · subst h
      simp [lookupPush, List.lookup]
    · have h' : (k == k') = false := by simpa using fun h2 => h h2.symm
      simp [lookupPush, h, List.lookup, h', ih]

theorem lookup_lookupPush_other (l : List (Int × List Nat)) (k k2 : Int) (x : Nat)
    (hne : k2 ≠ k) : (lookupPush l k x).lookup k2 = l.lookup k2 := by
  induction l with
  | nil =>
    have h' : (k2 == k) = false := by simpa using hne
    simp [lookupPush, List.lookup, h']
  | cons e rest ih =>
    obtain ⟨k', v⟩ := e
    by_cases h : k' = k
    · subst h
      have h' : (k2 == k') = false := by simpa using hne
      simp [lookupPush, List.lookup, h']
    · simp only [lookupPush, h, if_false, List.lookup]
      split <;> simp_all

theorem getD_of_initial {α : Type} (l l' : List α) (h : l <+: l') (i : Nat) (hi : i < l.length)
    (d : α) : l'.getD i d = l.getD i d := by
  obtain ⟨t, rfl⟩ := h
  simp [List.getD_eq_getElem?_getD, List.getElem?_append_left hi]

theorem getD_append_length {α : Type} (l : List α) (x d : α) :
    (l ++ [x]).getD l.length d = x := by
  simp [List.getD_eq_getElem?_getD]

theorem getD_append_lt {α : Type} (l : List α) (x d : α) (i : Nat) (hi : i < l.length) :
    (l ++ [x]).getD i d = l.getD i d := by
  simp [List.getD_eq_getElem?_getD, List.getElem?_append_left hi]

theorem Except.bind_ok {α β : Type} (a : α) (f : α → Except String β) :
    ((Except.ok a : Except String α) >>= f) = f a := rfl

theorem assert_bind_ok {α : Type} {b : Bool} {msg : String} {f : Unit → Except String α}
    {r : α} (h : (assert b msg >>= f) = .ok r) : b = true ∧ f () = .ok r := by
  cases b
  · cases h
  · exact ⟨rfl, h⟩

theorem AddNodeStep_ok (c : Constants) (g g' : AlignmentGraph) (nodeId : Int)
    (sequence : List Char) (reverseNode : Bool) (i : Nat)
    (h : AlignmentGraph.AddNodeStep c nodeId sequence reverseNode g i = .ok g') :
    ∃ g1, g.AddNodeOffset c nodeId i ((sequence.drop i).take c.SPLIT_NODE_SIZE) reverseNode
        = .ok g1
      ∧ g'.finalized = g1.finalized ∧ g'.nodeLookup = g1.nodeLookup
      ∧ g'.nodeLength = g1.nodeLength ∧ g'.nodeIDs = g1.nodeIDs
      ∧ g'.reverse = g1.reverse ∧ g'.nodeOffset = g1.nodeOffset
      ∧ g'.nodeSequences = g1.nodeSequences
      ∧ g'.inNeighbors.length = g1.inNeighbors.length
      ∧ g'.outNeighbors.length = g1.outNeighbors.length := by
  unfold AlignmentGraph.AddNodeStep at h
  cases h1 : g.AddNodeOffset c nodeId i ((sequence.drop i).take c.SPLIT_NODE_SIZE) reverseNode with
  | error e => rw [h1] at h; cases h
  | ok g1 =>
    rw [h1] at h
    refine ⟨g1, rfl, ?_⟩
    simp only [Except.bind_ok] at h
    split at h
    · obtain ⟨_, h⟩ := assert_bind_ok h
      obtain ⟨_, h⟩ := assert_bind_ok h
      obtain ⟨_, h⟩ := assert_bind_ok h
      obtain ⟨_, h⟩ := assert_bind_ok h
      obtain ⟨_, h⟩ := assert_bind_ok h
      obtain ⟨_, h⟩ := assert_bind_ok h
      injection h with h
      subst h
      simp
    · injection h with h
      subst h
      simp

theorem Partial_step (c : Constants) (g0 g g' : AlignmentGraph) (nodeId : Int)
    (sequence : List Char) (reverseNode : Bool) (m : Nat)
    (hp : Partial c g0 g nodeId sequence m)
    (h : AlignmentGraph.AddNodeStep c nodeId sequence reverseNode g (m * c.SPLIT_NODE_SIZE)
      = .ok g') :
    Partial c g0 g' nodeId sequence (m + 1) := by
  obtain ⟨g1, h1, e1, e2, e3, e4, e5, e6, e7, e8, e9⟩ := AddNodeStep_ok c g g' nodeId sequence
    reverseNode _ h
  obtain ⟨hfin, hlen, words, hwords, hg1⟩ := AddNodeOffset_ok c g g1 nodeId _ _ reverseNode h1
  obtain ⟨pfin, psz, pn, pother, pself, pl, pi, po, ps, pch⟩ := hp
  obtain ⟨s1, s2, s3, s4, s5, s6⟩ := psz
  subst hg1
  simp only at e1 e2 e3 e4 e5 e6 e7 e8 e9
  refine ⟨by rw [e1]; exact pfin, ?_, ?_, ?_, ?_, ?_, ?_, ?_, ?_, ?_⟩
  · unfold Sized
    rw [e3, e4, e5, e6, e7, e8, e9]
    simp [s1, s2, s3, s4, s5, s6]
  · rw [e3]; simp [pn]; omega
  · intro id hid
    rw [e2, lookup_lookupPush_other _ _ _ _ hid]
    exact pother id hid
  · rw [e2, lookup_lookupPush_self, pself]
    by_cases hm : m = 0
    · subst hm
      simp [pn]
    · simp only [hm, if_false, Option.getD_some, Nat.add_one_ne_zero]
      rw [pn, List.range'_concat]
      simp
  · rw [e3]; exact pl.trans (List.prefix_append _ _)
  · rw [e4]; exact pi.trans (List.prefix_append _ _)
  · rw [e6]; exact po.trans (List.prefix_append _ _)
  · rw [e7]; exact ps.trans (List.prefix_append _ _)
  · intro i hi
    rw [e3, e4, e6, e7]
    by_cases him : i < m
    · obtain ⟨c1, c2, c3, c4⟩ := pch i him
      have hlt : g0.nodeLength.length + i < g.nodeLength.length := by omega
      rw [getD_append_lt _ _ _ _ (by omega), getD_append_lt _ _ _ _ (by omega),
        getD_append_lt _ _ _ _ hlt, getD_append_lt _ _ _ _ (by omega)]
      exact ⟨c1, c2, c3, c4⟩
    · have him' : i = m := by omega
      subst him'
      have e : g0.nodeLength.length + i = g.nodeLength.length := by omega
      rw [e]
      refine ⟨?_, ?_, ?_, ?_⟩
      · rw [← s1]; exact getD_append_length _ _ _
      · rw [← s5]; exact getD_append_length _ _ _
      · rw [getD_append_length]; rfl
      · rw [← s6, getD_append_length]; exact hwords

theorem Partial_fold (c : Constants) (g0 : AlignmentGraph) (nodeId : Int)
    (sequence : List Char) (reverseNode : Bool) (K : Nat) (g' : AlignmentGraph)
    (hp : Partial c g0 g0 nodeId sequence 0)
    (h : (List.range K).foldlM (fun g k => AlignmentGraph.AddNodeStep c nodeId sequence
      reverseNode g (k * c.SPLIT_NODE_SIZE)) g0 = .ok g') :
    Partial c g0 g' nodeId sequence K := by
  induction K generalizing g' with
  | zero =>
    simp only [List.range_zero, List.foldlM_nil, pure, Except.pure] at h
    injection h with h
    subst h
    exact hp
  | succ K ih =>
    rw [List.range_succ, List.foldlM_append] at h
    cases h1 : (List.range K).foldlM (fun g k => AlignmentGraph.AddNodeStep c nodeId sequence
      reverseNode g (k * c.SPLIT_NODE_SIZE)) g0 with
    | error e => rw [h1] at h; cases h
    | ok g1 =>
      rw [h1] at h
      simp only [Except.bind_ok, List.foldlM_cons, List.foldlM_nil] at h
      have h2 : AlignmentGraph.AddNodeStep c nodeId sequence reverseNode g1
          (K * c.SPLIT_NODE_SIZE) = .ok g' := by
        cases h3 : AlignmentGraph.AddNodeStep c nodeId sequence reverseNode g1
          (K * c.SPLIT_NODE_SIZE) with
        | error e => rw [h3] at h; cases h
        | ok g2 => rw [h3] at h; exact h
      exact Partial_step c g0 g1 g' nodeId sequence reverseNode K (ih g1 h1) h2

theorem addedSequence_append (ops : List Op) (op : Op) (id : Int) :
    addedSequence (ops ++ [op]) id = (addedSequence ops id).or (addedSequence [op] id) := by
  simp [addedSequence, List.findSome?_append]

theorem addedSequence_single_addNode (nodeId : Int) (sequence : String) (rev : Bool)
    (id : Int) :
    addedSequence [.addNode nodeId sequence rev] id
      = if nodeId = id ∧ sequence.data ≠ [] then some sequence.data else none := by
  by_cases h : nodeId = id ∧ sequence.data ≠ []
  · simp [addedSequence, List.findSome?, h]
  · simp only [addedSequence, List.findSome?, h, if_false]

theorem numChunks_eq_zero (c : Constants) (hS : 0 < c.SPLIT_NODE_SIZE) (L : Nat) :
    numChunks c L = 0 ↔ L = 0 := by
  unfold numChunks
  rw [Nat.div_eq_zero_iff hS]
  omega

theorem ChunksOK_of_initial (c : Constants) (g g' : AlignmentGraph) (id : Int)
    (seq : List Char) (first m : Nat) (hsz : Sized g)
    (hb : first + m ≤ g.nodeLength.length)
    (pl : g.nodeLength <+: g'.nodeLength) (pi : g.nodeIDs <+: g'.nodeIDs)
    (po : g.nodeOffset <+: g'.nodeOffset) (ps : g.nodeSequences <+: g'.nodeSequences)
    (h : ChunksOK c g id seq first m) : ChunksOK c g' id seq first m := by
  obtain ⟨s1, s2, s3, s4, s5, s6⟩ := hsz
  intro i hi
  obtain ⟨c1, c2, c3, c4⟩ := h i hi
  rw [getD_of_initial _ _ pl _ (by omega), getD_of_initial _ _ pi _ (by omega),
    getD_of_initial _ _ po _ (by omega), getD_of_initial _ _ ps _ (by omega)]
  exact ⟨c1, c2, c3, c4⟩

theorem Inv_addNode (c : Constants) (hS : 0 < c.SPLIT_NODE_SIZE) (ops : List Op)
    (g g' : AlignmentGraph) (nodeId : Int) (sequence : String) (rev : Bool)
    (hinv : Inv c ops g) (h : g.AddNode c nodeId sequence rev = .ok g') :
    Inv c (ops ++ [.addNode nodeId sequence rev]) g' := by
  obtain ⟨hsz, hnone, hsome, hcov⟩ := hinv
  unfold AlignmentGraph.AddNode at h
  obtain ⟨hfin, h⟩ := assert_bind_ok h
  split at h
  · -- the id is present: nothing changes
    rename_i hpres
    injection h with h
    subst h
    obtain ⟨chunks, hch⟩ := Option.isSome_iff_exists.mp hpres
    obtain ⟨seq, first, hadd, -⟩ := hsome nodeId chunks hch
    have hsame : ∀ id, addedSequence (ops ++ [.addNode nodeId sequence rev]) id
        = addedSequence ops id := by
      intro id
      rw [addedSequence_append, addedSequence_single_addNode]
      by_cases hid : nodeId = id
      · subst hid; rw [hadd]; rfl
      · simp [hid]
    refine ⟨hsz, ?_, ?_, hcov⟩
    · intro id hid; rw [hsame]; exact hnone id hid
    · intro id chunks hl
      obtain ⟨seq, first, h1, h2⟩ := hsome id chunks hl
      exact ⟨seq, first, by rw [hsame]; exact h1, h2⟩
  · rename_i habs
    have habs' : g.nodeLookup.lookup nodeId = none :=
      Option.not_isSome_iff_eq_none.mp habs
    have hp0 : Partial c g g nodeId sequence.data 0 := by
      refine ⟨by simpa using hfin, hsz, rfl, fun _ _ => rfl, by simpa using habs',
        List.prefix_refl _, List.prefix_refl _, List.prefix_refl _, List.prefix_refl _, ?_⟩
      intro i hi; omega
    have hp := Partial_fold c g nodeId sequence.data rev _ g' hp0 h
    have hK : (sequence.length + c.SPLIT_NODE_SIZE - 1) / c.SPLIT_NODE_SIZE
        = numChunks c sequence.data.length := rfl
    rw [hK] at hp
    obtain ⟨pfin, psz, pn, pother, pself, pl, pi, po, ps, pch⟩ := hp
    by_cases hL : sequence.data.length = 0
    · -- empty sequence: no round
      have hK0 : numChunks c sequence.data.length = 0 := (numChunks_eq_zero c hS _).mpr hL
      rw [hK, hK0] at h
      simp only [List.range_zero, List.foldlM_nil, pure, Except.pure] at h
      injection h with h
      subst h
      have hd : sequence.data = [] := List.length_eq_zero.mp hL
      have hsame : ∀ id, addedSequence (ops ++ [.addNode nodeId sequence rev]) id
          = addedSequence ops id := by
        intro id
        rw [addedSequence_append, addedSequence_single_addNode]
        simp [hd]
      refine ⟨hsz, ?_, ?_, hcov⟩
      · intro id hid; rw [hsame]; exact hnone id hid
      · intro id chunks hl
        obtain ⟨seq, first, h1, h2⟩ := hsome id chunks hl
        exact ⟨seq, first, by rw [hsame]; exact h1, h2⟩
    · have hK1 : numChunks c sequence.data.length ≠ 0 := fun h0 =>
        hL ((numChunks_eq_zero c hS _).mp h0)
      have hd : sequence.data ≠ [] := fun h0 => hL (by simp [h0])
      simp only [hK1, if_false] at pself
      have hnew : addedSequence (ops ++ [.addNode nodeId sequence rev]) nodeId
          = some sequence.data := by
        rw [addedSequence_append, addedSequence_single_addNode, hnone nodeId habs']
        simp [hd]
      have hold : ∀ id, id ≠ nodeId → addedSequence (ops ++ [.addNode nodeId sequence rev]) id
          = addedSequence ops id := by
        intro id hid
        rw [addedSequence_append, addedSequence_single_addNode]
        have hne : ¬ (nodeId = id ∧ sequence.data ≠ []) := fun h => hid h.1.symm
        simp only [hne, if_false, Option.or_none]
      refine ⟨psz, ?_, ?_, ?_⟩
      · intro id hid
        by_cases hidn : id = nodeId
        · subst hidn; rw [pself] at hid; cases hid
        · rw [hold id hidn]
          exact hnone id (by rw [← pother id hidn]; exact hid)
      · intro id chunks hl
        by_cases hidn : id = nodeId
        · subst hidn
          rw [pself] at hl
          injection hl with hl
          exact ⟨sequence.data, g.nodeLength.length, hnew, hl.symm, by omega, pch⟩
        · rw [pother id hidn] at hl
          obtain ⟨seq, first, h1, h2, h3, h4⟩ := hsome id chunks hl
          exact ⟨seq, first, by rw [hold id hidn]; exact h1, h2, by omega,
            ChunksOK_of_initial c g g' id seq first _ hsz h3 pl pi po ps h4⟩
      · intro w hw
        by_cases hwn : w < g.nodeLength.length
        · obtain ⟨chunks, h1, h2⟩ := hcov w hwn
          have hid : g'.nodeIDs.getD w 0 = g.nodeIDs.getD w 0 :=
            getD_of_initial _ _ pi _ (by rw [hsz.1]; exact hwn) _
          rw [hid]
          have hne : g.nodeIDs.getD w 0 ≠ nodeId := by
            intro he; rw [he, habs'] at h1; cases h1
          exact ⟨chunks, by rw [pother _ hne]; exact h1, h2⟩
        · obtain ⟨c1, -⟩ := pch (w - g.nodeLength.length) (by omega)
          have e : g.nodeLength.length + (w - g.nodeLength.length) = w := by omega
          rw [e] at c1
          refine ⟨_, by rw [c1]; exact pself, ?_⟩
          rw [List.mem_range']
          exact ⟨w - g.nodeLength.length, by omega, by omega⟩

theorem AddEdgeNodeId_ok (g g' : AlignmentGraph) (a b : Int)
    (h : g.AddEdgeNodeId a b = .ok g') :
    g.finalized = false ∧ ∃ fromChunks toChunks,
      g.nodeLookup.lookup a = some fromChunks ∧ g.nodeLookup.lookup b = some toChunks
      ∧ toChunks.getD 0 0 < g.inNeighbors.length
      ∧ fromChunks.getLastD 0 < g.nodeLength.length
      ∧ g' = { g with
          inNeighbors :=
            if (g.inNeighbors.getD (toChunks.getD 0 0) []).contains (fromChunks.getLastD 0) then
              g.inNeighbors
            else g.inNeighbors.set (toChunks.getD 0 0)
              (g.inNeighbors.getD (toChunks.getD 0 0) [] ++ [fromChunks.getLastD 0])
          outNeighbors :=
            if (g.outNeighbors.getD (fromChunks.getLastD 0) []).contains (toChunks.getD 0 0) then
              g.outNeighbors
            else g.outNeighbors.set (fromChunks.getLastD 0)
              (g.outNeighbors.getD (fromChunks.getLastD 0) [] ++ [toChunks.getD 0 0]) } := by
  unfold AlignmentGraph.AddEdgeNodeId at h
  obtain ⟨hfin, h⟩ := assert_bind_ok h
  split at h
  · rename_i fromChunks toChunks ha hb
    obtain ⟨h1, h⟩ := assert_bind_ok h
    obtain ⟨h2, h⟩ := assert_bind_ok h
    injection h with h
    exact ⟨by simpa using hfin, fromChunks, toChunks, ha, hb, by simpa using h1,
      by simpa using h2, h.symm⟩
  · cases h

theorem Finalize_ok (g g' : AlignmentGraph) (wordSize : Int)
    (h : g.Finalize wordSize = .ok g') : g' = { g with finalized := true } := by
  unfold AlignmentGraph.Finalize at h
  obtain ⟨_, h⟩ := assert_bind_ok h
  obtain ⟨_, h⟩ := assert_bind_ok h
  obtain ⟨_, h⟩ := assert_bind_ok h
  obtain ⟨_, h⟩ := assert_bind_ok h
  obtain ⟨_, h⟩ := assert_bind_ok h
  obtain ⟨_, h⟩ := assert_bind_ok h
  injection h with h
  exact h.symm

theorem addedSequence_append_other (ops : List Op) (op : Op) (id : Int)
    (h : ∀ nodeId sequence rev, op ≠ .addNode nodeId sequence rev) :
    addedSequence (ops ++ [op]) id = addedSequence ops id := by
  rw [addedSequence_append]
  cases op with
  | addNode n s r => exact absurd rfl (h n s r)
  | addEdge a b => simp [addedSequence, List.findSome?]
  | finalize w => simp [addedSequence, List.findSome?]

/-- The invariant only looks at the node data and at the sizes of the adjacency
vectors. -/
theorem Inv_of_same_nodes (c : Constants) (ops ops' : List Op) (g g' : AlignmentGraph)
    (hinv : Inv c ops g) (hadd : ∀ id, addedSequence ops' id = addedSequence ops id)
    (h1 : g'.nodeLength = g.nodeLength) (h2 : g'.nodeLookup = g.nodeLookup)
    (h3 : g'.nodeIDs = g.nodeIDs) (h4 : g'.reverse = g.reverse)
    (h5 : g'.nodeOffset = g.nodeOffset) (h6 : g'.nodeSequences = g.nodeSequences)
    (h7 : g'.inNeighbors.length = g.inNeighbors.length)
    (h8 : g'.outNeighbors.length = g.outNeighbors.length) : Inv c ops' g' := by
  obtain ⟨hsz, hnone, hsome, hcov⟩ := hinv
  unfold Inv Sized ChunksOK at *
  rw [h1, h2, h3, h4, h5, h6, h7, h8]
  simp only [hadd]
  exact ⟨hsz, hnone, hsome, hcov⟩

theorem Inv_apply (c : Constants) (hS : 0 < c.SPLIT_NODE_SIZE) (ops : List Op)
    (g g' : AlignmentGraph) (op : Op) (hinv : Inv c ops g)
    (h : g.apply c op = .ok g') : Inv c (ops ++ [op]) g' := by
  cases op with
  | addNode nodeId sequence rev => exact Inv_addNode c hS ops g g' nodeId sequence rev hinv h
  | addEdge a b =>
    obtain ⟨-, fc, tc, -, -, -, -, hg⟩ := AddEdgeNodeId_ok g g' a b h
    subst hg
    refine Inv_of_same_nodes c ops _ g _ hinv
      (fun id => addedSequence_append_other ops _ id (by intros; simp))
      rfl rfl rfl rfl rfl rfl ?_ ?_
    · simp only; split <;> simp
    · simp only; split <;> simp
  | finalize w =>
    have hg := Finalize_ok g g' w h
    subst hg
    exact Inv_of_same_nodes c ops _ g _ hinv
      (fun id => addedSequence_append_other ops _ id (by intros; simp))
      rfl rfl rfl rfl rfl rfl rfl rfl

theorem run_append (c : Constants) (ops : List Op) (op : Op) :
    AlignmentGraph.run c (ops ++ [op])
      = (AlignmentGraph.run c ops >>= fun g => g.apply c op) := by
  unfold AlignmentGraph.run
  rw [List.foldlM_append]
  congr 1
  funext g
  simp [List.foldlM_cons, List.foldlM_nil]

theorem Inv_ctor (c : Constants) : Inv c [] AlignmentGraph.ctor := by
  refine ⟨by simp [Sized, AlignmentGraph.ctor], ?_, ?_, ?_⟩
  · intro id _; rfl
  · intro id chunks h; simp [AlignmentGraph.ctor, List.lookup] at h
  · intro w hw; simp [AlignmentGraph.ctor] at hw

/-- Every graph reached by `run` satisfies the invariant. -/
theorem run_Inv (c : Constants) (hS : 0 < c.SPLIT_NODE_SIZE) (ops : List Op)
    (g : AlignmentGraph) (h : AlignmentGraph.run c ops = .ok g) : Inv c ops g := by
  induction ops using List.reverseRecOn generalizing g with
  | nil =>
    simp only [AlignmentGraph.run, List.foldlM_nil, pure, Except.pure] at h
    injection h with h
    subst h
    exact Inv_ctor c
  | append_singleton ops op ih =>
    rw [run_append] at h
    cases h1 : AlignmentGraph.run c ops with
    | error e => rw [h1] at h; cases h
    | ok g1 =>
      rw [h1] at h
      exact Inv_apply c hS ops g1 g op (ih g1 h1) h

theorem chunkAt_length (c : Constants) (seq : List Char) (i : Nat) :
    (chunkAt c seq i).length = min c.SPLIT_NODE_SIZE (seq.length - i * c.SPLIT_NODE_SIZE) := by
  simp [chunkAt]

theorem lt_numChunks (c : Constants) (hS : 0 < c.SPLIT_NODE_SIZE) (L i : Nat)
    (h : i < numChunks c L) : i * c.SPLIT_NODE_SIZE < L := by
  unfold numChunks at h
  have h2 := (Nat.le_div_iff_mul_le hS).mp h
  rw [Nat.succ_mul] at h2
  omega

theorem numChunks_mul_ge (c : Constants) (hS : 0 < c.SPLIT_NODE_SIZE) (L : Nat) :
    L ≤ numChunks c L * c.SPLIT_NODE_SIZE := by
  unfold numChunks
  have h1 := Nat.div_add_mod (L + c.SPLIT_NODE_SIZE - 1) c.SPLIT_NODE_SIZE
  have h2 := Nat.mod_lt (L + c.SPLIT_NODE_SIZE - 1) hS
  rw [Nat.mul_comm] at h1
  omega

theorem sum_chunk_lengths (S L m : Nat) :
    ((List.range m).map (fun i => min S (L - i * S))).sum = min (m * S) L := by
  induction m with
  | zero => simp
  | succ m ih =>
    rw [List.range_succ, List.map_append, List.sum_append, ih, Nat.succ_mul]
    simp only [List.map_cons, List.map_nil, List.sum_cons, List.sum_nil]
    omega

theorem getD_range' (first K i : Nat) (h : i < K) :
    (List.range' first K).getD i 0 = first + i := by
  rw [List.getD_eq_getElem _ _ (by simpa using h)]
  simp

/-- The node of a reached graph is a chunk of its original node. -/
theorem node_is_chunk (c : Constants) (hS : 0 < c.SPLIT_NODE_SIZE) (ops : List Op)
    (g : AlignmentGraph) (h : AlignmentGraph.run c ops = .ok g) (w : Nat)
    (hw : w < g.nodeLength.length) :
    ∃ seq first i, addedSequence ops (g.nodeIDs.getD w 0) = some seq
      ∧ g.nodeLookup.lookup (g.nodeIDs.getD w 0)
          = some (List.range' first (numChunks c seq.length))
      ∧ first + numChunks c seq.length ≤ g.nodeLength.length
      ∧ ChunksOK c g (g.nodeIDs.getD w 0) seq first (numChunks c seq.length)
      ∧ i < numChunks c seq.length ∧ w = first + i := by
  obtain ⟨hsz, hnone, hsome, hcov⟩ := run_Inv c hS ops g h
  obtain ⟨chunks, h1, h2⟩ := hcov w hw
  obtain ⟨seq, first, h3, h4, h5, h6⟩ := hsome _ chunks h1
  subst h4
  obtain ⟨i, hi, hwi⟩ := List.mem_range'.mp h2
  exact ⟨seq, first, i, h3, h1, h5, h6, hi, by omega⟩

/-- The chunks of an id of a reached graph: consecutive indices, the id, the
offsets in steps of `SPLIT_NODE_SIZE`, and lengths that sum to the length of the
sequence the id was added with. -/
theorem chunk_layout (c : Constants) (hS : 0 < c.SPLIT_NODE_SIZE) (ops : List Op)
    (g : AlignmentGraph) (h : AlignmentGraph.run c ops = .ok g) (id : Int) (chunks : List Nat)
    (hl : g.nodeLookup.lookup id = some chunks) :
    ∃ seq, addedSequence ops id = some seq
      ∧ (∀ i, i + 1 < chunks.length → chunks.getD (i + 1) 0 = chunks.getD i 0 + 1)
      ∧ (∀ i < chunks.length, g.nodeIDs.getD (chunks.getD i 0) 0 = id
          ∧ g.nodeOffset.getD (chunks.getD i 0) 0 = i * c.SPLIT_NODE_SIZE)
      ∧ (chunks.map g.NodeLength).sum = seq.length
      ∧ (seq.length = 2 * c.SPLIT_NODE_SIZE + 3 → 3 ≤ c.SPLIT_NODE_SIZE →
          chunks.map g.NodeLength = [c.SPLIT_NODE_SIZE, c.SPLIT_NODE_SIZE, 3]) := by
  obtain ⟨hsz, hnone, hsome, hcov⟩ := run_Inv c hS ops g h
  obtain ⟨seq, first, h3, h4, h5, hch⟩ := hsome id chunks hl
  subst h4
  have hmap : (List.range' first (numChunks c seq.length)).map g.NodeLength
      = (List.range (numChunks c seq.length)).map
          (fun i => min c.SPLIT_NODE_SIZE (seq.length - i * c.SPLIT_NODE_SIZE)) := by
    rw [List.range'_eq_map_range, List.map_map]
    apply List.map_congr_left
    intro i hi
    obtain ⟨-, -, c3, -⟩ := hch i (List.mem_range.mp hi)
    simp only [Function.comp, AlignmentGraph.NodeLength]
    rw [c3, chunkAt_length]
  refine ⟨seq, h3, ?_, ?_, ?_, ?_⟩
  · intro i hi
    simp only [List.length_range'] at hi
    rw [getD_range' _ _ _ hi, getD_range' _ _ _ (by omega)]
    omega
  · intro i hi
    simp only [List.length_range'] at hi
    rw [getD_range' _ _ _ hi]
    obtain ⟨c1, c2, -, -⟩ := hch i hi
    exact ⟨c1, c2⟩
  · rw [hmap, sum_chunk_lengths]
    exact Nat.min_eq_right (numChunks_mul_ge c hS _)
  · intro hL h3S
    have hK : numChunks c seq.length = 3 := by
      unfold numChunks
      apply Nat.div_eq_of_lt_le <;> rw [hL] <;> omega
    rw [hmap, hK, hL]
    simp only [List.range_succ, List.range_zero, List.nil_append, List.cons_append,
      List.map_cons, List.map_nil]
    have e1 : min c.SPLIT_NODE_SIZE (2 * c.SPLIT_NODE_SIZE + 3 - 0 * c.SPLIT_NODE_SIZE)
        = c.SPLIT_NODE_SIZE := by omega
    have e2 : min c.SPLIT_NODE_SIZE (2 * c.SPLIT_NODE_SIZE + 3 - 1 * c.SPLIT_NODE_SIZE)
        = c.SPLIT_NODE_SIZE := by omega
    have e3 : min c.SPLIT_NODE_SIZE (2 * c.SPLIT_NODE_SIZE + 3 - 2 * c.SPLIT_NODE_SIZE)
        = 3 := by omega
    rw [e1, e2, e3]

/-- C6.  In every graph reached from the constructor by `AddNode`,
`AddEdgeNodeId` (and `Finalize`) calls: every split node has a length between
`1` and `SPLIT_NODE_SIZE`; and for every original id in `nodeLookup`, with the
sequence it was added with, the chunks have consecutive split-node indices,
carry the id, have the offsets `0, SPLIT_NODE_SIZE, 2 * SPLIT_NODE_SIZE, ...` in
lookup order, and their lengths sum to the length of that sequence.  When the
sequence has `2 * SPLIT_NODE_SIZE + 3` bases (and `SPLIT_NODE_SIZE` is at least
`3`), these are exactly three chunks of the lengths `SPLIT_NODE_SIZE`,
`SPLIT_NODE_SIZE`, `3`. -/
theorem C6_split_nodes (c : Constants) (hS : 0 < c.SPLIT_NODE_SIZE) (ops : List Op)
    (g : AlignmentGraph) (h : AlignmentGraph.run c ops = .ok g) :
    (∀ w < g.NodeSize, 1 ≤ g.NodeLength w ∧ g.NodeLength w ≤ c.SPLIT_NODE_SIZE)
    ∧ ∀ id chunks, g.nodeLookup.lookup id = some chunks →
        ∃ seq, addedSequence ops id = some seq
          ∧ (∀ i, i + 1 < chunks.length → chunks.getD (i + 1) 0 = chunks.getD i 0 + 1)
          ∧ (∀ i < chunks.length, g.nodeIDs.getD (chunks.getD i 0) 0 = id
              ∧ g.nodeOffset.getD (chunks.getD i 0) 0 = i * c.SPLIT_NODE_SIZE)
          ∧ (chunks.map g.NodeLength).sum = seq.length
          ∧ (seq.length = 2 * c.SPLIT_NODE_SIZE + 3 → 3 ≤ c.SPLIT_NODE_SIZE →
              chunks.map g.NodeLength = [c.SPLIT_NODE_SIZE, c.SPLIT_NODE_SIZE, 3]) := by
  constructor
  · intro w hw
    obtain ⟨seq, first, i, -, -, -, hch, hi, hwi⟩ := node_is_chunk c hS ops g h w hw
    obtain ⟨-, -, c3, -⟩ := hch i hi
    have hlt := lt_numChunks c hS _ i hi
    unfold AlignmentGraph.NodeLength
    rw [hwi, c3, chunkAt_length]
    omega
  · intro id chunks hl
    exact chunk_layout c hS ops g h id chunks hl

theorem ok_of_isOk {α : Type} (x : Except String α) (h : x.isOk = true) : ∃ a, x = .ok a := by
  cases x with
  | error e => cases h
  | ok a => exact ⟨a, rfl⟩

set_option maxRecDepth 100000 in
/-- C6 at the graph of scenario S6: a node of `2 * 64 + 3 = 131` bases is split
into three chunks of the lengths 64, 64, 3 with consecutive indices. -/
theorem C6_witness :
    0 < constants64.SPLIT_NODE_SIZE ∧
    ∃ g chunks seq, AlignmentGraph.run constants64 opsS6 = .ok g
      ∧ g.nodeLookup.lookup 2 = some chunks ∧ addedSequence opsS6 2 = some seq
      ∧ seq.length = 131 ∧ chunks.map g.NodeLength = [64, 64, 3] := by
  refine ⟨by decide, ?_⟩
  obtain ⟨g, hg⟩ := ok_of_isOk (AlignmentGraph.run constants64 opsS6) (by decide!)
  have hl : (g.nodeLookup.lookup 2).isSome = true := by
    have : ((AlignmentGraph.run constants64 opsS6).map
      (fun g => (g.nodeLookup.lookup 2).isSome)) = .ok true := by decide!
    rw [hg] at this
    exact Except.ok.inj this
  obtain ⟨chunks, hc⟩ := Option.isSome_iff_exists.mp hl
  obtain ⟨seq, h1, -, -, h4, h5⟩ := (C6_split_nodes constants64 (by decide) opsS6 g hg).2 2 chunks hc
  have hs : seq = List.replicate 131 'A' := by
    have : addedSequence opsS6 2 = some (List.replicate 131 'A') := by decide!
    rw [this] at h1
    exact (Option.some.inj h1).symm
  have hL : seq.length = 131 := by rw [hs]; simp
  exact ⟨g, chunks, seq, hg, hc, h1, hL, h5 (by rw [hL]; rfl) (by decide)⟩

theorem testBit_and_three (x b : Nat) : (x &&& 3).testBit b = (decide (b < 2) && x.testBit b) := by
  have h3 : (3 : Nat) = 2 ^ 2 - 1 := by norm_num
  rw [Nat.testBit_and, h3, Nat.testBit_two_pow_sub_one, Bool.and_comm]

theorem testBit_code (code k : Nat) (hc : code < 4) (hk : 2 ≤ k) : code.testBit k = false := by
  apply Nat.testBit_lt_two_pow
  calc code < 4 := hc
    _ = 2 ^ 2 := by norm_num
    _ ≤ 2 ^ k := Nat.pow_le_pow_right (by norm_num) hk

theorem decode_or_same (c : Constants) (x code off : Nat) (hc : code < 4)
    (hoff : off + 2 ≤ 2 * c.BP_IN_CHUNK) :
    ((x ||| c.toWord (code <<< off)) >>> off) &&& 3 = ((x >>> off) &&& 3) ||| code := by
  apply Nat.eq_of_testBit_eq
  intro b
  simp only [testBit_and_three, Nat.testBit_shiftRight, Nat.testBit_or, Constants.toWord,
    Nat.testBit_mod_two_pow, Nat.testBit_shiftLeft]
  by_cases hb : b < 2
  · have h1 : off + b < 2 * c.BP_IN_CHUNK := by omega
    simp [hb, h1]
  · simp [hb, testBit_code code b hc (by omega)]

theorem decode_or_other (c : Constants) (x code off s : Nat) (hc : code < 4)
    (hs : s + 2 ≤ off ∨ off + 2 ≤ s) :
    ((x ||| c.toWord (code <<< off)) >>> s) &&& 3 = (x >>> s) &&& 3 := by
  apply Nat.eq_of_testBit_eq
  intro b
  simp only [testBit_and_three, Nat.testBit_shiftRight, Nat.testBit_or, Constants.toWord,
    Nat.testBit_mod_two_pow, Nat.testBit_shiftLeft]
  by_cases hb : b < 2
  · rcases hs with hs | hs
    · have : ¬ (s + b ≥ off) := by omega
      simp [hb, this]
    · have : code.testBit (s + b - off) = false := testBit_code code _ hc (by omega)
      simp [hb, this]
  · simp [hb]

theorem decodeAt_set (c : Constants) (hBP : 0 < c.BP_IN_CHUNK) (words : List Nat)
    (i p code : Nat) (hc : code < 4) (hi : i / c.BP_IN_CHUNK < words.length) :
    decodeAt c (words.set (i / c.BP_IN_CHUNK)
        (words.getD (i / c.BP_IN_CHUNK) 0 ||| c.toWord (code <<< ((i % c.BP_IN_CHUNK) * 2)))) p
      = if p = i then decodeAt c words i ||| code else decodeAt c words p := by
  unfold decodeAt
  have hmod := Nat.mod_lt i hBP
  have hmodp := Nat.mod_lt p hBP
  by_cases hq : p / c.BP_IN_CHUNK = i / c.BP_IN_CHUNK
  · rw [hq]
    have hget : (words.set (i / c.BP_IN_CHUNK)
        (words.getD (i / c.BP_IN_CHUNK) 0 ||| c.toWord (code <<< ((i % c.BP_IN_CHUNK) * 2)))).getD
          (i / c.BP_IN_CHUNK) 0
        = words.getD (i / c.BP_IN_CHUNK) 0 ||| c.toWord (code <<< ((i % c.BP_IN_CHUNK) * 2)) := by
      simp [List.getD_eq_getElem?_getD, List.getElem?_set, hi]
    rw [hget]
    by_cases hpi : p = i
    · subst hpi
      simp only [if_true]
      exact decode_or_same c _ code _ hc (by omega)
    · simp only [hpi, if_false]
      have hne : p % c.BP_IN_CHUNK ≠ i % c.BP_IN_CHUNK := by
        intro he
        apply hpi
        rw [← Nat.div_add_mod p c.BP_IN_CHUNK, ← Nat.div_add_mod i c.BP_IN_CHUNK, hq, he]
      exact decode_or_other c _ code _ _ hc (by omega)
  · have hpi : p ≠ i := fun he => hq (by rw [he])
    simp only [hpi, if_false]
    have hget : (words.set (i / c.BP_IN_CHUNK)
        (words.getD (i / c.BP_IN_CHUNK) 0 ||| c.toWord (code <<< ((i % c.BP_IN_CHUNK) * 2)))).getD
          (p / c.BP_IN_CHUNK) 0
        = words.getD (p / c.BP_IN_CHUNK) 0 := by
      simp [List.getD_eq_getElem?_getD, List.getElem?_set, Ne.symm hq]
    rw [hget]

theorem baseCode_lt {ch : Char} {code : Nat} (h : baseCode ch = some code) : code < 4 := by
  unfold baseCode at h
  repeat' split at h
  all_goals first | (injection h with h; omega) | cases h

/-- What the packing loop leaves in the words: the positions before `i` stay,
the positions of the packed bases hold their codes, the positions after them
stay empty. -/
theorem packBases_decode (c : Constants) (hBP : 0 < c.BP_IN_CHUNK) (chars : List Char) :
    ∀ (i : Nat) (words words' : List Nat),
      packBases c chars i words = .ok words' →
      (i + chars.length ≤ words.length * c.BP_IN_CHUNK) →
      (∀ p, i ≤ p → decodeAt c words p = 0) →
      (∀ p, p < i → decodeAt c words' p = decodeAt c words p)
      ∧ (∀ k, k < chars.length →
          baseCode (chars.getD k 'A') = some (decodeAt c words' (i + k)))
      ∧ (∀ p, i + chars.length ≤ p → decodeAt c words' p = 0) := by
  induction chars with
  | nil =>
    intro i words words' h _ hz
    simp only [packBases] at h
    injection h with h
    subst h
    exact ⟨fun _ _ => rfl, fun k hk => by simp at hk, fun p hp => hz p (by simpa using hp)⟩
  | cons ch rest ih =>
    intro i words words' h hlen hz
    simp only [packBases] at h
    split at h
    · cases h
    · rename_i code hcode
      have hc := baseCode_lt hcode
      simp only [List.length_cons] at hlen
      have hi : i / c.BP_IN_CHUNK < words.length := by
        rw [Nat.div_lt_iff_lt_mul hBP]
        omega
      have hstep := fun p => decodeAt_set c hBP words i p code hc hi
      obtain ⟨h1, h2, h3⟩ := ih (i + 1) _ words' h
        (by simp only [List.length_set]; omega)
        (by
          intro p hp
          rw [hstep p]
          simp only [show p ≠ i by omega, if_false]
          exact hz p (by omega))
      refine ⟨?_, ?_, ?_⟩
      · intro p hp
        rw [h1 p (by omega), hstep p]
        simp [show p ≠ i by omega]
      · intro k hk
        cases k with
        | zero =>
          simp only [List.getD_cons_zero, Nat.add_zero]
          rw [h1 i (by omega), hstep i]
          simp [hz i (Nat.le_refl i), hcode]
        | succ k =>
          simp only [List.getD_cons_succ]
          have := h2 k (by simpa using hk)
          rw [this]
          congr 2
          omega
      · intro p hp
        simp only [List.length_cons] at hp
        exact h3 p (by omega)

theorem chunks_mul_ge (c : Constants) (hBP : 0 < c.BP_IN_CHUNK) :
    c.SPLIT_NODE_SIZE ≤ c.CHUNKS_IN_NODE * c.BP_IN_CHUNK := by
  unfold Constants.CHUNKS_IN_NODE
  have h1 := Nat.div_add_mod (c.SPLIT_NODE_SIZE + c.BP_IN_CHUNK - 1) c.BP_IN_CHUNK
  have h2 := Nat.mod_lt (c.SPLIT_NODE_SIZE + c.BP_IN_CHUNK - 1) hBP
  rw [Nat.mul_comm] at h1
  omega

theorem decodeAt_zero (c : Constants) (n p : Nat) : decodeAt c (List.replicate n 0) p = 0 := by
  unfold decodeAt
  have : (List.replicate n 0).getD (p / c.BP_IN_CHUNK) 0 = 0 := by
    simp only [List.getD_eq_getElem?_getD, List.getElem?_replicate]
    split <;> rfl
  rw [this]
  simp

theorem chunkAt_getD (c : Constants) (seq : List Char) (i p : Nat)
    (hp : p < (chunkAt c seq i).length) :
    i * c.SPLIT_NODE_SIZE + p < seq.length
    ∧ (chunkAt c seq i).getD p 'A' = seq.getD (i * c.SPLIT_NODE_SIZE + p) 'A' := by
  have hlen := chunkAt_length c seq i
  rw [hlen] at hp
  refine ⟨by omega, ?_⟩
  unfold chunkAt
  simp only [List.getD_eq_getElem?_getD]
  rw [List.getElem?_take_of_lt (by omega), List.getElem?_drop]

theorem upper_baseCode (ch : Char) (h : ch ∈ ['A', 'C', 'G', 'T']) (code : Nat)
    (hcode : baseCode ch = some code) : ['A', 'C', 'G', 'T'].getD code 'A' = ch := by
  simp only [List.mem_cons, List.mem_singleton, List.not_mem_nil, or_false] at h
  rcases h with h | h | h | h <;> subst h <;>
    (have : baseCode _ = _ := hcode; simp [baseCode] at this; subst this; rfl)

/-- C7.  Packing and reading back is the identity.  In a graph reached by
`run`, for every id that was added with a sequence `seq` over the letters
`A`, `C`, `G`, `T`, for every chunk index `i` of the id and every `p` below the
length of that chunk, `NodeSequences(nodeLookup[id][i], p)` returns the
character `seq[i * SPLIT_NODE_SIZE + p]`; and whatever `NodeSequences` returns
is one of `A`, `C`, `G`, `T`. -/
theorem C7_pack_roundtrip (c : Constants) (hS : 0 < c.SPLIT_NODE_SIZE)
    (hBP : 0 < c.BP_IN_CHUNK) (ops : List Op) (g : AlignmentGraph)
    (h : AlignmentGraph.run c ops = .ok g) :
    (∀ id seq chunks i p, addedSequence ops id = some seq →
        (∀ ch ∈ seq, ch ∈ ['A', 'C', 'G', 'T']) →
        g.nodeLookup.lookup id = some chunks → i < chunks.length →
        p < g.NodeLength (chunks.getD i 0) →
        i * c.SPLIT_NODE_SIZE + p < seq.length
        ∧ g.NodeSequences c (chunks.getD i 0) p
            = .ok (seq.getD (i * c.SPLIT_NODE_SIZE + p) 'A'))
    ∧ (∀ node pos ch, g.NodeSequences c node pos = .ok ch → ch ∈ ['A', 'C', 'G', 'T']) := by
  constructor
  · intro id seq chunks i p hadd hseq hl hi hp
    obtain ⟨hsz, hnone, hsome, hcov⟩ := run_Inv c hS ops g h
    obtain ⟨seq', first, h3, h4, h5, hch⟩ := hsome id chunks hl
    rw [hadd] at h3
    injection h3 with h3
    subst h3
    subst h4
    simp only [List.length_range'] at hi
    rw [getD_range' _ _ _ hi] at hp ⊢
    obtain ⟨-, -, c3, c4⟩ := hch i hi
    unfold AlignmentGraph.NodeLength at hp
    rw [c3] at hp
    obtain ⟨hin, hget⟩ := chunkAt_getD c seq i p hp
    refine ⟨hin, ?_⟩
    have hpack := packBases_decode c hBP (chunkAt c seq i) 0 _ _ c4
      (by
        simp only [List.length_replicate, Nat.zero_add]
        have := chunks_mul_ge c hBP
        have := chunkAt_length c seq i
        omega)
      (fun q _ => decodeAt_zero c _ q)
    have hcode := hpack.2.1 p hp
    rw [Nat.zero_add, hget] at hcode
    have hmem : seq.getD (i * c.SPLIT_NODE_SIZE + p) 'A' ∈ seq := by
      rw [List.getD_eq_getElem _ _ hin]
      exact List.getElem_mem hin
    have hup := upper_baseCode _ (hseq _ hmem) _ hcode
    unfold AlignmentGraph.NodeSequences
    have hn : first + i < g.nodeSequences.length := by rw [hsz.2.2.2.2.2]; omega
    have hp2 : p < g.nodeLength.getD (first + i) 0 := by rw [c3]; exact hp
    simp only [assert, hn, hp2, decide_True, if_true, Except.bind_ok, pure, Except.pure]
    exact congrArg Except.ok hup
  · intro node pos ch hns
    unfold AlignmentGraph.NodeSequences at hns
    obtain ⟨-, hns⟩ := assert_bind_ok hns
    obtain ⟨-, hns⟩ := assert_bind_ok hns
    injection hns with hns
    subst hns
    have hlt : (getCell g.nodeSequences node (pos / c.BP_IN_CHUNK) 0
        >>> (pos % c.BP_IN_CHUNK * 2)) &&& 3 < 4 := by
      have h3 : (3 : Nat) = 2 ^ 2 - 1 := by norm_num
      rw [h3, Nat.and_pow_two_sub_one_eq_mod]
      exact Nat.mod_lt _ (by norm_num)
    generalize (getCell g.nodeSequences node (pos / c.BP_IN_CHUNK) 0
        >>> (pos % c.BP_IN_CHUNK * 2)) &&& 3 = k at hlt
    interval_cases k <;> simp

set_option maxRecDepth 100000 in
/-- C7 at the node `2 = "GATTACA"` with 4 bases in a split node: position `1` of
chunk `1` reads back `seq[5] = 'C'`. -/
theorem C7_witness :
    0 < constantsSmall.SPLIT_NODE_SIZE ∧ 0 < constantsSmall.BP_IN_CHUNK ∧
    ∃ g, AlignmentGraph.run constantsSmall [.addNode 2 "GATTACA" false] = .ok g
      ∧ addedSequence [.addNode 2 "GATTACA" false] 2 = some "GATTACA".data
      ∧ g.nodeLookup.lookup 2 = some [0, 1]
      ∧ g.NodeSequences constantsSmall ([0, 1].getD 1 0) 1 = .ok 'C' := by
  refine ⟨by decide, by decide, ?_⟩
  obtain ⟨g, hg⟩ := ok_of_isOk
    (AlignmentGraph.run constantsSmall [.addNode 2 "GATTACA" false]) (by decide!)
  have hl : g.nodeLookup.lookup 2 = some [0, 1] := by
    have : ((AlignmentGraph.run constantsSmall [.addNode 2 "GATTACA" false]).map
      (fun g => g.nodeLookup.lookup 2)) = .ok (some [0, 1]) := by decide!
    rw [hg] at this
    exact Except.ok.inj this
  have hlen : 1 < g.NodeLength ([0, 1].getD 1 0) := by
    have : ((AlignmentGraph.run constantsSmall [.addNode 2 "GATTACA" false]).map
      (fun g => decide (1 < g.NodeLength ([0, 1].getD 1 0)))) = .ok true := by decide!
    rw [hg] at this
    exact of_decide_eq_true (Except.ok.inj this)
  have hadd : addedSequence [.addNode 2 "GATTACA" false] 2 = some "GATTACA".data := by decide!
  have := ((C7_pack_roundtrip constantsSmall (by decide) (by decide) _ g hg).1 2 "GATTACA".data
    [0, 1] 1 1 hadd (by decide!) hl (by decide) hlen).2
  exact ⟨g, hg, hadd, hl, this⟩

theorem numChunks_pred_mul_lt (c : Constants) (hS : 0 < c.SPLIT_NODE_SIZE) (L : Nat)
    (hK : 0 < numChunks c L) : (numChunks c L - 1) * c.SPLIT_NODE_SIZE < L :=
  lt_numChunks c hS L _ (by omega)

theorem mirror_div (c : Constants) (hS : 0 < c.SPLIT_NODE_SIZE) (L i : Nat)
    (hi : i < numChunks c L) :
    (L - i * c.SPLIT_NODE_SIZE - 1) / c.SPLIT_NODE_SIZE = numChunks c L - 1 - i := by
  have h1 := numChunks_pred_mul_lt c hS L (by omega)
  have h2 := numChunks_mul_ge c hS L
  have h3 : i * c.SPLIT_NODE_SIZE ≤ (numChunks c L - 1) * c.SPLIT_NODE_SIZE :=
    Nat.mul_le_mul_right _ (by omega)
  have h4 : (numChunks c L - 1 - i) * c.SPLIT_NODE_SIZE
      = (numChunks c L - 1) * c.SPLIT_NODE_SIZE - i * c.SPLIT_NODE_SIZE := Nat.sub_mul _ _ _
  have h5 : (numChunks c L - 1) * c.SPLIT_NODE_SIZE
      = numChunks c L * c.SPLIT_NODE_SIZE - c.SPLIT_NODE_SIZE := by
    rw [Nat.sub_mul, Nat.one_mul]
  have h6 : c.SPLIT_NODE_SIZE ≤ numChunks c L * c.SPLIT_NODE_SIZE :=
    Nat.le_mul_of_pos_left _ (by omega)
  apply Nat.div_eq_of_lt_le
  · rw [h4]; omega
  · rw [Nat.succ_mul, h4]; omega

theorem getLastD_range' (first K : Nat) (hK : 0 < K) :
    (List.range' first K).getLastD 0 = first + (K - 1) := by
  obtain ⟨k, rfl⟩ : ∃ k, K = k + 1 := ⟨K - 1, by omega⟩
  rw [List.range'_concat]
  simp [List.getLastD_eq_getLast?]

theorem last_chunk_length (c : Constants) (hS : 0 < c.SPLIT_NODE_SIZE) (L : Nat)
    (hK : 0 < numChunks c L) :
    (numChunks c L - 1) * c.SPLIT_NODE_SIZE
      + min c.SPLIT_NODE_SIZE (L - (numChunks c L - 1) * c.SPLIT_NODE_SIZE) = L := by
  have h1 := numChunks_pred_mul_lt c hS L hK
  have h2 := numChunks_mul_ge c hS L
  have h5 : (numChunks c L - 1) * c.SPLIT_NODE_SIZE
      = numChunks c L * c.SPLIT_NODE_SIZE - c.SPLIT_NODE_SIZE := by
    rw [Nat.sub_mul, Nat.one_mul]
  have h6 : c.SPLIT_NODE_SIZE ≤ numChunks c L * c.SPLIT_NODE_SIZE :=
    Nat.le_mul_of_pos_left _ (by omega)
  omega

/-- `GetReverseNode` on a chunk whose partner, as the code computes it, is
present with a sequence of the same length: the result is the chunk of the
partner that mirrors the chunk's index. -/
theorem GetReverseNode_eq (c : Constants) (hS : 0 < c.SPLIT_NODE_SIZE)
    (g : AlignmentGraph) (id pid : Int) (seq seq' : List Char) (first first' i : Nat)
    (hl : g.nodeLookup.lookup id = some (List.range' first (numChunks c seq.length)))
    (hl' : g.nodeLookup.lookup pid = some (List.range' first' (numChunks c seq'.length)))
    (hlen : seq'.length = seq.length)
    (hb : first + numChunks c seq.length ≤ g.nodeLength.length)
    (hch : ChunksOK c g id seq first (numChunks c seq.length))
    (hi : i < numChunks c seq.length)
    (hpid : pid = if Int.tmod id 2 = 0 then Int.tdiv id 2 * 2 + 1 else Int.tdiv id 2 * 2) :
    g.GetReverseNode c (first + i) = .ok (first' + (numChunks c seq.length - 1 - i)) := by
  obtain ⟨c1, c2, c3, -⟩ := hch i hi
  obtain ⟨-, -, d3, -⟩ := hch (numChunks c seq.length - 1) (by omega)
  have hlast := last_chunk_length c hS seq.length (by omega)
  have hoff := lt_numChunks c hS _ i hi
  have hdiv := mirror_div c hS seq.length i hi
  unfold AlignmentGraph.GetReverseNode
  have hn : first + i < g.nodeLength.length := by omega
  simp only [assert, hn, decide_True, if_true, Except.bind_ok, c1, hl]
  have hsize : (List.range' first (numChunks c seq.length)).length - 1 = numChunks c seq.length - 1 := by
    simp
  have hos : ((List.range' first (numChunks c seq.length)).length - 1) * c.SPLIT_NODE_SIZE
      + g.NodeLength ((List.range' first (numChunks c seq.length)).getLastD 0) = seq.length := by
    rw [hsize, getLastD_range' _ _ (by omega)]
    unfold AlignmentGraph.NodeLength
    rw [d3, chunkAt_length]
    exact hlast
  rw [hos, c2, ← hpid, hl']
  have hc1 : i * c.SPLIT_NODE_SIZE < seq.length := hoff
  have hc2 : seq.length - i * c.SPLIT_NODE_SIZE - 1 < seq.length := by omega
  simp only [hc1, hc2, decide_True, if_true, Except.bind_ok, List.length_range', hlen, hdiv]
  have hc3 : numChunks c seq.length > numChunks c seq.length - 1 - i := by omega
  simp only [hc3, decide_True, if_true, Except.bind_ok, pure, Except.pure]
  rw [getD_range' _ _ _ (by omega)]

theorem codePartner_eq (id : Int) (h : 0 ≤ id ∨ id % 2 = 0) :
    (if Int.tmod id 2 = 0 then Int.tdiv id 2 * 2 + 1 else Int.tdiv id 2 * 2)
      = strandPartner id := by
  unfold strandPartner
  by_cases he : id % 2 = 0
  · have hd : (2 : Int) ∣ id := Int.dvd_of_emod_eq_zero he
    rw [Int.tmod_eq_zero_of_dvd hd, Int.tdiv_mul_cancel hd]
    simp [he]
  · have h0 : 0 ≤ id := by
      rcases h with h | h
      · exact h
      · exact absurd h he
    rw [Int.tmod_eq_emod h0 (by norm_num), Int.tdiv_eq_ediv h0 (by norm_num)]
    simp only [he, if_false]
    omega

theorem strandPartner_involutive (id : Int) : strandPartner (strandPartner id) = id := by
  unfold strandPartner
  split <;> split <;> omega

theorem strandPartner_nonneg (id : Int) (h : 0 ≤ id) : 0 ≤ strandPartner id := by
  unfold strandPartner
  split <;> omega

theorem lookup_of_added (c : Constants) (hS : 0 < c.SPLIT_NODE_SIZE) (ops : List Op)
    (g : AlignmentGraph) (h : AlignmentGraph.run c ops = .ok g) (id : Int) (seq : List Char)
    (hadd : addedSequence ops id = some seq) :
    ∃ first, g.nodeLookup.lookup id = some (List.range' first (numChunks c seq.length))
      ∧ first + numChunks c seq.length ≤ g.nodeLength.length
      ∧ ChunksOK c g id seq first (numChunks c seq.length) := by
  obtain ⟨hsz, hnone, hsome, hcov⟩ := run_Inv c hS ops g h
  cases hl : g.nodeLookup.lookup id with
  | none => rw [hnone id hl] at hadd; cases hadd
  | some chunks =>
    obtain ⟨seq', first, h3, h4, h5, h6⟩ := hsome id chunks hl
    rw [hadd] at h3
    injection h3 with h3
    subst h3
    exact ⟨first, by rw [h4], h5, h6⟩

/-- C8.  `GetReverseNode` is an involution.  In a graph reached by `run` in
which every id that was added is non-negative and has its strand partner added
with a sequence of the same length, `GetReverseNode(GetReverseNode(w)) = w` for
every split node `w`. -/
theorem C8_reverse_involution (c : Constants) (hS : 0 < c.SPLIT_NODE_SIZE) (ops : List Op)
    (g : AlignmentGraph) (h : AlignmentGraph.run c ops = .ok g)
    (hpart : ∀ id seq, addedSequence ops id = some seq →
      0 ≤ id ∧ ∃ seq', addedSequence ops (strandPartner id) = some seq'
        ∧ seq'.length = seq.length) :
    ∀ w < g.NodeSize, ∃ r, g.GetReverseNode c w = .ok r ∧ g.GetReverseNode c r = .ok w := by
  intro w hw
  obtain ⟨seq, first, i, hadd, hl, hb, hch, hi, hwi⟩ := node_is_chunk c hS ops g h w hw
  obtain ⟨hid, seq', hadd', hlen⟩ := hpart _ seq hadd
  obtain ⟨first', hl', hb', hch'⟩ := lookup_of_added c hS ops g h _ seq' hadd'
  have h1 := GetReverseNode_eq c hS g _ _ seq seq' first first' i hl hl' hlen hb hch hi
    (codePartner_eq _ (Or.inl hid)).symm
  have hl2 := hl
  rw [← strandPartner_involutive (g.nodeIDs.getD w 0)] at hl2
  have hi' : numChunks c seq.length - 1 - i < numChunks c seq'.length := by
    rw [hlen]; omega
  have h2 := GetReverseNode_eq c hS g _ _ seq' seq first' first
    (numChunks c seq.length - 1 - i) hl' hl2 hlen.symm hb' hch' hi'
    (codePartner_eq _ (Or.inl (strandPartner_nonneg _ hid))).symm
  refine ⟨_, by rw [hwi]; exact h1, ?_⟩
  rw [h2, hlen, hwi]
  congr 2
  omega

/-- C8 on the graph with the nodes `2 = "ACGTACGTAC"` and `3 = "GTACGTACGT"`,
4 bases in a split node: the reverse of the reverse of split node `1` is `1`. -/
theorem C8_witness :
    0 < constantsSmall.SPLIT_NODE_SIZE ∧
    ∃ g r, AlignmentGraph.run constantsSmall
        [.addNode 2 "ACGTACGTAC" false, .addNode 3 "GTACGTACGT" true] = .ok g
      ∧ 1 < g.NodeSize
      ∧ g.GetReverseNode constantsSmall 1 = .ok r
      ∧ g.GetReverseNode constantsSmall r = .ok 1 := by
  refine ⟨by decide, ?_⟩
  obtain ⟨g, hg⟩ := ok_of_isOk (AlignmentGraph.run constantsSmall
    [.addNode 2 "ACGTACGTAC" false, .addNode 3 "GTACGTACGT" true]) (by decide!)
  have hn : 1 < g.NodeSize := by
    have : ((AlignmentGraph.run constantsSmall
      [.addNode 2 "ACGTACGTAC" false, .addNode 3 "GTACGTACGT" true]).map
      (fun g => decide (1 < g.NodeSize))) = .ok true := by decide!
    rw [hg] at this
    exact of_decide_eq_true (Except.ok.inj this)
  have hpart : ∀ id seq, addedSequence
      [.addNode 2 "ACGTACGTAC" false, .addNode 3 "GTACGTACGT" true] id = some seq →
      0 ≤ id ∧ ∃ seq', addedSequence
        [.addNode 2 "ACGTACGTAC" false, .addNode 3 "GTACGTACGT" true] (strandPartner id)
          = some seq' ∧ seq'.length = seq.length := by
    intro id seq hadd
    by_cases h2 : id = 2
    · subst h2
      have : addedSequence [.addNode 2 "ACGTACGTAC" false, .addNode 3 "GTACGTACGT" true] 2
          = some "ACGTACGTAC".data := by decide!
      rw [this] at hadd
      injection hadd with hadd
      subst hadd
      exact ⟨by decide, "GTACGTACGT".data, by decide!, by decide⟩
    · by_cases h3 : id = 3
      · subst h3
        have : addedSequence [.addNode 2 "ACGTACGTAC" false, .addNode 3 "GTACGTACGT" true] 3
            = some "GTACGTACGT".data := by decide!
        rw [this] at hadd
        injection hadd with hadd
        subst hadd
        exact ⟨by decide, "ACGTACGTAC".data, by decide!, by decide⟩
      · exfalso
        simp [addedSequence, List.findSome?, Ne.symm h2, Ne.symm h3] at hadd
  obtain ⟨r, h1, h2⟩ := C8_reverse_involution constantsSmall (by decide) _ g hg hpart 1 hn
  exact ⟨g, r, hg, hn, h1, h2⟩

/-- C9, the claim as stated fails for a negative odd id.  With the nodes
`-3 = "A"` and `-4 = "A"` the strand partner `id - 1 = -4` of the odd id `-3` is
present with the same sequence length, but `GetReverseNode` of the split node
of `-3` looks for the id `(-3 / 2) * 2 = -2` and ends in a failing assertion. -/
theorem C9_counterexample :
    strandPartner (-3) = -4
    ∧ addedSequence [.addNode (-3) "A" true, .addNode (-4) "A" false] (-3) = some ['A']
    ∧ addedSequence [.addNode (-3) "A" true, .addNode (-4) "A" false] (-4) = some ['A']
    ∧ (do let g ← AlignmentGraph.run constants64
                [.addNode (-3) "A" true, .addNode (-4) "A" false]
          pure (g.nodeIDs.getD 0 0, g.GetReverseNode constants64 0))
        = .ok (-3, .error "GetReverseNode: partner") := by
  decide!

/-- C9, amended to ids that are even or non-negative.  In a graph reached by
`run`, let `w` be a split node whose original id is even or non-negative and
whose strand partner (`id + 1` for an even id, `id - 1` for an odd id) was added
with a sequence of the same length `L` as the id itself.  Then
`GetReverseNode(w)` returns a chunk `r` of the partner id that covers the
mirrored offset: `offset(r) ≤ L - offset(w) - 1 < offset(r) + length(r)`; and
`L`, computed as `(number of chunks - 1) * SPLIT_NODE_SIZE + length of the last
chunk`, is the sum of the chunk lengths of the id of `w`. -/
theorem C9_reverse_mirror (c : Constants) (hS : 0 < c.SPLIT_NODE_SIZE) (ops : List Op)
    (g : AlignmentGraph) (h : AlignmentGraph.run c ops = .ok g) (w : Nat)
    (hw : w < g.NodeSize) (seq seq' : List Char)
    (hid : 0 ≤ g.nodeIDs.getD w 0 ∨ g.nodeIDs.getD w 0 % 2 = 0)
    (hadd : addedSequence ops (g.nodeIDs.getD w 0) = some seq)
    (hadd' : addedSequence ops (strandPartner (g.nodeIDs.getD w 0)) = some seq')
    (hlen : seq'.length = seq.length) :
    ∃ r chunks rchunks, g.GetReverseNode c w = .ok r
      ∧ g.nodeLookup.lookup (g.nodeIDs.getD w 0) = some chunks
      ∧ g.nodeLookup.lookup (strandPartner (g.nodeIDs.getD w 0)) = some rchunks
      ∧ r ∈ rchunks ∧ g.nodeIDs.getD r 0 = strandPartner (g.nodeIDs.getD w 0)
      ∧ g.nodeOffset.getD r 0 ≤ seq.length - g.nodeOffset.getD w 0 - 1
      ∧ seq.length - g.nodeOffset.getD w 0 - 1 < g.nodeOffset.getD r 0 + g.NodeLength r
      ∧ (chunks.length - 1) * c.SPLIT_NODE_SIZE + g.NodeLength (chunks.getLastD 0) = seq.length
      ∧ (chunks.map g.NodeLength).sum = seq.length := by
  obtain ⟨seq0, first, i, hadd0, hl, hb, hch, hi, hwi⟩ := node_is_chunk c hS ops g h w hw
  rw [hadd] at hadd0
  injection hadd0 with hadd0
  subst hadd0
  obtain ⟨first', hl', hb', hch'⟩ := lookup_of_added c hS ops g h _ seq' hadd'
  have h1 := GetReverseNode_eq c hS g _ _ seq seq' first first' i hl hl' hlen hb hch hi
    (codePartner_eq _ hid).symm
  have hj : numChunks c seq.length - 1 - i < numChunks c seq'.length := by rw [hlen]; omega
  obtain ⟨r1, r2, r3, -⟩ := hch' _ hj
  obtain ⟨w1, w2, w3, -⟩ := hch i hi
  obtain ⟨-, -, d3, -⟩ := hch (numChunks c seq.length - 1) (by omega)
  have hdiv := mirror_div c hS seq.length i hi
  have hoff := lt_numChunks c hS _ i hi
  have hsum := chunk_layout c hS ops g h _ _ hl
  obtain ⟨seq2, hs1, -, -, hs4, -⟩ := hsum
  rw [hadd] at hs1
  injection hs1 with hs1
  subst hs1
  refine ⟨_, _, _, by rw [hwi]; exact h1, hl, hl', ?_, r1, ?_, ?_, ?_, hs4⟩
  · rw [List.mem_range']
    exact ⟨_, hj, by simp⟩
  · rw [r2, hwi, w2]
    have := Nat.div_mul_le_self (seq.length - i * c.SPLIT_NODE_SIZE - 1) c.SPLIT_NODE_SIZE
    rw [hdiv] at this
    exact this
  · unfold AlignmentGraph.NodeLength
    rw [r2, r3, chunkAt_length, hwi, w2, hlen]
    have := Nat.lt_div_mul_add hS (a := seq.length - i * c.SPLIT_NODE_SIZE - 1)
    rw [hdiv] at this
    omega
  · simp only [List.length_range']
    rw [getLastD_range' _ _ (by omega)]
    unfold AlignmentGraph.NodeLength
    rw [d3, chunkAt_length]
    exact last_chunk_length c hS seq.length (by omega)

set_option maxRecDepth 100000 in
/-- C9 on the graph with the nodes `2 = "ACGTACGTAC"` and `3 = "GTACGTACGT"`,
4 bases in a split node: the reverse of split node `0` (offset 0 of node `2`)
is a chunk of node `3` that covers the mirrored offset `9`. -/
theorem C9_witness :
    0 < constantsSmall.SPLIT_NODE_SIZE ∧
    ∃ g r, AlignmentGraph.run constantsSmall
        [.addNode 2 "ACGTACGTAC" false, .addNode 3 "GTACGTACGT" true] = .ok g
      ∧ 0 < g.NodeSize ∧ g.nodeIDs.getD 0 0 = 2 ∧ strandPartner 2 = 3
      ∧ g.GetReverseNode constantsSmall 0 = .ok r
      ∧ g.nodeIDs.getD r 0 = 3
      ∧ g.nodeOffset.getD r 0 ≤ 10 - g.nodeOffset.getD 0 0 - 1
      ∧ 10 - g.nodeOffset.getD 0 0 - 1 < g.nodeOffset.getD r 0 + g.NodeLength r := by
  refine ⟨by decide, ?_⟩
  obtain ⟨g, hg⟩ := ok_of_isOk (AlignmentGraph.run constantsSmall
    [.addNode 2 "ACGTACGTAC" false, .addNode 3 "GTACGTACGT" true]) (by decide!)
  have hfacts : 0 < g.NodeSize ∧ g.nodeIDs.getD 0 0 = 2 := by
    have : ((AlignmentGraph.run constantsSmall
      [.addNode 2 "ACGTACGTAC" false, .addNode 3 "GTACGTACGT" true]).map
      (fun g => decide (0 < g.NodeSize ∧ g.nodeIDs.getD 0 0 = 2))) = .ok true := by decide!
    rw [hg] at this
    exact of_decide_eq_true (Except.ok.inj this)
  obtain ⟨hn, h2⟩ := hfacts
  obtain ⟨r, chunks, rchunks, h1, -, -, -, h5, h6, h7, -, -⟩ :=
    C9_reverse_mirror constantsSmall (by decide) _ g hg 0 hn "ACGTACGTAC".data "GTACGTACGT".data
      (Or.inl (by rw [h2]; decide)) (by rw [h2]; decide!) (by rw [h2]; decide!) (by decide)
  rw [h2] at h5
  exact ⟨g, r, hg, hn, h2, by decide, h1, h5, h6, h7⟩

theorem addedSequence_ne_nil (ops : List Op) (id : Int) (seq : List Char)
    (h : addedSequence ops id = some seq) : seq ≠ [] := by
  unfold addedSequence at h
  obtain ⟨op, -, hop⟩ := List.exists_of_findSome?_eq_some h
  cases op with
  | addNode i s r =>
    simp only at hop
    split at hop
    · rename_i hc
      injection hop with hop
      rw [← hop]
      exact hc.2
    · cases hop
  | addEdge a b => cases hop
  | finalize w => cases hop

theorem getD_set_self {α : Type} (l : List α) (i : Nat) (x d : α) (h : i < l.length) :
    (l.set i x).getD i d = x := by
  simp [List.getD_eq_getElem?_getD, List.getElem?_set, h]

theorem getD_set_other {α : Type} (l : List α) (i j : Nat) (x d : α) (h : j ≠ i) :
    (l.set i x).getD j d = l.getD j d := by
  simp [List.getD_eq_getElem?_getD, List.getElem?_set, Ne.symm h]

/-- C10.  In a graph reached by `run` that is not finalized and in which both
ids are present, `AddEdgeNodeId(a, b)` succeeds; afterwards the last chunk of
`a` is an in-neighbor of the first chunk of `b` and the first chunk of `b` is
an out-neighbor of the last chunk of `a`; no other adjacency list and no node
data has changed; and a second identical call leaves the state as it is. -/
theorem C10_add_edge (c : Constants) (hS : 0 < c.SPLIT_NODE_SIZE) (ops : List Op)
    (g : AlignmentGraph) (h : AlignmentGraph.run c ops = .ok g)
    (hfin : g.finalized = false) (a b : Int) (fromChunks toChunks : List Nat)
    (ha : g.nodeLookup.lookup a = some fromChunks)
    (hb : g.nodeLookup.lookup b = some toChunks) :
    ∃ g' src dst, g.AddEdgeNodeId a b = .ok g'
      ∧ fromChunks.getLast? = some src ∧ toChunks.head? = some dst
      ∧ src ∈ g'.inNeighbors.getD dst [] ∧ dst ∈ g'.outNeighbors.getD src []
      ∧ (g'.inNeighbors.getD dst [] = g.inNeighbors.getD dst []
          ∨ g'.inNeighbors.getD dst [] = g.inNeighbors.getD dst [] ++ [src])
      ∧ (g'.outNeighbors.getD src [] = g.outNeighbors.getD src []
          ∨ g'.outNeighbors.getD src [] = g.outNeighbors.getD src [] ++ [dst])
      ∧ (∀ w, w ≠ dst → g'.inNeighbors.getD w [] = g.inNeighbors.getD w [])
      ∧ (∀ w, w ≠ src → g'.outNeighbors.getD w [] = g.outNeighbors.getD w [])
      ∧ g'.inNeighbors.length = g.inNeighbors.length
      ∧ g'.outNeighbors.length = g.outNeighbors.length
      ∧ g'.nodeLength = g.nodeLength ∧ g'.nodeLookup = g.nodeLookup
      ∧ g'.nodeIDs = g.nodeIDs ∧ g'.reverse = g.reverse ∧ g'.nodeOffset = g.nodeOffset
      ∧ g'.nodeSequences = g.nodeSequences ∧ g'.finalized = g.finalized
      ∧ g'.DBGOverlap = g.DBGOverlap
      ∧ g'.AddEdgeNodeId a b = .ok g' := by
  obtain ⟨hsz, hnone, hsome, hcov⟩ := run_Inv c hS ops g h
  obtain ⟨s1, s2, s3, s4, s5, s6⟩ := hsz
  obtain ⟨seqa, firsta, a1, a2, a3, -⟩ := hsome a fromChunks ha
  obtain ⟨seqb, firstb, b1, b2, b3, -⟩ := hsome b toChunks hb
  have hKa : 0 < numChunks c seqa.length := by
    have := addedSequence_ne_nil ops a seqa a1
    have := (numChunks_eq_zero c hS seqa.length).not.mpr (by simpa using this)
    omega
  have hKb : 0 < numChunks c seqb.length := by
    have := addedSequence_ne_nil ops b seqb b1
    have := (numChunks_eq_zero c hS seqb.length).not.mpr (by simpa using this)
    omega
  have hsrc : fromChunks.getLastD 0 = firsta + (numChunks c seqa.length - 1) := by
    rw [a2]; exact getLastD_range' _ _ hKa
  have hdst : toChunks.getD 0 0 = firstb := by
    rw [b2, getD_range' _ _ _ hKb]; rfl
  have hsrc? : fromChunks.getLast? = some (fromChunks.getLastD 0) := by
    rw [List.getLastD_eq_getLast?]
    cases hq : fromChunks.getLast? with
    | none =>
      rw [List.getLast?_eq_none_iff] at hq
      rw [hq] at a2
      have := congrArg List.length a2
      simp at this
      omega
    | some x => rfl
  have hdst? : toChunks.head? = some (toChunks.getD 0 0) := by
    rw [b2]
    obtain ⟨k, hk⟩ : ∃ k, numChunks c seqb.length = k + 1 := ⟨_, (Nat.succ_pred_eq_of_pos hKb).symm⟩
    rw [hk]
    simp [List.range'_succ]
  have hd : toChunks.getD 0 0 < g.inNeighbors.length := by rw [hdst, s2]; omega
  have hd' : fromChunks.getLastD 0 < g.nodeLength.length := by rw [hsrc]; omega
  have hso : fromChunks.getLastD 0 < g.outNeighbors.length := by rw [s3]; exact hd'
  obtain ⟨src, hsrcdef⟩ : ∃ src, src = fromChunks.getLastD 0 := ⟨_, rfl⟩
  obtain ⟨dst, hdstdef⟩ : ∃ dst, dst = toChunks.getD 0 0 := ⟨_, rfl⟩
  rw [← hsrcdef] at hd' hso hsrc?
  rw [← hdstdef] at hd hdst?
  have hcall : ∀ g1 : AlignmentGraph, g1.finalized = false → g1.nodeLookup = g.nodeLookup →
      g1.inNeighbors.length = g.inNeighbors.length → g1.nodeLength = g.nodeLength →
      g1.AddEdgeNodeId a b = .ok { g1 with
        inNeighbors :=
          if (g1.inNeighbors.getD dst []).contains src then g1.inNeighbors
          else g1.inNeighbors.set dst (g1.inNeighbors.getD dst [] ++ [src])
        outNeighbors :=
          if (g1.outNeighbors.getD src []).contains dst then g1.outNeighbors
          else g1.outNeighbors.set src (g1.outNeighbors.getD src [] ++ [dst]) } := by
    intro g1 f1 f2 f3 f4
    unfold AlignmentGraph.AddEdgeNodeId
    simp only [assert, f1, f2, f3, f4, ha, hb, ← hsrcdef, ← hdstdef, hd, hd', Bool.not_false,
      decide_True, if_true, Except.bind_ok, pure, Except.pure]
  have hmem_in : src ∈ (if (g.inNeighbors.getD dst []).contains src then g.inNeighbors
      else g.inNeighbors.set dst (g.inNeighbors.getD dst [] ++ [src])).getD dst [] := by
    split
    · rename_i hc
      simpa using hc
    · rw [getD_set_self _ _ _ _ hd]
      simp
  have hmem_out : dst ∈ (if (g.outNeighbors.getD src []).contains dst then g.outNeighbors
      else g.outNeighbors.set src (g.outNeighbors.getD src [] ++ [dst])).getD src [] := by
    split
    · rename_i hc
      simpa using hc
    · rw [getD_set_self _ _ _ _ hso]
      simp
  refine ⟨_, src, dst, hcall g hfin rfl rfl rfl, hsrc?, hdst?, hmem_in, hmem_out, ?_, ?_,
    ?_, ?_, ?_, ?_, rfl, rfl, rfl, rfl, rfl, rfl, rfl, rfl, ?_⟩
  · simp only
    split
    · exact Or.inl rfl
    · exact Or.inr (getD_set_self _ _ _ _ hd)
  · simp only
    split
    · exact Or.inl rfl
    · exact Or.inr (getD_set_self _ _ _ _ hso)
  · intro w hw
    simp only
    split
    · rfl
    · exact getD_set_other _ _ _ _ _ hw
  · intro w hw
    simp only
    split
    · rfl
    · exact getD_set_other _ _ _ _ _ hw
  · simp only; split <;> simp
  · simp only; split <;> simp
  · refine Eq.trans (hcall _ (by exact hfin) rfl ?_ rfl) ?_
    · simp only; split <;> simp
    · simp only
      have e1 : (List.getD (if (g.inNeighbors.getD dst []).contains src then g.inNeighbors
          else g.inNeighbors.set dst (g.inNeighbors.getD dst [] ++ [src])) dst []).contains src
          = true := by simpa using hmem_in
      have e2 : (List.getD (if (g.outNeighbors.getD src []).contains dst then g.outNeighbors
          else g.outNeighbors.set src (g.outNeighbors.getD src [] ++ [dst])) src []).contains dst
          = true := by simpa using hmem_out
      rw [e1, e2]
      simp

set_option maxRecDepth 100000 in
/-- C10 on the graph with the nodes `2 = "ACGTAC"` (split nodes 0 and 1) and
`4 = "GT"` (split node 2), 4 bases in a split node: `AddEdgeNodeId(2, 4)`
connects split node 1 to split node 2, and a second call changes nothing. -/
theorem C10_witness :
    0 < constantsSmall.SPLIT_NODE_SIZE ∧
    ∃ g g', AlignmentGraph.run constantsSmall
        [.addNode 2 "ACGTAC" false, .addNode 4 "GT" false] = .ok g
      ∧ g.finalized = false
      ∧ g.nodeLookup.lookup 2 = some [0, 1] ∧ g.nodeLookup.lookup 4 = some [2]
      ∧ g.AddEdgeNodeId 2 4 = .ok g'
      ∧ 1 ∈ g'.inNeighbors.getD 2 [] ∧ 2 ∈ g'.outNeighbors.getD 1 []
      ∧ g'.AddEdgeNodeId 2 4 = .ok g' := by
  refine ⟨by decide, ?_⟩
  obtain ⟨g, hg⟩ := ok_of_isOk (AlignmentGraph.run constantsSmall
    [.addNode 2 "ACGTAC" false, .addNode 4 "GT" false]) (by decide!)
  have hfacts : g.finalized = false ∧ g.nodeLookup.lookup 2 = some [0, 1]
      ∧ g.nodeLookup.lookup 4 = some [2] := by
    have : ((AlignmentGraph.run constantsSmall
      [.addNode 2 "ACGTAC" false, .addNode 4 "GT" false]).map
      (fun g => decide (g.finalized = false ∧ g.nodeLookup.lookup 2 = some [0, 1]
        ∧ g.nodeLookup.lookup 4 = some [2]))) = .ok true := by decide!
    rw [hg] at this
    exact of_decide_eq_true (Except.ok.inj this)
  obtain ⟨hfin, h2, h4⟩ := hfacts
  obtain ⟨g', src, dst, e1, e2, e3, e4, e5, -, -, -, -, -, -, -, -, -, -, -, -, -, -, e6⟩ :=
    C10_add_edge constantsSmall (by decide) _ g hg hfin 2 4 [0, 1] [2] h2 h4
  have hs : src = 1 := by simpa using e2.symm
  have hd : dst = 2 := by simpa using e3.symm
  subst hs hd
  exact ⟨g, g', hg, hfin, h2, h4, e1, e4, e5, e6⟩

/-! ## Theorems: calls that change nothing and calls that are rejected -/

/-- C12.  `AddNode` with an id that is already present returns the graph it
was given, whatever the sequence (and the strand flag) is: for
`AlignmentGraph::AddNode` on a graph that is not finalized, and for
`GraphAligner::AddNode` on every graph. -/
theorem C12_add_node_present (c : Constants) (ag : AlignmentGraph) (ga : GraphAligner)
    (nodeId : Int) (sequence : String) (reverseNode : Bool) :
    (ag.finalized = false → (ag.nodeLookup.lookup nodeId).isSome = true →
      ag.AddNode c nodeId sequence reverseNode = .ok ag)
    ∧ ((ga.nodeLookup.lookup nodeId).isSome = true → ga.AddNode nodeId sequence = .ok ga) := by
  constructor
  · intro hfin hpresent
    simp [AlignmentGraph.AddNode, hfin, hpresent, assert, bind, Except.bind, pure, Except.pure]
  · intro hpresent
    simp [GraphAligner.AddNode, hpresent]

set_option maxRecDepth 100000 in
/-- C12 at the node `2`: a second `AddNode` for the id `2` with another
sequence changes neither kind of graph. -/
theorem C12_witness :
    ∃ ag ga, AlignmentGraph.run constantsSmall [.addNode 2 "GATTACA" false] = .ok ag
      ∧ GraphAligner.ctor.AddNode 2 "ACGT" = .ok ga
      ∧ ag.finalized = false ∧ (ag.nodeLookup.lookup 2).isSome = true
      ∧ (ga.nodeLookup.lookup 2).isSome = true
      ∧ ag.AddNode constantsSmall 2 "TTTT" true = .ok ag
      ∧ ga.AddNode 2 "TTTT" = .ok ga := by
  obtain ⟨ag, hag⟩ := ok_of_isOk
    (AlignmentGraph.run constantsSmall [.addNode 2 "GATTACA" false]) (by decide!)
  obtain ⟨ga, hga⟩ := ok_of_isOk (GraphAligner.ctor.AddNode 2 "ACGT") (by decide!)
  have h1 : ag.finalized = false := by
    have : ((AlignmentGraph.run constantsSmall [.addNode 2 "GATTACA" false]).map
      (fun g => g.finalized)) = .ok false := by decide!
    rw [hag] at this
    exact Except.ok.inj this
  have h2 : (ag.nodeLookup.lookup 2).isSome = true := by
    have : ((AlignmentGraph.run constantsSmall [.addNode 2 "GATTACA" false]).map
      (fun g => (g.nodeLookup.lookup 2).isSome)) = .ok true := by decide!
    rw [hag] at this
    exact Except.ok.inj this
  have h3 : (ga.nodeLookup.lookup 2).isSome = true := by
    have : ((GraphAligner.ctor.AddNode 2 "ACGT").map
      (fun g => (g.nodeLookup.lookup 2).isSome)) = .ok true := by decide!
    rw [hga] at this
    exact Except.ok.inj this
  have h := C12_add_node_present constantsSmall ag ga 2 "TTTT" true
  exact ⟨ag, ga, hag, hga, h1, h2, h3, h.1 h1 h2, h.2 h3⟩

theorem AddNode_finalized (c : Constants) (g : AlignmentGraph) (h : g.finalized = true)
    (nodeId : Int) (sequence : String) (reverseNode : Bool) :
    g.AddNode c nodeId sequence reverseNode = .error "AddNode: finalized" := by
  simp [AlignmentGraph.AddNode, h, assert, bind, Except.bind]

theorem AddEdgeNodeId_finalized (g : AlignmentGraph) (h : g.finalized = true) (a b : Int) :
    g.AddEdgeNodeId a b = .error "AddEdgeNodeId: finalized" := by
  simp [AlignmentGraph.AddEdgeNodeId, h, assert, bind, Except.bind]

theorem apply_finalized (c : Constants) (g g' : AlignmentGraph) (h : g.finalized = true)
    (op : Op) (hop : g.apply c op = .ok g') : g' = g := by
  cases op with
  | addNode i s r =>
    rw [AlignmentGraph.apply, AddNode_finalized c g h] at hop
    cases hop
  | addEdge a b =>
    rw [AlignmentGraph.apply, AddEdgeNodeId_finalized g h] at hop
    cases hop
  | finalize w =>
    rw [AlignmentGraph.apply] at hop
    have e := Finalize_ok g g' w hop
    subst e
    cases g
    simp_all

theorem foldlM_apply_finalized (c : Constants) (ops : List Op) :
    ∀ (g g' : AlignmentGraph), g.finalized = true →
      ops.foldlM (AlignmentGraph.apply c) g = .ok g' → g' = g := by
  induction ops with
  | nil =>
    intro g g' _ h
    simp only [List.foldlM, pure, Except.pure] at h
    injection h with h
    exact h.symm
  | cons op rest ih =>
    intro g g' hfin h
    simp only [List.foldlM, bind, Except.bind] at h
    split at h
    · cases h
    · rename_i g1 h1
      have e := apply_finalized c g g1 hfin op h1
      rw [e] at h
      exact ih g g' hfin h

theorem Finalize_of_Sized (g : AlignmentGraph) (h : Sized g) (wordSize : Int) :
    g.Finalize wordSize = .ok { g with finalized := true } := by
  obtain ⟨h1, h2, h3, h4, h5, h6⟩ := h
  simp [AlignmentGraph.Finalize, assert, bind, Except.bind, pure, Except.pure, h1, h2, h3, h4,
    h5, h6]

/-- C13.  On every graph reached from the constructor `Finalize` succeeds; the
graph it returns is finalized and has the node data and the adjacency of the
graph before.  From then on every call of `AddNode` (for any id, present or
not) and every call of `AddEdgeNodeId` is rejected by the `finalized`
assertion, so that any sequence of later calls that goes through leaves the
graph as it is, `finalized` included. -/
theorem C13_finalized_monotone (c : Constants) (hS : 0 < c.SPLIT_NODE_SIZE) (ops : List Op)
    (g : AlignmentGraph) (h : AlignmentGraph.run c ops = .ok g) (wordSize : Int) :
    ∃ g1, g.Finalize wordSize = .ok g1
      ∧ g1.finalized = true
      ∧ g1 = { g with finalized := true }
      ∧ (∀ (later : List Op) (g2 : AlignmentGraph),
          later.foldlM (AlignmentGraph.apply c) g1 = .ok g2 →
          g2.finalized = true ∧ g2 = g1
          ∧ (∀ nodeId sequence reverseNode,
              g2.AddNode c nodeId sequence reverseNode = .error "AddNode: finalized")
          ∧ (∀ a b, g2.AddEdgeNodeId a b = .error "AddEdgeNodeId: finalized")) := by
  obtain ⟨hsz, -⟩ := run_Inv c hS ops g h
  refine ⟨{ g with finalized := true }, Finalize_of_Sized g hsz wordSize, rfl, rfl, ?_⟩
  intro later g2 h2
  have := foldlM_apply_finalized c later _ g2 rfl h2
  subst this
  exact ⟨rfl, rfl, fun i s r => AddNode_finalized c _ rfl i s r,
    fun a b => AddEdgeNodeId_finalized _ rfl a b⟩

set_option maxRecDepth 100000 in
/-- C13 at the node `2 = "GATTACA"`: after `Finalize` a further `Finalize` goes
through and leaves the graph as it is, `AddNode` and `AddEdgeNodeId` are
rejected. -/
theorem C13_witness :
    0 < constantsSmall.SPLIT_NODE_SIZE
    ∧ ∃ g g1, AlignmentGraph.run constantsSmall [.addNode 2 "GATTACA" false] = .ok g
      ∧ g.Finalize 0 = .ok g1
      ∧ [Op.finalize 0].foldlM (AlignmentGraph.apply constantsSmall) g1 = .ok g1
      ∧ g1.AddNode constantsSmall 4 "A" false = .error "AddNode: finalized"
      ∧ g1.AddEdgeNodeId 2 2 = .error "AddEdgeNodeId: finalized" := by
  refine ⟨by decide, ?_⟩
  obtain ⟨g, hg⟩ := ok_of_isOk
    (AlignmentGraph.run constantsSmall [.addNode 2 "GATTACA" false]) (by decide!)
  obtain ⟨g1, h1, hfin, -, h4⟩ := C13_finalized_monotone constantsSmall (by decide) _ g hg 0
  obtain ⟨g2, h2⟩ : ∃ g2, [Op.finalize 0].foldlM (AlignmentGraph.apply constantsSmall) g1
      = .ok g2 := by
    refine ⟨g1, ?_⟩
    simp only [List.foldlM, AlignmentGraph.apply, bind, Except.bind, pure, Except.pure]
    cases hf : g1.Finalize 0 with
    | ok g3 =>
      have := apply_finalized constantsSmall g1 g3 hfin (.finalize 0) hf
      subst this
      rfl
    | error e =>
      exfalso
      unfold AlignmentGraph.Finalize at hf h1
      have e1 : g1 = { g with finalized := true } := by
        obtain ⟨_, h1⟩ := assert_bind_ok h1
        obtain ⟨_, h1⟩ := assert_bind_ok h1
        obtain ⟨_, h1⟩ := assert_bind_ok h1
        obtain ⟨_, h1⟩ := assert_bind_ok h1
        obtain ⟨_, h1⟩ := assert_bind_ok h1
        obtain ⟨_, h1⟩ := assert_bind_ok h1
        injection h1 with h1
        exact h1.symm
      subst e1
      rw [h1] at hf
      cases hf
  obtain ⟨-, e, ha, hb⟩ := h4 _ g2 h2
  subst e
  exact ⟨g, g2, hg, h1, h2, ha 4 "A" false, hb 2 2⟩

theorem foldlM_error_of_step {α β : Type} (f : α → β → Except String α) (l : List β) (k : β)
    (hk : k ∈ l) (hf : ∀ a, ∃ e, f a k = .error e) :
    ∀ a, ∃ e, l.foldlM f a = .error e := by
  induction l with
  | nil => cases hk
  | cons x t ih =>
    intro a
    simp only [List.foldlM, bind, Except.bind]
    cases hx : f a x with
    | error e => exact ⟨e, rfl⟩
    | ok a1 =>
      simp only []
      rcases List.mem_cons.mp hk with h | h
      · subst h
        obtain ⟨e, he⟩ := hf a
        rw [he] at hx
        cases hx
      · exact ih h a1

theorem packBases_error (c : Constants) (chars : List Char) (ch : Char) (hch : ch ∈ chars)
    (hbad : baseCode ch = none) :
    ∀ i words, ∃ e, packBases c chars i words = .error e := by
  induction chars with
  | nil => cases hch
  | cons x t ih =>
    intro i words
    unfold packBases
    rcases List.mem_cons.mp hch with h | h
    · subst h
      rw [hbad]
      exact ⟨_, rfl⟩
    · cases hx : baseCode x with
      | none => exact ⟨_, rfl⟩
      | some code => exact ih h _ _

theorem AddNodeStep_error (c : Constants) (nodeId : Int) (sequence : List Char)
    (reverseNode : Bool) (i : Nat) (ch : Char)
    (hch : ch ∈ (sequence.drop i).take c.SPLIT_NODE_SIZE) (hbad : baseCode ch = none)
    (g : AlignmentGraph) :
    ∃ e, AlignmentGraph.AddNodeStep c nodeId sequence reverseNode g i = .error e := by
  cases h : AlignmentGraph.AddNodeStep c nodeId sequence reverseNode g i with
  | error e => exact ⟨e, rfl⟩
  | ok g' =>
    exfalso
    obtain ⟨g1, h1, -⟩ := AddNodeStep_ok c g g' nodeId sequence reverseNode i h
    obtain ⟨-, -, words, hw, -⟩ := AddNodeOffset_ok c g g1 nodeId i _ reverseNode h1
    obtain ⟨e, he⟩ := packBases_error c _ ch hch hbad 0 (List.replicate c.CHUNKS_IN_NODE 0)
    rw [he] at hw
    cases hw

theorem mem_chunk (c : Constants) (hS : 0 < c.SPLIT_NODE_SIZE) (sequence : List Char)
    (ch : Char) (hch : ch ∈ sequence) :
    ∃ k, k < (sequence.length + c.SPLIT_NODE_SIZE - 1) / c.SPLIT_NODE_SIZE
      ∧ ch ∈ (sequence.drop (k * c.SPLIT_NODE_SIZE)).take c.SPLIT_NODE_SIZE := by
  obtain ⟨p, hp, hget⟩ := List.getElem_of_mem hch
  refine ⟨p / c.SPLIT_NODE_SIZE, ?_, ?_⟩
  · rw [Nat.div_lt_iff_lt_mul hS]
    have := Nat.div_add_mod (sequence.length + c.SPLIT_NODE_SIZE - 1) c.SPLIT_NODE_SIZE
    have h2 := Nat.mod_lt (sequence.length + c.SPLIT_NODE_SIZE - 1) hS
    have h3 : c.SPLIT_NODE_SIZE * ((sequence.length + c.SPLIT_NODE_SIZE - 1) / c.SPLIT_NODE_SIZE)
        = (sequence.length + c.SPLIT_NODE_SIZE - 1) / c.SPLIT_NODE_SIZE * c.SPLIT_NODE_SIZE :=
      Nat.mul_comm _ _
    omega
  · rw [List.mem_iff_getElem]
    have hdm := Nat.div_add_mod p c.SPLIT_NODE_SIZE
    have hm := Nat.mod_lt p hS
    have hcomm : c.SPLIT_NODE_SIZE * (p / c.SPLIT_NODE_SIZE)
        = p / c.SPLIT_NODE_SIZE * c.SPLIT_NODE_SIZE := Nat.mul_comm _ _
    refine ⟨p % c.SPLIT_NODE_SIZE, ?_, ?_⟩
    · simp only [List.length_take, List.length_drop]
      omega
    · rw [List.getElem_take, List.getElem_drop]
      rw [← hget]
      congr 1
      omega

/-- C14, the claim as stated fails.  The sequence `"acgt"` has no character
among the four letters `A`, `C`, `G`, `T`, and `AddNode` on the empty graph adds
it as node `2`: one split node of four bases. -/
theorem C14_counterexample :
    (∀ ch ∈ "acgt".data, ch ∉ ['A', 'C', 'G', 'T'])
    ∧ AlignmentGraph.ctor.finalized = false
    ∧ AlignmentGraph.ctor.nodeLookup.lookup 2 = none
    ∧ (AlignmentGraph.ctor.AddNode constants64 2 "acgt" false).map
        (fun g => (g.nodeLookup.lookup 2, g.nodeLength)) = .ok (some [0], [4]) := by
  decide!

/-- C14, amended to the eight letters of the `switch`.  For every graph that is
not finalized, every node id that is not present and every sequence with at
least one character that is none of `a`, `A`, `c`, `C`, `g`, `G`, `t`, `T`,
`AddNode` ends in a failing assertion and returns no graph. -/
theorem C14_add_node_rejects (c : Constants) (hS : 0 < c.SPLIT_NODE_SIZE) (g : AlignmentGraph)
    (nodeId : Int) (sequence : String) (reverseNode : Bool) (ch : Char)
    (hfin : g.finalized = false) (hnew : g.nodeLookup.lookup nodeId = none)
    (hch : ch ∈ sequence.data)
    (hbad : ch ∉ ['a', 'A', 'c', 'C', 'g', 'G', 't', 'T']) :
    ∃ e, g.AddNode c nodeId sequence reverseNode = .error e := by
  have hcode : baseCode ch = none := by
    simp only [List.mem_cons, List.mem_singleton, List.not_mem_nil, or_false, not_or] at hbad
    obtain ⟨h1, h2, h3, h4, h5, h6, h7, h8⟩ := hbad
    simp [baseCode, h1, h2, h3, h4, h5, h6, h7, h8]
  obtain ⟨k, hk, hmem⟩ := mem_chunk c hS sequence.data ch hch
  unfold AlignmentGraph.AddNode
  simp only [hfin, hnew, assert, Bool.not_false, if_true, bind, Except.bind, Option.isSome_none,
    Bool.false_eq_true, if_false]
  exact foldlM_error_of_step _ _ k (List.mem_range.mpr hk)
    (fun a => AddNodeStep_error c nodeId sequence.data reverseNode _ ch hmem hcode a) g

/-- C14 at the sequence `"ACNT"` on the empty graph. -/
theorem C14_witness :
    0 < constants64.SPLIT_NODE_SIZE ∧ AlignmentGraph.ctor.finalized = false
    ∧ AlignmentGraph.ctor.nodeLookup.lookup 2 = none ∧ 'N' ∈ "ACNT".data
    ∧ 'N' ∉ ['a', 'A', 'c', 'C', 'g', 'G', 't', 'T']
    ∧ ∃ e, AlignmentGraph.ctor.AddNode constants64 2 "ACNT" false = .error e :=
  ⟨by decide, rfl, rfl, by decide, by decide,
    C14_add_node_rejects constants64 (by decide) AlignmentGraph.ctor 2 "ACNT" false 'N' rfl rfl
      (by decide) (by decide)⟩

/-! ## Theorems: the `notInOrder` flags of `GraphAligner` -/

theorem lookup_append_single (l : List (Int × Nat)) (k : Int) (v : Nat) (id : Int) :
    (l ++ [(k, v)]).lookup id
      = match l.lookup id with
        | some x => some x
        | none => if id = k then some v else none := by
  induction l with
  | nil =>
    simp only [List.nil_append, List.lookup]
    by_cases h : id = k
    · subst h; simp
    · have : (id == k) = false := by simpa using h
      simp [this, h]
  | cons p t ih =>
    obtain ⟨a, b⟩ := p
    simp only [List.cons_append, List.lookup]
    cases h : id == a
    · simpa using ih
    · simp

theorem FlagsOK_ctor : FlagsOK GraphAligner.ctor := by
  refine ⟨rfl, rfl, by decide, ?_, rfl, ?_⟩
  · intro id v h
    cases h
  · intro v h1 h2
    simp [GraphAligner.ctor] at h2
    omega

theorem FlagsOK_AddNode (g g' : GraphAligner) (nodeId : Int) (sequence : String)
    (hg : FlagsOK g) (h : g.AddNode nodeId sequence = .ok g') : FlagsOK g' := by
  unfold GraphAligner.AddNode at h
  split at h
  · injection h with h
    subst h
    exact hg
  · rename_i hnew
    split at h
    · cases h
    · injection h with h
      subst h
      obtain ⟨h1, h2, h3, h4, h5, h6⟩ := hg
      refine ⟨by simp [h1], by simp [h2], by simp, ?_, ?_, ?_⟩
      · intro id v hl
        simp only [lookup_append_single] at hl
        simp only [List.length_append, List.length_singleton]
        cases hold : g.nodeLookup.lookup id with
        | some x =>
          rw [hold] at hl
          simp only [Option.some.injEq] at hl
          subst hl
          have := h4 id x hold
          omega
        | none =>
          rw [hold] at hl
          simp only at hl
          split at hl
          · injection hl with hl
            omega
          · cases hl
      · simp only
        rw [getD_append_lt _ _ _ _ (by omega)]
        exact h5
      · intro v hv1 hv2
        simp only [List.length_append, List.length_singleton] at hv2
        simp only
        by_cases hv : v < g.nodeStart.length
        · rw [getD_append_lt _ _ _ _ (by omega), getD_append_lt _ _ _ _ (by omega)]
          exact h6 v hv1 hv
        · have e : v = g.nodeStart.length := by omega
          have e1 : v = g.notInOrder.length := by omega
          have e2 : v = g.inNeighbors.length := by omega
          nth_rewrite 1 [e1]
          nth_rewrite 1 [e2]
          rw [getD_append_length, getD_append_length]
          simp

theorem FlagsOK_AddEdgeNodeId (g g' : GraphAligner) (a b : Int)
    (hg : FlagsOK g) (h : g.AddEdgeNodeId a b = .ok g') : FlagsOK g' := by
  unfold GraphAligner.AddEdgeNodeId at h
  split at h
  swap; · cases h
  rename_i src dst ha hb
  split at h
  · cases h
  split at h
  · cases h
  split at h
  · injection h with h
    subst h
    exact hg
  rename_i hdst hsrc hnot
  injection h with h
  subst h
  obtain ⟨h1, h2, h3, h4, h5, h6⟩ := hg
  have hd := h4 b dst hb
  have hs := h4 a src ha
  refine ⟨?_, by simp [h2], h3, h4, ?_, ?_⟩
  · simp only
    split <;> simp [h1]
  · simp only
    split
    · rw [getD_set_other _ _ _ _ _ (by omega)]
      exact h5
    · exact h5
  · intro v hv1 hv2
    simp only
    by_cases hv : v = dst
    · subst hv
      rw [getD_set_self _ _ _ _ (by omega)]
      have hold := h6 v hv1 hv2
      by_cases hge : src ≥ v
      · rw [if_pos hge, getD_set_self _ _ _ _ (by omega)]
        simp only [true_iff]
        exact ⟨src, List.mem_append_right _ (List.mem_singleton.mpr rfl), hge⟩
      · rw [if_neg hge, hold]
        constructor
        · rintro ⟨u, hu, hvu⟩
          exact ⟨u, List.mem_append_left _ hu, hvu⟩
        · rintro ⟨u, hu, hvu⟩
          simp only [List.mem_append, List.mem_singleton] at hu
          rcases hu with hu | hu
          · exact ⟨u, hu, hvu⟩
          · subst hu
            omega
    · rw [getD_set_other _ _ _ _ _ hv]
      have hold := h6 v hv1 hv2
      split
      · rw [getD_set_other _ _ _ _ _ hv]
        exact hold
      · exact hold

theorem Finalize_inNeighbors (g : GraphAligner) :
    g.Finalize.inNeighbors.length = g.inNeighbors.length
    ∧ ∀ v, g.Finalize.inNeighbors.getD v [] = g.inNeighbors.getD v []
        ∨ (g.inNeighbors.getD v [] = [] ∧ g.Finalize.inNeighbors.getD v [] = [0]) := by
  unfold GraphAligner.Finalize
  simp only
  generalize List.range g.nodeSequences.length = l
  suffices H : ∀ (cur : List (List Nat)),
      (cur.length = g.inNeighbors.length
        ∧ ∀ v, cur.getD v [] = g.inNeighbors.getD v []
          ∨ (g.inNeighbors.getD v [] = [] ∧ cur.getD v [] = [0])) →
      ((l.foldl (fun inN i =>
          if g.nodeStart.getD (g.indexToNode.getD i 0) 0 = i then
            if (inN.getD (g.indexToNode.getD i 0) []).length = 0 then
              inN.set (g.indexToNode.getD i 0) (inN.getD (g.indexToNode.getD i 0) [] ++ [0])
            else inN
          else inN) cur).length = g.inNeighbors.length
        ∧ ∀ v, (l.foldl (fun inN i =>
          if g.nodeStart.getD (g.indexToNode.getD i 0) 0 = i then
            if (inN.getD (g.indexToNode.getD i 0) []).length = 0 then
              inN.set (g.indexToNode.getD i 0) (inN.getD (g.indexToNode.getD i 0) [] ++ [0])
            else inN
          else inN) cur).getD v [] = g.inNeighbors.getD v []
          ∨ (g.inNeighbors.getD v [] = [] ∧ (l.foldl (fun inN i =>
          if g.nodeStart.getD (g.indexToNode.getD i 0) 0 = i then
            if (inN.getD (g.indexToNode.getD i 0) []).length = 0 then
              inN.set (g.indexToNode.getD i 0) (inN.getD (g.indexToNode.getD i 0) [] ++ [0])
            else inN
          else inN) cur).getD v [] = [0])) from
    H g.inNeighbors ⟨rfl, fun v => Or.inl rfl⟩
  induction l with
  | nil => intro cur h; exact h
  | cons i t ih =>
    intro cur h
    simp only [List.foldl_cons]
    apply ih
    obtain ⟨hlen, hv⟩ := h
    split
    · split
      · rename_i hempty
        have hnil : cur.getD (g.indexToNode.getD i 0) [] = [] := List.length_eq_zero.mp hempty
        refine ⟨by simp [hlen], ?_⟩
        intro v
        by_cases hvn : v = g.indexToNode.getD i 0
        · subst hvn
          by_cases hin : g.indexToNode.getD i 0 < cur.length
          · rw [getD_set_self _ _ _ _ hin, hnil]
            rcases hv (g.indexToNode.getD i 0) with h1 | ⟨h1, h2⟩
            · right
              rw [hnil] at h1
              exact ⟨h1.symm, rfl⟩
            · right
              exact ⟨h1, rfl⟩
          · rw [List.set_eq_of_length_le (by omega)]
            exact hv _
        · rw [getD_set_other _ _ _ _ _ hvn]
          exact hv v
      · exact ⟨hlen, hv⟩
    · exact ⟨hlen, hv⟩

theorem FlagsOK_Finalize (g : GraphAligner) (hg : FlagsOK g) : FlagsOK g.Finalize := by
  obtain ⟨h1, h2, h3, h4, h5, h6⟩ := hg
  obtain ⟨hlen, hin⟩ := Finalize_inNeighbors g
  have e1 : g.Finalize.notInOrder = g.notInOrder := rfl
  have e2 : g.Finalize.nodeStart = g.nodeStart := rfl
  have e3 : g.Finalize.nodeLookup = g.nodeLookup := rfl
  refine ⟨by rw [e1, e2]; exact h1, by rw [hlen, e2]; exact h2, by rw [e2]; exact h3,
    by rw [e2, e3]; exact h4, by rw [e1]; exact h5, ?_⟩
  intro v hv1 hv2
  rw [e1]
  rw [e2] at hv2
  rw [h6 v hv1 hv2]
  rcases hin v with h | ⟨ha, hb⟩
  · rw [h]
  · rw [ha, hb]
    constructor
    · rintro ⟨u, hu, -⟩
      cases hu
    · rintro ⟨u, hu, hvu⟩
      simp only [List.mem_singleton] at hu
      omega

theorem build_append (ops : List BuildOp) (op : BuildOp) :
    GraphAligner.build (ops ++ [op])
      = (GraphAligner.build ops >>= fun g => g.apply op) := by
  unfold GraphAligner.build
  rw [List.foldlM_append]
  simp only [List.foldlM, bind_pure]

theorem build_FlagsOK (ops : List BuildOp) :
    ∀ g, GraphAligner.build ops = .ok g → FlagsOK g := by
  induction ops using List.reverseRecOn with
  | nil =>
    intro g h
    simp only [GraphAligner.build, List.foldlM, pure, Except.pure] at h
    injection h with h
    subst h
    exact FlagsOK_ctor
  | append_singleton ops op ih =>
    intro g h
    rw [build_append] at h
    cases h0 : GraphAligner.build ops with
    | error e => rw [h0] at h; cases h
    | ok g0 =>
      rw [h0] at h
      simp only [bind, Except.bind] at h
      have hg0 := ih g0 h0
      cases op with
      | addNode i s => exact FlagsOK_AddNode g0 g i s hg0 h
      | addEdge a b => exact FlagsOK_AddEdgeNodeId g0 g a b hg0 h
      | finalize =>
        simp only [GraphAligner.apply] at h
        injection h with h
        subst h
        exact FlagsOK_Finalize g0 hg0

/-- C20, the claim as stated fails.  After `AddNode(2, "A")` and
`AddEdgeNodeId(2, 2)` the node with index `1` is flagged `notInOrder`, and its
only in-neighbor is the node itself: none has a strictly higher index. -/
theorem C20_counterexample :
    (GraphAligner.build [.addNode 2 "A", .addEdge 2 2]).map
        (fun g => (g.notInOrder.getD 1 false, g.inNeighbors.getD 1 [])) = .ok (true, [1])
    ∧ ¬ ∃ u ∈ [1], 1 < u := by
  decide

/-- C20, amended to "not lower" and to the nodes other than the dummy node.  In
every graph built from the constructor by `AddNode`, `AddEdgeNodeId` and
`Finalize` calls in any order, a node other than the dummy node `0` is flagged
`notInOrder` if and only if at least one of its in-neighbors has a node index
that is higher than or equal to its own; the dummy node is never flagged. -/
theorem C20_not_in_order (ops : List BuildOp) (g : GraphAligner)
    (h : GraphAligner.build ops = .ok g) :
    g.notInOrder.getD 0 false = false
    ∧ ∀ v, 1 ≤ v → v < g.nodeStart.length →
        (g.notInOrder.getD v false = true ↔ ∃ u ∈ g.inNeighbors.getD v [], v ≤ u) := by
  obtain ⟨-, -, -, -, h5, h6⟩ := build_FlagsOK ops g h
  exact ⟨h5, h6⟩

/-- C20 at the nodes `2 = "A"`, `4 = "C"` with the edge `4 → 2`, finalized: the
node with index `1` has the in-neighbor `2` and is flagged. -/
theorem C20_witness :
    ∃ g, GraphAligner.build [.addNode 2 "A", .addNode 4 "C", .addEdge 4 2, .finalize] = .ok g
      ∧ g.inNeighbors.getD 1 [] = [2]
      ∧ g.notInOrder.getD 0 false = false
      ∧ g.notInOrder.getD 1 false = true := by
  obtain ⟨g, hg⟩ := ok_of_isOk
    (GraphAligner.build [.addNode 2 "A", .addNode 4 "C", .addEdge 4 2, .finalize]) (by decide)
  have hin : g.inNeighbors.getD 1 [] = [2] := by
    have : ((GraphAligner.build [.addNode 2 "A", .addNode 4 "C", .addEdge 4 2, .finalize]).map
      (fun g => g.inNeighbors.getD 1 [])) = .ok [2] := by decide
    rw [hg] at this
    exact Except.ok.inj this
  have hlen : 1 < g.nodeStart.length := by
    have : ((GraphAligner.build [.addNode 2 "A", .addNode 4 "C", .addEdge 4 2, .finalize]).map
      (fun g => decide (1 < g.nodeStart.length))) = .ok true := by decide
    rw [hg] at this
    exact of_decide_eq_true (Except.ok.inj this)
  have h := C20_not_in_order _ g hg
  exact ⟨g, hg, hin, h.1, (h.2 1 (Nat.le_refl 1) hlen).mpr ⟨2, by rw [hin]; simp, by decide⟩⟩

/-! ## Theorems: the adjacency of the split-node graph -/

theorem AddNodeStep_adj (c : Constants) (g g' : AlignmentGraph) (nodeId : Int)
    (sequence : List Char) (reverseNode : Bool) (i : Nat) (hsz : Sized g)
    (h : AlignmentGraph.AddNodeStep c nodeId sequence reverseNode g i = .ok g') :
    g'.nodeOffset = g.nodeOffset ++ [i]
    ∧ g'.nodeLength.length = g.nodeLength.length + 1
    ∧ (0 < i → 1 ≤ g.nodeLength.length)
    ∧ g'.inNeighbors = (if 0 < i then
        (g.inNeighbors ++ [[]]).set g.nodeLength.length [g.nodeLength.length - 1]
        else g.inNeighbors ++ [[]])
    ∧ g'.outNeighbors = (if 0 < i then
        (g.outNeighbors ++ [[]]).set (g.nodeLength.length - 1)
          (g.outNeighbors.getD (g.nodeLength.length - 1) [] ++ [g.nodeLength.length])
        else g.outNeighbors ++ [[]]) := by
  obtain ⟨s1, s2, s3, s4, s5, s6⟩ := hsz
  unfold AlignmentGraph.AddNodeStep at h
  cases h1 : g.AddNodeOffset c nodeId i ((sequence.drop i).take c.SPLIT_NODE_SIZE) reverseNode with
  | error e => rw [h1] at h; cases h
  | ok g1 =>
    rw [h1] at h
    obtain ⟨-, -, words, -, hg1⟩ := AddNodeOffset_ok c g g1 nodeId i _ reverseNode h1
    subst hg1
    simp only [Except.bind_ok] at h
    split at h
    · rename_i hi
      obtain ⟨hsize, h⟩ := assert_bind_ok h
      obtain ⟨_, h⟩ := assert_bind_ok h
      obtain ⟨_, h⟩ := assert_bind_ok h
      obtain ⟨_, h⟩ := assert_bind_ok h
      obtain ⟨_, h⟩ := assert_bind_ok h
      obtain ⟨_, h⟩ := assert_bind_ok h
      injection h with h
      subst h
      simp only [List.length_append, List.length_singleton, decide_eq_true_eq, s3] at hsize
      have hN : 1 ≤ g.nodeLength.length := by omega
      have e1 : g.outNeighbors.length + 1 - 2 = g.nodeLength.length - 1 := by omega
      have e2 : g.outNeighbors.length + 1 - 1 = g.nodeLength.length := by omega
      have e3 : (g.inNeighbors ++ [[]]).getD g.nodeLength.length [] = [] := by
        rw [← s2]; exact getD_append_length _ _ _
      have e4 : (g.outNeighbors ++ [[]]).getD (g.nodeLength.length - 1) []
          = g.outNeighbors.getD (g.nodeLength.length - 1) [] :=
        getD_append_lt _ _ _ _ (by omega)
      simp only [List.length_append, List.length_singleton, e1, e2, e3, e4, List.nil_append,
        if_pos hi]
      exact ⟨trivial, trivial, fun _ => hN, trivial, trivial⟩
    · rename_i hi
      injection h with h
      subst h
      have hi0 : ¬ (0 < i) := hi
      simp only [List.length_append, List.length_singleton, if_neg hi0]
      exact ⟨trivial, trivial, fun h => absurd h hi0, trivial, trivial⟩

theorem getD_append_single {α : Type} (l : List α) (x d : α) (w : Nat) :
    (l ++ [x]).getD w d
      = if w < l.length then l.getD w d else if w = l.length then x else d := by
  by_cases h1 : w < l.length
  · rw [if_pos h1]; exact getD_append_lt _ _ _ _ h1
  · rw [if_neg h1]
    by_cases h2 : w = l.length
    · rw [if_pos h2, h2]; exact getD_append_length _ _ _
    · rw [if_neg h2]
      exact List.getD_eq_default _ _ (by simp; omega)

theorem getD_set_eq {α : Type} (l : List α) (i w : Nat) (x d : α) :
    (l.set i x).getD w d = if w = i ∧ i < l.length then x else l.getD w d := by
  by_cases h : w = i
  · subst h
    by_cases h2 : w < l.length
    · rw [if_pos ⟨rfl, h2⟩]; exact getD_set_self _ _ _ _ h2
    · rw [if_neg (fun h => h2 h.2), List.set_eq_of_length_le (by omega)]
  · rw [if_neg (fun h' => h h'.1)]; exact getD_set_other _ _ _ _ _ h

theorem AdjOK_step (c : Constants) (hS : 0 < c.SPLIT_NODE_SIZE) (g g' : AlignmentGraph)
    (nodeId : Int) (sequence : List Char) (reverseNode : Bool) (m : Nat)
    (hsz : Sized g) (hadj : AdjOK g)
    (hlast : m ≠ 0 → g.outNeighbors.getD (g.nodeLength.length - 1) [] = [])
    (h : AlignmentGraph.AddNodeStep c nodeId sequence reverseNode g (m * c.SPLIT_NODE_SIZE)
      = .ok g') :
    AdjOK g' ∧ g'.outNeighbors.getD (g'.nodeLength.length - 1) [] = [] := by
  obtain ⟨e1, e2, e3, e4, e5⟩ := AddNodeStep_adj c g g' nodeId sequence reverseNode _ hsz h
  obtain ⟨s1, s2, s3, s4, s5, s6⟩ := hsz
  obtain ⟨a1, a2, a3, a4⟩ := hadj
  by_cases hm : m = 0
  · subst hm
    simp only [Nat.zero_mul, Nat.lt_irrefl, if_false] at e4 e5 e1
    refine ⟨⟨?_, ?_, ?_, ?_⟩, ?_⟩
    · intro w
      rw [e4, getD_append_single]
      split
      · exact a1 w
      · split <;> exact List.nodup_nil
    · intro w
      rw [e5, getD_append_single]
      split
      · exact a2 w
      · split <;> exact List.nodup_nil
    · intro w hw hoff
      rw [e2] at hw
      rw [e1, getD_append_single, s5] at hoff
      rw [e4, getD_append_single, s2]
      by_cases hwn : w < g.nodeLength.length
      · rw [if_pos hwn] at hoff ⊢
        exact a3 w hwn hoff
      · rw [if_neg hwn, if_pos (by omega)] at hoff
        exact absurd rfl hoff
    · intro w hw hoff
      rw [e2] at hw
      rw [e1, getD_append_single, s5] at hoff
      rw [e5, getD_append_single, s3, if_pos (by omega)]
      by_cases hwn : w + 1 < g.nodeLength.length
      · rw [if_pos hwn] at hoff
        exact a4 w hwn hoff
      · rw [if_neg hwn, if_pos (by omega)] at hoff
        exact absurd rfl hoff
    · rw [e5, e2, getD_append_single, s3]
      simp
  · have hi : 0 < m * c.SPLIT_NODE_SIZE := Nat.mul_pos (Nat.pos_of_ne_zero hm) hS
    have hN := e3 hi
    rw [if_pos hi] at e4 e5
    rw [hlast hm, List.nil_append] at e5
    refine ⟨⟨?_, ?_, ?_, ?_⟩, ?_⟩
    · intro w
      rw [e4, getD_set_eq]
      split
      · exact List.nodup_singleton _
      · rw [getD_append_single]
        split
        · exact a1 w
        · split <;> exact List.nodup_nil
    · intro w
      rw [e5, getD_set_eq]
      split
      · exact List.nodup_singleton _
      · rw [getD_append_single]
        split
        · exact a2 w
        · split <;> exact List.nodup_nil
    · intro w hw hoff
      rw [e2] at hw
      rw [e1, getD_append_single, s5] at hoff
      rw [e4, getD_set_eq]
      by_cases hwn : w < g.nodeLength.length
      · rw [if_pos hwn] at hoff
        rw [if_neg (by omega), getD_append_single, s2, if_pos hwn]
        exact a3 w hwn hoff
      · have : w = g.nodeLength.length := by omega
        subst this
        rw [if_pos ⟨rfl, by simp [s2]⟩]
    · intro w hw hoff
      rw [e2] at hw
      rw [e1, getD_append_single, s5] at hoff
      rw [e5, getD_set_eq]
      by_cases hwn : w + 1 < g.nodeLength.length
      · rw [if_pos hwn] at hoff
        rw [if_neg (by omega), getD_append_single, s3, if_pos (by omega)]
        exact a4 w hwn hoff
      · have : w = g.nodeLength.length - 1 := by omega
        subst this
        rw [if_pos ⟨rfl, by simp [s3]; omega⟩]
        congr 1
        omega
    · rw [e5, e2, getD_set_eq, if_neg (by omega), getD_append_single, s3]
      simp

theorem AdjOK_fold (c : Constants) (hS : 0 < c.SPLIT_NODE_SIZE) (g0 : AlignmentGraph)
    (nodeId : Int) (sequence : List Char) (reverseNode : Bool)
    (hp : Partial c g0 g0 nodeId sequence 0) (hadj : AdjOK g0) (K : Nat) :
    ∀ g', (List.range K).foldlM (fun g k => AlignmentGraph.AddNodeStep c nodeId sequence
        reverseNode g (k * c.SPLIT_NODE_SIZE)) g0 = .ok g' →
      AdjOK g' ∧ (K ≠ 0 → g'.outNeighbors.getD (g'.nodeLength.length - 1) [] = []) := by
  induction K with
  | zero =>
    intro g' h
    simp only [List.range_zero, List.foldlM_nil, pure, Except.pure] at h
    injection h with h
    subst h
    exact ⟨hadj, fun h => absurd rfl h⟩
  | succ K ih =>
    intro g' h
    rw [List.range_succ, List.foldlM_append] at h
    cases h1 : (List.range K).foldlM (fun g k => AlignmentGraph.AddNodeStep c nodeId sequence
      reverseNode g (k * c.SPLIT_NODE_SIZE)) g0 with
    | error e => rw [h1] at h; cases h
    | ok g1 =>
      rw [h1] at h
      simp only [Except.bind_ok, List.foldlM_cons, List.foldlM_nil] at h
      have h2 : AlignmentGraph.AddNodeStep c nodeId sequence reverseNode g1
          (K * c.SPLIT_NODE_SIZE) = .ok g' := by
        cases h3 : AlignmentGraph.AddNodeStep c nodeId sequence reverseNode g1
          (K * c.SPLIT_NODE_SIZE) with
        | error e => rw [h3] at h; cases h
        | ok g2 => rw [h3] at h; exact h
      obtain ⟨hadj1, hlast1⟩ := ih g1 h1
      have hpart := Partial_fold c g0 nodeId sequence reverseNode K g1 hp h1
      obtain ⟨r1, r2⟩ := AdjOK_step c hS g1 g' nodeId sequence reverseNode K hpart.2.1 hadj1
        hlast1 h2
      exact ⟨r1, fun _ => r2⟩

theorem AdjOK_addNode (c : Constants) (hS : 0 < c.SPLIT_NODE_SIZE) (ops : List Op)
    (g g' : AlignmentGraph) (nodeId : Int) (sequence : String) (rev : Bool)
    (hinv : Inv c ops g) (hadj : AdjOK g) (h : g.AddNode c nodeId sequence rev = .ok g') :
    AdjOK g' := by
  unfold AlignmentGraph.AddNode at h
  obtain ⟨hfin, h⟩ := assert_bind_ok h
  split at h
  · injection h with h
    subst h
    exact hadj
  · rename_i habs
    have habs' : g.nodeLookup.lookup nodeId = none :=
      Option.not_isSome_iff_eq_none.mp habs
    have hp0 : Partial c g g nodeId sequence.data 0 := by
      refine ⟨by simpa using hfin, hinv.1, rfl, fun _ _ => rfl, by simpa using habs',
        List.prefix_refl _, List.prefix_refl _, List.prefix_refl _, List.prefix_refl _, ?_⟩
      intro i hi; omega
    exact (AdjOK_fold c hS g nodeId sequence.data rev hp0 hadj _ g' h).1

theorem nodup_append_of_not_contains (l : List Nat) (x : Nat) (hl : l.Nodup)
    (h : ¬ l.contains x = true) : (l ++ [x]).Nodup := by
  have hx : x ∉ l := by simpa using h
  rw [List.nodup_append]
  refine ⟨hl, List.nodup_singleton _, ?_⟩
  intro a ha hb
  simp only [List.mem_singleton] at hb
  subst hb
  exact hx ha

/-- In a graph reached by `run` the split node after the last chunk of a node is
the first chunk of another node: its offset is `0`. -/
theorem offset_after_last (c : Constants) (hS : 0 < c.SPLIT_NODE_SIZE) (ops : List Op)
    (g : AlignmentGraph) (hinv : Inv c ops g) (a : Int) (chunks : List Nat)
    (ha : g.nodeLookup.lookup a = some chunks)
    (hlt : chunks.getLastD 0 + 1 < g.nodeLength.length) :
    g.nodeOffset.getD (chunks.getLastD 0 + 1) 0 = 0 := by
  obtain ⟨hsz, hnone, hsome, hcov⟩ := hinv
  obtain ⟨seq, first, hadd, hch, hb, hok⟩ := hsome a chunks ha
  have hne := addedSequence_ne_nil ops a seq hadd
  have hK : 0 < numChunks c seq.length := by
    rcases Nat.eq_zero_or_pos (numChunks c seq.length) with h0 | h0
    · have := (numChunks_eq_zero c hS _).mp h0
      exact absurd (List.length_eq_zero.mp this) hne
    · exact h0
  have hlast : chunks.getLastD 0 = first + numChunks c seq.length - 1 := by
    rw [hch, getLastD_range' _ _ hK]
    omega
  rw [hlast] at hlt ⊢
  have e : first + numChunks c seq.length - 1 + 1 = first + numChunks c seq.length := by omega
  rw [e] at hlt ⊢
  obtain ⟨chunks2, h2, hmem⟩ := hcov _ hlt
  obtain ⟨seq2, first2, hadd2, hch2, hb2, hok2⟩ := hsome _ chunks2 h2
  rw [hch2, List.mem_range'] at hmem
  obtain ⟨i, hi, hw⟩ := hmem
  simp only [Nat.one_mul] at hw
  by_cases hi0 : i = 0
  · subst hi0
    obtain ⟨-, c2, -, -⟩ := hok2 0 hi
    rw [hw]
    simpa using c2
  · exfalso
    -- the node before is a chunk of both ids
    obtain ⟨d1, -, -, -⟩ := hok2 (i - 1) (by omega)
    obtain ⟨d2, -, -, -⟩ := hok (numChunks c seq.length - 1) (by omega)
    have e1 : first2 + (i - 1) = first + (numChunks c seq.length - 1) := by omega
    rw [e1, d2] at d1
    -- so the ids agree, and with them the chunk lists
    have hid : g.nodeIDs.getD (first + numChunks c seq.length) 0 = a := by
      obtain ⟨d3, -, -, -⟩ := hok2 i hi
      rw [← hw] at d3
      rw [d3]
      exact d1.symm
    rw [hid, ha] at h2
    injection h2 with h2
    rw [hch, hch2] at h2
    have hlen := congrArg List.length h2
    simp only [List.length_range'] at hlen
    have hhead := congrArg (fun l => l.getD 0 0) h2
    simp only at hhead
    rw [getD_range' _ _ _ hK, getD_range' _ _ _ (by omega)] at hhead
    omega

theorem offset_first (c : Constants) (hS : 0 < c.SPLIT_NODE_SIZE) (ops : List Op)
    (g : AlignmentGraph) (hinv : Inv c ops g) (b : Int) (chunks : List Nat)
    (hb : g.nodeLookup.lookup b = some chunks) :
    g.nodeOffset.getD (chunks.getD 0 0) 0 = 0 := by
  obtain ⟨hsz, hnone, hsome, hcov⟩ := hinv
  obtain ⟨seq, first, hadd, hch, -, hok⟩ := hsome b chunks hb
  have hne := addedSequence_ne_nil ops b seq hadd
  have hK : 0 < numChunks c seq.length := by
    rcases Nat.eq_zero_or_pos (numChunks c seq.length) with h0 | h0
    · have := (numChunks_eq_zero c hS _).mp h0
      exact absurd (List.length_eq_zero.mp this) hne
    · exact h0
  obtain ⟨-, c2, -, -⟩ := hok 0 hK
  rw [hch, getD_range' _ _ _ hK]
  simpa using c2

theorem AdjOK_addEdge (c : Constants) (hS : 0 < c.SPLIT_NODE_SIZE) (ops : List Op)
    (g g' : AlignmentGraph) (a b : Int) (hinv : Inv c ops g) (hadj : AdjOK g)
    (h : g.AddEdgeNodeId a b = .ok g') : AdjOK g' := by
  obtain ⟨-, fc, tc, ha, hb, hdst, hsrc, hg⟩ := AddEdgeNodeId_ok g g' a b h
  have hoff1 := offset_first c hS ops g hinv b tc hb
  have hoff2 := offset_after_last c hS ops g hinv a fc ha
  obtain ⟨a1, a2, a3, a4⟩ := hadj
  subst hg
  refine ⟨?_, ?_, ?_, ?_⟩
  · intro w
    simp only
    split
    · exact a1 w
    · rename_i hc
      rw [getD_set_eq]
      split
      · exact nodup_append_of_not_contains _ _ (a1 _) hc
      · exact a1 w
  · intro w
    simp only
    split
    · exact a2 w
    · rename_i hc
      rw [getD_set_eq]
      split
      · exact nodup_append_of_not_contains _ _ (a2 _) hc
      · exact a2 w
  · intro w hw hoff
    simp only at hw hoff ⊢
    have hne : w ≠ tc.getD 0 0 := by
      intro e
      rw [e] at hoff
      exact hoff hoff1
    split
    · exact a3 w hw hoff
    · rw [getD_set_other _ _ _ _ _ hne]
      exact a3 w hw hoff
  · intro w hw hoff
    simp only at hw hoff ⊢
    have hne : w ≠ fc.getLastD 0 := by
      intro e
      rw [e] at hoff hw
      exact hoff (hoff2 hw)
    split
    · exact a4 w hw hoff
    · rw [getD_set_other _ _ _ _ _ hne]
      exact a4 w hw hoff

theorem AdjOK_ctor : AdjOK AlignmentGraph.ctor := by
  refine ⟨fun w => ?_, fun w => ?_, fun w hw => ?_, fun w hw => ?_⟩
  · simp [AlignmentGraph.ctor]
  · simp [AlignmentGraph.ctor]
  · simp [AlignmentGraph.ctor] at hw
  · simp [AlignmentGraph.ctor] at hw

/-- Every graph reached by `run` has the adjacency described by `AdjOK`. -/
theorem run_AdjOK (c : Constants) (hS : 0 < c.SPLIT_NODE_SIZE) (ops : List Op) :
    ∀ g, AlignmentGraph.run c ops = .ok g → AdjOK g := by
  induction ops using List.reverseRecOn with
  | nil =>
    intro g h
    simp only [AlignmentGraph.run, List.foldlM_nil, pure, Except.pure] at h
    injection h with h
    subst h
    exact AdjOK_ctor
  | append_singleton ops op ih =>
    intro g h
    rw [run_append] at h
    cases h1 : AlignmentGraph.run c ops with
    | error e => rw [h1] at h; cases h
    | ok g1 =>
      rw [h1] at h
      simp only [Except.bind_ok] at h
      have hinv := run_Inv c hS ops g1 h1
      have hadj := ih g1 h1
      cases op with
      | addNode nodeId sequence rev =>
        exact AdjOK_addNode c hS ops g1 g nodeId sequence rev hinv hadj h
      | addEdge a b => exact AdjOK_addEdge c hS ops g1 g a b hinv hadj h
      | finalize w =>
        have hg := Finalize_ok g1 g w h
        subst hg
        exact hadj

/-- C11.  In every graph reached from the constructor by `AddNode`,
`AddEdgeNodeId` (and `Finalize`) calls no in-neighbor list and no out-neighbor
list holds a split-node index twice; and for two successive chunks of an
original node the later chunk has the earlier one as its only in-neighbor and
the earlier chunk has the later one as its only out-neighbor: they are connected
by exactly one edge. -/
theorem C11_no_duplicate_edges (c : Constants) (hS : 0 < c.SPLIT_NODE_SIZE) (ops : List Op)
    (g : AlignmentGraph) (h : AlignmentGraph.run c ops = .ok g) :
    (∀ w, (g.inNeighbors.getD w []).Nodup ∧ (g.outNeighbors.getD w []).Nodup)
    ∧ ∀ id chunks, g.nodeLookup.lookup id = some chunks → ∀ i, i + 1 < chunks.length →
        g.inNeighbors.getD (chunks.getD (i + 1) 0) [] = [chunks.getD i 0]
        ∧ g.outNeighbors.getD (chunks.getD i 0) [] = [chunks.getD (i + 1) 0] := by
  obtain ⟨a1, a2, a3, a4⟩ := run_AdjOK c hS ops g h
  obtain ⟨hsz, hnone, hsome, hcov⟩ := run_Inv c hS ops g h
  refine ⟨fun w => ⟨a1 w, a2 w⟩, ?_⟩
  intro id chunks hl i hi
  obtain ⟨seq, first, hadd, hch, hb, hok⟩ := hsome id chunks hl
  subst hch
  simp only [List.length_range'] at hi
  rw [getD_range' _ _ _ hi, getD_range' _ _ _ (by omega)]
  obtain ⟨-, c2, -, -⟩ := hok (i + 1) hi
  have hoff : g.nodeOffset.getD (first + (i + 1)) 0 ≠ 0 := by
    rw [c2]
    exact Nat.ne_of_gt (Nat.mul_pos (Nat.succ_pos i) hS)
  have e : first + (i + 1) = first + i + 1 := by omega
  constructor
  · rw [a3 _ (by omega) hoff]
    congr 1
  · rw [e] at hoff ⊢
    exact a4 _ (by omega) hoff

set_option maxRecDepth 100000 in
/-- C11 at the nodes `2 = "GATTACA"` (two chunks of at most 4 bases) and
`4 = "AC"` with the edge `2 → 4` added twice: the chunks `0` and `1` of node
`2` are connected by the one edge `0 → 1`, and the in-neighbors of the chunk of
node `4` hold no index twice. -/
theorem C11_witness :
    0 < constantsSmall.SPLIT_NODE_SIZE
    ∧ ∃ g, AlignmentGraph.run constantsSmall
          [.addNode 2 "GATTACA" false, .addNode 4 "AC" false, .addEdge 2 4, .addEdge 2 4] = .ok g
      ∧ g.nodeLookup.lookup 2 = some [0, 1]
      ∧ g.inNeighbors.getD 1 [] = [0] ∧ g.outNeighbors.getD 0 [] = [1]
      ∧ (g.inNeighbors.getD 2 []).Nodup := by
  refine ⟨by decide, ?_⟩
  obtain ⟨g, hg⟩ := ok_of_isOk (AlignmentGraph.run constantsSmall
    [.addNode 2 "GATTACA" false, .addNode 4 "AC" false, .addEdge 2 4, .addEdge 2 4]) (by decide!)
  have hl : g.nodeLookup.lookup 2 = some [0, 1] := by
    have : ((AlignmentGraph.run constantsSmall
      [.addNode 2 "GATTACA" false, .addNode 4 "AC" false, .addEdge 2 4, .addEdge 2 4]).map
      (fun g => g.nodeLookup.lookup 2)) = .ok (some [0, 1]) := by decide!
    rw [hg] at this
    exact Except.ok.inj this
  have h := C11_no_duplicate_edges constantsSmall (by decide) _ g hg
  have h2 := h.2 2 [0, 1] hl 0 (by decide)
  exact ⟨g, hg, hl, h2.1, h2.2, (h.1 2).1⟩

/-! ## Theorems: the backtrace -/

/-- The scan of the last row in `backtrace` over the positions below `k`:
either no position is inside the band and the scan has found nothing, or it
stands at the lowest position inside the band that has the highest score. -/
theorem backtrace_scan (Mslice : List Int) (insideBand : List Bool) (lastRow k : Nat) :
    let s := (List.range k).foldl
      (fun (cf : MatrixPosition × Bool) i =>
        if !insideBand.getD i false then cf
        else
          let currentPosition : MatrixPosition := if !cf.2 then (i, lastRow) else cf.1
          if Mslice.getD i 0 > Mslice.getD currentPosition.1 0 then ((i, lastRow), true)
          else (currentPosition, true))
      ((0, lastRow), false)
    (s = ((0, lastRow), false) ∧ ∀ i < k, insideBand.getD i false = false)
    ∨ ∃ w, w < k ∧ s = ((w, lastRow), true) ∧ insideBand.getD w false = true
        ∧ (∀ i < k, insideBand.getD i false = true → Mslice.getD i 0 ≤ Mslice.getD w 0)
        ∧ (∀ i < w, insideBand.getD i false = true → Mslice.getD i 0 < Mslice.getD w 0) := by
  induction k with
  | zero =>
    left
    exact ⟨rfl, fun i hi => absurd hi (Nat.not_lt_zero i)⟩
  | succ k ih =>
    simp only [List.range_succ, List.foldl_append, List.foldl_cons, List.foldl_nil]
    simp only at ih
    by_cases hb : insideBand.getD k false = true
    · simp only [hb, Bool.not_true, Bool.false_eq_true, if_false]
      right
      rcases ih with ⟨hs, hnone⟩ | ⟨w, hw, hs, hwb, hmax, hfirst⟩
      · rw [hs]
        simp only [Bool.not_false, if_true, gt_iff_lt, lt_self_iff_false, if_false]
        refine ⟨k, Nat.lt_succ_self k, rfl, hb, ?_, ?_⟩
        · intro i hi hib
          rcases Nat.lt_succ_iff_lt_or_eq.mp hi with h | h
          · rw [hnone i h] at hib; cases hib
          · subst h; exact le_refl _
        · intro i hi hib
          rw [hnone i hi] at hib; cases hib
      · rw [hs]
        simp only [Bool.not_true, Bool.false_eq_true, if_false]
        by_cases hgt : Mslice.getD k 0 > Mslice.getD w 0
        · rw [if_pos hgt]
          refine ⟨k, Nat.lt_succ_self k, rfl, hb, ?_, ?_⟩
          · intro i hi hib
            rcases Nat.lt_succ_iff_lt_or_eq.mp hi with h | h
            · exact le_of_lt (lt_of_le_of_lt (hmax i h hib) hgt)
            · subst h; exact le_refl _
          · intro i hi hib
            exact lt_of_le_of_lt (hmax i hi hib) hgt
        · rw [if_neg hgt]
          refine ⟨w, Nat.lt_succ_of_lt hw, rfl, hwb, ?_, hfirst⟩
          intro i hi hib
          rcases Nat.lt_succ_iff_lt_or_eq.mp hi with h | h
          · exact hmax i h hib
          · subst h; exact not_lt.mp hgt
    · have hb' : insideBand.getD k false = false := by simpa using hb
      simp only [hb', Bool.not_false, if_true]
      rcases ih with ⟨hs, hnone⟩ | ⟨w, hw, hs, hwb, hmax, hfirst⟩
      · left
        refine ⟨hs, ?_⟩
        intro i hi
        rcases Nat.lt_succ_iff_lt_or_eq.mp hi with h | h
        · exact hnone i h
        · subst h; exact hb'
      · right
        refine ⟨w, Nat.lt_succ_of_lt hw, hs, hwb, ?_, hfirst⟩
        intro i hi hib
        rcases Nat.lt_succ_iff_lt_or_eq.mp hi with h | h
        · exact hmax i h hib
        · subst h; rw [hb'] at hib; cases hib

/-- On a matrix in predecessor order the walk of `backtrace` ends before its fuel
does, and it only appends to the trace. -/
theorem backtraceWalk_ok (N n : Nat) (backtrace : List (List MatrixPosition))
    (hrows : (backtrace.getD 0 []).length = n + 1) (hok : WalkOK N n backtrace) :
    ∀ (fuel : Nat) (cur : MatrixPosition) (trace : List MatrixPosition),
      cur.1 < N → cur.2 ≤ n → cur.2 * N + cur.1 < fuel →
      ∃ rest, backtraceWalk N backtrace fuel cur trace = .ok (trace ++ rest) := by
  intro fuel
  induction fuel with
  | zero => intro cur trace _ _ h; omega
  | succ fuel ih =>
    intro cur trace h1 h2 h3
    unfold backtraceWalk
    by_cases hj : cur.2 > 0
    · obtain ⟨p1, p2, p3⟩ := hok cur.1 cur.2 h1 hj h2
      have hnext : (getCell backtrace cur.1 cur.2 (0, 0)).2 * N
          + (getCell backtrace cur.1 cur.2 (0, 0)).1 < fuel := by
        rcases p3 with p3 | ⟨p3, p4⟩
        · have := Nat.mul_le_mul_right N (Nat.succ_le_of_lt p3)
          rw [Nat.succ_mul] at this
          omega
        · rw [p3]; omega
      have hrow : (getCell backtrace cur.1 cur.2 (0, 0)).2 ≤ n := by
        rcases p3 with p3 | ⟨p3, -⟩ <;> omega
      obtain ⟨rest, hrest⟩ := ih (getCell backtrace cur.1 cur.2 (0, 0))
        (trace ++ [getCell backtrace cur.1 cur.2 (0, 0)]) p1 hrow hnext
      refine ⟨getCell backtrace cur.1 cur.2 (0, 0) :: rest, ?_⟩
      have a1 : decide (cur.2 < (backtrace.getD 0 []).length) = true := by
        rw [hrows]; exact decide_eq_true (by omega)
      have a2 : decide (cur.1 < N) = true := decide_eq_true h1
      have a3 : (if cur.1 = 0 then decide ((getCell backtrace cur.1 cur.2 (0, 0)).1 = 0)
          else true) = true := by
        split
        · rename_i h0; exact decide_eq_true (p2 h0)
        · rfl
      have a4 : (decide ((getCell backtrace cur.1 cur.2 (0, 0)).2 < cur.2)
          || (decide ((getCell backtrace cur.1 cur.2 (0, 0)).2 = cur.2)
            && decide ((getCell backtrace cur.1 cur.2 (0, 0)).1 < cur.1))) = true := by
        rcases p3 with p3 | ⟨p3, p4⟩
        · rw [decide_eq_true p3]; rfl
        · rw [decide_eq_true p3, decide_eq_true p4]
          simp only [Bool.and_self, Bool.or_true]
      rw [if_pos hj]
      simp only [a1, a2, a3, a4, assert, if_true, bind, Except.bind]
      rw [hrest]
      simp
    · rw [if_neg hj]
      exact ⟨[], by simp⟩

/-- C16.  Let the backtrace matrix have the rows `0 .. n` over the positions of
the graph and be in predecessor order, and let at least one position be inside
the band.  Then `backtrace` returns; the score it returns is the highest
`M[i]` over the positions `i` inside the band, and the last entry of the trace
is `(w, n)` for the lowest position `w` inside the band that has this score. -/
theorem C16_backtrace_start (g : GraphAligner) (Mslice : List Int)
    (backtrace : List (List MatrixPosition)) (insideBand : List Bool) (n : Nat)
    (hsize : backtrace.length = g.nodeSequences.length)
    (hM : Mslice.length = g.nodeSequences.length)
    (hrows : (backtrace.getD 0 []).length = n + 1)
    (hok : WalkOK g.nodeSequences.length n backtrace)
    (hband : ∃ i < Mslice.length, insideBand.getD i false = true) :
    ∃ w trace, g.backtrace Mslice backtrace insideBand = .ok (Mslice.getD w 0, trace)
      ∧ w < Mslice.length ∧ insideBand.getD w false = true
      ∧ (∀ i < Mslice.length, insideBand.getD i false = true →
          Mslice.getD i 0 ≤ Mslice.getD w 0)
      ∧ (∀ i < w, insideBand.getD i false = true → Mslice.getD i 0 < Mslice.getD w 0)
      ∧ trace.getLast? = some (w, n) := by
  have hscan := backtrace_scan Mslice insideBand n Mslice.length
  simp only at hscan
  rcases hscan with ⟨-, hnone⟩ | ⟨w, hw, hs, hwb, hmax, hfirst⟩
  · obtain ⟨i, hi, hib⟩ := hband
    rw [hnone i hi] at hib
    cases hib
  · obtain ⟨rest, hrest⟩ := backtraceWalk_ok g.nodeSequences.length n backtrace hrows hok
      ((n + 1) * g.nodeSequences.length + 1) (w, n) [(w, n)] (by simpa [hM] using hw)
      (le_refl n) (by
        simp only
        rw [Nat.succ_mul]
        omega)
    refine ⟨w, ([(w, n)] ++ rest).reverse, ?_, hw, hwb, hmax, hfirst, ?_⟩
    · unfold GraphAligner.backtrace
      simp only [gt_iff_lt] at hs
      simp only [hsize, hrows, Nat.add_sub_cancel, assert, decide_True, if_true, bind,
        Except.bind, Nat.succ_pos, gt_iff_lt, Nat.zero_lt_succ, pure, Except.pure]
      rw [hs]
      simp only [hwb, if_true, hrest]
    · simp

/-- C16 on three positions with the last-row scores `0, 3, 3`, all inside the
band, and a matrix with the rows `0` and `1`: the backtrace starts at position
`1`, the lower one of the two with the score `3`. -/
theorem C16_witness :
    WalkOK 3 1 [[(0, 0), (0, 0)], [(1, 0), (0, 0)], [(2, 0), (1, 0)]]
    ∧ ∃ w trace,
      ({ GraphAligner.ctor with nodeSequences := ['N', 'A', 'C'] } : GraphAligner).backtrace
          [0, 3, 3] [[(0, 0), (0, 0)], [(1, 0), (0, 0)], [(2, 0), (1, 0)]] [true, true, true]
        = .ok (([0, 3, 3] : List Int).getD w 0, trace)
      ∧ w < ([0, 3, 3] : List Int).length ∧ [true, true, true].getD w false = true
      ∧ (∀ i < ([0, 3, 3] : List Int).length, [true, true, true].getD i false = true →
          ([0, 3, 3] : List Int).getD i 0 ≤ ([0, 3, 3] : List Int).getD w 0)
      ∧ (∀ i < w, [true, true, true].getD i false = true →
          ([0, 3, 3] : List Int).getD i 0 < ([0, 3, 3] : List Int).getD w 0)
      ∧ trace.getLast? = some (w, 1) := by
  have hok : WalkOK 3 1 [[(0, 0), (0, 0)], [(1, 0), (0, 0)], [(2, 0), (1, 0)]] := by
    intro w j hw hj hjn
    have hj1 : j = 1 := by omega
    subst hj1
    have hw3 : w = 0 ∨ w = 1 ∨ w = 2 := by omega
    rcases hw3 with h | h | h <;> subst h <;> decide
  exact ⟨hok, C16_backtrace_start
    ({ GraphAligner.ctor with nodeSequences := ['N', 'A', 'C'] } : GraphAligner)
    [0, 3, 3] [[(0, 0), (0, 0)], [(1, 0), (0, 0)], [(2, 0), (1, 0)]] [true, true, true] 1
    rfl rfl rfl hok ⟨0, by decide, rfl⟩⟩

/-! ## Theorems: the projection of a trace -/

theorem nodeRuns_cons_head (a : Nat) (xs : List Nat) :
    ∃ t, nodeRuns (a :: xs) = a :: t := by
  induction xs generalizing a with
  | nil => exact ⟨[], rfl⟩
  | cons b rest ih =>
    unfold nodeRuns
    split
    · rename_i h
      subst h
      exact ih a
    · exact ⟨_, rfl⟩

theorem nodeRuns_cons_same (a : Nat) (xs : List Nat) :
    nodeRuns (a :: a :: xs) = nodeRuns (a :: xs) := by
  rw [nodeRuns, if_pos rfl]

theorem nodeRuns_cons_ne (a b : Nat) (xs : List Nat) (h : a ≠ b) :
    nodeRuns (a :: b :: xs) = a :: nodeRuns (b :: xs) := by
  rw [nodeRuns, if_neg h]

/-- The second loop of `traceToAlignment`, started in a node that is not a dummy
node, adds the mappings of the runs that follow the run of that node. -/
theorem addMappings_spec (g : GraphAligner) (reverse : Bool) (ps : List MatrixPosition) :
    ∀ (oldNode : Nat) (rank : Nat) (path : List Mapping),
      isDummyNode g oldNode = false →
      g.addMappings reverse ps oldNode (rank : Int) path
        = path ++ ((nodeRuns (oldNode :: (traceNodes g ps).takeWhile
            (fun node => !isDummyNode g node))).tail.enumFrom (rank + 1)).map (fun p =>
              { rank := (p.1 : Int), node_id := g.nodeIDs.getD p.2 0, is_reverse := reverse }) := by
  induction ps with
  | nil =>
    intro oldNode rank path _
    simp [GraphAligner.addMappings, traceNodes, nodeRuns]
  | cons p rest ih =>
    intro oldNode rank path hold
    unfold GraphAligner.addMappings
    by_cases hsame : g.indexToNode.getD p.1 0 = oldNode
    · rw [if_pos hsame, ih oldNode rank path hold]
      have : traceNodes g (p :: rest) = oldNode :: traceNodes g rest := by
        simp only [traceNodes, List.map_cons, hsame]
      rw [this, List.takeWhile_cons, hold]
      simp only [Bool.not_false, if_true]
      rw [nodeRuns_cons_same]
    · rw [if_neg hsame]
      have hnodes : traceNodes g (p :: rest)
          = g.indexToNode.getD p.1 0 :: traceNodes g rest := by
        simp only [traceNodes, List.map_cons]
      by_cases hd : g.nodeIDs.getD (g.indexToNode.getD p.1 0) 0 = 0
      · simp only [hd, if_true]
        have hdum : isDummyNode g (g.indexToNode.getD p.1 0) = true := decide_eq_true hd
        rw [hnodes, List.takeWhile_cons, hdum]
        simp [nodeRuns]
      · simp only [hd, if_false]
        have hdum : isDummyNode g (g.indexToNode.getD p.1 0) = false := decide_eq_false hd
        have e := ih (g.indexToNode.getD p.1 0) (rank + 1)
          (path ++ [{ rank := (rank : Int) + 1,
                      node_id := g.nodeIDs.getD (g.indexToNode.getD p.1 0) 0,
                      is_reverse := reverse }]) hdum
        rw [Nat.cast_add, Nat.cast_one] at e
        rw [e, hnodes, List.takeWhile_cons, hdum]
        simp only [Bool.not_false, if_true]
        rw [nodeRuns_cons_ne _ _ _ (Ne.symm hsame)]
        obtain ⟨t, ht⟩ := nodeRuns_cons_head (g.indexToNode.getD p.1 0)
          ((traceNodes g rest).takeWhile (fun node => !isDummyNode g node))
        rw [ht]
        simp [List.enumFrom]

theorem skipDummy_spec (g : GraphAligner) (trace : List MatrixPosition)
    (hvalid : ∀ p ∈ trace, g.indexToNode.getD p.1 0 < g.nodeIDs.length) :
    ∀ (fuel pos : Nat),
      (∃ q, pos ≤ q ∧ q < trace.length
        ∧ isDummyNode g (g.indexToNode.getD (trace.getD q (0, 0)).1 0) = false) →
      trace.length - pos < fuel →
      ∃ q, g.skipDummy trace fuel pos (g.indexToNode.getD (trace.getD pos (0, 0)).1 0)
          = .ok (q, g.indexToNode.getD (trace.getD q (0, 0)).1 0)
        ∧ pos ≤ q ∧ q < trace.length
        ∧ isDummyNode g (g.indexToNode.getD (trace.getD q (0, 0)).1 0) = false
        ∧ ∀ i, pos ≤ i → i < q →
            isDummyNode g (g.indexToNode.getD (trace.getD i (0, 0)).1 0) = true := by
  intro fuel
  induction fuel with
  | zero => intro pos _ h; omega
  | succ fuel ih =>
    intro pos hex hfuel
    obtain ⟨q0, hq1, hq2, hq3⟩ := hex
    unfold GraphAligner.skipDummy
    by_cases hd : g.nodeIDs.getD (g.indexToNode.getD (trace.getD pos (0, 0)).1 0) 0 = 0
    · have hne : q0 ≠ pos := by
        intro e
        subst e
        have : isDummyNode g (g.indexToNode.getD (trace.getD q0 (0, 0)).1 0) = true :=
          decide_eq_true hd
        rw [this] at hq3
        cases hq3
      have hlt : pos + 1 < trace.length := by omega
      have hmem : trace.getD (pos + 1) (0, 0) ∈ trace := by
        rw [List.getD_eq_getElem _ _ hlt]
        exact List.getElem_mem hlt
      obtain ⟨q, h1, h2, h3, h4, h5⟩ := ih (pos + 1) ⟨q0, by omega, hq2, hq3⟩ (by omega)
      refine ⟨q, ?_, by omega, h3, h4, ?_⟩
      · rw [if_pos hd]
        simp only [assert, decide_eq_true hlt, decide_eq_true (hvalid _ hmem), if_true, bind,
          Except.bind]
        exact h1
      · intro i hi1 hi2
        by_cases hip : i = pos
        · subst hip
          exact decide_eq_true hd
        · exact h5 i (by omega) hi2
    · refine ⟨pos, ?_, le_refl _, by omega, decide_eq_false hd, ?_⟩
      · rw [if_neg hd]
      · intro i hi1 hi2
        omega

theorem dropWhile_map_eq_drop {α : Type} (f : α → Nat) (p : Nat → Bool) (d : α) :
    ∀ (l : List α) (q : Nat), (∀ i < q, p (f (l.getD i d)) = true) → q < l.length →
      p (f (l.getD q d)) = false → (l.map f).dropWhile p = (l.drop q).map f := by
  intro l
  induction l with
  | nil => intro q _ h; simp at h
  | cons x t ih =>
    intro q h1 h2 h3
    cases q with
    | zero =>
      have : p (f x) = false := h3
      simp only [List.map_cons, List.dropWhile_cons, this, List.drop_zero]
      rfl
    | succ q =>
      have hx : p (f x) = true := h1 0 (Nat.succ_pos q)
      simp only [List.map_cons, List.dropWhile_cons, hx, if_true, List.drop_succ_cons]
      exact ih q (fun i hi => h1 (i + 1) (Nat.succ_lt_succ hi)) (Nat.lt_of_succ_lt_succ h2) h3

/-- C17.  Let every entry of the trace lie in a node of the graph and let at
least one entry lie in a node whose original id is not `0`.  Then
`traceToAlignment` returns the alignment with the given name, the score of the
trace, and the path that the specification describes: the leading dummy
entries are skipped, the entries up to the next dummy entry are kept, and each
maximal run of kept entries in one node gives one mapping, with the original id
of the node, the ranks `0, 1, 2, ...` in trace order and `is_reverse` equal to
the `reverse` argument. -/
theorem C17_trace_projection (g : GraphAligner) (seq_id : String) (score : Int)
    (trace : List MatrixPosition) (reverse : Bool)
    (hvalid : ∀ p ∈ trace, g.indexToNode.getD p.1 0 < g.nodeIDs.length)
    (hex : ∃ p ∈ trace, isDummyNode g (g.indexToNode.getD p.1 0) = false) :
    g.traceToAlignment seq_id (score, trace) reverse
      = .ok { name := seq_id, path := specPath g trace reverse, score := score } := by
  obtain ⟨p0, hp0, hp0d⟩ := hex
  obtain ⟨q0, hq0, hq0e⟩ := List.getElem_of_mem hp0
  have hex' : ∃ q, 0 ≤ q ∧ q < trace.length
      ∧ isDummyNode g (g.indexToNode.getD (trace.getD q (0, 0)).1 0) = false :=
    ⟨q0, Nat.zero_le _, hq0, by rw [List.getD_eq_getElem _ _ hq0, hq0e]; exact hp0d⟩
  obtain ⟨q, h1, -, h3, h4, h5⟩ := skipDummy_spec g trace hvalid (trace.length + 1) 0 hex'
    (by omega)
  have hdrop : (traceNodes g trace).dropWhile (isDummyNode g) = traceNodes g (trace.drop q) :=
    dropWhile_map_eq_drop _ _ (0, 0) trace q (fun i hi => h5 i (Nat.zero_le _) hi) h3 h4
  have hsplit : trace.drop q = trace.getD q (0, 0) :: trace.drop (q + 1) := by
    rw [List.getD_eq_getElem _ _ h3]
    exact List.drop_eq_getElem_cons h3
  have hnodes : traceNodes g (trace.drop q)
      = g.indexToNode.getD (trace.getD q (0, 0)).1 0 :: traceNodes g (trace.drop (q + 1)) := by
    rw [hsplit]
    simp only [traceNodes, List.map_cons]
  unfold GraphAligner.traceToAlignment
  simp only [h1, bind, Except.bind, pure, Except.pure]
  have hpath := addMappings_spec g reverse (trace.drop q)
    (g.indexToNode.getD (trace.getD q (0, 0)).1 0) 0
    [{ rank := 0, node_id := g.nodeIDs.getD (g.indexToNode.getD (trace.getD q (0, 0)).1 0) 0,
       is_reverse := reverse }] h4
  rw [Nat.cast_zero] at hpath
  rw [hpath]
  unfold specPath
  simp only [hdrop]
  rw [hnodes, List.takeWhile_cons, h4]
  simp only [Bool.not_false, if_true]
  rw [nodeRuns_cons_same]
  obtain ⟨t, ht⟩ := nodeRuns_cons_head (g.indexToNode.getD (trace.getD q (0, 0)).1 0)
    ((traceNodes g (trace.drop (q + 1))).takeWhile (fun node => !isDummyNode g node))
  rw [ht]
  simp [List.enum, List.enumFrom]

/-- C17 on the graph of scenario S2 (positions `1 .. 3` in node `2`, positions
`4 .. 6` in node `4`) with a trace that runs from the dummy position through
node `2`, node `4`, back to the dummy position and into node `2` again: the
path has the two mappings of the first two runs. -/
theorem C17_witness :
    ∃ g, graphS2 = .ok g
      ∧ (∀ p ∈ [((0 : Nat), (0 : Nat)), (1, 1), (2, 2), (4, 3), (5, 4), (0, 5), (1, 6)],
          g.indexToNode.getD p.1 0 < g.nodeIDs.length)
      ∧ (∃ p ∈ [((0 : Nat), (0 : Nat)), (1, 1), (2, 2), (4, 3), (5, 4), (0, 5), (1, 6)],
          isDummyNode g (g.indexToNode.getD p.1 0) = false)
      ∧ g.traceToAlignment "read"
          (3, [(0, 0), (1, 1), (2, 2), (4, 3), (5, 4), (0, 5), (1, 6)]) true
        = .ok { name := "read",
                path := [{ rank := 0, node_id := 2, is_reverse := true },
                         { rank := 1, node_id := 4, is_reverse := true }],
                score := 3 } := by
  obtain ⟨g, hg⟩ := ok_of_isOk graphS2 (by decide)
  have h1 : ∀ p ∈ [((0 : Nat), (0 : Nat)), (1, 1), (2, 2), (4, 3), (5, 4), (0, 5), (1, 6)],
      g.indexToNode.getD p.1 0 < g.nodeIDs.length := by
    have : (graphS2.map (fun g => decide
        (∀ p ∈ [((0 : Nat), (0 : Nat)), (1, 1), (2, 2), (4, 3), (5, 4), (0, 5), (1, 6)],
          g.indexToNode.getD p.1 0 < g.nodeIDs.length))) = .ok true := by decide
    rw [hg] at this
    exact of_decide_eq_true (Except.ok.inj this)
  have h2 : ∃ p ∈ [((0 : Nat), (0 : Nat)), (1, 1), (2, 2), (4, 3), (5, 4), (0, 5), (1, 6)],
      isDummyNode g (g.indexToNode.getD p.1 0) = false := by
    have : (graphS2.map (fun g => decide
        (∃ p ∈ [((0 : Nat), (0 : Nat)), (1, 1), (2, 2), (4, 3), (5, 4), (0, 5), (1, 6)],
          isDummyNode g (g.indexToNode.getD p.1 0) = false))) = .ok true := by decide
    rw [hg] at this
    exact of_decide_eq_true (Except.ok.inj this)
  have h3 : specPath g [(0, 0), (1, 1), (2, 2), (4, 3), (5, 4), (0, 5), (1, 6)] true
      = [{ rank := 0, node_id := 2, is_reverse := true },
         { rank := 1, node_id := 4, is_reverse := true }] := by
    have : (graphS2.map (fun g =>
        specPath g [(0, 0), (1, 1), (2, 2), (4, 3), (5, 4), (0, 5), (1, 6)] true))
        = .ok [{ rank := 0, node_id := 2, is_reverse := true },
               { rank := 1, node_id := 4, is_reverse := true }] := by decide
    rw [hg] at this
    exact Except.ok.inj this
  have h := C17_trace_projection g "read" 3
    [(0, 0), (1, 1), (2, 2), (4, 3), (5, 4), (0, 5), (1, 6)] true h1 h2
  rw [h3] at h
  exact ⟨g, hg, h1, h2, h⟩

/-! ## Theorems: the bounds of `M` -/

set_option maxRecDepth 1000000 in
/-- C19, a run in which the lower bound of `M` is broken.  The graph has the
nodes `2 = "A"`, `4 = ""` and `6 = "C"` and the edge `4 → 6`, and is finalized;
the query is `"AC"`, the band width `1`, the seed pair `(1, 6)`, and the
out-of-range reads of `getBandedRows` yield `0`.  The seed is resolved to the
cell `(2, 1)`, which is inside the band; the only in-neighbor of its node is
the empty node, whose last position is taken to be position `1`, outside the
band in the rows `0` and `1`.  So `M[2][1]` keeps the value
`min + 99` it is initialised with, and the assertion `M[w] >= min + 100` of the
row loop fails. -/
theorem C19_empty_node_run :
    (∃ g, GraphAligner.build
          [.addNode 2 "A", .addNode 4 "", .addNode 6 "C", .addEdge 4 6, .finalize] = .ok g
        ∧ g.finalized = true
        ∧ g.getSeedHitPositionsInMatrix "AC".data [(⟨1, 6⟩, ⟨1, 6⟩)] = .ok [(2, 1)]
        ∧ g.getBandedRows (fun _ => 0) (fun _ => 0) [(2, 1)] 1 2
            = .ok [[true, true, true], [false, false, false], [false, true, false]])
    ∧ (5 * ("AC".length : Int) + 100 ≤ ScoreType.max)
    ∧ (do let g ← GraphAligner.build
            [.addNode 2 "A", .addNode 4 "", .addNode 6 "C", .addEdge 4 6, .finalize]
          g.AlignOneWay (fun _ => 0) (fun _ => 0) "read" "AC" false 1 [(⟨1, 6⟩, ⟨1, 6⟩)])
        = .error "row loop: M too small" := by
  refine ⟨⟨_, rfl, ?_, ?_, ?_⟩, ?_, ?_⟩ <;> decide!

/-! ## Theorems: the empty seed list -/

theorem foldl_fixed {α β : Type} (f : α → β → α) (P : α → Prop)
    (hf : ∀ a b, P a → f a b = a) (l : List β) (a : α) (ha : P a) : l.foldl f a = a := by
  induction l with
  | nil => rfl
  | cons x t ih => rw [List.foldl_cons, hf a x ha]; exact ih

theorem forwardFillCell_nonpos (g : GraphAligner) (before : Nat → Int)
    (hb : ∀ u, before u ≤ 0) (m : List (List Int)) (hm : ∀ w j, getCell m w j 0 ≤ 0)
    (j w : Nat) : g.forwardFillCell before m j w = m := by
  have key : ∀ u, ¬ ((if j = 0 then before u else getCell m u (j - 1) 0) > 0) := by
    intro u
    split
    · exact not_lt.mpr (hb u)
    · exact not_lt.mpr (hm _ _)
  unfold GraphAligner.forwardFillCell
  rw [if_neg (not_lt.mpr (hm w j))]
  simp only
  split
  · apply foldl_fixed _ (fun a => a = m) _ _ _ rfl
    intro a nb ha
    subst ha
    rw [if_neg (key _)]
  · rw [if_neg (key _)]

theorem backwardFillCell_nonpos (g : GraphAligner) (after : Nat → Int)
    (ha : ∀ u, after u ≤ 0) (n : Nat) (m : List (List Int)) (hm : ∀ w j, getCell m w j 0 ≤ 0)
    (j w : Nat) : g.backwardFillCell after n m j w = m := by
  have key : ∀ u, ¬ ((if j = n then after u else getCell m u (j + 1) 0) > 0) := by
    intro u
    split
    · exact not_lt.mpr (ha u)
    · exact not_lt.mpr (hm _ _)
  unfold GraphAligner.backwardFillCell
  rw [if_neg (not_lt.mpr (hm w j))]
  simp only
  split
  · apply foldl_fixed _ (fun a => a = m) _ _ _ rfl
    intro a nb ha'
    subst ha'
    rw [if_neg (key _)]
  · rw [if_neg (key _)]

theorem forwardFill_nonpos (g : GraphAligner) (before : Nat → Int)
    (hb : ∀ u, before u ≤ 0) (n : Nat) (m : List (List Int))
    (hm : ∀ w j, getCell m w j 0 ≤ 0) : g.forwardFill before n m = m := by
  unfold GraphAligner.forwardFill
  apply foldl_fixed _ (fun a => a = m) _ _ _ rfl
  intro a j ha
  subst ha
  unfold GraphAligner.forwardFillRow
  apply foldl_fixed _ (fun a' => a' = a) _ _ _ rfl
  intro a' w ha'
  subst ha'
  exact forwardFillCell_nonpos g before hb a' hm j w

theorem backwardFill_nonpos (g : GraphAligner) (after : Nat → Int)
    (ha : ∀ u, after u ≤ 0) (n : Nat) (m : List (List Int))
    (hm : ∀ w j, getCell m w j 0 ≤ 0) : g.backwardFill after n m = m := by
  unfold GraphAligner.backwardFill
  apply foldl_fixed _ (fun a => a = m) _ _ _ rfl
  intro a j ha'
  subst ha'
  unfold GraphAligner.backwardFillRow
  apply foldl_fixed _ (fun a' => a' = a) _ _ _ rfl
  intro a' w ha'
  subst ha'
  exact backwardFillCell_nonpos g after ha n a' hm j w

theorem getD_replicate {α : Type} (n : Nat) (a d : α) (i : Nat) :
    (List.replicate n a).getD i d = if i < n then a else d := by
  simp only [List.getD_eq_getElem?_getD, List.getElem?_replicate]
  split <;> rfl

theorem getD_map_range {α : Type} (n : Nat) (f : Nat → α) (d : α) (i : Nat) :
    ((List.range n).map f).getD i d = if i < n then f i else d := by
  simp only [List.getD_eq_getElem?_getD, List.getElem?_map, List.getElem?_range]
  split
  · rename_i h
    simp [List.getElem?_range h]
  · rename_i h
    rw [List.getElem?_eq_none (by simpa using Nat.le_of_not_lt h)]
    rfl

theorem getCell_replicate_zero (N K w j : Nat) :
    getCell (List.replicate N (List.replicate K (0 : Int))) w j 0 = 0 := by
  unfold getCell
  rw [getD_replicate]
  split
  · rw [getD_replicate]
    split <;> rfl
  · rfl

/-- Without seeds, and when the out-of-range reads yield no positive value, the
band holds no position but the dummy position. -/
theorem getBandedRows_no_seeds (g : GraphAligner) (before after : Nat → Int)
    (hb : ∀ u, before u ≤ 0) (ha : ∀ u, after u ≤ 0) (bandWidth : Int) (n : Nat) :
    ∃ band, g.getBandedRows before after [] bandWidth n = .ok band
      ∧ ∀ w j, 1 ≤ w → getCell band w j false = false := by
  have hz : ∀ w j, getCell (List.replicate g.nodeSequences.length
      (List.replicate (n + 1) (0 : Int))) w j 0 ≤ 0 := by
    intro w j
    rw [getCell_replicate_zero]
  refine ⟨g.bandOfMatrices n (List.replicate g.nodeSequences.length
      (List.replicate (n + 1) (0 : Int))) (List.replicate g.nodeSequences.length
      (List.replicate (n + 1) (0 : Int))), ?_, ?_⟩
  · unfold GraphAligner.getBandedRows GraphAligner.seedBand
    simp only [List.foldlM, bind, Except.bind, pure, Except.pure]
    rw [forwardFill_nonpos g before hb n _ hz, backwardFill_nonpos g after ha n _ hz]
  · intro w j hw
    unfold GraphAligner.bandOfMatrices
    unfold getCell
    rw [getD_map_range]
    split
    · rw [getD_map_range]
      split
      · rw [if_neg (by omega)]
        have := getCell_replicate_zero g.nodeSequences.length (n + 1) w j
        unfold getCell at this
        rw [this]
        decide
      · rfl
    · rfl

theorem foldlM_inv {σ β : Type} (f : σ → β → Except String σ) (P : σ → Prop)
    (hf : ∀ s b s', P s → f s b = .ok s' → P s') :
    ∀ (l : List β) (s s' : σ), P s → l.foldlM f s = .ok s' → P s' := by
  intro l
  induction l with
  | nil =>
    intro s s' hs h
    simp only [List.foldlM, pure, Except.pure] at h
    injection h with h
    subst h
    exact hs
  | cons x t ih =>
    intro s s' hs h
    simp only [List.foldlM, bind, Except.bind] at h
    cases hx : f s x with
    | error e => rw [hx] at h; cases h
    | ok s1 => rw [hx] at h; exact ih s1 s' (hf s x s1 hs hx) h

theorem error_of_not_ok {α : Type} (x : Except String α)
    (hnot : ∀ value, x ≠ Except.ok value) : ∃ msg, x = Except.error msg :=
  match x, hnot with
  | Except.error msg, _ => ⟨msg, rfl⟩
  | Except.ok value, hv => (hv value rfl).elim

/-- In a band that holds the dummy position only, a row of the slice leaves
the dummy position as the only one inside the band. -/
theorem sliceRow_dummy_band (g : GraphAligner) (sequence : List Char) (hasWrongOrders : Bool)
    (nodeOrdering : List Nat) (distanceMatrix : List (List Nat)) (start : Nat)
    (band : List (List Bool)) (hord : ∀ w ∈ nodeOrdering, 1 ≤ w)
    (hband : ∀ w j, 1 ≤ w → getCell band w j false = false)
    (s : SliceState) (j : Nat) (s' : SliceState)
    (h : g.sliceRow sequence hasWrongOrders nodeOrdering distanceMatrix start band s j = .ok s') :
    ∀ w, 1 ≤ w → s'.previousInsideBand.getD w false = false := by
  have hf : nodeOrdering.filter (fun w => ((List.range g.nodeSequences.length).map
      (fun w => getCell band w (start + j) false)).getD w false) = [] := by
    rw [List.filter_eq_nil_iff]
    intro w hw
    rw [getD_map_range]
    split
    · rw [hband w _ (hord w hw)]
      exact Bool.false_ne_true
    · exact Bool.false_ne_true
  unfold GraphAligner.sliceRow at h
  simp only [hf, List.foldlM, bind, Except.bind, pure, Except.pure] at h
  have hlast : ∀ w, 1 ≤ w → ((List.range g.nodeSequences.length).map
      (fun w => getCell band w (start + j) false)).getD w false = false := by
    intro w hw
    rw [getD_map_range]
    split
    · exact hband w _ hw
    · rfl
  split at h
  · split at h
    · cases h
    · injection h with h
      subst h
      exact hlast
  · injection h with h
    subst h
    exact hlast

/-- In a band that holds the dummy position only, the slice ends with the
dummy position as the only one inside the band. -/
theorem slice_dummy_band (g : GraphAligner) (sequence : List Char) (hasWrongOrders : Bool)
    (nodeOrdering : List Nat) (distanceMatrix : List (List Nat)) (previous : MatrixSlice)
    (start end_ : Nat) (band : List (List Bool)) (hord : ∀ w ∈ nodeOrdering, 1 ≤ w)
    (hband : ∀ w j, 1 ≤ w → getCell band w j false = false) (slice : MatrixSlice)
    (h : g.getScoreAndBacktraceMatrixSlice sequence hasWrongOrders nodeOrdering distanceMatrix
      previous start end_ band = .ok slice) :
    ∀ w, 1 ≤ w → slice.insideBand.getD w false = false := by
  unfold GraphAligner.getScoreAndBacktraceMatrixSlice at h
  obtain ⟨-, h⟩ := assert_bind_ok h
  obtain ⟨-, h⟩ := assert_bind_ok h
  obtain ⟨-, h⟩ := assert_bind_ok h
  obtain ⟨-, h⟩ := assert_bind_ok h
  obtain ⟨-, h⟩ := assert_bind_ok h
  obtain ⟨-, h⟩ := assert_bind_ok h
  simp only [bind, Except.bind, pure, Except.pure] at h
  split at h
  · cases h
  · rename_i s hs
    injection h with h
    subst h
    refine foldlM_inv _ (fun s => ∀ w, 1 ≤ w → s.previousInsideBand.getD w false = false)
      ?_ _ _ s ?_ hs
    · intro s1 j s2 _ h12
      exact sliceRow_dummy_band g sequence hasWrongOrders nodeOrdering distanceMatrix start band
        hord hband s1 j s2 h12
    · intro w hw
      simp only
      rw [getD_replicate]
      split <;> rfl

theorem sliceLoop_done (g : GraphAligner) (sequence : List Char) (hasWrongOrders : Bool)
    (nodeOrdering : List Nat) (distanceMatrix : List (List Nat)) (band : List (List Bool))
    (sliceSize fuel start : Nat) (lastRow : MatrixSlice)
    (backtraceMatrix : List (List MatrixPosition)) (h : ¬ start < sequence.length + 1) :
    g.sliceLoop sequence hasWrongOrders nodeOrdering distanceMatrix band sliceSize fuel start
      lastRow backtraceMatrix = .ok (lastRow, backtraceMatrix) := by
  cases fuel with
  | zero => unfold GraphAligner.sliceLoop; rw [if_neg h]
  | succ fuel => unfold GraphAligner.sliceLoop; rw [if_neg h]

/-- For a non-empty query the slice loop of `backtrackWithSquareRootSlices`
computes one slice; in a band that holds the dummy position only it ends with
the dummy position as the only one inside the band. -/
theorem sliceLoop_dummy_band (g : GraphAligner) (sequence : List Char) (hasWrongOrders : Bool)
    (nodeOrdering : List Nat) (distanceMatrix : List (List Nat)) (band : List (List Bool))
    (lastRow : MatrixSlice) (backtraceMatrix : List (List MatrixPosition))
    (hq : 0 < sequence.length) (hord : ∀ w ∈ nodeOrdering, 1 ≤ w)
    (hband : ∀ w j, 1 ≤ w → getCell band w j false = false)
    (r : MatrixSlice × List (List MatrixPosition))
    (h : g.sliceLoop sequence hasWrongOrders nodeOrdering distanceMatrix band sequence.length
      sequence.length 1 lastRow backtraceMatrix = .ok r) :
    ∀ w, 1 ≤ w → r.1.insideBand.getD w false = false := by
  obtain ⟨k, hk⟩ : ∃ k, sequence.length = k + 1 := ⟨sequence.length - 1, by omega⟩
  rw [hk] at h
  unfold GraphAligner.sliceLoop at h
  rw [if_pos (by omega), if_neg (by omega)] at h
  simp only [bind, Except.bind] at h
  split at h
  · cases h
  · rename_i slice hslice
    split at h
    · cases h
    · rw [sliceLoop_done _ _ _ _ _ _ _ _ _ _ _ (by omega)] at h
      injection h with h
      subst h
      exact slice_dummy_band g sequence hasWrongOrders nodeOrdering distanceMatrix lastRow _ _
        band hord hband slice hslice

/-- A walk of `backtrace` that starts at the dummy position stays there. -/
theorem backtraceWalk_dummy (N : Nat) (backtrace : List (List MatrixPosition)) :
    ∀ (fuel : Nat) (cur : MatrixPosition) (trace t : List MatrixPosition),
      cur.1 = 0 → (∀ p ∈ trace, p.1 = 0) →
      backtraceWalk N backtrace fuel cur trace = .ok t → ∀ p ∈ t, p.1 = 0 := by
  intro fuel
  induction fuel with
  | zero =>
    intro cur trace t _ ht h
    unfold backtraceWalk at h
    split at h
    · cases h
    · injection h with h
      subst h
      exact ht
  | succ fuel ih =>
    intro cur trace t hc ht h
    unfold backtraceWalk at h
    split at h
    · obtain ⟨-, h⟩ := assert_bind_ok h
      obtain ⟨-, h⟩ := assert_bind_ok h
      obtain ⟨h3, h⟩ := assert_bind_ok h
      obtain ⟨-, h⟩ := assert_bind_ok h
      have h3 := of_decide_eq_true h3
      refine ih _ _ t h3 ?_ h
      intro p hp
      rcases List.mem_append.mp hp with hp | hp
      · exact ht p hp
      · rw [List.mem_singleton.mp hp]
        exact h3
    · injection h with h
      subst h
      exact ht

/-- When the dummy position is the only one inside the band of the last row,
the trace of `backtrace` holds dummy positions only. -/
theorem backtrace_dummy (g : GraphAligner) (Mslice : List Int)
    (backtrace : List (List MatrixPosition)) (insideBand : List Bool)
    (hband : ∀ w, 1 ≤ w → insideBand.getD w false = false)
    (t : Int × List MatrixPosition)
    (h : g.backtrace Mslice backtrace insideBand = .ok t) : ∀ p ∈ t.2, p.1 = 0 := by
  unfold GraphAligner.backtrace at h
  obtain ⟨-, h⟩ := assert_bind_ok h
  obtain ⟨-, h⟩ := assert_bind_ok h
  have hscan := backtrace_scan Mslice insideBand ((backtrace.getD 0 []).length - 1) Mslice.length
  simp only at hscan
  simp only [gt_iff_lt] at hscan h
  have hstart : ((List.range Mslice.length).foldl
      (fun (cf : MatrixPosition × Bool) i =>
        if !insideBand.getD i false then cf
        else
          let currentPosition : MatrixPosition :=
            if !cf.2 then (i, (backtrace.getD 0 []).length - 1) else cf.1
          if Mslice.getD currentPosition.1 0 < Mslice.getD i 0 then
            ((i, (backtrace.getD 0 []).length - 1), true)
          else (currentPosition, true))
      ((0, (backtrace.getD 0 []).length - 1), false)).1.1 = 0 := by
    rcases hscan with ⟨hs, -⟩ | ⟨w, -, hs, hwb, -, -⟩
    · rw [hs]
    · rw [hs]
      by_contra hw
      rw [hband w (Nat.pos_of_ne_zero hw)] at hwb
      cases hwb
  obtain ⟨-, h⟩ := assert_bind_ok h
  simp only [bind, Except.bind, pure, Except.pure] at h
  split at h
  · cases h
  · rename_i trace htrace
    injection h with h
    subst h
    intro p hp
    have hp : p ∈ trace := List.mem_reverse.mp hp
    refine backtraceWalk_dummy _ _ _ _ _ trace hstart ?_ htrace p hp
    intro q hq
    rw [List.mem_singleton.mp hq]
    exact hstart

/-- The first loop of `traceToAlignment` does not come to an end on a trace of
dummy positions only. -/
theorem skipDummy_dummy (g : GraphAligner) (trace : List MatrixPosition)
    (h0 : g.nodeIDs.getD (g.indexToNode.getD 0 0) 0 = 0)
    (ht : ∀ k, (trace.getD k (0, 0)).1 = 0) :
    ∀ (fuel pos oldNode : Nat), g.nodeIDs.getD oldNode 0 = 0 →
      ∀ r, g.skipDummy trace fuel pos oldNode ≠ .ok r := by
  intro fuel
  induction fuel with
  | zero =>
    intro pos oldNode _ r h
    unfold GraphAligner.skipDummy at h
    cases h
  | succ fuel ih =>
    intro pos oldNode hd r h
    unfold GraphAligner.skipDummy at h
    rw [if_pos hd] at h
    obtain ⟨-, h⟩ := assert_bind_ok h
    obtain ⟨-, h⟩ := assert_bind_ok h
    refine ih (pos + 1) _ ?_ r h
    rw [ht (pos + 1)]
    exact h0

theorem getD_fst_of_forall (trace : List MatrixPosition) (h : ∀ p ∈ trace, p.1 = 0) (k : Nat) :
    (trace.getD k (0, 0)).1 = 0 := by
  by_cases hk : k < trace.length
  · rw [List.getD_eq_getElem _ _ hk]
    exact h _ (List.getElem_mem hk)
  · rw [List.getD_eq_default _ _ (Nat.le_of_not_lt hk)]

/-- The source's `traceToAlignment` rejects a trace of dummy positions only. -/
theorem traceToAlignment_dummy (g : GraphAligner) (seq_id : String)
    (t : Int × List MatrixPosition) (reverse : Bool)
    (h0 : g.nodeIDs.getD (g.indexToNode.getD 0 0) 0 = 0) (ht : ∀ p ∈ t.2, p.1 = 0) :
    ∃ e, g.traceToAlignment seq_id t reverse = .error e := by
  apply error_of_not_ok
  intro a h
  unfold GraphAligner.traceToAlignment at h
  simp only [bind, Except.bind] at h
  split at h
  · cases h
  · rename_i r hr
    refine skipDummy_dummy g t.2 h0 (getD_fst_of_forall t.2 ht) _ _ _ ?_ r hr
    rw [getD_fst_of_forall t.2 ht 0]
    exact h0

theorem nodeOrdering_pos (g : GraphAligner) : ∀ w ∈ g.nodeOrdering.1, 1 ≤ w := by
  intro w hw
  unfold GraphAligner.nodeOrdering at hw
  simp only [List.mem_append, List.mem_filter, List.mem_range'_1] at hw
  rcases hw with ⟨⟨h, -⟩, -⟩ | ⟨⟨h, -⟩, -⟩ <;> exact h

/-- In a band that holds the dummy position only, the trace computed for a
non-empty query holds dummy positions only. -/
theorem backtrackWithBand_dummy (g : GraphAligner) (sequence : List Char) (bandWidth : Int)
    (band : List (List Bool)) (hq : 0 < sequence.length)
    (hband : ∀ w j, 1 ≤ w → getCell band w j false = false)
    (t : Int × List MatrixPosition)
    (h : g.backtrackWithBand sequence bandWidth band = .ok t) : ∀ p ∈ t.2, p.1 = 0 := by
  unfold GraphAligner.backtrackWithBand at h
  simp only at h
  obtain ⟨-, h⟩ := assert_bind_ok h
  obtain ⟨-, h⟩ := assert_bind_ok h
  simp only [bind, Except.bind] at h
  split at h
  · cases h
  · split at h
    · cases h
    · rename_i r hr
      exact backtrace_dummy g _ _ _
        (sliceLoop_dummy_band g sequence _ _ _ band _ _ hq (nodeOrdering_pos g) hband r hr) t h

/-- Position `0` of a graph built by calls belongs to the dummy node, whose id
is `0`. -/
theorem build_dummy (ops : List BuildOp) :
    ∀ g, GraphAligner.build ops = .ok g →
      g.indexToNode.head? = some 0 ∧ g.nodeIDs.head? = some 0 ∧ 1 ≤ g.nodeSequences.length := by
  induction ops using List.reverseRecOn with
  | nil =>
    intro g h
    simp only [GraphAligner.build, List.foldlM, pure, Except.pure] at h
    injection h with h
    subst h
    exact ⟨rfl, rfl, Nat.le_refl 1⟩
  | append_singleton ops op ih =>
    intro g h
    rw [build_append] at h
    cases h0 : GraphAligner.build ops with
    | error e => rw [h0] at h; cases h
    | ok g0 =>
      rw [h0, Except.bind_ok] at h
      obtain ⟨i1, i2, i3⟩ := ih g0 h0
      cases op with
      | addNode nodeId sequence =>
        simp only [GraphAligner.apply, GraphAligner.AddNode] at h
        split at h
        · injection h with h
          subst h
          exact ⟨i1, i2, i3⟩
        · split at h
          · cases h
          · injection h with h
            subst h
            refine ⟨?_, ?_, ?_⟩
            · simp only [resize]
              cases hl : g0.indexToNode with
              | nil => rw [hl] at i1; cases i1
              | cons x xs =>
                rw [hl] at i1
                obtain ⟨m, hm⟩ : ∃ m, (g0.nodeSequences ++ sequence.data).length = m + 1 :=
                  ⟨(g0.nodeSequences ++ sequence.data).length - 1, by
                    rw [List.length_append]; omega⟩
                rw [hm]
                simpa using i1
            · simp only
              cases hl : g0.nodeIDs with
              | nil => rw [hl] at i2; cases i2
              | cons x xs => rw [hl] at i2; simpa using i2
            · simp only [List.length_append]
              omega
      | addEdge a b =>
        simp only [GraphAligner.apply, GraphAligner.AddEdgeNodeId] at h
        split at h
        · split at h
          · cases h
          · split at h
            · cases h
            · split at h
              · injection h with h
                subst h
                exact ⟨i1, i2, i3⟩
              · injection h with h
                subst h
                exact ⟨i1, i2, i3⟩
        · cases h
      | finalize =>
        simp only [GraphAligner.apply] at h
        injection h with h
        subst h
        exact ⟨i1, i2, i3⟩

theorem getD_zero_of_head? {α : Type} (l : List α) (a d : α) (h : l.head? = some a) :
    l.getD 0 d = a := by
  cases l with
  | nil => cases h
  | cons x xs =>
    simp only [List.head?_cons, Option.some.injEq] at h
    subst h
    rfl

/-- The result of `AlignOneWay` in terms of the band that `getBandedRows`
returns. -/
theorem AlignOneWay_error_of_band (g : GraphAligner) (before after : Nat → Int)
    (seq_id : String) (sequence : String) (reverse : Bool) (bandWidth : Int)
    (seedHits : List (SeedHit × SeedHit)) (seedHitsInMatrix : List MatrixPosition)
    (band : List (List Bool))
    (hseeds : g.getSeedHitPositionsInMatrix sequence.data seedHits = .ok seedHitsInMatrix)
    (hband : g.getBandedRows before after seedHitsInMatrix bandWidth sequence.data.length
      = .ok band)
    (hall : ∀ name, ∃ e, g.alignInBand name sequence.data reverse bandWidth band = .error e) :
    ∃ e, g.AlignOneWay before after seq_id sequence reverse bandWidth seedHits = .error e := by
  obtain ⟨e, he⟩ := hall seq_id
  unfold GraphAligner.AlignOneWay GraphAligner.backtrackWithSquareRootSlices
  unfold GraphAligner.alignInBand at he
  cases hfin : g.finalized with
  | false => exact ⟨_, rfl⟩
  | true =>
    simp only [hseeds, hband, assert, if_true, bind, Except.bind] at he ⊢
    exact ⟨e, he⟩

theorem alignInBand_error_name (g : GraphAligner) (name : String) (sequence : List Char)
    (reverse : Bool) (bandWidth : Int) (band : List (List Bool))
    (h : (g.alignInBand "" sequence reverse bandWidth band).toBool = false) :
    ∃ e, g.alignInBand name sequence reverse bandWidth band = .error e := by
  unfold GraphAligner.alignInBand at h ⊢
  simp only [bind, Except.bind] at h ⊢
  cases ht : g.backtrackWithBand sequence bandWidth band with
  | error e => exact ⟨e, rfl⟩
  | ok t =>
    rw [ht] at h
    simp only [GraphAligner.traceToAlignment, bind, Except.bind, pure, Except.pure] at h ⊢
    cases hs : g.skipDummy t.2 (t.2.length + 1) 0 (g.indexToNode.getD (t.2.getD 0 (0, 0)).1 0) with
    | error e => exact ⟨e, rfl⟩
    | ok r => rw [hs] at h; cases h

theorem AlignOneWay_of_failsInEveryBand (g : GraphAligner) (sequence : String)
    (reverse : Bool) (bandWidth : Int) (seedHits : List (SeedHit × SeedHit))
    (h : g.failsInEveryBand sequence reverse bandWidth seedHits = true)
    (before after : Nat → Int) (seq_id : String) :
    ∃ e, g.AlignOneWay before after seq_id sequence reverse bandWidth seedHits = .error e := by
  unfold GraphAligner.failsInEveryBand at h
  simp only [Bool.and_eq_true, decide_eq_true_eq] at h
  obtain ⟨⟨-, hg⟩, h⟩ := h
  split at h
  · cases h
  · rename_i sh hseeds
    split at h
    · cases h
    · rename_i fb hfb
      obtain ⟨band, hmem, hband⟩ :=
        getBandedRows_possible g before after sh bandWidth _ fb hg hfb
      refine AlignOneWay_error_of_band g before after seq_id sequence reverse bandWidth seedHits
        sh band hseeds hband ?_
      intro name
      apply alignInBand_error_name
      have := List.all_eq_true.mp h band hmem
      simpa using this

theorem AlignOneWay_of_scenarioFails (build : Except String GraphAligner) (sequence : String)
    (reverse : Bool) (bandWidth : Int) (seedHits : List (SeedHit × SeedHit))
    (h : scenarioFails build sequence reverse bandWidth seedHits = true)
    (before after : Nat → Int) (seq_id : String) :
    ∃ e, (do let g ← build
             g.AlignOneWay before after seq_id sequence reverse bandWidth seedHits)
      = .error e := by
  cases build with
  | error e => cases h
  | ok g =>
    exact AlignOneWay_of_failsInEveryBand g sequence reverse bandWidth seedHits h
      before after seq_id

set_option maxRecDepth 1000000 in
/-- C15, the claim as stated fails.  On the one-node cycle `2 = "A"`, `2 → 2`
with the query `"AA"` and on the graph of scenario S1 with the query `"ACGT"`,
both finalized, `AlignOneWay` with band width `3` and an empty seed list ends
in a failing assertion instead of returning an alignment: on the cycle whatever
the out-of-range reads of `getBandedRows` yield, on S1 (in the assertion of
`traceToAlignment`) when those reads yield `0`. -/
theorem C15_counterexample :
    (∀ before after : Nat → Int,
      ∃ e, (do let g ← graphLoop
               g.AlignOneWay before after "read" "AA" false 3 [])
        = .error e)
    ∧ (do let g ← graphS1
          g.AlignOneWay (fun _ => 0) (fun _ => 0) "read" "ACGT" false 3 [])
      = .error "traceToAlignment: pos < trace.size()" :=
  ⟨fun before after => AlignOneWay_of_scenarioFails graphLoop "AA" false 3 []
      (by decide!) before after "read",
   by decide!⟩

/-- C15, amended to what the code does.  For every graph built by calls of
`AddNode`, `AddEdgeNodeId` and `Finalize` and every non-empty query,
`AlignOneWay` called with an empty seed list returns no alignment when the
out-of-range reads of `getBandedRows` yield no positive value: the band holds
the dummy position only, the trace holds dummy positions only, and the call ends
in a failing assertion, whatever the band width is. -/
theorem C15_empty_seed_list (ops : List BuildOp) (g : GraphAligner)
    (before after : Nat → Int) (seq_id sequence : String) (reverse : Bool) (bandWidth : Int)
    (hg : GraphAligner.build ops = .ok g) (hb : ∀ u, before u ≤ 0) (ha : ∀ u, after u ≤ 0)
    (hq : 0 < sequence.data.length) :
    ∃ e, g.AlignOneWay before after seq_id sequence reverse bandWidth [] = .error e := by
  obtain ⟨band, hband, hdummy⟩ :=
    getBandedRows_no_seeds g before after hb ha bandWidth sequence.data.length
  obtain ⟨i1, i2, -⟩ := build_dummy ops g hg
  have h0 : g.nodeIDs.getD (g.indexToNode.getD 0 0) 0 = 0 := by
    rw [getD_zero_of_head? _ 0 0 i1, getD_zero_of_head? _ 0 0 i2]
  refine AlignOneWay_error_of_band g before after seq_id sequence reverse bandWidth [] [] band
    rfl hband ?_
  intro name
  unfold GraphAligner.alignInBand
  simp only [bind, Except.bind]
  cases ht : g.backtrackWithBand sequence.data bandWidth band with
  | error e => exact ⟨e, rfl⟩
  | ok t =>
    exact traceToAlignment_dummy g name t reverse h0
      (backtrackWithBand_dummy g sequence.data bandWidth band hq hdummy t ht)

set_option maxRecDepth 1000000 in
/-- C15 (amended) at scenario S2: on the finalized graph `2 = "ACG"`, `4 = "TAC"`,
`2 → 4` the query `"ACGTAC"` with band width `3`, an empty seed list and
out-of-range reads that yield `0` ends in a failing assertion. -/
theorem C15_witness :
    ∃ g, GraphAligner.build [.addNode 2 "ACG", .addNode 4 "TAC", .addEdge 2 4, .finalize]
        = .ok g
      ∧ (∀ u : Nat, (fun _ : Nat => (0 : Int)) u ≤ 0) ∧ 0 < "ACGTAC".data.length
      ∧ ∃ e, g.AlignOneWay (fun _ => 0) (fun _ => 0) "read" "ACGTAC" false 3 [] = .error e := by
  obtain ⟨g, hg⟩ := ok_of_isOk
    (GraphAligner.build [.addNode 2 "ACG", .addNode 4 "TAC", .addEdge 2 4, .finalize])
    (by decide!)
  exact ⟨g, hg, fun _ => le_refl 0, by decide,
    C15_empty_seed_list _ g (fun _ => 0) (fun _ => 0) "read" "ACGTAC" false 3 hg
      (fun _ => le_refl 0) (fun _ => le_refl 0) (by decide)⟩

/-! ## Theorems: the node ordering and the distance matrix -/

/-- C28.  The node ordering built by `backtrackWithSquareRootSlices` is a
permutation of the positions `1 .. N-1` without repetition: first, in ascending
order, the positions that are the first base of a node that is not in order,
then, in ascending order, all other positions. -/
theorem C28_node_ordering (g : GraphAligner) :
    g.nodeOrdering.1.Perm (List.range' 1 (g.nodeSequences.length - 1))
    ∧ g.nodeOrdering.1.Nodup
    ∧ ∃ wrong rest, g.nodeOrdering.1 = wrong ++ rest
        ∧ wrong.Pairwise (fun a b => a < b) ∧ rest.Pairwise (fun a b => a < b)
        ∧ (∀ w, w ∈ wrong ↔ (1 ≤ w ∧ w < g.nodeSequences.length)
            ∧ (w = g.nodeStart.getD (g.indexToNode.getD w 0) 0
              ∧ g.notInOrder.getD (g.indexToNode.getD w 0) false = true))
        ∧ (∀ w, w ∈ rest ↔ (1 ≤ w ∧ w < g.nodeSequences.length)
            ∧ ¬ (w = g.nodeStart.getD (g.indexToNode.getD w 0) 0
              ∧ g.notInOrder.getD (g.indexToNode.getD w 0) false = true)) := by
  have hperm : g.nodeOrdering.1.Perm (List.range' 1 (g.nodeSequences.length - 1)) := by
    unfold GraphAligner.nodeOrdering
    exact List.filter_append_perm _ _
  have hsorted : (List.range' 1 (g.nodeSequences.length - 1)).Pairwise (fun a b => a < b) :=
    List.pairwise_lt_range' 1 (g.nodeSequences.length - 1)
  have hmem : ∀ w, w ∈ List.range' 1 (g.nodeSequences.length - 1)
      ↔ (1 ≤ w ∧ w < g.nodeSequences.length) := by
    intro w
    rw [List.mem_range'_1]
    omega
  refine ⟨hperm, (List.Perm.nodup_iff hperm).mpr (List.nodup_range' 1 _), _, _, rfl,
    List.Pairwise.filter _ hsorted, List.Pairwise.filter _ hsorted, ?_, ?_⟩
  · intro w
    rw [List.mem_filter, hmem]
    simp only [GraphAligner.usesFullR, Bool.and_eq_true, decide_eq_true_eq]
  · intro w
    rw [List.mem_filter, hmem]
    simp only [GraphAligner.usesFullR, Bool.not_eq_true', Bool.and_eq_false_iff,
      decide_eq_false_iff_not, not_and, Bool.not_eq_true]
    constructor
    · rintro ⟨h1, h2⟩
      refine ⟨h1, ?_⟩
      intro h3
      rcases h2 with h2 | h2
      · exact absurd h3 h2
      · exact h2
    · rintro ⟨h1, h2⟩
      refine ⟨h1, ?_⟩
      by_cases h3 : w = g.nodeStart.getD (g.indexToNode.getD w 0) 0
      · exact Or.inr (h2 h3)
      · exact Or.inl h3

/-- C29, the claim as stated fails.  In the finalized graph of scenario S1 the
edge from the dummy node `0` to the node `1` has the weight `1`, the length of
the dummy node, not `4`, the length of the node it leads to. -/
theorem C29_counterexample :
    ∃ g, graphS1 = .ok g ∧ g.johnsonEdges = [(0, 0, 1), (0, 1, 1)]
      ∧ g.nodeEnd.getD 0 0 - g.nodeStart.getD 0 0 = 1
      ∧ g.nodeEnd.getD 1 0 - g.nodeStart.getD 1 0 = 4 := by
  obtain ⟨g, hg⟩ := ok_of_isOk graphS1 (by decide)
  refine ⟨g, hg, ?_⟩
  have h : (graphS1.map (fun g => decide (g.johnsonEdges = [(0, 0, 1), (0, 1, 1)]
      ∧ g.nodeEnd.getD 0 0 - g.nodeStart.getD 0 0 = 1
      ∧ g.nodeEnd.getD 1 0 - g.nodeStart.getD 1 0 = 4))) = .ok true := by decide
  rw [hg] at h
  simp only [Except.map, Except.ok.injEq, decide_eq_true_eq] at h
  exact h

/-- C29, amended to the source node.  The graph handed to the shortest-path
computation by `getDistanceMatrixBoostJohnson` has one edge `u → v` for every
in-neighbor `u` of every node `v`, and the weight of every edge `u → v` equals
the length (number of bases) of the source node `u`. -/
theorem C29_edge_weight (g : GraphAligner) :
    (∀ e ∈ g.johnsonEdges,
      e.2.2 = ((g.nodeEnd.getD e.1 0 - g.nodeStart.getD e.1 0 : Nat) : Int))
    ∧ (∀ u v, (∃ weight, (u, v, weight) ∈ g.johnsonEdges)
        ↔ (v < g.inNeighbors.length ∧ u ∈ g.inNeighbors.getD v [])) := by
  constructor
  · intro e he
    unfold GraphAligner.johnsonEdges at he
    simp only [List.mem_flatMap, List.mem_map] at he
    obtain ⟨i, -, src, -, rfl⟩ := he
    rfl
  · intro u v
    unfold GraphAligner.johnsonEdges
    simp only [List.mem_flatMap, List.mem_map, List.mem_range, Prod.mk.injEq]
    constructor
    · rintro ⟨weight, i, hi, src, hsrc, rfl, rfl, -⟩
      exact ⟨hi, hsrc⟩
    · rintro ⟨hv, hu⟩
      exact ⟨_, v, hv, u, hu, rfl, rfl, rfl⟩

theorem getCell_setCell {α : Type} (m : List (List α)) (w j a b : Nat) (v d : α) :
    getCell (setCell m w j v) a b d
      = if (a = w ∧ w < m.length) ∧ (b = j ∧ j < (m.getD w []).length) then v
        else getCell m a b d := by
  unfold getCell setCell
  rw [getD_set_eq]
  by_cases h1 : a = w ∧ w < m.length
  · rw [if_pos h1, getD_set_eq, h1.1]
    by_cases h2 : b = j ∧ j < (m.getD w []).length
    · rw [if_pos h2, if_pos ⟨⟨rfl, h1.2⟩, h2⟩]
    · rw [if_neg h2, if_neg (fun h => h2 h.2)]
  · rw [if_neg h1, if_neg (fun h => h1 h.1)]

theorem setCell_length {α : Type} (m : List (List α)) (w j : Nat) (v : α) :
    (setCell m w j v).length = m.length := by
  unfold setCell
  exact List.length_set _ _ _

theorem setCell_row_length {α : Type} (m : List (List α)) (w j a : Nat) (v : α) :
    ((setCell m w j v).getD a []).length = (m.getD a []).length := by
  unfold setCell
  rw [getD_set_eq]
  split
  · rename_i h
    rw [List.length_set, h.1]
  · rfl

/-- The inner loop of the diagonal computation for the node `i`, over the
nodes of `l`: it changes the entry `(i, i)` only, to the minimum of its old
value and the sums `m[i][j] + m[j][i]` for the `j ≠ i` of `l`. -/
theorem diagonal_inner (V i : Nat) (hi : i < V) (l : List Nat) :
    ∀ m : List (List Nat), m.length = V → (∀ a, a < V → (m.getD a []).length = V) →
      ((l.foldl (fun result j =>
          if j = i then result
          else setCell result i i
            (Nat.min (getCell result i i 0) (getCell result i j 0 + getCell result j i 0)))
          m).length = V
        ∧ (∀ a, a < V → ((l.foldl (fun result j =>
          if j = i then result
          else setCell result i i
            (Nat.min (getCell result i i 0) (getCell result i j 0 + getCell result j i 0)))
          m).getD a []).length = V)
        ∧ (∀ a b, ¬ (a = i ∧ b = i) → getCell (l.foldl (fun result j =>
          if j = i then result
          else setCell result i i
            (Nat.min (getCell result i i 0) (getCell result i j 0 + getCell result j i 0)))
          m) a b 0 = getCell m a b 0)
        ∧ getCell (l.foldl (fun result j =>
          if j = i then result
          else setCell result i i
            (Nat.min (getCell result i i 0) (getCell result i j 0 + getCell result j i 0)))
          m) i i 0
          = ((l.filter (fun j => decide (j ≠ i))).map
              (fun j => getCell m i j 0 + getCell m j i 0)).foldl Nat.min (getCell m i i 0)) := by
  induction l with
  | nil =>
    intro m hl hr
    exact ⟨hl, hr, fun _ _ _ => rfl, rfl⟩
  | cons j t ih =>
    intro m hl hr
    rw [List.foldl_cons]
    by_cases hj : j = i
    · rw [if_pos hj]
      have := ih m hl hr
      rw [List.filter_cons_of_neg (by simpa using hj)]
      exact this
    · rw [if_neg hj]
      have hl1 := (setCell_length m i i (Nat.min (getCell m i i 0)
        (getCell m i j 0 + getCell m j i 0))).trans hl
      have hr1 : ∀ a, a < V → ((setCell m i i (Nat.min (getCell m i i 0)
          (getCell m i j 0 + getCell m j i 0))).getD a []).length = V := by
        intro a ha
        rw [setCell_row_length]
        exact hr a ha
      obtain ⟨p1, p2, p3, p4⟩ := ih _ hl1 hr1
      have hoff : ∀ a b, ¬ (a = i ∧ b = i) → getCell (setCell m i i (Nat.min (getCell m i i 0)
          (getCell m i j 0 + getCell m j i 0))) a b 0 = getCell m a b 0 := by
        intro a b hab
        rw [getCell_setCell, if_neg]
        intro h
        exact hab ⟨h.1.1, h.2.1⟩
      have hdiag : getCell (setCell m i i (Nat.min (getCell m i i 0)
          (getCell m i j 0 + getCell m j i 0))) i i 0
          = Nat.min (getCell m i i 0) (getCell m i j 0 + getCell m j i 0) := by
        rw [getCell_setCell, if_pos]
        exact ⟨⟨rfl, by omega⟩, rfl, by rw [hr i hi]; exact hi⟩
      refine ⟨p1, p2, ?_, ?_⟩
      · intro a b hab
        rw [p3 a b hab, hoff a b hab]
      · rw [p4, hdiag, List.filter_cons_of_pos (by simpa using hj), List.map_cons,
          List.foldl_cons]
        congr 1
        apply List.map_congr_left
        intro u hu
        have hu : u ≠ i := by simpa using (List.mem_filter.mp hu).2
        rw [hoff i u (fun h => hu h.2), hoff u i (fun h => hu h.1)]

theorem diagonal_sums_congr (V i bound : Nat) (m m' : List (List Nat))
    (h : ∀ a b, a ≠ b → getCell m a b 0 = getCell m' a b 0) :
    (((List.range V).filter (fun j => decide (j ≠ i))).map
        (fun j => getCell m i j 0 + getCell m j i 0)).foldl Nat.min bound
      = (((List.range V).filter (fun j => decide (j ≠ i))).map
        (fun j => getCell m' i j 0 + getCell m' j i 0)).foldl Nat.min bound := by
  congr 1
  apply List.map_congr_left
  intro u hu
  have hu : u ≠ i := by simpa using (List.mem_filter.mp hu).2
  rw [h i u (Ne.symm hu), h u i hu]

/-- The loop of the diagonal computation over the nodes of `l`: it changes
diagonal entries only, and the entry `(i, i)` of every `i` of `l` becomes the
minimum of `bound` and the sums `m[i][j] + m[j][i]` over the nodes `j ≠ i`. -/
theorem diagonal_outer (V bound : Nat) (l : List Nat) (hlV : ∀ i ∈ l, i < V) :
    ∀ m F : List (List Nat), m.length = V → (∀ a, a < V → (m.getD a []).length = V) →
      F = l.foldl (fun result i =>
        (List.range V).foldl (fun result j =>
          if j = i then result
          else setCell result i i
            (Nat.min (getCell result i i 0) (getCell result i j 0 + getCell result j i 0)))
          (setCell result i i bound)) m →
      (F.length = V ∧ (∀ a, a < V → (F.getD a []).length = V))
        ∧ (∀ a b, a ≠ b → getCell F a b 0 = getCell m a b 0)
        ∧ (∀ i, i ∉ l → getCell F i i 0 = getCell m i i 0)
        ∧ (∀ i ∈ l, getCell F i i 0
            = (((List.range V).filter (fun j => decide (j ≠ i))).map
                (fun j => getCell m i j 0 + getCell m j i 0)).foldl Nat.min bound) := by
  induction l with
  | nil =>
    intro m F hl hr hF
    subst hF
    exact ⟨⟨hl, hr⟩, fun _ _ _ => rfl, fun _ _ => rfl, fun i hi => absurd hi (List.not_mem_nil i)⟩
  | cons i t ih =>
    intro m F hl hr hF
    rw [List.foldl_cons] at hF
    have hi : i < V := hlV i (List.mem_cons_self i t)
    have hl0 := (setCell_length m i i bound).trans hl
    have hr0 : ∀ a, a < V → ((setCell m i i bound).getD a []).length = V := by
      intro a ha
      rw [setCell_row_length]
      exact hr a ha
    have hoff0 : ∀ a b, ¬ (a = i ∧ b = i) →
        getCell (setCell m i i bound) a b 0 = getCell m a b 0 := by
      intro a b hab
      rw [getCell_setCell, if_neg]
      intro h
      exact hab ⟨h.1.1, h.2.1⟩
    have hdiag0 : getCell (setCell m i i bound) i i 0 = bound := by
      rw [getCell_setCell, if_pos]
      exact ⟨⟨rfl, by omega⟩, rfl, by rw [hr i hi]; exact hi⟩
    obtain ⟨q1, q2, q3, q4⟩ := diagonal_inner V i hi (List.range V) (setCell m i i bound) hl0 hr0
    obtain ⟨⟨p1, p2⟩, p3, p4, p5⟩ :=
      ih (fun k hk => hlV k (List.mem_cons_of_mem i hk)) _ F q1 q2 hF
    have hoff1 : ∀ a b, a ≠ b → getCell ((List.range V).foldl (fun result j =>
          if j = i then result
          else setCell result i i
            (Nat.min (getCell result i i 0) (getCell result i j 0 + getCell result j i 0)))
          (setCell m i i bound)) a b 0 = getCell m a b 0 := by
      intro a b hab
      rw [q3 a b (fun h => hab (h.1.trans h.2.symm)), hoff0 a b (fun h => hab (h.1.trans h.2.symm))]
    have hhead : getCell ((List.range V).foldl (fun result j =>
          if j = i then result
          else setCell result i i
            (Nat.min (getCell result i i 0) (getCell result i j 0 + getCell result j i 0)))
          (setCell m i i bound)) i i 0
        = (((List.range V).filter (fun j => decide (j ≠ i))).map
            (fun j => getCell m i j 0 + getCell m j i 0)).foldl Nat.min bound := by
      rw [q4, hdiag0]
      exact diagonal_sums_congr V i bound _ _ (fun a b hab => hoff0 a b
        (fun h => hab (h.1.trans h.2.symm)))
    refine ⟨⟨p1, p2⟩, ?_, ?_, ?_⟩
    · intro a b hab
      rw [p3 a b hab, hoff1 a b hab]
    · intro k hk
      have hki : k ≠ i := fun h => hk (h ▸ List.mem_cons_self i t)
      have hkt : k ∉ t := fun h => hk (List.mem_cons_of_mem i h)
      rw [p4 k hkt, q3 k k (fun h => hki h.1), hoff0 k k (fun h => hki h.1)]
    · intro k hk
      by_cases hkt : k ∈ t
      · rw [p5 k hkt]
        exact diagonal_sums_congr V k bound _ _ hoff1
      · have hki : k = i := by
          rcases List.mem_cons.mp hk with h | h
          · exact h
          · exact absurd h hkt
        subst hki
        rw [p4 k hkt, hhead]

/-- C30, the claim as stated fails.  In the finalized graph of scenario S1
(five bases with the dummy base) the distance matrix is `[[6, 1], [6, 6]]`: the
diagonal entry of node `1` is `6`, the number of bases plus one, while the only
sum `dist[1][0] + dist[0][1]` over another node is `7`. -/
theorem C30_counterexample :
    ∃ g, graphS1 = .ok g ∧ g.getDistanceMatrixBoostJohnson = [[6, 1], [6, 6]]
      ∧ g.nodeSequences.length = 5
      ∧ getCell g.getDistanceMatrixBoostJohnson 1 1 0 = 6
      ∧ getCell g.getDistanceMatrixBoostJohnson 1 0 0
          + getCell g.getDistanceMatrixBoostJohnson 0 1 0 = 7 := by
  obtain ⟨g, hg⟩ := ok_of_isOk graphS1 (by decide)
  refine ⟨g, hg, ?_⟩
  have h : (graphS1.map (fun g => decide (g.getDistanceMatrixBoostJohnson = [[6, 1], [6, 6]]
      ∧ g.nodeSequences.length = 5
      ∧ getCell g.getDistanceMatrixBoostJohnson 1 1 0 = 6
      ∧ getCell g.getDistanceMatrixBoostJohnson 1 0 0
          + getCell g.getDistanceMatrixBoostJohnson 0 1 0 = 7))) = .ok true := by decide!
  rw [hg] at h
  simp only [Except.map, Except.ok.injEq, decide_eq_true_eq] at h
  exact h

/-- C30, amended by the bound.  For every node `v` of a graph the diagonal
entry `dist[v][v]` returned by `getDistanceMatrixBoostJohnson` equals the
minimum of the number of bases plus one and of the sums `dist[v][u] + dist[u][v]`
over all nodes `u ≠ v`, where `dist[v][u]` and `dist[u][v]` are the off-diagonal
entries of the returned matrix. -/
theorem C30_diagonal (g : GraphAligner) (v : Nat) (hv : v < g.inNeighbors.length) :
    getCell g.getDistanceMatrixBoostJohnson v v 0
      = (((List.range g.inNeighbors.length).filter (fun u => decide (u ≠ v))).map
          (fun u => getCell g.getDistanceMatrixBoostJohnson v u 0
            + getCell g.getDistanceMatrixBoostJohnson u v 0)).foldl Nat.min
          (g.nodeSequences.length + 1) := by
  have hdim : ∀ (f : Nat → Nat → Nat) (V : Nat),
      ((List.range V).map (fun i => (List.range V).map (fun j => f i j))).length = V
      ∧ ∀ a, a < V →
        (((List.range V).map (fun i => (List.range V).map (fun j => f i j))).getD a []).length
          = V := by
    intro f V
    refine ⟨by simp, ?_⟩
    intro a ha
    rw [getD_map_range, if_pos ha]
    simp
  obtain ⟨⟨-, -⟩, p3, -, p5⟩ := diagonal_outer g.inNeighbors.length (g.nodeSequences.length + 1)
    (List.range g.inNeighbors.length) (fun i hi => List.mem_range.mp hi) _
    g.getDistanceMatrixBoostJohnson (hdim _ _).1 (hdim _ _).2 rfl
  rw [p5 v (List.mem_range.mpr hv)]
  exact (diagonal_sums_congr _ v _ _ _ p3).symm

/-- C30 (amended) at node `1` of scenario S1: its diagonal entry is `6`. -/
theorem C30_witness :
    ∃ g, graphS1 = .ok g ∧ 1 < g.inNeighbors.length
      ∧ getCell g.getDistanceMatrixBoostJohnson 1 1 0
        = (((List.range g.inNeighbors.length).filter (fun u => decide (u ≠ 1))).map
            (fun u => getCell g.getDistanceMatrixBoostJohnson 1 u 0
              + getCell g.getDistanceMatrixBoostJohnson u 1 0)).foldl Nat.min
            (g.nodeSequences.length + 1) := by
  obtain ⟨g, hg⟩ := ok_of_isOk graphS1 (by decide)
  have h : (graphS1.map (fun g => decide (1 < g.inNeighbors.length))) = .ok true := by decide
  rw [hg] at h
  simp only [Except.map, Except.ok.injEq, decide_eq_true_eq] at h
  exact ⟨g, hg, h, C30_diagonal g 1 h⟩

/-! ## Theorems: the edges from the dummy node -/

/-- C21 evaluated.  `Finalize` never changes `outNeighbors`: in the finalized
graph of scenario S1 the node `2` (index `1`) has the in-neighbor `0`, but the
dummy node has no out-neighbor.  On the graph built by `AddNode(2, "A")`,
`AddNode(4, "")` neither node has an in-neighbor before `Finalize`; after it the
node `4` (index `2`), which has no base, still has none. -/
theorem C21_finalize_dummy_edges :
    (∀ g : GraphAligner, g.Finalize.outNeighbors = g.outNeighbors)
    ∧ graphS1.map (fun g => (g.inNeighbors, g.outNeighbors)) = .ok ([[0], [0]], [[], []])
    ∧ (GraphAligner.build [.addNode 2 "A", .addNode 4 ""]).map
        (fun g => (g.inNeighbors, g.outNeighbors, g.Finalize.inNeighbors,
          g.Finalize.outNeighbors))
      = .ok ([[], [], []], [[], [], []], [[0], [0], []], [[], [], []]) :=
  ⟨fun _ => rfl, by decide, by decide⟩

/-! ## Theorems: the body of the row loop -/

theorem bind_eq_ok {σ τ : Type} {first : Except String σ} {next : σ → Except String τ}
    {result : τ} (hboth : first >>= next = Except.ok result) :
    ∃ mid, first = Except.ok mid ∧ next mid = Except.ok result := by
  rcases first with msg | mid
  · cases hboth
  · exact ⟨mid, rfl, hboth⟩

/-- The parts of the body of the row loop, when the body ends without a failing
assertion. -/
theorem sliceCell_ok (g : GraphAligner) (sequence : List Char) (hasWrongOrders : Bool)
    (distanceMatrix : List (List Nat)) (Rhelper : List (Nat × Int)) (start j : Nat)
    (s s' : SliceState) (w : Nat)
    (h : g.sliceCell sequence hasWrongOrders distanceMatrix Rhelper start j s w = .ok s') :
    s.currentInsideBand.getD w false = true
    ∧ ∃ s2 s3 s4,
      g.cellR hasWrongOrders distanceMatrix Rhelper start j
          (g.hasInNeighborInsideBand w s.currentInsideBand) (g.cellQ start j s w) w = .ok s2
      ∧ g.cellMQR start j (g.hasInNeighborInsideBand w s.currentInsideBand) s2 w = .ok s3
      ∧ g.cellMatch sequence start j s3 w = .ok s4
      ∧ g.cellReset start j (g.hasInNeighborInsideBand w s.currentInsideBand) s4 w = .ok s' := by
  unfold GraphAligner.sliceCell at h
  obtain ⟨h1, h⟩ := assert_bind_ok h
  obtain ⟨s2, h2, h⟩ := bind_eq_ok h
  obtain ⟨s3, h3, h⟩ := bind_eq_ok h
  obtain ⟨s4, h4, h⟩ := bind_eq_ok h
  exact ⟨h1, s2, s3, s4, h2, h3, h4, h⟩

/-- The update of `R` in the body of the row loop: by `fullR`, by
`recurrenceR`, or not at all. -/
theorem cellR_ok (g : GraphAligner) (hasWrongOrders : Bool)
    (distanceMatrix : List (List Nat)) (Rhelper : List (Nat × Int)) (start j : Nat)
    (neighborInsideBand : Bool) (s s' : SliceState) (w : Nat)
    (h : g.cellR hasWrongOrders distanceMatrix Rhelper start j neighborInsideBand s w = .ok s') :
    (g.usesFullR w = true
      ∧ ∃ rr, g.fullR w j Rhelper distanceMatrix start = .ok rr
        ∧ s' = { s with currentR := s.currentR.set w rr.1
                        currentRbacktrace := s.currentRbacktrace.set w rr.2 })
    ∨ (g.usesFullR w = false ∧ neighborInsideBand = true
      ∧ ∃ rr, g.recurrenceR w j s.currentM s.currentR s.currentRbacktrace start
            s.currentInsideBand = .ok rr
        ∧ s' = { s with currentR := s.currentR.set w rr.1
                        currentRbacktrace := s.currentRbacktrace.set w rr.2 })
    ∨ (g.usesFullR w = false ∧ neighborInsideBand = false ∧ s' = s) := by
  unfold GraphAligner.cellR at h
  cases hf : g.usesFullR w with
  | true =>
    left
    rw [hf] at h
    simp only [if_true] at h
    obtain ⟨-, h⟩ := assert_bind_ok h
    obtain ⟨rr, hrr, h⟩ := bind_eq_ok h
    try simp only at h
    obtain ⟨-, h⟩ := assert_bind_ok h
    injection h with h
    exact ⟨rfl, rr, hrr, h.symm⟩
  | false =>
    right
    rw [hf] at h
    simp only [Bool.false_eq_true, if_false] at h
    cases hn : neighborInsideBand with
    | true =>
      left
      rw [hn] at h
      simp only [if_true] at h
      obtain ⟨rr, hrr, h⟩ := bind_eq_ok h
      try simp only at h
      obtain ⟨-, h⟩ := assert_bind_ok h
      injection h with h
      exact ⟨rfl, rfl, rr, hrr, h.symm⟩
    | false =>
      right
      rw [hn] at h
      simp only [Bool.false_eq_true, if_false] at h
      injection h with h
      exact ⟨rfl, rfl, h.symm⟩

/-- The update of `M` from `Q` and from `R` in the body of the row loop. -/
theorem cellMQR_ok (g : GraphAligner) (start j : Nat) (neighborInsideBand : Bool)
    (s s' : SliceState) (w : Nat) (hM : w < s.currentM.length)
    (h : g.cellMQR start j neighborInsideBand s w = .ok s') :
    s' = { s with
      currentM := s.currentM.set w
        (if (g.usesFullR w || (!g.usesFullR w && neighborInsideBand)) = true
            ∧ s.currentR.getD w 0 > (if s.previousInsideBand.getD w false = true
                then s.currentQ.getD w 0 else ScoreType.min + 99)
          then s.currentR.getD w 0
          else (if s.previousInsideBand.getD w false = true
                then s.currentQ.getD w 0 else ScoreType.min + 99))
      backtrace :=
        if (g.usesFullR w || (!g.usesFullR w && neighborInsideBand)) = true
            ∧ s.currentR.getD w 0 > (if s.previousInsideBand.getD w false = true
                then s.currentQ.getD w 0 else ScoreType.min + 99)
          then setCell (if s.previousInsideBand.getD w false = true
              then setCell s.backtrace w j (s.Qbacktrace.getD w (0, 0)) else s.backtrace)
            w j (s.currentRbacktrace.getD w (0, 0))
          else (if s.previousInsideBand.getD w false = true
              then setCell s.backtrace w j (s.Qbacktrace.getD w (0, 0)) else s.backtrace) } := by
  unfold GraphAligner.cellMQR at h
  have hset : ∀ (a : Int), (s.currentM.set w a).getD w 0 = a :=
    fun a => getD_set_self _ _ _ _ hM
  have hset2 : ∀ (a b : Int), ((s.currentM.set w a).set w b).getD w 0 = b :=
    fun a b => getD_set_self _ _ _ _ (by rw [List.length_set]; exact hM)
  cases hp : s.previousInsideBand.getD w false with
  | false =>
    simp only [hp, Bool.false_eq_true, if_false, pure, Except.pure, bind, Except.bind] at h ⊢
    split at h
    · rename_i hc
      split at h
      · rename_i hr
        obtain ⟨-, h⟩ := assert_bind_ok h
        injection h with h
        rw [hset] at hr
        rw [if_pos ⟨hc, hr⟩, if_pos ⟨hc, hr⟩, ← h, List.set_set]
      · rename_i hr
        injection h with h
        rw [hset] at hr
        rw [if_neg (fun x => hr x.2), if_neg (fun x => hr x.2), ← h]
    · rename_i hc
      injection h with h
      rw [if_neg (fun x => hc x.1), if_neg (fun x => hc x.1), ← h]
  | true =>
    simp only [hp, if_true, pure, Except.pure, bind, Except.bind] at h ⊢
    obtain ⟨-, h⟩ := assert_bind_ok h
    try simp only at h
    split at h
    · rename_i hc
      split at h
      · rename_i hr
        obtain ⟨-, h⟩ := assert_bind_ok h
        injection h with h
        rw [hset2] at hr
        rw [if_pos ⟨hc, hr⟩, if_pos ⟨hc, hr⟩, ← h, List.set_set, List.set_set]
      · rename_i hr
        injection h with h
        rw [hset2] at hr
        rw [if_neg (fun x => hr x.2), if_neg (fun x => hr x.2), ← h, List.set_set]
    · rename_i hc
      injection h with h
      rw [if_neg (fun x => hc x.1), if_neg (fun x => hc x.1), ← h, List.set_set]

theorem cellMatchFrom_ok (g : GraphAligner) (sequence : List Char) (start j w : Nat)
    (s s' : SliceState) (u : Nat)
    (h : g.cellMatchFrom sequence start j w s u = .ok s') :
    s' = if s.previousInsideBand.getD u false = true
        ∧ (g.matchCandidate sequence start j s.previousM w u).1 > s.currentM.getD w 0
      then { s with
        currentM := s.currentM.set w (g.matchCandidate sequence start j s.previousM w u).1
        backtrace := setCell s.backtrace w j (u, j - 1 + start) }
      else s := by
  unfold GraphAligner.cellMatchFrom at h
  unfold GraphAligner.matchCandidate
  cases hp : s.previousInsideBand.getD u false with
  | false =>
    simp only [hp, Bool.not_false, if_true, pure, Except.pure] at h
    injection h with h
    rw [if_neg (fun x => Bool.false_ne_true x.1)]
    exact h.symm
  | true =>
    simp only [hp, Bool.not_true, Bool.false_eq_true, if_false, pure, Except.pure] at h
    split at h
    · rename_i hc
      obtain ⟨-, h⟩ := assert_bind_ok h
      injection h with h
      rw [if_pos ⟨rfl, hc⟩]
      exact h.symm
    · rename_i hc
      injection h with h
      rw [if_neg (fun x => hc x.2)]
      exact h.symm

/-- The value and the recorded predecessor of the cell `(w, j)` after one
match candidate has been looked at. -/
theorem cellMatchFrom_view (g : GraphAligner) (sequence : List Char) (start j w : Nat)
    (s s' : SliceState) (u : Nat) (hM : w < s.currentM.length) (hb : w < s.backtrace.length)
    (hj : j < (s.backtrace.getD w []).length)
    (h : g.cellMatchFrom sequence start j w s u = .ok s') :
    (s' = { s with currentM := s'.currentM, backtrace := s'.backtrace }
      ∧ w < s'.currentM.length ∧ w < s'.backtrace.length
      ∧ j < (s'.backtrace.getD w []).length)
    ∧ (s'.currentM.getD w 0, getCell s'.backtrace w j (0, 0))
      = if s.previousInsideBand.getD u false = true
        then better (s.currentM.getD w 0, getCell s.backtrace w j (0, 0))
          (g.matchCandidate sequence start j s.previousM w u)
        else (s.currentM.getD w 0, getCell s.backtrace w j (0, 0)) := by
  have h := cellMatchFrom_ok g sequence start j w s s' u h
  by_cases hc : s.previousInsideBand.getD u false = true
      ∧ (g.matchCandidate sequence start j s.previousM w u).1 > s.currentM.getD w 0
  · rw [if_pos hc] at h
    subst h
    refine ⟨⟨rfl, by simpa using hM, by simpa [setCell_length] using hb, ?_⟩, ?_⟩
    · simp only
      rw [setCell_row_length]
      exact hj
    · rw [if_pos hc.1]
      unfold better
      simp only
      rw [if_pos hc.2, getD_set_self _ _ _ _ hM, getCell_setCell, if_pos ⟨⟨rfl, hb⟩, rfl, hj⟩]
      rfl
  · rw [if_neg hc] at h
    subst h
    refine ⟨⟨rfl, hM, hb, hj⟩, ?_⟩
    split
    · rename_i hp
      unfold better
      rw [if_neg (fun x => hc ⟨hp, x⟩)]
    · rfl

theorem cellMatch_fold_view (g : GraphAligner) (sequence : List Char) (start j w : Nat)
    (us : List Nat) :
    ∀ (s s' : SliceState), w < s.currentM.length → w < s.backtrace.length →
      j < (s.backtrace.getD w []).length →
      us.foldlM (fun s u => g.cellMatchFrom sequence start j w s u) s = .ok s' →
      (s' = { s with currentM := s'.currentM, backtrace := s'.backtrace }
        ∧ w < s'.currentM.length ∧ w < s'.backtrace.length
        ∧ j < (s'.backtrace.getD w []).length)
      ∧ (s'.currentM.getD w 0, getCell s'.backtrace w j (0, 0))
        = ((us.filter (fun u => s.previousInsideBand.getD u false)).map
            (g.matchCandidate sequence start j s.previousM w)).foldl better
            (s.currentM.getD w 0, getCell s.backtrace w j (0, 0)) := by
  induction us with
  | nil =>
    intro s s' hM hb hj h
    simp only [List.foldlM, pure, Except.pure] at h
    injection h with h
    subst h
    exact ⟨⟨rfl, hM, hb, hj⟩, rfl⟩
  | cons u t ih =>
    intro s s' hM hb hj h
    simp only [List.foldlM] at h
    obtain ⟨s1, h1, h⟩ := bind_eq_ok h
    obtain ⟨⟨f1, m1, b1, j1⟩, v1⟩ := cellMatchFrom_view g sequence start j w s s1 u hM hb hj h1
    obtain ⟨⟨f2, m2, b2, j2⟩, v2⟩ := ih s1 s' m1 b1 j1 h
    have hpi : s1.previousInsideBand = s.previousInsideBand := by rw [f1]
    have hpm : s1.previousM = s.previousM := by rw [f1]
    refine ⟨⟨?_, m2, b2, j2⟩, ?_⟩
    · rw [f2, f1]
    · rw [v2, v1, hpi, hpm]
      by_cases hp : s.previousInsideBand.getD u false = true
      · rw [if_pos hp]
        simp only [List.filter_cons, hp, if_true, List.map_cons, List.foldl_cons]
      · rw [if_neg hp]
        have hp' : s.previousInsideBand.getD u false = false := by simpa using hp
        simp only [List.filter_cons, hp', Bool.false_eq_true, if_false]

/-- The value and the recorded predecessor of the cell `(w, j)` after the match
candidates: those of the predecessors inside the band of the previous row have
been compared in their order. -/
theorem cellMatch_view (g : GraphAligner) (sequence : List Char) (start j : Nat)
    (s s' : SliceState) (w : Nat) (hM : w < s.currentM.length) (hb : w < s.backtrace.length)
    (hj : j < (s.backtrace.getD w []).length)
    (h : g.cellMatch sequence start j s w = .ok s') :
    (s' = { s with currentM := s'.currentM, backtrace := s'.backtrace }
      ∧ w < s'.currentM.length ∧ w < s'.backtrace.length
      ∧ j < (s'.backtrace.getD w []).length)
    ∧ (s'.currentM.getD w 0, getCell s'.backtrace w j (0, 0))
      = (((g.predecessors w).filter (fun u => s.previousInsideBand.getD u false)).map
          (g.matchCandidate sequence start j s.previousM w)).foldl better
          (s.currentM.getD w 0, getCell s.backtrace w j (0, 0)) := by
  unfold GraphAligner.cellMatch at h
  unfold GraphAligner.predecessors
  simp only at h
  split at h
  · rename_i hs
    rw [if_pos hs]
    have := cellMatch_fold_view g sequence start j w
      ((g.inNeighbors.getD (g.indexToNode.getD w 0) []).map (fun nb => g.nodeEnd.getD nb 0 - 1))
      s s' hM hb hj (by rw [List.foldlM_map]; exact h)
    exact this
  · rename_i hs
    rw [if_neg hs]
    have := cellMatch_fold_view g sequence start j w [w - 1] s s' hM hb hj (by
      simp only [List.foldlM, bind_pure]
      exact h)
    exact this

/-- The last part of the body of the row loop: `Q` and `R` are set to `M`
where they could not be computed. -/
theorem cellReset_ok (g : GraphAligner) (start j : Nat) (neighborInsideBand : Bool)
    (s s' : SliceState) (w : Nat)
    (h : g.cellReset start j neighborInsideBand s w = .ok s') :
    s' = { s with
      currentQ := if s.previousInsideBand.getD w false = true then s.currentQ
        else s.currentQ.set w (s.currentM.getD w 0)
      Qbacktrace := if s.previousInsideBand.getD w false = true then s.Qbacktrace
        else s.Qbacktrace.set w (w, j + start)
      currentR := if g.usesFullR w = false ∧ neighborInsideBand = false
        then s.currentR.set w (s.currentM.getD w 0) else s.currentR
      currentRbacktrace := if g.usesFullR w = false ∧ neighborInsideBand = false
        then s.currentRbacktrace.set w (w, j + start) else s.currentRbacktrace } := by
  unfold GraphAligner.cellReset at h
  simp only at h
  obtain ⟨-, h⟩ := assert_bind_ok h
  obtain ⟨-, h⟩ := assert_bind_ok h
  obtain ⟨-, h⟩ := assert_bind_ok h
  injection h with h
  rw [← h]
  cases hp : s.previousInsideBand.getD w false <;> cases hf : g.usesFullR w
    <;> cases hn : neighborInsideBand <;> simp

theorem cellMQR_frame (g : GraphAligner) (start j : Nat) (neighborInsideBand : Bool)
    (s s' : SliceState) (w : Nat) (h : g.cellMQR start j neighborInsideBand s w = .ok s') :
    s' = { s with currentM := s'.currentM, backtrace := s'.backtrace } := by
  unfold GraphAligner.cellMQR at h
  simp only [bind, Except.bind, pure, Except.pure, assert] at h
  repeat' split at h
  all_goals first
    | (injection h with h; subst h; rfl)
    | cases h

theorem cellMatch_frame (g : GraphAligner) (sequence : List Char) (start j : Nat)
    (s s' : SliceState) (w : Nat) (h : g.cellMatch sequence start j s w = .ok s') :
    s' = { s with currentM := s'.currentM, backtrace := s'.backtrace } := by
  have hstep : ∀ (a : SliceState) (u : Nat) (b : SliceState),
      b = { s with currentM := b.currentM, backtrace := b.backtrace } →
      ∀ c, g.cellMatchFrom sequence start j w b u = .ok c →
        c = { s with currentM := c.currentM, backtrace := c.backtrace } := by
    intro _ u b hb c hc
    have := cellMatchFrom_ok g sequence start j w b c u hc
    split at this
    · rw [this, hb]
    · rw [this]; exact hb
  unfold GraphAligner.cellMatch at h
  simp only at h
  split at h
  · exact foldlM_inv _ (fun b => b = { s with currentM := b.currentM, backtrace := b.backtrace })
      (fun b nb c hb hc => hstep s _ b hb c hc) _ s s' rfl h
  · exact hstep s _ s rfl s' h

/-! ## Theorems: the recurrences of `Q`, `R` and `M` -/

/-- C24.  Let the body of the row loop run for the position `w` in row `j` of a
slice that starts at row `start` (row `j + start` of the matrix) and end without
a failing assertion.  Then `w` is inside the band of that row.  If `w` was inside
the band of the previous row, the new `Q[w]` is the maximum of the previous
`Q[w]` minus the gap-continue penalty and the previous `M[w]` minus
`gapPenalty(1)`, and `Qbacktrace[w]` is set to `(w, j - 1 + start)` exactly when
the `M` term is strictly greater (it keeps its value otherwise).  If `w` was not
inside the band of the previous row, the new `Q[w]` is the new `M[w]` and
`Qbacktrace[w]` is `(w, j + start)`. -/
theorem C24_Q_recurrence (g : GraphAligner) (sequence : List Char) (hasWrongOrders : Bool)
    (distanceMatrix : List (List Nat)) (Rhelper : List (Nat × Int)) (start j N rows : Nat)
    (s s' : SliceState) (w : Nat) (hs : s.Shaped N rows) (hw : w < N)
    (h : g.sliceCell sequence hasWrongOrders distanceMatrix Rhelper start j s w = .ok s') :
    s.currentInsideBand.getD w false = true
    ∧ (s.previousInsideBand.getD w false = true →
        s'.currentQ.getD w 0 = max (s.previousQ.getD w 0 - g.gapContinuePenalty)
          (s.previousM.getD w 0 - g.gapPenalty 1)
        ∧ (s.previousM.getD w 0 - g.gapPenalty 1 > s.previousQ.getD w 0 - g.gapContinuePenalty →
            s'.Qbacktrace.getD w (0, 0) = (w, j - 1 + start))
        ∧ (¬ s.previousM.getD w 0 - g.gapPenalty 1 > s.previousQ.getD w 0 - g.gapContinuePenalty →
            s'.Qbacktrace.getD w (0, 0) = s.Qbacktrace.getD w (0, 0)))
    ∧ (s.previousInsideBand.getD w false = false →
        s'.currentQ.getD w 0 = s'.currentM.getD w 0
        ∧ s'.Qbacktrace.getD w (0, 0) = (w, j + start)) := by
  obtain ⟨hQ, hQb⟩ : w < s.currentQ.length ∧ w < s.Qbacktrace.length := by
    obtain ⟨-, h2, -, -, h5, -⟩ := hs
    exact ⟨by omega, by omega⟩
  obtain ⟨hin, s2, s3, s4, h2, h3, h4, h5⟩ :=
    sliceCell_ok g sequence hasWrongOrders distanceMatrix Rhelper start j s s' w h
  refine ⟨hin, ?_⟩
  -- the state after the update of `Q`
  have q1 : (g.cellQ start j s w).currentQ.getD w 0
      = max (s.previousQ.getD w 0 - g.gapContinuePenalty)
          (s.previousM.getD w 0 - g.gapPenalty 1) := by
    unfold GraphAligner.cellQ
    simp only
    rw [getD_set_self _ _ _ _ hQ]
    split
    · rename_i hc
      simp only
      rw [getD_set_self _ _ _ _ (by rw [List.length_set]; exact hQ)]
      exact (max_eq_right (le_of_lt hc)).symm
    · rename_i hc
      simp only
      rw [getD_set_self _ _ _ _ hQ]
      exact (max_eq_left (not_lt.mp hc)).symm
  have q2 : (g.cellQ start j s w).Qbacktrace.getD w (0, 0)
      = if s.previousM.getD w 0 - g.gapPenalty 1 > s.previousQ.getD w 0 - g.gapContinuePenalty
        then (w, j - 1 + start) else s.Qbacktrace.getD w (0, 0) := by
    unfold GraphAligner.cellQ
    simp only
    rw [getD_set_self _ _ _ _ hQ]
    split
    · simp only
      rw [getD_set_self _ _ _ _ hQb]
    · rfl
  have q3 : (g.cellQ start j s w).previousInsideBand = s.previousInsideBand := by
    unfold GraphAligner.cellQ
    simp only
    split <;> rfl
  have q4 : (g.cellQ start j s w).currentQ.length = s.currentQ.length
      ∧ (g.cellQ start j s w).Qbacktrace.length = s.Qbacktrace.length := by
    unfold GraphAligner.cellQ
    simp only
    split <;> simp
  -- the parts that follow keep `Q`, until the last one
  have f2 : s2.currentQ = (g.cellQ start j s w).currentQ
      ∧ s2.Qbacktrace = (g.cellQ start j s w).Qbacktrace
      ∧ s2.previousInsideBand = (g.cellQ start j s w).previousInsideBand := by
    rcases cellR_ok _ _ _ _ _ _ _ _ _ _ h2 with ⟨-, rr, -, e⟩ | ⟨-, -, rr, -, e⟩ | ⟨-, -, e⟩
      <;> rw [e] <;> exact ⟨rfl, rfl, rfl⟩
  have f3 := cellMQR_frame g start j _ s2 s3 w h3
  have f4 := cellMatch_frame g sequence start j s3 s4 w h4
  have f5 := cellReset_ok g start j _ s4 s' w h5
  have e4Q : s4.currentQ = (g.cellQ start j s w).currentQ := by rw [f4, f3]; exact f2.1
  have e4Qb : s4.Qbacktrace = (g.cellQ start j s w).Qbacktrace := by rw [f4, f3]; exact f2.2.1
  have e4p : s4.previousInsideBand = s.previousInsideBand := by
    rw [f4, f3]; exact f2.2.2.trans q3
  constructor
  · intro hp
    rw [← e4p] at hp
    have c1 : s'.currentQ = s4.currentQ := by rw [f5]; simp only [hp, if_true]
    have c2 : s'.Qbacktrace = s4.Qbacktrace := by rw [f5]; simp only [hp, if_true]
    rw [c1, c2, e4Q, e4Qb, q1, q2]
    refine ⟨rfl, ?_, ?_⟩
    · intro hc; rw [if_pos hc]
    · intro hc; rw [if_neg hc]
  · intro hp
    rw [← e4p] at hp
    have c1 : s'.currentQ = s4.currentQ.set w (s4.currentM.getD w 0) := by
      rw [f5]; simp only [hp, Bool.false_eq_true, if_false]
    have c2 : s'.Qbacktrace = s4.Qbacktrace.set w (w, j + start) := by
      rw [f5]; simp only [hp, Bool.false_eq_true, if_false]
    have c3 : s'.currentM = s4.currentM := by rw [f5]
    rw [c1, c2, c3]
    exact ⟨getD_set_self _ _ _ _ (by rw [e4Q, q4.1]; exact hQ),
      getD_set_self _ _ _ _ (by rw [e4Qb, q4.2]; exact hQb)⟩

/-- C24 at the position `1` in row `1` on the graph of scenario S1 with the
query `"ACGT"`. -/
theorem C24_witness :
    ∃ g s', graphS1 = .ok g ∧ stateS1.Shaped 5 5 ∧ 1 < 5
      ∧ g.sliceCell "ACGT".data false [] [] 0 1 stateS1 1 = .ok s'
      ∧ (stateS1.previousInsideBand.getD 1 false = true →
          s'.currentQ.getD 1 0 = max (stateS1.previousQ.getD 1 0 - g.gapContinuePenalty)
            (stateS1.previousM.getD 1 0 - g.gapPenalty 1)) := by
  obtain ⟨g, hg⟩ := ok_of_isOk graphS1 (by decide)
  have h1 : (graphS1.map (fun g =>
      (g.sliceCell "ACGT".data false [] [] 0 1 stateS1 1).isOk)) = .ok true := by decide
  rw [hg] at h1
  simp only [Except.map, Except.ok.injEq] at h1
  obtain ⟨s', hs'⟩ := ok_of_isOk _ h1
  have hshape : stateS1.Shaped 5 5 := by decide
  exact ⟨g, s', hg, hshape, by decide, hs',
    fun hp => ((C24_Q_recurrence g "ACGT".data false [] [] 0 1 5 5 stateS1 s' 1 hshape
      (by decide) hs').2.1 hp).1⟩

theorem scoreFloor_eq : scoreFloor = ScoreType.min + 100 := by decide

theorem cellQ_frame (g : GraphAligner) (start j : Nat) (s : SliceState) (w : Nat) :
    g.cellQ start j s w = { s with currentQ := (g.cellQ start j s w).currentQ
                                   Qbacktrace := (g.cellQ start j s w).Qbacktrace } := by
  unfold GraphAligner.cellQ
  simp only
  split <;> rfl

theorem hasInNeighborInsideBand_iff (g : GraphAligner) (w : Nat) (currentInsideBand : List Bool) :
    g.hasInNeighborInsideBand w currentInsideBand = true
      ↔ ∃ u ∈ g.predecessors w, currentInsideBand.getD u false = true := by
  unfold GraphAligner.hasInNeighborInsideBand GraphAligner.predecessors
  simp only
  by_cases hs : g.nodeStart.getD (g.indexToNode.getD w 0) 0 = w
  · rw [if_pos hs, if_pos hs.symm]
    simp only [List.any_eq_true, List.mem_map]
    constructor
    · rintro ⟨nb, hnb, h⟩
      exact ⟨_, ⟨nb, hnb, rfl⟩, h⟩
    · rintro ⟨u, ⟨nb, hnb, rfl⟩, h⟩
      exact ⟨nb, hnb, h⟩
  · rw [if_neg hs, if_neg (fun h => hs h.symm)]
    simp only [List.mem_singleton, exists_eq_left]

theorem pick_two (acc : Int × MatrixPosition) (a b : Int) (pa pb : MatrixPosition) :
    (if b > (if a > acc.1 then (a, pa) else acc).1 then (b, pb)
      else (if a > acc.1 then (a, pa) else acc)).1 = max acc.1 (max a b) := by
  rw [max_def, max_def]
  split_ifs <;> (try simp only []) <;> omega

/-- The loop of `recurrenceR` over the in-neighbors of a node: the value it ends
with is the one it started with or the value of a predecessor inside the band,
and it is at least as large as all of them. -/
theorem recurrenceR_fold (g : GraphAligner) (w j : Nat) (currentM currentR : List Int)
    (currentRbacktrace : List MatrixPosition) (start : Nat) (currentInsideBand : List Bool)
    (l : List Nat) :
    ∀ (acc r : Int × MatrixPosition),
      l.foldlM (fun (r : Int × MatrixPosition) nb => do
        let u := g.nodeEnd.getD nb 0 - 1
        if !currentInsideBand.getD u false then pure r
        else
          assert (u < w) "recurrenceR: u < w"
          let r := if currentM.getD u 0 - g.gapPenalty 1 > r.1 then
            (currentM.getD u 0 - g.gapPenalty 1, (u, j + start)) else r
          let r := if currentR.getD u 0 - g.gapContinuePenalty > r.1 then
            (currentR.getD u 0 - g.gapContinuePenalty, currentRbacktrace.getD u (0, 0)) else r
          pure r) acc = .ok r →
      (r.1 = acc.1 ∨ ∃ u ∈ l.map (fun nb => g.nodeEnd.getD nb 0 - 1),
          currentInsideBand.getD u false = true
          ∧ r.1 = max (currentM.getD u 0 - g.gapPenalty 1)
              (currentR.getD u 0 - g.gapContinuePenalty))
      ∧ acc.1 ≤ r.1
      ∧ ∀ u ∈ l.map (fun nb => g.nodeEnd.getD nb 0 - 1),
          currentInsideBand.getD u false = true →
          max (currentM.getD u 0 - g.gapPenalty 1) (currentR.getD u 0 - g.gapContinuePenalty)
            ≤ r.1 := by
  induction l with
  | nil =>
    intro acc r h
    simp only [List.foldlM, pure, Except.pure] at h
    injection h with h
    subst h
    exact ⟨Or.inl rfl, le_refl _, fun u hu => absurd hu (List.not_mem_nil u)⟩
  | cons nb t ih =>
    intro acc r h
    simp only [List.foldlM] at h
    obtain ⟨r1, h1, h⟩ := bind_eq_ok h
    obtain ⟨p1, p2, p3⟩ := ih r1 r h
    cases hb : currentInsideBand.getD (g.nodeEnd.getD nb 0 - 1) false with
    | false =>
      simp only [hb, Bool.not_false, if_true, pure, Except.pure] at h1
      injection h1 with h1
      subst h1
      refine ⟨?_, p2, ?_⟩
      · rcases p1 with p1 | ⟨u, hu, hub, hv⟩
        · exact Or.inl p1
        · exact Or.inr ⟨u, List.mem_cons_of_mem _ hu, hub, hv⟩
      · intro u hu hub
        rcases List.mem_cons.mp hu with hu | hu
        · rw [hu, hb] at hub; cases hub
        · exact p3 u hu hub
    | true =>
      simp only [hb, Bool.not_true, Bool.false_eq_true, if_false] at h1
      obtain ⟨-, h1⟩ := assert_bind_ok h1
      simp only [pure, Except.pure] at h1
      injection h1 with h1
      have hr1 : r1.1 = max acc.1 (max (currentM.getD (g.nodeEnd.getD nb 0 - 1) 0 - g.gapPenalty 1)
          (currentR.getD (g.nodeEnd.getD nb 0 - 1) 0 - g.gapContinuePenalty)) := by
        rw [← h1]
        exact pick_two acc _ _ _ _
      refine ⟨?_, ?_, ?_⟩
      · rcases p1 with p1 | ⟨u, hu, hub, hv⟩
        · rw [p1, hr1]
          rcases le_total (max (currentM.getD (g.nodeEnd.getD nb 0 - 1) 0 - g.gapPenalty 1)
              (currentR.getD (g.nodeEnd.getD nb 0 - 1) 0 - g.gapContinuePenalty)) acc.1 with c | c
          · left; exact max_eq_left c
          · right
            exact ⟨_, List.mem_cons_self _ _, hb, max_eq_right c⟩
        · exact Or.inr ⟨u, List.mem_cons_of_mem _ hu, hub, hv⟩
      · exact le_trans (by rw [hr1]; exact le_max_left _ _) p2
      · intro u hu hub
        rcases List.mem_cons.mp hu with hu | hu
        · rw [hu]
          exact le_trans (by rw [hr1]; exact le_max_right _ _) p2
        · exact p3 u hu hub

/-- The value `recurrenceR` returns is the maximum, over the predecessor
positions `u` of `w` inside the band of the row, of the larger one of
`M[u] - gapPenalty(1)` and `R[u] - gapContinuePenalty`. -/
theorem recurrenceR_value (g : GraphAligner) (w j : Nat) (currentM currentR : List Int)
    (currentRbacktrace : List MatrixPosition) (start : Nat) (currentInsideBand : List Bool)
    (r : Int × MatrixPosition)
    (h : g.recurrenceR w j currentM currentR currentRbacktrace start currentInsideBand = .ok r) :
    (∃ u ∈ g.predecessors w, currentInsideBand.getD u false = true
      ∧ r.1 = max (currentM.getD u 0 - g.gapPenalty 1)
          (currentR.getD u 0 - g.gapContinuePenalty))
    ∧ ∀ u ∈ g.predecessors w, currentInsideBand.getD u false = true →
        max (currentM.getD u 0 - g.gapPenalty 1) (currentR.getD u 0 - g.gapContinuePenalty)
          ≤ r.1 := by
  unfold GraphAligner.recurrenceR at h
  obtain ⟨-, h⟩ := assert_bind_ok h
  simp only at h
  obtain ⟨-, h⟩ := assert_bind_ok h
  have hend : ∀ r0 : Int × MatrixPosition,
      (do assert (decide (r0.1 ≥ scoreFloor)) "recurrenceR: maxValue too small"
          assert (decide (r0.1 ≤ ScoreType.max - 100)) "recurrenceR: maxValue too large"
          pure r0) = Except.ok r → r0 = r ∧ ScoreType.min + 100 ≤ r.1 := by
    intro r0 h
    obtain ⟨hfloor, h⟩ := assert_bind_ok h
    obtain ⟨-, h⟩ := assert_bind_ok h
    injection h with h
    subst h
    have := of_decide_eq_true hfloor
    rw [scoreFloor_eq] at this
    exact ⟨rfl, this⟩
  unfold GraphAligner.predecessors
  by_cases hs : g.nodeStart.getD (g.indexToNode.getD w 0) 0 = w
  · rw [if_pos hs] at h
    rw [if_pos hs.symm]
    obtain ⟨r0, h0, h⟩ := bind_eq_ok h
    obtain ⟨e, hfloor⟩ := hend r0 h
    subst e
    obtain ⟨p1, -, p3⟩ := recurrenceR_fold g w j currentM currentR currentRbacktrace start
      currentInsideBand _ _ _ h0
    refine ⟨?_, p3⟩
    rcases p1 with p1 | p1
    · simp only at p1
      omega
    · exact p1
  · rw [if_neg hs] at h
    rw [if_neg (fun h => hs h.symm)]
    cases hb : currentInsideBand.getD (w - 1) false with
    | false =>
      simp only [hb, Bool.false_eq_true, if_false] at h
      obtain ⟨r0, h0, h⟩ := bind_eq_ok h
      obtain ⟨e, hfloor⟩ := hend r0 h
      subst e
      simp only [pure, Except.pure] at h0
      injection h0 with h0
      rw [← h0] at hfloor
      simp only at hfloor
      omega
    | true =>
      simp only [hb, if_true] at h
      obtain ⟨r0, h0, h⟩ := bind_eq_ok h
      obtain ⟨e, hfloor⟩ := hend r0 h
      subst e
      simp only [pure, Except.pure] at h0
      injection h0 with h0
      have hv : r0.1 = max (currentM.getD (w - 1) 0 - g.gapPenalty 1)
          (currentR.getD (w - 1) 0 - g.gapContinuePenalty) := by
        rw [← h0, max_def]
        split_ifs <;> (try simp only []) <;> omega
      refine ⟨⟨w - 1, List.mem_singleton.mpr rfl, hb, hv⟩, ?_⟩
      intro u hu _
      rw [List.mem_singleton.mp hu, hv]

/-- C25.  Let the body of the row loop run for the position `w` in row `j` of a
slice and end without a failing assertion, and let `w` not be the first base of
a node that is not in order.  If at least one predecessor position of `w` is
inside the band of the row, the new `R[w]` is the maximum, over the predecessor
positions `u` inside the band, of the larger one of `M[u] - gapPenalty(1)` and
`R[u] - gapContinuePenalty`, with the values of `M` and `R` of this row that the
vectors hold when the body starts.  If no predecessor is inside the band, the new
`R[w]` is the new `M[w]`. -/
theorem C25_R_recurrence (g : GraphAligner) (sequence : List Char) (hasWrongOrders : Bool)
    (distanceMatrix : List (List Nat)) (Rhelper : List (Nat × Int)) (start j N rows : Nat)
    (s s' : SliceState) (w : Nat) (hs : s.Shaped N rows) (hw : w < N)
    (hf : g.usesFullR w = false)
    (h : g.sliceCell sequence hasWrongOrders distanceMatrix Rhelper start j s w = .ok s') :
    ((∃ u ∈ g.predecessors w, s.currentInsideBand.getD u false = true) →
      (∃ u ∈ g.predecessors w, s.currentInsideBand.getD u false = true
        ∧ s'.currentR.getD w 0 = max (s.currentM.getD u 0 - g.gapPenalty 1)
            (s.currentR.getD u 0 - g.gapContinuePenalty))
      ∧ ∀ u ∈ g.predecessors w, s.currentInsideBand.getD u false = true →
          max (s.currentM.getD u 0 - g.gapPenalty 1) (s.currentR.getD u 0 - g.gapContinuePenalty)
            ≤ s'.currentR.getD w 0)
    ∧ ((¬ ∃ u ∈ g.predecessors w, s.currentInsideBand.getD u false = true) →
      s'.currentR.getD w 0 = s'.currentM.getD w 0) := by
  have hR : w < s.currentR.length := by
    obtain ⟨-, -, h3, -⟩ := hs
    omega
  obtain ⟨-, s2, s3, s4, h2, h3, h4, h5⟩ :=
    sliceCell_ok g sequence hasWrongOrders distanceMatrix Rhelper start j s s' w h
  have f1 := cellQ_frame g start j s w
  have f3 := cellMQR_frame g start j _ s2 s3 w h3
  have f4 := cellMatch_frame g sequence start j s3 s4 w h4
  have f5 := cellReset_ok g start j _ s4 s' w h5
  have e1M : (g.cellQ start j s w).currentM = s.currentM := by rw [f1]
  have e1R : (g.cellQ start j s w).currentR = s.currentR := by rw [f1]
  have e1Rb : (g.cellQ start j s w).currentRbacktrace = s.currentRbacktrace := by rw [f1]
  have e1I : (g.cellQ start j s w).currentInsideBand = s.currentInsideBand := by rw [f1]
  have e4R : s4.currentR = s2.currentR := by rw [f4, f3]
  rcases cellR_ok _ _ _ _ _ _ _ _ _ _ h2 with ⟨hf', -⟩ | ⟨-, hn, rr, hrr, e⟩ | ⟨-, hn, e⟩
  · rw [hf] at hf'; cases hf'
  · have hex := (hasInNeighborInsideBand_iff g w s.currentInsideBand).mp hn
    rw [e1M, e1R, e1Rb, e1I] at hrr
    have hval : s'.currentR.getD w 0 = rr.1 := by
      rw [f5]
      simp only [hn, Bool.true_eq_false, and_false, if_false]
      rw [e4R, e, e1R]
      exact getD_set_self _ _ _ _ hR
    rw [hval]
    exact ⟨fun _ => recurrenceR_value g w j _ _ _ _ _ rr hrr, fun hne => absurd hex hne⟩
  · have hnex : ¬ ∃ u ∈ g.predecessors w, s.currentInsideBand.getD u false = true := by
      intro hex
      have := (hasInNeighborInsideBand_iff g w s.currentInsideBand).mpr hex
      rw [hn] at this
      cases this
    refine ⟨fun hex => absurd hex hnex, fun _ => ?_⟩
    rw [f5]
    simp only [hf, hn, and_self, if_true]
    rw [e4R, e, e1R]
    exact getD_set_self _ _ _ _ hR

/-- C25 at the position `2` in row `1` on the graph of scenario S1 with the
query `"ACGT"`: the position is inside a node and its predecessor `1` is inside
the band of the row. -/
theorem C25_witness :
    ∃ g s', graphS1 = .ok g ∧ stateS1.Shaped 5 5 ∧ 2 < 5 ∧ g.usesFullR 2 = false
      ∧ g.sliceCell "ACGT".data false [] [] 0 1 stateS1 2 = .ok s'
      ∧ (∃ u ∈ g.predecessors 2, stateS1.currentInsideBand.getD u false = true)
      ∧ ∃ u ∈ g.predecessors 2, stateS1.currentInsideBand.getD u false = true
        ∧ s'.currentR.getD 2 0 = max (stateS1.currentM.getD u 0 - g.gapPenalty 1)
            (stateS1.currentR.getD u 0 - g.gapContinuePenalty) := by
  obtain ⟨g, hg⟩ := ok_of_isOk graphS1 (by decide)
  have h1 : (graphS1.map (fun g =>
      (g.sliceCell "ACGT".data false [] [] 0 1 stateS1 2).isOk
      && decide (g.usesFullR 2 = false)
      && decide (∃ u ∈ g.predecessors 2, stateS1.currentInsideBand.getD u false = true)))
      = .ok true := by decide
  rw [hg] at h1
  simp only [Except.map, Except.ok.injEq, Bool.and_eq_true, decide_eq_true_eq] at h1
  obtain ⟨⟨h1, h2⟩, h3⟩ := h1
  obtain ⟨s', hs'⟩ := ok_of_isOk _ h1
  have hshape : stateS1.Shaped 5 5 := by decide
  exact ⟨g, s', hg, hshape, by decide, h2, hs', h3,
    ((C25_R_recurrence g "ACGT".data false [] [] 0 1 5 5 stateS1 s' 2 hshape (by decide) h2
      hs').1 h3).1⟩

/-- Taking candidates by the rule `better` ends with the first candidate that
has the highest value. -/
theorem foldl_better_spec (cands : List (Int × MatrixPosition)) :
    ∀ c0 : Int × MatrixPosition,
      ∃ k, k < (c0 :: cands).length
        ∧ (c0 :: cands).getD k (0, (0, 0)) = cands.foldl better c0
        ∧ (∀ c ∈ c0 :: cands, c.1 ≤ (cands.foldl better c0).1)
        ∧ ∀ i, i < k → ((c0 :: cands).getD i (0, (0, 0))).1 < (cands.foldl better c0).1 := by
  induction cands using List.reverseRecOn with
  | nil =>
    intro c0
    refine ⟨0, by simp, rfl, ?_, ?_⟩
    · intro c hc
      rw [List.mem_singleton.mp hc]
      exact le_refl _
    · intro i hi
      omega
  | append_singleton l c ih =>
    intro c0
    obtain ⟨k, hk, hget, hmax, hfirst⟩ := ih c0
    rw [List.foldl_append, List.foldl_cons, List.foldl_nil]
    have hcons : c0 :: (l ++ [c]) = (c0 :: l) ++ [c] := rfl
    rw [hcons]
    by_cases hc : c.1 > (l.foldl better c0).1
    · have hb : better (l.foldl better c0) c = c := if_pos hc
      rw [hb]
      refine ⟨(c0 :: l).length, by simp, getD_append_length _ _ _, ?_, ?_⟩
      · intro x hx
        rcases List.mem_append.mp hx with hx | hx
        · exact le_trans (hmax x hx) (le_of_lt hc)
        · rw [List.mem_singleton.mp hx]
      · intro i hi
        rw [getD_append_lt _ _ _ _ hi]
        have hmem : (c0 :: l).getD i (0, (0, 0)) ∈ c0 :: l := by
          rw [List.getD_eq_getElem _ _ hi]
          exact List.getElem_mem hi
        exact lt_of_le_of_lt (hmax _ hmem) hc
    · have hb : better (l.foldl better c0) c = l.foldl better c0 := if_neg hc
      rw [hb]
      refine ⟨k, by simp only [List.length_append, List.length_singleton]; omega, ?_, ?_, ?_⟩
      · rw [getD_append_lt _ _ _ _ hk]
        exact hget
      · intro x hx
        rcases List.mem_append.mp hx with hx | hx
        · exact hmax x hx
        · rw [List.mem_singleton.mp hx]
          exact not_lt.mp hc
      · intro i hi
        rw [getD_append_lt _ _ _ _ (lt_trans hi hk)]
        exact hfirst i hi

/-- The value and the recorded predecessor of the cell `(w, j)` after the body
of the row loop, for a position inside the band of the previous row: the
candidates taken in their order by the rule `better`. -/
theorem sliceCell_view (g : GraphAligner) (sequence : List Char) (hasWrongOrders : Bool)
    (distanceMatrix : List (List Nat)) (Rhelper : List (Nat × Int)) (start j N rows : Nat)
    (s s' : SliceState) (w : Nat) (hs : s.Shaped N rows) (hw : w < N) (hj : j < rows)
    (hp : s.previousInsideBand.getD w false = true)
    (h : g.sliceCell sequence hasWrongOrders distanceMatrix Rhelper start j s w = .ok s') :
    (s'.currentM.getD w 0, getCell s'.backtrace w j (0, 0))
      = ((g.candidatesM sequence start j s s' w).tail).foldl better
          (s'.currentQ.getD w 0, s'.Qbacktrace.getD w (0, 0)) := by
  obtain ⟨hM, -, hR, hRb, -, hb, hrow⟩ := hs
  obtain ⟨-, s2, s3, s4, h2, h3, h4, h5⟩ :=
    sliceCell_ok g sequence hasWrongOrders distanceMatrix Rhelper start j s s' w h
  have f1 := cellQ_frame g start j s w
  -- the state after the update of `R`
  have f2 : s2 = { (g.cellQ start j s w) with currentR := s2.currentR
                                              currentRbacktrace := s2.currentRbacktrace } := by
    rcases cellR_ok _ _ _ _ _ _ _ _ _ _ h2 with ⟨-, rr, -, e⟩ | ⟨-, -, rr, -, e⟩ | ⟨-, -, e⟩
      <;> rw [e]
  have e2M : s2.currentM = s.currentM := by rw [f2, f1]
  have e2b : s2.backtrace = s.backtrace := by rw [f2, f1]
  have e2p : s2.previousInsideBand = s.previousInsideBand := by rw [f2, f1]
  have e2pm : s2.previousM = s.previousM := by rw [f2, f1]
  -- the state after the update of `M` from `Q` and `R`
  have f3 := cellMQR_ok g start j _ s2 s3 w (by rw [e2M, hM]; exact hw) h3
  rw [e2p, hp] at f3
  simp only [if_true] at f3
  have e3Q : s3.currentQ = s2.currentQ := by rw [f3]
  have e3Qb : s3.Qbacktrace = s2.Qbacktrace := by rw [f3]
  have e3R : s3.currentR = s2.currentR := by rw [f3]
  have e3Rb : s3.currentRbacktrace = s2.currentRbacktrace := by rw [f3]
  have e3p : s3.previousInsideBand = s.previousInsideBand := by rw [f3]; try exact e2p
  have e3pm : s3.previousM = s.previousM := by rw [f3]; exact e2pm
  have hbw : w < s.backtrace.length := by rw [hb]; exact hw
  have hjw : j < (s.backtrace.getD w []).length := by rw [hrow w hw]; exact hj
  have l3 : w < s3.currentM.length ∧ w < s3.backtrace.length
      ∧ j < (s3.backtrace.getD w []).length := by
    rw [f3]
    simp only [List.length_set, e2M, e2b]
    refine ⟨by rw [hM]; exact hw, ?_, ?_⟩
    · split <;> simp only [setCell_length] <;> exact hbw
    · split <;> simp only [setCell_row_length] <;> exact hjw
  have v3 : (s3.currentM.getD w 0, getCell s3.backtrace w j (0, 0))
      = (if (g.usesFullR w || g.hasInNeighborInsideBand w s.currentInsideBand) = true
          then [(s2.currentR.getD w 0, s2.currentRbacktrace.getD w (0, 0))] else []).foldl better
          (s2.currentQ.getD w 0, s2.Qbacktrace.getD w (0, 0)) := by
    have hcond : (g.usesFullR w || (!g.usesFullR w
        && g.hasInNeighborInsideBand w s.currentInsideBand))
        = (g.usesFullR w || g.hasInNeighborInsideBand w s.currentInsideBand) := by
      cases g.usesFullR w <;> rfl
    rw [f3, hcond]
    simp only
    rw [getD_set_self _ _ _ _ (by rw [e2M, hM]; exact hw)]
    by_cases hc : (g.usesFullR w || g.hasInNeighborInsideBand w s.currentInsideBand) = true
    · rw [if_pos hc]
      simp only [List.foldl_cons, List.foldl_nil]
      by_cases hr : s2.currentR.getD w 0 > s2.currentQ.getD w 0
      · rw [if_pos ⟨hc, hr⟩, if_pos ⟨hc, hr⟩, getCell_setCell, if_pos]
        · exact (if_pos hr).symm
        · rw [e2b]
          exact ⟨⟨rfl, by rw [setCell_length]; exact hbw⟩, rfl,
            by rw [setCell_row_length]; exact hjw⟩
      · rw [if_neg (fun x => hr x.2), if_neg (fun x => hr x.2), getCell_setCell, if_pos]
        · exact (if_neg hr).symm
        · rw [e2b]
          exact ⟨⟨rfl, hbw⟩, rfl, hjw⟩
    · rw [if_neg hc, if_neg (fun x => hc x.1), if_neg (fun x => hc x.1), getCell_setCell, if_pos]
      · rfl
      · rw [e2b]
        exact ⟨⟨rfl, hbw⟩, rfl, hjw⟩
  -- the state after the match candidates
  obtain ⟨⟨f4, -, -, -⟩, v4⟩ := cellMatch_view g sequence start j s3 s4 w l3.1 l3.2.1 l3.2.2 h4
  rw [v3, e3p, e3pm, ← List.foldl_append] at v4
  -- the last part keeps `M` and the backtrace, and `Q` and `R` where they were computed
  have f5 := cellReset_ok g start j _ s4 s' w h5
  have e4p : s4.previousInsideBand = s.previousInsideBand := by rw [f4]; try exact e3p
  rw [e4p, hp] at f5
  simp only [if_true] at f5
  have e5M : s'.currentM = s4.currentM := by rw [f5]
  have e5b : s'.backtrace = s4.backtrace := by rw [f5]
  have e5Q : s'.currentQ = s2.currentQ := by rw [f5]; simp only; rw [f4]; exact e3Q
  have e5Qb : s'.Qbacktrace = s2.Qbacktrace := by rw [f5]; simp only; rw [f4]; exact e3Qb
  have e4R : s4.currentR = s2.currentR := by rw [f4]; exact e3R
  have e4Rb : s4.currentRbacktrace = s2.currentRbacktrace := by rw [f4]; exact e3Rb
  rw [e5M, e5b, v4, e5Q, e5Qb]
  unfold GraphAligner.candidatesM
  simp only [List.tail_cons]
  congr 2
  by_cases hc : (g.usesFullR w || g.hasInNeighborInsideBand w s.currentInsideBand) = true
  · rw [if_pos hc, if_pos hc]
    have hno : ¬ (g.usesFullR w = false
        ∧ g.hasInNeighborInsideBand w s.currentInsideBand = false) := by
      intro x
      rw [x.1, x.2] at hc
      cases hc
    have e5R : s'.currentR = s2.currentR := by rw [f5]; simp only [if_neg hno]; exact e4R
    have e5Rb : s'.currentRbacktrace = s2.currentRbacktrace := by
      rw [f5]; simp only [if_neg hno]; exact e4Rb
    rw [e5R, e5Rb]
  · rw [if_neg hc, if_neg hc]

/-- C23.  Let the body of the row loop run for the position `w` in row `j` of a
slice that starts at row `start` and end without a failing assertion (so `w` is
inside the band of the row), and let `w` be inside the band of the previous row.
Take the candidates in the order Q, R (when `R` was computed for `w` in this
row), match (from the predecessor positions inside the band of the previous
row, `M[u]` of the previous row plus the match score of the base of `w` and the
base `j + start - 1` of the query).  Then the new `M[w]` is the maximum of the
candidates, and the recorded `backtrace[w][j]` is the predecessor of the first
candidate that attains the maximum. -/
theorem C23_M_recurrence (g : GraphAligner) (sequence : List Char) (hasWrongOrders : Bool)
    (distanceMatrix : List (List Nat)) (Rhelper : List (Nat × Int)) (start j N rows : Nat)
    (s s' : SliceState) (w : Nat) (hs : s.Shaped N rows) (hw : w < N) (hj : j < rows)
    (hp : s.previousInsideBand.getD w false = true)
    (h : g.sliceCell sequence hasWrongOrders distanceMatrix Rhelper start j s w = .ok s') :
    ∃ k, k < (g.candidatesM sequence start j s s' w).length
      ∧ (g.candidatesM sequence start j s s' w).getD k (0, (0, 0))
          = (s'.currentM.getD w 0, getCell s'.backtrace w j (0, 0))
      ∧ (∀ c ∈ g.candidatesM sequence start j s s' w, c.1 ≤ s'.currentM.getD w 0)
      ∧ ∀ i, i < k →
          ((g.candidatesM sequence start j s s' w).getD i (0, (0, 0))).1
            < s'.currentM.getD w 0 := by
  have hv := sliceCell_view g sequence hasWrongOrders distanceMatrix Rhelper start j N rows
    s s' w hs hw hj hp h
  have hc : g.candidatesM sequence start j s s' w
      = (s'.currentQ.getD w 0, s'.Qbacktrace.getD w (0, 0))
        :: (g.candidatesM sequence start j s s' w).tail := rfl
  obtain ⟨k, hk, hget, hmax, hfirst⟩ := foldl_better_spec
    (g.candidatesM sequence start j s s' w).tail
    (s'.currentQ.getD w 0, s'.Qbacktrace.getD w (0, 0))
  rw [← hc] at hk hget hmax hfirst
  rw [← hv] at hget hmax hfirst
  exact ⟨k, hk, hget, hmax, hfirst⟩

/-- C23 at the position `1` in row `1` on the graph of scenario S1 with the
query `"ACGT"`: the candidates are `Q = -1`, `R = -2` and the match `1` from the
dummy position, and the cell gets the match with the predecessor `(0, 0)`. -/
theorem C23_witness :
    ∃ g s', graphS1 = .ok g ∧ stateS1.Shaped 5 5 ∧ 1 < 5 ∧ 1 < 5
      ∧ stateS1.previousInsideBand.getD 1 false = true
      ∧ g.sliceCell "ACGT".data false [] [] 0 1 stateS1 1 = .ok s'
      ∧ (∀ c ∈ g.candidatesM "ACGT".data 0 1 stateS1 s' 1, c.1 ≤ s'.currentM.getD 1 0)
      ∧ (graphS1.bind (fun g => (g.sliceCell "ACGT".data false [] [] 0 1 stateS1 1).map
          (fun s' => (g.candidatesM "ACGT".data 0 1 stateS1 s' 1, s'.currentM.getD 1 0,
            getCell s'.backtrace 1 1 (0, 0)))))
        = .ok ([(-1, (1, 0)), (-2, (0, 1)), (1, (0, 0))], 1, (0, 0)) := by
  obtain ⟨g, hg⟩ := ok_of_isOk graphS1 (by decide)
  have h1 : (graphS1.map (fun g =>
      (g.sliceCell "ACGT".data false [] [] 0 1 stateS1 1).isOk)) = .ok true := by decide
  rw [hg] at h1
  simp only [Except.map, Except.ok.injEq] at h1
  obtain ⟨s', hs'⟩ := ok_of_isOk _ h1
  have hshape : stateS1.Shaped 5 5 := by decide
  obtain ⟨k, -, -, hmax, -⟩ := C23_M_recurrence g "ACGT".data false [] [] 0 1 5 5 stateS1 s' 1
    hshape (by decide) (by decide) (by decide) hs'
  exact ⟨g, s', hg, hshape, by decide, by decide, by decide, hs', hmax, by decide⟩

/-! ## Theorems: what `recurrenceR` reads -/

theorem foldlM_congr {α β : Type} (f f' : α → β → Except String α) (l : List β)
    (h : ∀ b ∈ l, ∀ a, f a b = f' a b) : ∀ a, l.foldlM f a = l.foldlM f' a := by
  induction l with
  | nil => intro a; rfl
  | cons x t ih =>
    intro a
    simp only [List.foldlM]
    rw [h x (List.mem_cons_self x t) a]
    cases f' a x with
    | error e => rfl
    | ok a1 => exact ih (fun b hb => h b (List.mem_cons_of_mem x hb)) a1

/-- The result of `recurrenceR` depends on the vectors `M`, `R` and `Rbacktrace`
of the row only through their entries at the predecessor positions `u` of `w`
that are inside the band and satisfy `u < w`. -/
theorem recurrenceR_congr (g : GraphAligner) (w j : Nat) (hw : 1 ≤ w)
    (currentM currentR currentM' currentR' : List Int)
    (currentRbacktrace currentRbacktrace' : List MatrixPosition) (start : Nat)
    (currentInsideBand : List Bool)
    (h : ∀ u ∈ g.predecessors w, currentInsideBand.getD u false = true → u < w →
      currentM.getD u 0 = currentM'.getD u 0 ∧ currentR.getD u 0 = currentR'.getD u 0
      ∧ currentRbacktrace.getD u (0, 0) = currentRbacktrace'.getD u (0, 0)) :
    g.recurrenceR w j currentM currentR currentRbacktrace start currentInsideBand
      = g.recurrenceR w j currentM' currentR' currentRbacktrace' start currentInsideBand := by
  unfold GraphAligner.recurrenceR
  unfold GraphAligner.predecessors at h
  by_cases hs : g.nodeStart.getD (g.indexToNode.getD w 0) 0 = w
  · rw [if_pos hs.symm] at h
    simp only [hs, if_true]
    congr 1
    funext _
    congr 1
    funext _
    congr 1
    apply foldlM_congr
    intro nb hnb acc
    cases hb : currentInsideBand.getD (g.nodeEnd.getD nb 0 - 1) false with
    | false => simp only [Bool.not_false, if_true]
    | true =>
      simp only [Bool.not_true, Bool.false_eq_true, if_false]
      by_cases hu : g.nodeEnd.getD nb 0 - 1 < w
      · obtain ⟨e1, e2, e3⟩ := h _ (List.mem_map.mpr ⟨nb, hnb, rfl⟩) hb hu
        rw [e1, e2, e3]
      · simp only [assert, hu, decide_False, Bool.false_eq_true, if_false, bind, Except.bind]
  · rw [if_neg (fun x => hs x.symm)] at h
    simp only [hs, if_false]
    cases hb : currentInsideBand.getD (w - 1) false with
    | false => rfl
    | true =>
      obtain ⟨e1, e2, e3⟩ := h (w - 1) (List.mem_singleton.mpr rfl) hb (by omega)
      simp only [if_true]
      rw [e1, e2, e3]

/-- A position inside the band that is smaller than a position `w` of the
second part of the node ordering comes before `w` among the positions the row
loop visits. -/
theorem before_in_ordering (g : GraphAligner) (currentInsideBand : List Bool) (w u : Nat)
    (hw : w ∈ g.nodeOrdering.1) (hf : g.usesFullR w = false)
    (hwb : currentInsideBand.getD w false = true) (hu1 : 1 ≤ u) (huw : u < w)
    (hub : currentInsideBand.getD u false = true) :
    ∃ pre post, g.nodeOrdering.1.filter (fun v => currentInsideBand.getD v false)
        = pre ++ w :: post ∧ u ∈ pre := by
  unfold GraphAligner.nodeOrdering at hw ⊢
  simp only at hw ⊢
  have hsorted : (List.range' 1 (g.nodeSequences.length - 1)).Pairwise (fun a b => a < b) :=
    List.pairwise_lt_range' 1 (g.nodeSequences.length - 1)
  have hwr : w ∈ List.range' 1 (g.nodeSequences.length - 1) := by
    rcases List.mem_append.mp hw with h | h <;> exact (List.mem_filter.mp h).1
  have hur : u ∈ List.range' 1 (g.nodeSequences.length - 1) := by
    rw [List.mem_range'_1] at hwr ⊢
    omega
  have hwrest : w ∈ ((List.range' 1 (g.nodeSequences.length - 1)).filter
      (fun i => !g.usesFullR i)).filter (fun v => currentInsideBand.getD v false) := by
    rw [List.mem_filter, List.mem_filter]
    exact ⟨⟨hwr, by rw [hf]; rfl⟩, hwb⟩
  obtain ⟨pre, post, hsplit⟩ := List.append_of_mem hwrest
  have hs2 : (pre ++ w :: post).Pairwise (fun a b => a < b) := by
    rw [← hsplit]
    exact List.Pairwise.filter _ (List.Pairwise.filter _ hsorted)
  rw [List.pairwise_append] at hs2
  obtain ⟨-, hs3, -⟩ := hs2
  rw [List.pairwise_cons] at hs3
  refine ⟨((List.range' 1 (g.nodeSequences.length - 1)).filter (fun i => g.usesFullR i)).filter
    (fun v => currentInsideBand.getD v false) ++ pre, post, ?_, ?_⟩
  · rw [List.filter_append, hsplit, List.append_assoc]
  · cases hfu : g.usesFullR u with
    | true =>
      apply List.mem_append_left
      rw [List.mem_filter, List.mem_filter]
      exact ⟨⟨hur, hfu⟩, hub⟩
    | false =>
      apply List.mem_append_right
      have hurest : u ∈ ((List.range' 1 (g.nodeSequences.length - 1)).filter
          (fun i => !g.usesFullR i)).filter (fun v => currentInsideBand.getD v false) := by
        rw [List.mem_filter, List.mem_filter]
        exact ⟨⟨hur, by rw [hfu]; rfl⟩, hub⟩
      rw [hsplit] at hurest
      rcases List.mem_append.mp hurest with h | h
      · exact h
      · rcases List.mem_cons.mp h with h | h
        · omega
        · have := hs3.1 u h
          omega

/-- C27.  Let `w` be a position of the node ordering that is not the first base
of a node that is not in order, the positions for which the row loop uses
`recurrenceR`.  The result of `recurrenceR` for `w` depends on the vectors `M`,
`R` and `Rbacktrace` of the row only through their entries at the predecessor
positions `u` of `w` that are inside the band and satisfy `u < w`; every such
`u` is the dummy position `0` or comes before `w` among the positions the row
loop visits in this row, the positions of the node ordering inside the band.
For the first base of a node that is not in order the row loop takes `R` from
`fullR`, whose arguments are the position, the row, the list of `getRHelper`,
the distance matrix and the start of the slice, and no vector of the row. -/
theorem C27_recurrence_reads (g : GraphAligner) (w j start : Nat)
    (currentInsideBand : List Bool) (hw : w ∈ g.nodeOrdering.1) (hf : g.usesFullR w = false)
    (hwb : currentInsideBand.getD w false = true) :
    (∀ (currentM currentR currentM' currentR' : List Int)
        (currentRbacktrace currentRbacktrace' : List MatrixPosition),
      (∀ u ∈ g.predecessors w, currentInsideBand.getD u false = true → u < w →
        currentM.getD u 0 = currentM'.getD u 0 ∧ currentR.getD u 0 = currentR'.getD u 0
        ∧ currentRbacktrace.getD u (0, 0) = currentRbacktrace'.getD u (0, 0)) →
      g.recurrenceR w j currentM currentR currentRbacktrace start currentInsideBand
        = g.recurrenceR w j currentM' currentR' currentRbacktrace' start currentInsideBand)
    ∧ (∀ u ∈ g.predecessors w, currentInsideBand.getD u false = true → u < w →
        u = 0 ∨ ∃ pre post, g.nodeOrdering.1.filter (fun v => currentInsideBand.getD v false)
          = pre ++ w :: post ∧ u ∈ pre)
    ∧ (∀ (hasWrongOrders : Bool) (distanceMatrix : List (List Nat)) (Rhelper : List (Nat × Int))
        (neighborInsideBand : Bool) (v : Nat) (s s' : SliceState), g.usesFullR v = true →
        g.cellR hasWrongOrders distanceMatrix Rhelper start j neighborInsideBand s v = .ok s' →
        ∃ rr, g.fullR v j Rhelper distanceMatrix start = .ok rr
          ∧ s' = { s with currentR := s.currentR.set v rr.1
                          currentRbacktrace := s.currentRbacktrace.set v rr.2 }) := by
  have hw1 : 1 ≤ w := nodeOrdering_pos g w hw
  refine ⟨?_, ?_, ?_⟩
  · intro cM cR cM' cR' cRb cRb' h
    exact recurrenceR_congr g w j hw1 cM cR cM' cR' cRb cRb' start currentInsideBand h
  · intro u _ hub huw
    by_cases hu0 : u = 0
    · exact Or.inl hu0
    · exact Or.inr (before_in_ordering g currentInsideBand w u hw hf hwb (by omega) huw hub)
  · intro hasWrongOrders distanceMatrix Rhelper nib v s s' hv h
    rcases cellR_ok _ _ _ _ _ _ _ _ _ _ h with ⟨-, rr, hrr, e⟩ | ⟨hv', -⟩ | ⟨hv', -⟩
    · exact ⟨rr, hrr, e⟩
    · rw [hv] at hv'; cases hv'
    · rw [hv] at hv'; cases hv'

/-- C27 at the position `2` of the graph of scenario S1, with the positions
`0 .. 2` inside the band: the only predecessor of `2` is the position `1`, which
comes before `2` in the row. -/
theorem C27_witness :
    ∃ g, graphS1 = .ok g ∧ 2 ∈ g.nodeOrdering.1 ∧ g.usesFullR 2 = false
      ∧ [true, true, true, false, false].getD 2 false = true
      ∧ g.predecessors 2 = [1]
      ∧ g.nodeOrdering.1.filter (fun v => [true, true, true, false, false].getD v false) = [1, 2]
      ∧ (∀ u ∈ g.predecessors 2, [true, true, true, false, false].getD u false = true → u < 2 →
          u = 0 ∨ ∃ pre post,
            g.nodeOrdering.1.filter (fun v => [true, true, true, false, false].getD v false)
              = pre ++ 2 :: post ∧ u ∈ pre) := by
  obtain ⟨g, hg⟩ := ok_of_isOk graphS1 (by decide)
  have h1 : (graphS1.map (fun g => decide (2 ∈ g.nodeOrdering.1 ∧ g.usesFullR 2 = false
      ∧ g.predecessors 2 = [1]
      ∧ g.nodeOrdering.1.filter (fun v => [true, true, true, false, false].getD v false)
          = [1, 2]))) = .ok true := by decide
  rw [hg] at h1
  simp only [Except.map, Except.ok.injEq, decide_eq_true_eq] at h1
  obtain ⟨h1, h2, h3, h4⟩ := h1
  exact ⟨g, hg, h1, h2, rfl, h3, h4,
    (C27_recurrence_reads g 2 1 0 [true, true, true, false, false] h1 h2 rfl).2.1⟩

/-! ## Theorems: the band around the seeds and the list of `getRHelper` -/

set_option maxRecDepth 1000000 in
/-- C22 evaluated on the graph `2 = "AC"`, `4 = "G"`, `6 = "A"`, `2 → 4`,
`2 → 6` with the query `"GAC"`, band width `3` and out-of-range reads that yield
`0`.  The seed pairs `(1, 6)`, `(1, 2)` give the seed positions `(4, 1)` and
`(1, 1)`.  The position `3` (node `4`) is two steps forward of the seed position
`1` (its predecessor is `2`, whose predecessor is `1`), but the cell `(3, 1)` is
not inside the band; with the same seeds in the other order it is. -/
theorem C22_band_misses_cell :
    (do let g ← graphFork
        let seeds ← g.getSeedHitPositionsInMatrix "GAC".data [(⟨1, 6⟩, ⟨1, 6⟩), (⟨1, 2⟩, ⟨1, 2⟩)]
        let band ← g.getBandedRows (fun _ => 0) (fun _ => 0) seeds 3 3
        pure (seeds, g.predecessors 3, g.predecessors 2, getCell band 3 1 false))
      = .ok ([(4, 1), (1, 1)], [2], [1], false)
    ∧ (do let g ← graphFork
          let seeds ← g.getSeedHitPositionsInMatrix "GAC".data
            [(⟨1, 2⟩, ⟨1, 2⟩), (⟨1, 6⟩, ⟨1, 6⟩)]
          let band ← g.getBandedRows (fun _ => 0) (fun _ => 0) seeds 3 3
          pure (seeds, getCell band 3 1 false))
      = .ok ([(1, 1), (4, 1)], true) :=
  ⟨by decide!, by decide!⟩

set_option maxRecDepth 1000000 in
/-- C26 evaluated on the one-node cycle `2 = "AC"`, `2 → 2` with the query
`"CA"`, band width `3` and the seed pair `(0, 2)`.  `AlignOneWay` ends in the
failing assertion of `fullR`, whatever the out-of-range reads of `getBandedRows`
yield.  With reads that yield `0`: after row `1` the vector `M` is `[-1, -1, 1]`
and all positions are inside the band; in row `2` the list of `getRHelper` holds
the single pair `(1, 2)`, the candidate of the position `1` itself, so `fullR`
for the position `1` finds no candidate, although the candidate of the position
`2` (from its predecessor `1`) is worth `-8` after the gap penalty. -/
theorem C26_helper_loses_candidates :
    (∀ before after : Nat → Int,
      (do let g ← graphLoopAC
          g.AlignOneWay before after "read" "CA" false 3 [seedPair 2])
        = .error "fullR: maxValue too small")
    ∧ (do let g ← graphLoopAC
          let band ← g.getBandedRows (fun _ => 0) (fun _ => 0) [(2, 0)] 3 2
          let distanceMatrix := g.getDistanceMatrixBoostJohnson
          let row1 ← g.getScoreAndBacktraceMatrixSlice "CA".data true g.nodeOrdering.1
            distanceMatrix (g.getFirstSlice distanceMatrix 3) 0 2 band
          pure (row1.M, row1.insideBand,
            g.nodeOrdering.1.filter (fun w => getCell band w 1 false)))
      = .ok ([-1, -1, 1], [true, true, true], [1, 2])
    ∧ (do let g ← graphLoopAC
          let helper ← g.getRHelper 2 0 [-1, -1, 1] "CA".data [true, true, true] [1, 2]
          pure (helper,
            decide (g.fullR 1 2 helper g.getDistanceMatrixBoostJohnson 0
              = Except.error "fullR: maxValue too small"),
            (g.matchCandidate "CA".data 0 2 [-1, -1, 1] 2 1).1
              - g.gapPenalty (g.distanceFromSeqToSeq 2 1 g.getDistanceMatrixBoostJohnson)))
      = .ok ([(1, 2)], true, -8) :=
  ⟨fun before after => AlignOneWay_of_scenarioHolds graphLoopAC "CA" false 3 [seedPair 2]
      (.error "fullR: maxValue too small") (by decide!) before after "read",
   by decide!, by decide!⟩

/-! ## Theorems: the predecessor order -/

theorem nof_bind {α β : Type} {x : Except String α} {f : α → Except String β}
    {P : α → Prop} {Q : β → Prop} (hx : NoOrderFailure x P)
    (hf : ∀ a, P a → NoOrderFailure (f a) Q) : NoOrderFailure (x >>= f) Q := by
  cases x with
  | error e => exact hx
  | ok a => exact hf a hx

theorem nof_mono {α : Type} {x : Except String α} {P Q : α → Prop}
    (hx : NoOrderFailure x P) (h : ∀ a, P a → Q a) : NoOrderFailure x Q := by
  cases x with
  | error e => exact hx
  | ok a => exact h a hx

theorem nof_assert_msg {β : Type} {c : Bool} {msg : String} {f : Unit → Except String β}
    {Q : β → Prop} (hmsg : msg ∉ orderMessages) (hf : c = true → NoOrderFailure (f ()) Q) :
    NoOrderFailure (assert c msg >>= f) Q := by
  cases c with
  | false => exact hmsg
  | true => exact hf rfl

theorem nof_assert_true {β : Type} {c : Bool} {msg : String} {f : Unit → Except String β}
    {Q : β → Prop} (hc : c = true) (hf : NoOrderFailure (f ()) Q) :
    NoOrderFailure (assert c msg >>= f) Q := by
  subst hc
  exact hf

theorem nof_foldlM {α β : Type} (f : α → β → Except String α) (P : α → Prop)
    (hf : ∀ a b, P a → NoOrderFailure (f a b) P) :
    ∀ (l : List β) (a : α), P a → NoOrderFailure (l.foldlM f a) P := by
  intro l
  induction l with
  | nil => intro a ha; exact ha
  | cons x t ih =>
    intro a ha
    simp only [List.foldlM]
    exact nof_bind (hf a x ha) (fun a1 h1 => ih a1 h1)

theorem foldl_inv {α β : Type} (f : α → β → α) (P : α → Prop)
    (hf : ∀ a b, P a → P (f a b)) : ∀ (l : List β) (a : α), P a → P (l.foldl f a) := by
  intro l
  induction l with
  | nil => intro a ha; exact ha
  | cons x t ih => intro a ha; exact ih (f a x) (hf a x ha)

theorem orderOk_of_ordered (p : MatrixPosition) (w row : Nat) (h : ordered p w row) :
    orderOk p p w row = true := by
  unfold orderOk
  rcases h with h | ⟨h1, h2⟩
  · rw [decide_eq_true h]; rfl
  · rw [decide_eq_true h1, decide_eq_true h2]
    simp only [Bool.and_self, Bool.or_true]

/-- The predecessor that `fullR` returns lies in an earlier row. -/
theorem fullR_nof (g : GraphAligner) (w j : Nat) (RHelper : List (Nat × Int))
    (distanceMatrix : List (List Nat)) (start : Nat) :
    NoOrderFailure (g.fullR w j RHelper distanceMatrix start)
      (fun rr => rr.2.2 < j + start) := by
  unfold GraphAligner.fullR
  refine nof_assert_msg (by decide) (fun hj => ?_)
  refine nof_assert_msg (by decide) (fun _ => ?_)
  refine nof_assert_msg (by decide) (fun _ => ?_)
  refine nof_assert_msg (by decide) (fun _ => ?_)
  refine nof_assert_msg (by decide) (fun _ => ?_)
  have hj : 0 < j := of_decide_eq_true hj
  show (_ : MatrixPosition).2 < j + start
  apply foldl_inv _ (fun (r : Int × MatrixPosition) => r.2.2 < j + start)
  · intro a b ha
    simp only
    split
    · exact ha
    · split
      · show j - 1 + start < j + start
        omega
      · exact ha
  · show 0 < j + start
    omega

theorem pick_two_pred (P : MatrixPosition → Prop) (r : Int × MatrixPosition) (a b : Int)
    (pa pb : MatrixPosition) (hr : P r.2) (ha : P pa) (hb : P pb) :
    P (if b > (if a > r.1 then (a, pa) else r).1 then (b, pb)
      else (if a > r.1 then (a, pa) else r)).2 := by
  split_ifs <;> assumption

theorem pick_one_pred (P : MatrixPosition → Prop) (r : Int × MatrixPosition) (a : Int)
    (pa : MatrixPosition) (hr : P r.2) (ha : P pa) :
    P (if a > r.1 then (a, pa) else r).2 := by
  split_ifs <;> assumption

/-- The predecessor that `recurrenceR` returns for `w` comes before the cell of
`w` in the row, when the predecessors recorded for `R` in this row do so for
their positions. -/
theorem recurrenceR_nof (g : GraphAligner) (w j : Nat) (currentM currentR : List Int)
    (currentRbacktrace : List MatrixPosition) (start : Nat) (currentInsideBand : List Bool)
    (hw : 1 ≤ w) (hrow : 1 ≤ j + start)
    (hR : ∀ u, (currentRbacktrace.getD u (0, 0)).2 < j + start
      ∨ ((currentRbacktrace.getD u (0, 0)).2 = j + start
        ∧ (currentRbacktrace.getD u (0, 0)).1 ≤ u)) :
    NoOrderFailure
      (g.recurrenceR w j currentM currentR currentRbacktrace start currentInsideBand)
      (fun rr => ordered rr.2 w (j + start)) := by
  have hinherit : ∀ u, u < w → ordered (currentRbacktrace.getD u (0, 0)) w (j + start) := by
    intro u hu
    rcases hR u with h | ⟨h1, h2⟩
    · exact Or.inl h
    · exact Or.inr ⟨h1, by omega⟩
  have hzero : ordered ((0, 0) : MatrixPosition) w (j + start) := Or.inl hrow
  unfold GraphAligner.recurrenceR
  refine nof_assert_msg (by decide) (fun _ => ?_)
  refine nof_assert_msg (by decide) (fun _ => ?_)
  have hend : ∀ r : Int × MatrixPosition, ordered r.2 w (j + start) →
      NoOrderFailure
        (do assert (decide (r.1 ≥ scoreFloor)) "recurrenceR: maxValue too small"
            assert (decide (r.1 ≤ ScoreType.max - 100)) "recurrenceR: maxValue too large"
            pure r)
        (fun rr => ordered rr.2 w (j + start)) := by
    intro r hr
    refine nof_assert_msg (by decide) (fun _ => ?_)
    refine nof_assert_msg (by decide) (fun _ => ?_)
    exact hr
  dsimp only
  split
  · refine nof_bind (P := fun (r : Int × MatrixPosition) => ordered r.2 w (j + start)) ?_ hend
    refine nof_foldlM _ (fun (r : Int × MatrixPosition) => ordered r.2 w (j + start))
      ?_ _ _ hzero
    intro r nb hr
    split
    · exact hr
    · refine nof_assert_msg (by decide) (fun hu => ?_)
      have hu : g.nodeEnd.getD nb 0 - 1 < w := of_decide_eq_true hu
      exact pick_two_pred (fun p => ordered p w (j + start)) r _ _ _ _ hr
        (Or.inr ⟨rfl, hu⟩) (hinherit _ hu)
  · split
    · refine nof_bind (P := fun (r : Int × MatrixPosition) => ordered r.2 w (j + start)) ?_ hend
      have hlt : w - 1 < w := by omega
      exact pick_one_pred (fun p => ordered p w (j + start))
        (currentR.getD (w - 1) 0 - g.gapContinuePenalty, currentRbacktrace.getD (w - 1) (0, 0))
        (currentM.getD (w - 1) 0 - g.gapPenalty 1) (w - 1, j + start)
        (hinherit (w - 1) hlt) (Or.inr ⟨rfl, hlt⟩)
    · exact nof_bind (P := fun (r : Int × MatrixPosition) => ordered r.2 w (j + start))
        hzero hend

theorem getD_set_cases {α : Type} (l : List α) (w : Nat) (x d : α) :
    (l.set w x).getD w d = x ∨ (l.set w x).getD w d = d := by
  by_cases h : w < l.length
  · exact Or.inl (getD_set_self _ _ _ _ h)
  · right
    rw [List.set_eq_of_length_le (by omega)]
    exact List.getD_eq_default _ _ (by omega)

theorem getD_set_prop {α : Type} (P : α → Prop) (l : List α) (i u : Nat) (x d : α)
    (hx : i = u → P x) (hold : P (l.getD u d)) : P ((l.set i x).getD u d) := by
  rw [getD_set_eq]
  split
  · rename_i h
    exact hx h.1.symm
  · exact hold

theorem getCell_setCell_prop {α : Type} (P : α → Prop) (m : List (List α)) (w j a b : Nat)
    (v d : α) (hv : a = w → b = j → P v) (hold : P (getCell m a b d)) :
    P (getCell (setCell m w j v) a b d) := by
  rw [getCell_setCell]
  split
  · rename_i h
    exact hv h.1.1 h.2.1
  · exact hold

theorem RowInv_of_eq (start j : Nat) (doneQ doneB : List Nat) (s s' : SliceState)
    (hQ : s'.Qbacktrace = s.Qbacktrace) (hR : s'.currentRbacktrace = s.currentRbacktrace)
    (hP : s'.previousRbacktrace = s.previousRbacktrace) (hB : s'.backtrace = s.backtrace)
    (h : RowInv start j doneQ doneB s) : RowInv start j doneQ doneB s' := by
  unfold RowInv at h ⊢
  rw [hQ, hR, hP, hB]
  exact h

/-- Writing an ordered predecessor into the cell `(w, j)` keeps the state ordered. -/
theorem RowInv_write (start j : Nat) (doneQ doneB doneB' : List Nat) (s s' : SliceState)
    (w : Nat) (v : MatrixPosition) (hQ : s'.Qbacktrace = s.Qbacktrace)
    (hR : s'.currentRbacktrace = s.currentRbacktrace)
    (hP : s'.previousRbacktrace = s.previousRbacktrace)
    (hB : s'.backtrace = setCell s.backtrace w j v) (hv : ordered v w (j + start))
    (hdone : ∀ u, u ∉ doneB' → u ∉ doneB ∧ u ≠ w)
    (h : RowInv start j doneQ doneB s) : RowInv start j doneQ doneB' s' := by
  obtain ⟨q1, q2, r1, r2, b1, b2⟩ := h
  unfold RowInv
  rw [hQ, hR, hP, hB]
  refine ⟨q1, q2, r1, r2, ?_, ?_⟩
  · intro u j' hu
    rw [getCell_setCell, if_neg]
    · apply b1 u j'
      rcases hu with hu | ⟨hu1, hu2⟩
      · exact Or.inl hu
      · exact Or.inr ⟨hu1, (hdone u hu2).1⟩
    · intro x
      rcases hu with hu | ⟨hu1, hu2⟩
      · have := x.2.1
        omega
      · exact (hdone u hu2).2 x.1.1
  · intro u j' hj'
    apply getCell_setCell_prop (fun p => ordered p u (j' + start))
    · intro e1 e2
      rw [e1, e2]
      exact hv
    · exact b2 u j' hj'

theorem RowInv_weaken (start j : Nat) (doneQ doneB doneB' : List Nat) (s : SliceState)
    (hdone : ∀ u, u ∉ doneB' → u ∉ doneB)
    (h : RowInv start j doneQ doneB s) : RowInv start j doneQ doneB' s := by
  obtain ⟨q1, q2, r1, r2, b1, b2⟩ := h
  refine ⟨q1, q2, r1, r2, ?_, b2⟩
  intro u j' hu
  apply b1 u j'
  rcases hu with hu | ⟨hu1, hu2⟩
  · exact Or.inl hu
  · exact Or.inr ⟨hu1, hdone u hu2⟩

theorem RowInv_orderOk (start j : Nat) (doneQ doneB : List Nat) (s : SliceState) (w : Nat)
    (hj : 1 ≤ j) (h : RowInv start j doneQ doneB s) :
    orderOk (getCell s.backtrace w j (0, 0)) (getCell s.backtrace w j (0, 0)) w (j + start)
      = true :=
  orderOk_of_ordered _ _ _ (h.2.2.2.2.2 w j hj)

theorem not_mem_cons_split (w u : Nat) (l : List Nat) (h : u ∉ w :: l) : u ∉ l ∧ u ≠ w :=
  ⟨fun x => h (List.mem_cons_of_mem _ x), fun x => h (x ▸ List.mem_cons_self _ _)⟩

theorem cellQ_inv (g : GraphAligner) (start j : Nat) (doneQ doneB : List Nat) (s : SliceState)
    (w : Nat) (hj : 1 ≤ j) (h : RowInv start j doneQ doneB s) :
    RowInv start j doneQ doneB (g.cellQ start j s w) := by
  obtain ⟨q1, q2, r1, r2, b1, b2⟩ := h
  unfold GraphAligner.cellQ
  simp only
  split
  · refine ⟨?_, ?_, r1, r2, b1, b2⟩
    · intro u hu
      apply getD_set_prop (fun (p : MatrixPosition) => p.2 < j + start)
      · intro _
        show j - 1 + start < j + start
        omega
      · exact q1 u hu
    · intro u
      apply getD_set_prop (fun (p : MatrixPosition) => p.2 ≤ j + start)
      · intro _
        show j - 1 + start ≤ j + start
        omega
      · exact q2 u
  · exact ⟨q1, q2, r1, r2, b1, b2⟩

/-- The order assertion after the update of `R` holds for a predecessor that
comes before the cell, when the cell itself is not written yet. -/
theorem orderOk_after_R (p q : MatrixPosition) (w row : Nat) (hw : 1 ≤ w)
    (hp : ordered p w row) (hq : q = (0, 0)) : orderOk p q w row = true := by
  unfold orderOk
  rcases hp with h | ⟨h1, -⟩
  · rw [decide_eq_true h]; rfl
  · have h2 : q.1 < w := by rw [hq]; exact hw
    rw [decide_eq_true h1, decide_eq_true h2]
    simp only [Bool.and_self, Bool.or_true]

/-- The state after `R[w]` and its predecessor have been set to an ordered
predecessor. -/
theorem RowInv_setR (start j : Nat) (doneQ doneB : List Nat) (s : SliceState) (w : Nat)
    (value : Int) (p : MatrixPosition) (hrow : 1 ≤ j + start) (hp : ordered p w (j + start))
    (h : RowInv start j doneQ doneB s) :
    RowInv start j doneQ doneB
        { s with currentR := s.currentR.set w value
                 currentRbacktrace := s.currentRbacktrace.set w p }
      ∧ ordered ((s.currentRbacktrace.set w p).getD w (0, 0)) w (j + start) := by
  obtain ⟨q1, q2, r1, r2, b1, b2⟩ := h
  refine ⟨⟨q1, q2, ?_, r2, b1, b2⟩, ?_⟩
  · intro u
    apply getD_set_prop (fun (x : MatrixPosition) =>
      x.2 < j + start ∨ (x.2 = j + start ∧ x.1 ≤ u))
    · intro e
      rcases hp with hp | ⟨hp1, hp2⟩
      · exact Or.inl hp
      · exact Or.inr ⟨hp1, by omega⟩
    · exact r1 u
  · rcases getD_set_cases s.currentRbacktrace w p (0, 0) with e | e
    · rw [e]; exact hp
    · rw [e]; exact Or.inl hrow

/-- The update of `R` keeps the state ordered and passes its order assertion. -/
theorem cellR_inv (g : GraphAligner) (hasWrongOrders : Bool)
    (distanceMatrix : List (List Nat)) (Rhelper : List (Nat × Int)) (start j : Nat)
    (neighborInsideBand : Bool) (doneQ doneB : List Nat) (s : SliceState) (w : Nat)
    (hw : 1 ≤ w) (hj : 1 ≤ j) (hwB : w ∉ doneB) (h : RowInv start j doneQ doneB s) :
    NoOrderFailure
      (g.cellR hasWrongOrders distanceMatrix Rhelper start j neighborInsideBand s w)
      (fun s' => RowInv start j doneQ doneB s'
        ∧ ((g.usesFullR w || neighborInsideBand) = true →
            ordered (s'.currentRbacktrace.getD w (0, 0)) w (j + start))) := by
  have hrow : 1 ≤ j + start := by omega
  have hcell : getCell s.backtrace w j (0, 0) = (0, 0) := h.2.2.2.2.1 w j (Or.inr ⟨rfl, hwB⟩)
  have hset : ∀ (value : Int) (p : MatrixPosition), ordered p w (j + start) →
      NoOrderFailure
        (do assert (orderOk ((s.currentRbacktrace.set w p).getD w (0, 0))
              (getCell s.backtrace w j (0, 0)) w (j + start)) "row loop: order after fullR"
            pure { s with currentR := s.currentR.set w value
                          currentRbacktrace := s.currentRbacktrace.set w p })
        (fun s' => RowInv start j doneQ doneB s'
          ∧ ordered (s'.currentRbacktrace.getD w (0, 0)) w (j + start))
      ∧ NoOrderFailure
        (do assert (orderOk ((s.currentRbacktrace.set w p).getD w (0, 0))
              (getCell s.backtrace w j (0, 0)) w (j + start))
              "row loop: order after recurrenceR"
            pure { s with currentR := s.currentR.set w value
                          currentRbacktrace := s.currentRbacktrace.set w p })
        (fun s' => RowInv start j doneQ doneB s'
          ∧ ordered (s'.currentRbacktrace.getD w (0, 0)) w (j + start)) := by
    intro value p hp
    obtain ⟨i1, i2⟩ := RowInv_setR start j doneQ doneB s w value p hrow hp h
    have hok := orderOk_after_R _ _ w (j + start) hw i2 hcell
    exact ⟨nof_assert_true hok ⟨i1, i2⟩, nof_assert_true hok ⟨i1, i2⟩⟩
  unfold GraphAligner.cellR
  cases hf : g.usesFullR w with
  | true =>
    simp only [if_true]
    refine nof_assert_msg (by decide) (fun _ => ?_)
    refine nof_bind (fullR_nof g w j Rhelper distanceMatrix start) (fun rr hrr => ?_)
    exact nof_mono (hset rr.1 rr.2 (Or.inl hrr)).1 (fun s' hs' => ⟨hs'.1, fun _ => hs'.2⟩)
  | false =>
    simp only [Bool.false_eq_true, if_false]
    cases hn : neighborInsideBand with
    | true =>
      simp only [if_true]
      refine nof_bind (recurrenceR_nof g w j s.currentM s.currentR s.currentRbacktrace start
        s.currentInsideBand hw hrow h.2.2.1) (fun rr hrr => ?_)
      exact nof_mono (hset rr.1 rr.2 hrr).2 (fun s' hs' => ⟨hs'.1, fun _ => hs'.2⟩)
    | false =>
      simp only [Bool.false_eq_true, if_false]
      exact ⟨h, fun x => by simp at x⟩

/-- The update of `M` from `Q` and `R` keeps the state ordered and passes its
order assertions. -/
theorem cellMQR_inv (g : GraphAligner) (start j : Nat) (neighborInsideBand : Bool)
    (doneQ doneB : List Nat) (s : SliceState) (w : Nat) (hj : 1 ≤ j) (hwQ : w ∉ doneQ)
    (h : RowInv start j doneQ doneB s)
    (hR : (g.usesFullR w || neighborInsideBand) = true →
      ordered (s.currentRbacktrace.getD w (0, 0)) w (j + start)) :
    NoOrderFailure (g.cellMQR start j neighborInsideBand s w)
      (RowInv start j doneQ (w :: doneB)) := by
  have hQ : ordered (s.Qbacktrace.getD w (0, 0)) w (j + start) := Or.inl (h.1 w hwQ)
  have hjp : ∀ s1 : SliceState, RowInv start j doneQ (w :: doneB) s1 →
      s1.currentRbacktrace = s.currentRbacktrace →
      NoOrderFailure
        (if (g.usesFullR w || !g.usesFullR w && neighborInsideBand) = true then
          if s1.currentR.getD w 0 > s1.currentM.getD w 0 then do
            assert
              (orderOk
                (getCell (setCell s1.backtrace w j (s1.currentRbacktrace.getD w (0, 0))) w j (0, 0))
                (getCell (setCell s1.backtrace w j (s1.currentRbacktrace.getD w (0, 0))) w j (0, 0))
                w (j + start))
              "row loop: order after R"
            pure { s1 with
              currentM := s1.currentM.set w (s1.currentR.getD w 0)
              backtrace := setCell s1.backtrace w j (s1.currentRbacktrace.getD w (0, 0)) }
          else pure s1
        else pure s1)
        (RowInv start j doneQ (w :: doneB)) := by
    intro s1 h1 e1
    split
    · rename_i hc
      have hc' : (g.usesFullR w || neighborInsideBand) = true := by
        cases hf : g.usesFullR w
        · rw [hf] at hc
          simpa using hc
        · rfl
      split
      · have h2 := RowInv_write start j doneQ (w :: doneB) (w :: doneB) s1
          { s1 with currentM := s1.currentM.set w (s1.currentR.getD w 0)
                    backtrace := setCell s1.backtrace w j (s1.currentRbacktrace.getD w (0, 0)) }
          w _ rfl rfl rfl rfl (by rw [e1]; exact hR hc')
          (fun u hu => ⟨hu, (not_mem_cons_split w u doneB hu).2⟩) h1
        exact nof_assert_true (RowInv_orderOk start j _ _ _ w hj h2) h2
      · exact h1
    · exact h1
  unfold GraphAligner.cellMQR
  dsimp only
  split
  · have h1 := RowInv_write start j doneQ doneB (w :: doneB) s
      { s with currentM := s.currentM.set w (ScoreType.min + 99)
               backtrace := setCell s.backtrace w j (s.Qbacktrace.getD w (0, 0)) }
      w _ rfl rfl rfl rfl hQ (not_mem_cons_split w · doneB) h
    refine nof_assert_true (RowInv_orderOk start j _ _ _ w hj h1) ?_
    exact hjp _ (RowInv_of_eq start j _ _ _ _ rfl rfl rfl rfl h1) rfl
  · exact hjp _ (RowInv_weaken start j doneQ doneB (w :: doneB) _
      (fun u hu => (not_mem_cons_split w u doneB hu).1)
      (RowInv_of_eq start j _ _ s _ rfl rfl rfl rfl h)) rfl

theorem cellMatchFrom_inv (g : GraphAligner) (sequence : List Char) (start j w : Nat)
    (doneQ doneB : List Nat) (s : SliceState) (u : Nat) (hj : 1 ≤ j) (hwB : w ∈ doneB)
    (h : RowInv start j doneQ doneB s) :
    NoOrderFailure (g.cellMatchFrom sequence start j w s u) (RowInv start j doneQ doneB) := by
  unfold GraphAligner.cellMatchFrom
  split
  · exact h
  · dsimp only
    split
    · have h1 := RowInv_write start j doneQ doneB doneB s
        { s with
          currentM := s.currentM.set w (s.previousM.getD u 0
            + GraphAligner.matchScore (g.nodeSequences.getD w (Char.ofNat 0))
                (sequence.getD (j + start - 1) (Char.ofNat 0)))
          backtrace := setCell s.backtrace w j (u, j - 1 + start) }
        w _ rfl rfl rfl rfl (Or.inl (by show j - 1 + start < j + start; omega))
        (fun x hx => ⟨hx, fun e => hx (e ▸ hwB)⟩) h
      exact nof_assert_true (RowInv_orderOk start j _ _ _ w hj h1) h1
    · exact h

/-- The match candidates keep the state ordered and pass their order
assertions. -/
theorem cellMatch_inv (g : GraphAligner) (sequence : List Char) (start j : Nat)
    (doneQ doneB : List Nat) (s : SliceState) (w : Nat) (hj : 1 ≤ j) (hwB : w ∈ doneB)
    (h : RowInv start j doneQ doneB s) :
    NoOrderFailure (g.cellMatch sequence start j s w) (RowInv start j doneQ doneB) := by
  unfold GraphAligner.cellMatch
  dsimp only
  split
  · exact nof_foldlM _ (RowInv start j doneQ doneB)
      (fun a nb ha => cellMatchFrom_inv g sequence start j w doneQ doneB a _ hj hwB ha) _ s h
  · exact cellMatchFrom_inv g sequence start j w doneQ doneB s _ hj hwB h

/-- The last part of the body keeps the state ordered and passes the last order
assertion. -/
theorem cellReset_inv (g : GraphAligner) (start j : Nat) (neighborInsideBand : Bool)
    (doneQ doneB : List Nat) (s : SliceState) (w : Nat) (hj : 1 ≤ j)
    (h : RowInv start j doneQ doneB s) :
    NoOrderFailure (g.cellReset start j neighborInsideBand s w)
      (RowInv start j (w :: doneQ) doneB) := by
  have hstep1 : RowInv start j (w :: doneQ) doneB
      (if !s.previousInsideBand.getD w false then
        { s with currentQ := s.currentQ.set w (s.currentM.getD w 0)
                 Qbacktrace := s.Qbacktrace.set w (w, j + start) }
      else s) := by
    obtain ⟨q1, q2, r1, r2, b1, b2⟩ := h
    split
    · refine ⟨?_, ?_, r1, r2, b1, b2⟩
      · intro u hu
        obtain ⟨hu1, hu2⟩ := not_mem_cons_split w u doneQ hu
        apply getD_set_prop (fun (p : MatrixPosition) => p.2 < j + start)
        · intro e
          exact absurd e.symm hu2
        · exact q1 u hu1
      · intro u
        apply getD_set_prop (fun (p : MatrixPosition) => p.2 ≤ j + start)
        · intro _
          exact le_refl _
        · exact q2 u
    · exact ⟨fun u hu => q1 u (not_mem_cons_split w u doneQ hu).1, q2, r1, r2, b1, b2⟩
  have hstep2 : ∀ s1 : SliceState, RowInv start j (w :: doneQ) doneB s1 →
      RowInv start j (w :: doneQ) doneB
        (if !g.usesFullR w && !neighborInsideBand then
          { s1 with currentR := s1.currentR.set w (s1.currentM.getD w 0)
                    currentRbacktrace := s1.currentRbacktrace.set w (w, j + start) }
        else s1) := by
    intro s1 h1
    split
    · obtain ⟨q1, q2, r1, r2, b1, b2⟩ := h1
      refine ⟨q1, q2, ?_, r2, b1, b2⟩
      intro u
      apply getD_set_prop (fun (x : MatrixPosition) =>
        x.2 < j + start ∨ (x.2 = j + start ∧ x.1 ≤ u))
      · intro e
        exact Or.inr ⟨rfl, by show w ≤ u; omega⟩
      · exact r1 u
    · exact h1
  unfold GraphAligner.cellReset
  dsimp only
  refine nof_assert_msg (by decide) (fun _ => ?_)
  refine nof_assert_msg (by decide) (fun _ => ?_)
  have hfin := hstep2 _ hstep1
  exact nof_assert_true (RowInv_orderOk start j _ _ _ w hj hfin) hfin

/-- The body of the row loop for a position `w ≥ 1` that has not been visited in
this row keeps the state ordered and passes all its order assertions. -/
theorem sliceCell_inv (g : GraphAligner) (sequence : List Char) (hasWrongOrders : Bool)
    (distanceMatrix : List (List Nat)) (Rhelper : List (Nat × Int)) (start j : Nat)
    (done : List Nat) (s : SliceState) (w : Nat) (hw : 1 ≤ w) (hj : 1 ≤ j) (hwd : w ∉ done)
    (h : RowInv start j done done s) :
    NoOrderFailure (g.sliceCell sequence hasWrongOrders distanceMatrix Rhelper start j s w)
      (RowInv start j (w :: done) (w :: done)) := by
  unfold GraphAligner.sliceCell
  refine nof_assert_msg (by decide) (fun _ => ?_)
  dsimp only
  refine nof_bind (cellR_inv g hasWrongOrders distanceMatrix Rhelper start j _ done done _ w
    hw hj hwd (cellQ_inv g start j done done s w hj h)) (fun s2 hs2 => ?_)
  refine nof_bind (cellMQR_inv g start j _ done done s2 w hj hwd hs2.1 hs2.2) (fun s3 hs3 => ?_)
  refine nof_bind (cellMatch_inv g sequence start j done (w :: done) s3 w hj
    (List.mem_cons_self _ _) hs3) (fun s4 hs4 => ?_)
  exact cellReset_inv g start j _ done (w :: done) s4 w hj hs4

theorem nodeOrdering_nodup (g : GraphAligner) : g.nodeOrdering.1.Nodup := by
  have hperm : g.nodeOrdering.1.Perm (List.range' 1 (g.nodeSequences.length - 1)) := by
    unfold GraphAligner.nodeOrdering
    exact List.filter_append_perm _ _
  exact (List.Perm.nodup_iff hperm).mpr (List.nodup_range' 1 _)

/-- The loop over the positions of a row keeps the state ordered and passes all
order assertions, when it visits positions `≥ 1` and none of them twice. -/
theorem columns_inv (g : GraphAligner) (sequence : List Char) (hasWrongOrders : Bool)
    (distanceMatrix : List (List Nat)) (Rhelper : List (Nat × Int)) (start j : Nat)
    (hj : 1 ≤ j) :
    ∀ (l done : List Nat) (s : SliceState), (∀ w ∈ l, 1 ≤ w) → l.Nodup →
      (∀ w ∈ l, w ∉ done) → RowInv start j done done s →
      NoOrderFailure
        (l.foldlM (g.sliceCell sequence hasWrongOrders distanceMatrix Rhelper start j) s)
        (fun s' => ∃ done', RowInv start j done' done' s') := by
  intro l
  induction l with
  | nil =>
    intro done s _ _ _ h
    exact ⟨done, h⟩
  | cons w t ih =>
    intro done s hpos hnd hdone h
    simp only [List.foldlM]
    refine nof_bind (sliceCell_inv g sequence hasWrongOrders distanceMatrix Rhelper start j
      done s w (hpos w (List.mem_cons_self w t)) hj (hdone w (List.mem_cons_self w t)) h)
      (fun s1 h1 => ?_)
    refine ih (w :: done) s1 (fun x hx => hpos x (List.mem_cons_of_mem w hx))
      (List.nodup_cons.mp hnd).2 ?_ h1
    intro x hx hmem
    rcases List.mem_cons.mp hmem with e | e
    · exact (List.nodup_cons.mp hnd).1 (e ▸ hx)
    · exact hdone x (List.mem_cons_of_mem w hx) e

theorem getRHelper_nof (g : GraphAligner) (j start : Nat) (previousM : List Int)
    (sequence : List Char) (previousInsideBand : List Bool)
    (previousProcessableColumns : List Nat) :
    NoOrderFailure (g.getRHelper j start previousM sequence previousInsideBand
      previousProcessableColumns) (fun _ => True) := by
  unfold GraphAligner.getRHelper
  split
  · trivial
  · split
    · trivial
    · dsimp only
      split
      · trivial
      · show "getRHelper: empty" ∉ orderMessages
        decide

/-- A row of the slice keeps the state ordered and passes all order assertions;
after it the state is ordered for the next row. -/
theorem sliceRow_inv (g : GraphAligner) (sequence : List Char) (hasWrongOrders : Bool)
    (nodeOrdering : List Nat) (distanceMatrix : List (List Nat)) (start : Nat)
    (band : List (List Bool)) (s : SliceState) (j : Nat) (hj : 1 ≤ j)
    (hpos : ∀ w ∈ nodeOrdering, 1 ≤ w) (hnd : nodeOrdering.Nodup)
    (h : RowInv start j [] [] s) :
    NoOrderFailure
      (g.sliceRow sequence hasWrongOrders nodeOrdering distanceMatrix start band s j)
      (RowInv start (j + 1) [] []) := by
  have hrest : ∀ (Rhelper : List (Nat × Int)) (s0 : SliceState),
      s0.Qbacktrace = s.Qbacktrace → s0.currentRbacktrace = s.currentRbacktrace →
      s0.previousRbacktrace = s.previousRbacktrace → s0.backtrace = s.backtrace →
      NoOrderFailure
        (do let s ← (nodeOrdering.filter (fun w =>
                ((List.range g.nodeSequences.length).map
                  (fun w => getCell band w (start + j) false)).getD w false)).foldlM
              (g.sliceCell sequence hasWrongOrders distanceMatrix Rhelper start j) s0
            pure { s with
              currentM := s.previousM, previousM := s.currentM
              currentQ := s.previousQ, previousQ := s.currentQ
              currentR := s.previousR, previousR := s.currentR
              currentRbacktrace := s.previousRbacktrace
              previousRbacktrace := s.currentRbacktrace
              currentInsideBand := s.previousInsideBand
              previousInsideBand := s.currentInsideBand
              currentProcessableColumns := s.previousProcessableColumns
              previousProcessableColumns := s.currentProcessableColumns })
        (RowInv start (j + 1) [] []) := by
    intro Rhelper s0 e1 e2 e3 e4
    refine nof_bind (columns_inv g sequence hasWrongOrders distanceMatrix Rhelper start j hj
      _ [] s0 (fun w hw => hpos w (List.mem_filter.mp hw).1) (List.Nodup.filter _ hnd)
      (fun w _ => List.not_mem_nil w)
      (RowInv_of_eq start j [] [] s s0 e1 e2 e3 e4 h)) (fun s1 hs1 => ?_)
    obtain ⟨done', q1, q2, r1, r2, b1, b2⟩ := hs1
    refine ⟨?_, ?_, ?_, ?_, ?_, b2⟩
    · intro u _
      have := q2 u
      show (s1.Qbacktrace.getD u (0, 0)).2 < j + 1 + start
      omega
    · intro u
      have := q2 u
      show (s1.Qbacktrace.getD u (0, 0)).2 ≤ j + 1 + start
      omega
    · intro u
      left
      have := r2 u
      show (s1.previousRbacktrace.getD u (0, 0)).2 < j + 1 + start
      omega
    · intro u
      show (s1.currentRbacktrace.getD u (0, 0)).2 < j + 1 + start
      rcases r1 u with x | ⟨x, -⟩ <;> omega
    · intro u j' hu
      apply b1 u j'
      left
      rcases hu with hu | ⟨hu, -⟩ <;> omega
  unfold GraphAligner.sliceRow
  dsimp only
  split
  · exact nof_bind (getRHelper_nof g _ _ _ _ _ _) (fun y _ => hrest y _ rfl rfl rfl rfl)
  · exact hrest [] _ rfl rfl rfl rfl

theorem rows_inv (g : GraphAligner) (sequence : List Char) (hasWrongOrders : Bool)
    (nodeOrdering : List Nat) (distanceMatrix : List (List Nat)) (start : Nat)
    (band : List (List Bool)) (hpos : ∀ w ∈ nodeOrdering, 1 ≤ w) (hnd : nodeOrdering.Nodup) :
    ∀ (k j : Nat) (s : SliceState), 1 ≤ j → RowInv start j [] [] s →
      NoOrderFailure
        ((List.range' j k).foldlM
          (g.sliceRow sequence hasWrongOrders nodeOrdering distanceMatrix start band) s)
        (fun s' => RowInv start (j + k) [] [] s') := by
  intro k
  induction k with
  | zero =>
    intro j s _ h
    exact h
  | succ k ih =>
    intro j s hj h
    rw [List.range'_succ]
    simp only [List.foldlM]
    refine nof_bind (sliceRow_inv g sequence hasWrongOrders nodeOrdering distanceMatrix start
      band s j hj hpos hnd h) (fun s1 h1 => ?_)
    have := ih (j + 1) s1 (by omega) h1
    rw [show j + 1 + k = j + (k + 1) by omega] at this
    exact this

/-- A slice passes all order assertions of its row loop and returns a backtrace
matrix in predecessor order, when the predecessors that come with the previous
slice point to rows up to the start of the slice. -/
theorem slice_inv (g : GraphAligner) (sequence : List Char) (hasWrongOrders : Bool)
    (nodeOrdering : List Nat) (distanceMatrix : List (List Nat)) (previous : MatrixSlice)
    (start end_ : Nat) (band : List (List Bool)) (hpos : ∀ w ∈ nodeOrdering, 1 ≤ w)
    (hnd : nodeOrdering.Nodup)
    (hQ : ∀ u, (previous.Qbacktrace.getD u (0, 0)).2 ≤ start)
    (hR : ∀ u, (previous.Rbacktrace.getD u (0, 0)).2 ≤ start) :
    NoOrderFailure
      (g.getScoreAndBacktraceMatrixSlice sequence hasWrongOrders nodeOrdering distanceMatrix
        previous start end_ band)
      (fun slice => ∀ w j, 1 ≤ j →
        ordered (getCell slice.backtrace w j (0, 0)) w (j + start)) := by
  unfold GraphAligner.getScoreAndBacktraceMatrixSlice
  dsimp only
  refine nof_assert_msg (by decide) (fun _ => ?_)
  refine nof_assert_msg (by decide) (fun _ => ?_)
  refine nof_assert_msg (by decide) (fun _ => ?_)
  refine nof_assert_msg (by decide) (fun _ => ?_)
  refine nof_assert_msg (by decide) (fun _ => ?_)
  refine nof_assert_msg (by decide) (fun _ => ?_)
  have hcell : ∀ u j', 1 ≤ j' →
      getCell ((List.range g.nodeSequences.length).map (fun w =>
        (List.replicate (end_ - start) ((0, 0) : MatrixPosition)).set 0
          ((previous.backtrace.getD w []).getLastD (0, 0)))) u j' (0, 0) = (0, 0) := by
    intro u j' hj'
    unfold getCell
    rw [getD_map_range]
    split
    · rw [getD_set_other _ _ _ _ _ (by omega), getD_replicate]
      split <;> rfl
    · rfl
  refine nof_bind (rows_inv g sequence hasWrongOrders nodeOrdering distanceMatrix start band
    hpos hnd (end_ - start - 1) 1 _ (le_refl 1) ?_) (fun s1 h1 => ?_)
  · refine ⟨?_, ?_, ?_, ?_, ?_, ?_⟩
    · intro u _
      have := hQ u
      show (previous.Qbacktrace.getD u (0, 0)).2 < 1 + start
      omega
    · intro u
      have := hQ u
      show (previous.Qbacktrace.getD u (0, 0)).2 ≤ 1 + start
      omega
    · intro u
      left
      show ((List.replicate g.nodeSequences.length ((0, 0) : MatrixPosition)).getD u (0, 0)).2
        < 1 + start
      rw [getD_replicate]
      split <;> exact Nat.lt_of_lt_of_le Nat.zero_lt_one (Nat.le_add_right 1 start)
    · intro u
      have := hR u
      show (previous.Rbacktrace.getD u (0, 0)).2 < 1 + start
      omega
    · intro u j' hu
      apply hcell u j'
      rcases hu with hu | ⟨hu, -⟩ <;> omega
    · intro u j' hj'
      show ordered (getCell ((List.range g.nodeSequences.length).map (fun w =>
        (List.replicate (end_ - start) ((0, 0) : MatrixPosition)).set 0
          ((previous.backtrace.getD w []).getLastD (0, 0)))) u j' (0, 0)) u (j' + start)
      rw [hcell u j' hj']
      left
      show 0 < j' + start
      omega
  · exact h1.2.2.2.2.2

theorem getFirstSlice_rows (g : GraphAligner) (distanceMatrix : List (List Nat))
    (bandWidth : Int) (u : Nat) :
    ((g.getFirstSlice distanceMatrix bandWidth).Qbacktrace.getD u (0, 0)).2 ≤ 0
    ∧ ((g.getFirstSlice distanceMatrix bandWidth).Rbacktrace.getD u (0, 0)).2 ≤ 0 := by
  unfold GraphAligner.getFirstSlice
  dsimp only
  rw [getD_map_range]
  split <;> exact ⟨le_refl 0, le_refl 0⟩

/-- C18.  The slice that `backtrackWithSquareRootSlices` computes (from the
first slice, starting at row `0`, with the node ordering of the graph) never ends
in one of the six order assertions of the row loop, for every graph, query, band
and number of rows; and when it ends without a failing assertion, every cell
`backtrace[w][j]` of a row `j ≥ 1` holds a position `(w', j')` with `j' < j`, or
`j' = j` and `w' < w`. -/
theorem C18_predecessor_order (g : GraphAligner) (sequence : List Char)
    (hasWrongOrders : Bool) (distanceMatrix firstDistances : List (List Nat))
    (bandWidth : Int) (end_ : Nat) (band : List (List Bool)) :
    (∀ e, g.getScoreAndBacktraceMatrixSlice sequence hasWrongOrders g.nodeOrdering.1
        distanceMatrix (g.getFirstSlice firstDistances bandWidth) 0 end_ band = .error e →
      e ∉ orderMessages)
    ∧ (∀ slice, g.getScoreAndBacktraceMatrixSlice sequence hasWrongOrders g.nodeOrdering.1
        distanceMatrix (g.getFirstSlice firstDistances bandWidth) 0 end_ band = .ok slice →
      ∀ w j, 1 ≤ j →
        (getCell slice.backtrace w j (0, 0)).2 < j
        ∨ ((getCell slice.backtrace w j (0, 0)).2 = j
          ∧ (getCell slice.backtrace w j (0, 0)).1 < w)) := by
  have h := slice_inv g sequence hasWrongOrders g.nodeOrdering.1 distanceMatrix
    (g.getFirstSlice firstDistances bandWidth) 0 end_ band (nodeOrdering_pos g)
    (nodeOrdering_nodup g) (fun u => (getFirstSlice_rows g firstDistances bandWidth u).1)
    (fun u => (getFirstSlice_rows g firstDistances bandWidth u).2)
  constructor
  · intro e he
    rw [he] at h
    exact h
  · intro slice hs w j hj
    rw [hs] at h
    exact h w j hj

/-! ## Theorems: the end of the backtrace walk -/

/-- The walk of `backtrace` on a matrix whose entries of the rows from `1` on
come before their cells: it never stops for lack of fuel, and when it returns,
it has appended positions that go strictly down in the order by row and then by
position, down to a position of row `0`, and not more of them than there are
cells before the one it started from. -/
theorem backtraceWalk_chain (N n : Nat) (backtrace : List (List MatrixPosition))
    (hord : ∀ w j, w < N → 0 < j → j ≤ n → ordered (getCell backtrace w j (0, 0)) w j) :
    ∀ (fuel : Nat) (cur : MatrixPosition) (trace : List MatrixPosition),
      cur.2 ≤ n →
      (cur.2 = 0 ∨ (cur.1 < N ∧ cur.2 * N + cur.1 < fuel) ∨ (N ≤ cur.1 ∧ 0 < fuel)) →
      (∀ e, backtraceWalk N backtrace fuel cur trace = .error e →
        e ≠ "backtrace: walk does not end")
      ∧ (∀ t, backtraceWalk N backtrace fuel cur trace = .ok t →
          ∃ rest, t = trace ++ rest ∧ rest.length ≤ cur.2 * N + min cur.1 (N - 1)
            ∧ List.Chain (fun a b => ordered b a.1 a.2) cur rest
            ∧ ∃ w0, (cur :: rest).getLast? = some (w0, 0)) := by
  intro fuel
  induction fuel with
  | zero =>
    intro cur trace _ hpre
    have h0 : cur.2 = 0 := by rcases hpre with h | ⟨_, h⟩ | ⟨_, h⟩ <;> omega
    unfold backtraceWalk
    rw [if_neg (by omega)]
    refine ⟨fun e he => (by cases he), fun t ht => ?_⟩
    injection ht with ht
    subst ht
    refine ⟨[], by simp, Nat.zero_le _, List.Chain.nil, cur.1, ?_⟩
    rw [← h0]
    rfl
  | succ fuel ih =>
    intro cur trace hn hpre
    unfold backtraceWalk
    by_cases hj : cur.2 > 0
    · rw [if_pos hj, assert_bind]
      split
      swap
      · exact ⟨fun e he => (by injection he with he; subst he; decide), fun t ht => (by cases ht)⟩
      rw [assert_bind]
      split
      swap
      · exact ⟨fun e he => (by injection he with he; subst he; decide), fun t ht => (by cases ht)⟩
      rename_i hpos
      have h1 : cur.1 < N := of_decide_eq_true hpos
      dsimp only
      generalize (if cur.1 = 0 then decide ((getCell backtrace cur.1 cur.2 (0, 0)).1 = 0)
        else true) = stays
      rw [assert_bind]
      split
      swap
      · exact ⟨fun e he => (by injection he with he; subst he; decide), fun t ht => (by cases ht)⟩
      rw [assert_bind]
      split
      swap
      · exact ⟨fun e he => (by injection he with he; subst he; decide), fun t ht => (by cases ht)⟩
      have hfuel : cur.2 * N + cur.1 < fuel + 1 := by
        rcases hpre with h | ⟨_, h⟩ | ⟨h, _⟩
        · omega
        · exact h
        · omega
      have p3 := hord cur.1 cur.2 h1 hj hn
      have hrow : (getCell backtrace cur.1 cur.2 (0, 0)).2 ≤ n := by
        rcases p3 with p3 | ⟨p3, -⟩ <;> omega
      have hnext : (getCell backtrace cur.1 cur.2 (0, 0)).2 = 0
          ∨ ((getCell backtrace cur.1 cur.2 (0, 0)).1 < N
            ∧ (getCell backtrace cur.1 cur.2 (0, 0)).2 * N
              + (getCell backtrace cur.1 cur.2 (0, 0)).1 < fuel)
          ∨ (N ≤ (getCell backtrace cur.1 cur.2 (0, 0)).1 ∧ 0 < fuel) := by
        by_cases hz : (getCell backtrace cur.1 cur.2 (0, 0)).2 = 0
        · exact Or.inl hz
        right
        rcases p3 with p3 | ⟨p3, p4⟩
        · have hm := Nat.mul_le_mul_right N (Nat.succ_le_of_lt p3)
          rw [Nat.succ_mul] at hm
          by_cases hlt : (getCell backtrace cur.1 cur.2 (0, 0)).1 < N
          · exact Or.inl ⟨hlt, by omega⟩
          · right
            refine ⟨by omega, ?_⟩
            have h2 : 2 ≤ cur.2 := by omega
            have hm2 := Nat.mul_le_mul_right N h2
            omega
        · left
          refine ⟨by omega, ?_⟩
          rw [p3]
          omega
      obtain ⟨ihe, iht⟩ := ih (getCell backtrace cur.1 cur.2 (0, 0))
        (trace ++ [getCell backtrace cur.1 cur.2 (0, 0)]) hrow hnext
      refine ⟨ihe, fun t ht => ?_⟩
      obtain ⟨rest, hrest, hlen, hchain, w0, hlast⟩ := iht t ht
      refine ⟨getCell backtrace cur.1 cur.2 (0, 0) :: rest, ?_, ?_, List.Chain.cons p3 hchain,
        w0, ?_⟩
      · rw [hrest, List.append_assoc]
        rfl
      · rw [List.length_cons]
        have hmin : min cur.1 (N - 1) = cur.1 := Nat.min_eq_left (by omega)
        rw [hmin]
        rcases p3 with p3 | ⟨p3, p4⟩
        · have hm := Nat.mul_le_mul_right N (Nat.succ_le_of_lt p3)
          rw [Nat.succ_mul] at hm
          have hle := Nat.min_le_right (getCell backtrace cur.1 cur.2 (0, 0)).1 (N - 1)
          omega
        · have hle := Nat.min_le_left (getCell backtrace cur.1 cur.2 (0, 0)).1 (N - 1)
          rw [p3] at hlen
          omega
      · rw [List.getLast?_cons_cons]
        exact hlast
    · rw [if_neg hj]
      refine ⟨fun e he => (by cases he), fun t ht => ?_⟩
      injection ht with ht
      subst ht
      refine ⟨[], by simp, Nat.zero_le _, List.Chain.nil, cur.1, ?_⟩
      have h0 : cur.2 = 0 := by omega
      rw [← h0]
      rfl

/-- The scan of the last row in `backtrace` ends at a position of the last
row. -/
theorem backtrace_scan_row (Mslice : List Int) (insideBand : List Bool) (lastRow k : Nat) :
    ((List.range k).foldl
      (fun (cf : MatrixPosition × Bool) i =>
        if !insideBand.getD i false then cf
        else
          let currentPosition : MatrixPosition := if !cf.2 then (i, lastRow) else cf.1
          if Mslice.getD i 0 > Mslice.getD currentPosition.1 0 then ((i, lastRow), true)
          else (currentPosition, true))
      ((0, lastRow), false)).1.2 = lastRow := by
  have hscan := backtrace_scan Mslice insideBand lastRow k
  simp only at hscan
  rcases hscan with ⟨hs, -⟩ | ⟨w, -, hs, -⟩
  · simp only [gt_iff_lt] at hs ⊢
    rw [hs]
  · simp only [gt_iff_lt] at hs ⊢
    rw [hs]

/-- On a matrix whose entries of the rows `1 .. n` come before their cells,
`backtrace` never stops for lack of fuel, and a trace it returns has at most
`(n + 1) * N` entries, goes strictly up in the order by row and then by position,
starts in row `0` and ends at a position of row `n` inside the band. -/
theorem backtrace_trace (g : GraphAligner) (Mslice : List Int)
    (backtrace : List (List MatrixPosition)) (insideBand : List Bool) (n : Nat)
    (hrows : (backtrace.getD 0 []).length = n + 1)
    (hord : ∀ w j, w < g.nodeSequences.length → 0 < j → j ≤ n →
      ordered (getCell backtrace w j (0, 0)) w j) :
    (∀ e, g.backtrace Mslice backtrace insideBand = .error e →
      e ≠ "backtrace: walk does not end")
    ∧ (∀ score trace, g.backtrace Mslice backtrace insideBand = .ok (score, trace) →
        trace.length ≤ (n + 1) * g.nodeSequences.length
        ∧ List.Chain' (fun a b => ordered a b.1 b.2) trace
        ∧ (∃ w0, trace.head? = some (w0, 0))
        ∧ (∃ w, trace.getLast? = some (w, n) ∧ insideBand.getD w false = true)) := by
  have hst := backtrace_scan_row Mslice insideBand n Mslice.length
  unfold GraphAligner.backtrace
  rw [assert_bind]
  split
  swap
  · exact ⟨fun e he => (by injection he with he; subst he; decide),
      fun s t ht => (by cases ht)⟩
  rename_i hsize
  have hsize := of_decide_eq_true hsize
  rw [assert_bind]
  split
  swap
  · exact ⟨fun e he => (by injection he with he; subst he; decide),
      fun s t ht => (by cases ht)⟩
  dsimp only
  rw [hrows, Nat.add_sub_cancel]
  revert hst
  generalize List.foldl _ _ (List.range Mslice.length) = start
  intro hst
  rw [assert_bind]
  split
  swap
  · exact ⟨fun e he => (by injection he with he; subst he; decide),
      fun s t ht => (by cases ht)⟩
  rename_i hin
  have hN : 1 ≤ g.nodeSequences.length := by
    rw [← hsize]
    cases backtrace with
    | nil => simp at hrows
    | cons r t => simp
  have hpre : start.1.2 = 0
      ∨ (start.1.1 < g.nodeSequences.length
        ∧ start.1.2 * g.nodeSequences.length + start.1.1
          < (n + 1) * g.nodeSequences.length + 1)
      ∨ (g.nodeSequences.length ≤ start.1.1
        ∧ 0 < (n + 1) * g.nodeSequences.length + 1) := by
    by_cases hlt : start.1.1 < g.nodeSequences.length
    · right; left
      refine ⟨hlt, ?_⟩
      rw [hst, Nat.succ_mul]
      omega
    · right; right
      exact ⟨by omega, Nat.succ_pos _⟩
  obtain ⟨he, ht⟩ := backtraceWalk_chain g.nodeSequences.length n backtrace hord
    ((n + 1) * g.nodeSequences.length + 1) start.1 [start.1] (le_of_eq hst) hpre
  cases hw : backtraceWalk g.nodeSequences.length backtrace
      ((n + 1) * g.nodeSequences.length + 1) start.1 [start.1] with
  | error e =>
    refine ⟨fun e' he' => ?_, fun s t h => (by cases h)⟩
    injection he' with he'
    subst he'
    exact he e hw
  | ok t =>
    refine ⟨fun e' he' => (by cases he'), fun score trace h => ?_⟩
    obtain ⟨rest, hrest, hlen, hchain, w0, hlast⟩ := ht t hw
    simp only [Except.bind_ok, pure, Except.pure, Except.ok.injEq, Prod.mk.injEq] at h
    obtain ⟨-, h⟩ := h
    subst h
    subst hrest
    refine ⟨?_, ?_, ⟨w0, ?_⟩, ⟨start.1.1, ?_, hin⟩⟩
    · rw [List.length_reverse, List.length_append, List.length_singleton, Nat.succ_mul]
      have hle := Nat.min_le_right start.1.1 (g.nodeSequences.length - 1)
      rw [hst] at hlen
      omega
    · rw [List.chain'_reverse]
      exact hchain
    · rw [List.head?_reverse]
      exact hlast
    · rw [List.getLast?_reverse, ← hst]
      rfl

/-- On a matrix in predecessor order whose entries are positions of the graph,
with a position inside the band, `backtrace` returns. -/
theorem backtrace_returns (g : GraphAligner) (Mslice : List Int)
    (backtrace : List (List MatrixPosition)) (insideBand : List Bool) (n : Nat)
    (hsize : backtrace.length = g.nodeSequences.length)
    (hM : Mslice.length = g.nodeSequences.length)
    (hrows : (backtrace.getD 0 []).length = n + 1)
    (hok : WalkOK g.nodeSequences.length n backtrace)
    (hband : ∃ i < Mslice.length, insideBand.getD i false = true) :
    ∃ r, g.backtrace Mslice backtrace insideBand = .ok r := by
  have hscan := backtrace_scan Mslice insideBand n Mslice.length
  simp only at hscan
  rcases hscan with ⟨-, hnone⟩ | ⟨w, hw, hs, hwb, -, -⟩
  · obtain ⟨i, hi, hib⟩ := hband
    rw [hnone i hi] at hib
    cases hib
  · obtain ⟨rest, hrest⟩ := backtraceWalk_ok g.nodeSequences.length n backtrace hrows hok
      ((n + 1) * g.nodeSequences.length + 1) (w, n) [(w, n)] (by simpa [hM] using hw)
      (le_refl n) (by
        simp only
        rw [Nat.succ_mul]
        omega)
    refine ⟨(Mslice.getD w 0, ([(w, n)] ++ rest).reverse), ?_⟩
    unfold GraphAligner.backtrace
    simp only [gt_iff_lt] at hs
    simp only [hsize, hrows, Nat.add_sub_cancel, assert, decide_True, if_true, bind,
      Except.bind, Nat.succ_pos, gt_iff_lt, Nat.zero_lt_succ, pure, Except.pure]
    rw [hs]
    simp only [hwb, if_true, hrest]

/-- C31.  Let the backtrace matrix have the rows `0 .. n`, and let every entry
of a row `j ≥ 1` at a position of the graph come strictly before its cell in the
order by row and then by position.  Then the walk of `backtrace` ends: it never
uses up its `(n + 1) * N + 1` rounds, whatever else the call ends in.  A trace
that the call returns holds the start and one entry per round of the loop, at
most `(n + 1) * N` entries in all; read front to back it goes strictly up in the
order by row and then by position, its first entry is of row `0`, and its last
entry is the position of row `n` inside the band at which the walk started.  And
when moreover every such entry is a position of the graph, the entries of the
dummy position stay there, and a position is inside the band, the call does
return a trace. -/
theorem C31_backtrace_terminates (g : GraphAligner) (Mslice : List Int)
    (backtrace : List (List MatrixPosition)) (insideBand : List Bool) (n : Nat)
    (hrows : (backtrace.getD 0 []).length = n + 1)
    (hord : ∀ w j, w < g.nodeSequences.length → 0 < j → j ≤ n →
      ordered (getCell backtrace w j (0, 0)) w j) :
    (∀ e, g.backtrace Mslice backtrace insideBand = .error e →
      e ≠ "backtrace: walk does not end")
    ∧ (∀ score trace, g.backtrace Mslice backtrace insideBand = .ok (score, trace) →
        trace.length ≤ (n + 1) * g.nodeSequences.length
        ∧ List.Chain' (fun a b => ordered a b.1 b.2) trace
        ∧ (∃ w0, trace.head? = some (w0, 0))
        ∧ (∃ w, trace.getLast? = some (w, n) ∧ insideBand.getD w false = true))
    ∧ (backtrace.length = g.nodeSequences.length → Mslice.length = g.nodeSequences.length →
        (∀ w j, w < g.nodeSequences.length → 0 < j → j ≤ n →
          (getCell backtrace w j (0, 0)).1 < g.nodeSequences.length
          ∧ (w = 0 → (getCell backtrace w j (0, 0)).1 = 0)) →
        (∃ i < Mslice.length, insideBand.getD i false = true) →
        ∃ r, g.backtrace Mslice backtrace insideBand = .ok r) := by
  obtain ⟨ha, hb⟩ := backtrace_trace g Mslice backtrace insideBand n hrows hord
  refine ⟨ha, hb, fun hsize hM hpos hband => ?_⟩
  exact backtrace_returns g Mslice backtrace insideBand n hsize hM hrows
    (fun w j hw hj hjn => ⟨(hpos w j hw hj hjn).1, (hpos w j hw hj hjn).2, hord w j hw hj hjn⟩)
    hband

/-- C31 on three positions with the last-row scores `0, 1, 2`, all inside the
band, and a matrix with the rows `0 .. 2` that records the walk
`(2, 2), (1, 1), (0, 0)`: the call returns the score `2` and the trace
`(0, 0), (1, 1), (2, 2)`. -/
theorem C31_witness :
    ({ GraphAligner.ctor with nodeSequences := ['N', 'A', 'C'] } : GraphAligner).backtrace
        [0, 1, 2]
        [[(0, 0), (0, 0), (0, 1)], [(1, 0), (0, 0), (0, 1)], [(2, 0), (1, 0), (1, 1)]]
        [true, true, true]
      = .ok (2, [(0, 0), (1, 1), (2, 2)])
    ∧ ([(0, 0), (1, 1), (2, 2)] : List MatrixPosition).length ≤ (2 + 1) * 3
    ∧ List.Chain' (fun (a b : MatrixPosition) => ordered a b.1 b.2) [(0, 0), (1, 1), (2, 2)]
    ∧ (∃ w0, ([(0, 0), (1, 1), (2, 2)] : List MatrixPosition).head? = some (w0, 0))
    ∧ (∃ w, ([(0, 0), (1, 1), (2, 2)] : List MatrixPosition).getLast? = some (w, 2)
        ∧ [true, true, true].getD w false = true) := by
  have hord : ∀ w j, w < 3 → 0 < j → j ≤ 2 → ordered (getCell
      [[((0 : Nat), (0 : Nat)), (0, 0), (0, 1)], [(1, 0), (0, 0), (0, 1)],
        [(2, 0), (1, 0), (1, 1)]] w j (0, 0)) w j := by
    intro w j hw hj hjn
    have hj1 : j = 1 ∨ j = 2 := by omega
    have hw3 : w = 0 ∨ w = 1 ∨ w = 2 := by omega
    rcases hj1 with hj1 | hj1 <;> subst hj1 <;> rcases hw3 with h | h | h <;> subst h
      <;> unfold ordered <;> decide
  have hrun : ({ GraphAligner.ctor with nodeSequences := ['N', 'A', 'C'] } :
      GraphAligner).backtrace [0, 1, 2]
        [[(0, 0), (0, 0), (0, 1)], [(1, 0), (0, 0), (0, 1)], [(2, 0), (1, 0), (1, 1)]]
        [true, true, true]
      = .ok (2, [(0, 0), (1, 1), (2, 2)]) := by decide
  exact ⟨hrun, (C31_backtrace_terminates
    ({ GraphAligner.ctor with nodeSequences := ['N', 'A', 'C'] } : GraphAligner)
    [0, 1, 2]
    [[(0, 0), (0, 0), (0, 1)], [(1, 0), (0, 0), (0, 1)], [(2, 0), (1, 0), (1, 1)]]
    [true, true, true] 2 rfl hord).2.1 2 [(0, 0), (1, 1), (2, 2)] hrun⟩

/-! ## Theorems: the seed positions -/

theorem commonPrefixLength_nil_left (b : List Char) : commonPrefixLength [] b = 0 := by
  unfold commonPrefixLength
  rfl

theorem commonPrefixLength_nil_right (a : List Char) : commonPrefixLength a [] = 0 := by
  cases a <;> rfl

theorem commonPrefixLength_cons (a b : Char) (as bs : List Char) :
    commonPrefixLength (a :: as) (b :: bs)
      = if a = b then commonPrefixLength as bs + 1 else 0 := by
  rw [commonPrefixLength]

/-- The common prefix is not longer than the second string. -/
theorem commonPrefixLength_le_right : ∀ (a b : List Char),
    commonPrefixLength a b ≤ b.length
  | [], b => by rw [commonPrefixLength_nil_left]; exact Nat.zero_le _
  | _ :: _, [] => by rw [commonPrefixLength_nil_right]; exact Nat.zero_le _
  | a :: as, b :: bs => by
    rw [commonPrefixLength_cons]
    split
    · exact Nat.succ_le_succ (commonPrefixLength_le_right as bs)
    · exact Nat.zero_le _

/-- The common prefix with the first `m` characters of a string. -/
theorem commonPrefixLength_take : ∀ (m : Nat) (a b : List Char),
    commonPrefixLength (a.take m) b = min m (commonPrefixLength a b)
  | 0, a, b => by rw [List.take_zero, commonPrefixLength_nil_left, Nat.zero_min]
  | m + 1, [], b => by
    rw [List.take_nil, commonPrefixLength_nil_left, Nat.min_zero]
  | m + 1, a :: as, [] => by
    rw [commonPrefixLength_nil_right, commonPrefixLength_nil_right, Nat.min_zero]
  | m + 1, a :: as, b :: bs => by
    rw [List.take_succ_cons, commonPrefixLength_cons, commonPrefixLength_cons]
    split
    · rw [commonPrefixLength_take m as bs, Nat.succ_min_succ]
    · rw [Nat.min_zero]

/-- The loop of `longestExactMatch` counts the common prefix of the two strings
from the two positions on, up to the `remaining` characters it may still read. -/
theorem longestExactMatchLoop_spec (left ns : List Char) (leftpos npos : Nat) :
    ∀ (remaining length : Nat), leftpos + length + remaining ≤ left.length →
      npos + length + remaining ≤ ns.length →
      longestExactMatchLoop left ns leftpos npos remaining length
        = length + commonPrefixLength ((ns.drop (npos + length)).take remaining)
            (left.drop (leftpos + length)) := by
  intro remaining
  induction remaining with
  | zero =>
    intro length _ _
    rw [longestExactMatchLoop, List.take_zero, commonPrefixLength_nil_left, Nat.add_zero]
  | succ remaining ih =>
    intro length hl hn
    have hl1 : leftpos + length < left.length := by omega
    have hn1 : npos + length < ns.length := by omega
    rw [longestExactMatchLoop, List.drop_eq_getElem_cons hn1, List.drop_eq_getElem_cons hl1,
      List.take_succ_cons, commonPrefixLength_cons, List.getD_eq_getElem _ _ hl1,
      List.getD_eq_getElem _ _ hn1]
    by_cases heq : left[leftpos + length] = ns[npos + length]
    · rw [if_pos heq, if_pos heq.symm, ih (length + 1) (by omega) (by omega)]
      have e1 : npos + (length + 1) = npos + length + 1 := rfl
      have e2 : leftpos + (length + 1) = leftpos + length + 1 := rfl
      rw [e1, e2]
      omega
    · rw [if_neg heq, if_neg (fun h => heq h.symm)]
      rfl

/-- What `longestExactMatch` returns for the base position `i` of a node, with
the bound that `getLongestExactMatch` passes: the exact match at `i`. -/
theorem longestExactMatch_ok (g : GraphAligner) (sequence : List Char) (seqPos node i m : Nat)
    (hlen : sequence.length < 18446744073709551616)
    (h : g.longestExactMatch sequence seqPos i
      (Nat.min (g.nodeEnd.getD node 0 - i) (toLengthType ((sequence.length : Int) - seqPos)))
      = .ok m) :
    m = g.exactMatchAt sequence seqPos node i := by
  unfold GraphAligner.longestExactMatch at h
  obtain ⟨-, h⟩ := assert_bind_ok h
  obtain ⟨h2, h⟩ := assert_bind_ok h
  obtain ⟨h3, h⟩ := assert_bind_ok h
  obtain ⟨h4, h⟩ := assert_bind_ok h
  have h2 := of_decide_eq_true h2
  have h3 := of_decide_eq_true h3
  have h4 := of_decide_eq_true h4
  have hq : toLengthType ((sequence.length : Int) - seqPos) = sequence.length - seqPos := by
    unfold toLengthType
    have h0 : (0 : Int) ≤ (sequence.length : Int) - seqPos := by omega
    rw [Int.emod_eq_of_lt h0 (by omega)]
    omega
  rw [hq] at h h2 h4
  simp only [pure, Except.pure, Except.ok.injEq] at h
  rw [← h, longestExactMatchLoop_spec sequence g.nodeSequences seqPos i _ 0 h4 h2]
  unfold GraphAligner.exactMatchAt
  simp only [Nat.add_zero, Nat.zero_add]
  rw [commonPrefixLength_take, commonPrefixLength_take]
  have hle := commonPrefixLength_le_right (g.nodeSequences.drop i) (sequence.drop seqPos)
  rw [List.length_drop] at hle
  have hmin : Nat.min (g.nodeEnd.getD node 0 - i) (sequence.length - seqPos)
      = min (g.nodeEnd.getD node 0 - i) (sequence.length - seqPos) := rfl
  rw [hmin]
  omega

/-- The loop of `getLongestExactMatch` over the base positions from `first` on:
when it ends without a failing assertion, it has the length of the longest exact
match among them and, when this length is positive, the lowest position that has
it. -/
theorem getLongestExactMatch_loop (g : GraphAligner) (sequence : List Char)
    (seqPos node first : Nat) (hlen : sequence.length < 18446744073709551616) :
    ∀ (k : Nat) (best : MatrixPosition × Nat),
      (List.range' first k).foldlM
        (fun (best : MatrixPosition × Nat) i => do
          let matchHere ← g.longestExactMatch sequence seqPos i
            (Nat.min (g.nodeEnd.getD node 0 - i)
              (toLengthType ((sequence.length : Int) - seqPos)))
          if matchHere > best.2 then pure ((i, seqPos), matchHere) else pure best)
        ((0, 0), 0) = .ok best →
      (∀ i, first ≤ i → i < first + k → g.exactMatchAt sequence seqPos node i ≤ best.2)
      ∧ ((best.2 = 0 ∧ best.1 = (0, 0))
        ∨ ∃ i, best.1 = (i, seqPos) ∧ first ≤ i ∧ i < first + k
            ∧ g.exactMatchAt sequence seqPos node i = best.2 ∧ 0 < best.2
            ∧ ∀ k', first ≤ k' → k' < i → g.exactMatchAt sequence seqPos node k' < best.2) := by
  intro k
  induction k with
  | zero =>
    intro best h
    simp only [List.range'_zero, List.foldlM, pure, Except.pure, Except.ok.injEq] at h
    subst h
    exact ⟨fun i h1 h2 => by omega, Or.inl ⟨rfl, rfl⟩⟩
  | succ k ih =>
    intro best h
    rw [List.range'_concat, List.foldlM_append] at h
    obtain ⟨mid, hmid, hlast⟩ := bind_eq_ok h
    obtain ⟨hmax, hpos⟩ := ih mid hmid
    simp only [List.foldlM, Nat.one_mul] at hlast
    obtain ⟨step, hcell, hret⟩ := bind_eq_ok hlast
    simp only [pure, Except.pure, Except.ok.injEq] at hret
    subst hret
    obtain ⟨m, hm, hstep⟩ := bind_eq_ok hcell
    have hm := longestExactMatch_ok g sequence seqPos node (first + k) m hlen hm
    by_cases hgt : m > mid.2
    · rw [if_pos hgt] at hstep
      simp only [pure, Except.pure, Except.ok.injEq] at hstep
      subst hstep
      dsimp only
      refine ⟨fun i h1 h2 => ?_, Or.inr ⟨first + k, rfl, by omega, by omega, hm.symm,
        by omega, fun k' h1 h2 => ?_⟩⟩
      · by_cases hi : i < first + k
        · have := hmax i h1 hi
          omega
        · have hik : i = first + k := by omega
          rw [hik, ← hm]
      · have := hmax k' h1 h2
        omega
    · rw [if_neg hgt] at hstep
      simp only [pure, Except.pure, Except.ok.injEq] at hstep
      subst hstep
      refine ⟨fun i h1 h2 => ?_, ?_⟩
      · by_cases hi : i < first + k
        · exact hmax i h1 hi
        · have hik : i = first + k := by omega
          rw [hik, ← hm]
          omega
      · rcases hpos with hz | ⟨i, p1, p2, p3, p4, p5, p6⟩
        · exact Or.inl hz
        · exact Or.inr ⟨i, p1, p2, by omega, p4, p5, p6⟩

/-- What `getLongestExactMatch` returns is the longest exact match inside the
node as the specification describes it. -/
theorem getLongestExactMatch_spec (g : GraphAligner) (sequence : List Char)
    (seqPos node : Nat) (hlen : sequence.length < 18446744073709551616)
    (best : MatrixPosition × Nat)
    (h : g.getLongestExactMatch sequence seqPos node = .ok best) :
    g.LongestMatch sequence seqPos node best.1 best.2 := by
  unfold GraphAligner.getLongestExactMatch at h
  obtain ⟨-, h⟩ := assert_bind_ok h
  obtain ⟨hmax, hpos⟩ := getLongestExactMatch_loop g sequence seqPos node
    (g.nodeStart.getD node 0) hlen _ best h
  refine ⟨fun i h1 h2 => hmax i h1 (by omega), ?_⟩
  rcases hpos with hz | ⟨i, p1, p2, p3, p4, p5, p6⟩
  · exact Or.inl hz
  · exact Or.inr ⟨i, p1, p2, by omega, p4, p5, p6⟩

/-- A loop all of whose rounds end without a failing assertion ends without
one. -/
theorem foldlM_ok_of_steps {σ β : Type} (f : σ → β → Except String σ) :
    ∀ (l : List β) (s : σ), (∀ s b, b ∈ l → ∃ s', f s b = .ok s') →
      ∃ r, l.foldlM f s = .ok r := by
  intro l
  induction l with
  | nil => intro s _; exact ⟨s, rfl⟩
  | cons x t ih =>
    intro s h
    obtain ⟨s1, hs1⟩ := h s x (List.mem_cons_self x t)
    obtain ⟨r, hr⟩ := ih s1 (fun s b hb => h s b (List.mem_cons_of_mem x hb))
    refine ⟨r, ?_⟩
    simp only [List.foldlM, hs1, Except.bind_ok]
    exact hr

/-- Inside a node that lies in the stored bases, and from a position of the
query, `getLongestExactMatch` returns. -/
theorem getLongestExactMatch_returns (g : GraphAligner) (sequence : List Char)
    (seqPos node : Nat) (hnode : node < g.nodeStart.length)
    (hend : g.nodeEnd.getD node 0 ≤ g.nodeSequences.length)
    (hpos : seqPos < sequence.length) :
    ∃ best, g.getLongestExactMatch sequence seqPos node = .ok best := by
  unfold GraphAligner.getLongestExactMatch
  rw [assert_bind, if_pos (decide_eq_true hnode)]
  apply foldlM_ok_of_steps
  intro best i hi
  rw [List.mem_range'_1] at hi
  have hq : toLengthType ((sequence.length : Int) - seqPos) ≤ sequence.length - seqPos := by
    unfold toLengthType
    have h0 : (0 : Int) ≤ (sequence.length : Int) - seqPos := by omega
    have h1 := Int.emod_lt_of_pos ((sequence.length : Int) - seqPos)
      (by decide : (0 : Int) < 18446744073709551616)
    have h2 := Int.emod_nonneg ((sequence.length : Int) - seqPos)
      (by decide : (18446744073709551616 : Int) ≠ 0)
    by_cases hsmall : (sequence.length : Int) - seqPos < 18446744073709551616
    · rw [Int.emod_eq_of_lt h0 hsmall]
      omega
    · omega
  have hmin1 := Nat.min_le_left (g.nodeEnd.getD node 0 - i)
    (toLengthType ((sequence.length : Int) - seqPos))
  have hmin2 := Nat.min_le_right (g.nodeEnd.getD node 0 - i)
    (toLengthType ((sequence.length : Int) - seqPos))
  have hmin : Nat.min (g.nodeEnd.getD node 0 - i)
      (toLengthType ((sequence.length : Int) - seqPos))
      = min (g.nodeEnd.getD node 0 - i) (toLengthType ((sequence.length : Int) - seqPos)) := rfl
  unfold GraphAligner.longestExactMatch
  rw [hmin, assert_bind, if_pos (decide_eq_true (by omega)), assert_bind,
    if_pos (decide_eq_true (by omega)), assert_bind, if_pos (decide_eq_true hpos),
    assert_bind, if_pos (decide_eq_true (by omega))]
  simp only [pure, Except.pure, Except.bind_ok]
  split
  · exact ⟨_, rfl⟩
  · exact ⟨_, rfl⟩

/-- The loop of `getSeedHitPositionsInMatrix` appends one position per seed
pair, in the order of the pairs. -/
theorem getSeedHitPositionsInMatrix_loop (g : GraphAligner) (sequence : List Char)
    (hlen : sequence.length < 18446744073709551616) :
    ∀ (seedHits : List (SeedHit × SeedHit)) (acc result : List MatrixPosition),
      seedHits.foldlM (fun result hit => do
        match g.nodeLookup.lookup hit.1.nodeId, g.nodeLookup.lookup hit.2.nodeId with
        | some first, some second =>
          let forwardMatch ← g.getLongestExactMatch sequence hit.1.sequencePosition first
          let backwardMatch ← g.getLongestExactMatch sequence hit.2.sequencePosition second
          if forwardMatch.2 > backwardMatch.2 then pure (result ++ [forwardMatch.1])
          else pure (result ++ [backwardMatch.1])
        | _, _ => .error "getSeedHitPositionsInMatrix: unknown node id") acc = .ok result →
      ∃ added, result = acc ++ added ∧ List.Forall₂ (g.SeedPosition sequence) seedHits added := by
  intro seedHits
  induction seedHits with
  | nil =>
    intro acc result h
    simp only [List.foldlM, pure, Except.pure, Except.ok.injEq] at h
    exact ⟨[], by rw [← h, List.append_nil], List.Forall₂.nil⟩
  | cons hit t ih =>
    intro acc result h
    rw [List.foldlM_cons] at h
    obtain ⟨mid, hcell, hrest⟩ := bind_eq_ok h
    obtain ⟨added, hadded, hall⟩ := ih mid result hrest
    cases h1 : g.nodeLookup.lookup hit.1.nodeId with
    | none => rw [h1] at hcell; cases hcell
    | some first =>
      cases h2 : g.nodeLookup.lookup hit.2.nodeId with
      | none => rw [h1, h2] at hcell; cases hcell
      | some second =>
        rw [h1, h2] at hcell
        dsimp only at hcell
        obtain ⟨fm, hfm, hcell⟩ := bind_eq_ok hcell
        obtain ⟨bm, hbm, hcell⟩ := bind_eq_ok hcell
        have sf := getLongestExactMatch_spec g sequence hit.1.sequencePosition first hlen fm hfm
        have sb := getLongestExactMatch_spec g sequence hit.2.sequencePosition second hlen bm hbm
        by_cases hgt : fm.2 > bm.2
        · rw [if_pos hgt] at hcell
          simp only [pure, Except.pure, Except.ok.injEq] at hcell
          refine ⟨fm.1 :: added, ?_, List.Forall₂.cons ?_ hall⟩
          · rw [hadded, ← hcell, List.append_assoc]
            rfl
          · exact ⟨first, second, fm.1, fm.2, bm.1, bm.2, h1, h2, sf, sb, fun _ => rfl,
              fun hle => absurd hgt (by omega)⟩
        · rw [if_neg hgt] at hcell
          simp only [pure, Except.pure, Except.ok.injEq] at hcell
          refine ⟨bm.1 :: added, ?_, List.Forall₂.cons ?_ hall⟩
          · rw [hadded, ← hcell, List.append_assoc]
            rfl
          · exact ⟨first, second, fm.1, fm.2, bm.1, bm.2, h1, h2, sf, sb,
              fun hlt => absurd hlt hgt, fun _ => rfl⟩

/-- C32.  For a query of a length that a `std::string` can have:
when `getSeedHitPositionsInMatrix` returns, it returns one matrix position per
seed pair, in the order of the pairs; both node ids of a pair are known, and the
position of the pair is the one found for the hit with the longer exact match
(for the second hit when both are equally long); the position found for a hit
with a positive exact match is `(i, seq_pos)` for the lowest base position `i`
inside the node at which the common prefix of the node's remaining bases and the
query from `seq_pos` is longest.  And the call does return when the node ids of
all hits are known, the nodes lie in the stored bases and every hit starts inside
the query. -/
theorem C32_seed_positions (g : GraphAligner) (sequence : List Char)
    (seedHits : List (SeedHit × SeedHit))
    (hlen : sequence.length < 18446744073709551616) :
    (∀ result, g.getSeedHitPositionsInMatrix sequence seedHits = .ok result →
      result.length = seedHits.length
      ∧ List.Forall₂ (g.SeedPosition sequence) seedHits result)
    ∧ ((∀ id v, g.nodeLookup.lookup id = some v →
          v < g.nodeStart.length ∧ g.nodeEnd.getD v 0 ≤ g.nodeSequences.length) →
        (∀ hit ∈ seedHits, (g.nodeLookup.lookup hit.1.nodeId).isSome = true
          ∧ (g.nodeLookup.lookup hit.2.nodeId).isSome = true
          ∧ hit.1.sequencePosition < sequence.length
          ∧ hit.2.sequencePosition < sequence.length) →
        ∃ result, g.getSeedHitPositionsInMatrix sequence seedHits = .ok result) := by
  constructor
  · intro result h
    obtain ⟨added, hadded, hall⟩ :=
      getSeedHitPositionsInMatrix_loop g sequence hlen seedHits [] result h
    rw [List.nil_append] at hadded
    subst hadded
    exact ⟨hall.length_eq.symm, hall⟩
  · intro hgraph hhits
    unfold GraphAligner.getSeedHitPositionsInMatrix
    apply foldlM_ok_of_steps
    intro acc hit hmem
    obtain ⟨k1, k2, p1, p2⟩ := hhits hit hmem
    obtain ⟨first, h1⟩ := Option.isSome_iff_exists.mp k1
    obtain ⟨second, h2⟩ := Option.isSome_iff_exists.mp k2
    obtain ⟨fm, hfm⟩ := getLongestExactMatch_returns g sequence hit.1.sequencePosition first
      (hgraph _ _ h1).1 (hgraph _ _ h1).2 p1
    obtain ⟨bm, hbm⟩ := getLongestExactMatch_returns g sequence hit.2.sequencePosition second
      (hgraph _ _ h2).1 (hgraph _ _ h2).2 p2
    rw [h1, h2]
    dsimp only
    rw [hfm, hbm]
    simp only [Except.bind_ok]
    split
    · exact ⟨_, rfl⟩
    · exact ⟨_, rfl⟩

/-- C32 on the graph of scenario S2 (`2 = "ACG"`, `4 = "TAC"`) with the query
`"GTAC"` and the seed pair `(0, 2)`, `(1, 4)`: the first hit has the exact match
`"G"` of length `1` at the base position `3`, the second the exact match `"TAC"` of
length `3` at the base position `4`, and the call returns the position `(4, 1)` of
the second. -/
theorem C32_witness :
    ∃ g, graphS2 = .ok g
      ∧ "GTAC".data.length < 18446744073709551616
      ∧ g.getSeedHitPositionsInMatrix "GTAC".data [(⟨0, 2⟩, ⟨1, 4⟩)] = .ok [(4, 1)]
      ∧ g.getLongestExactMatch "GTAC".data 0 1 = .ok ((3, 0), 1)
      ∧ g.getLongestExactMatch "GTAC".data 1 2 = .ok ((4, 1), 3)
      ∧ ([(4, 1)] : List MatrixPosition).length
          = ([(⟨0, 2⟩, ⟨1, 4⟩)] : List (SeedHit × SeedHit)).length
      ∧ List.Forall₂ (g.SeedPosition "GTAC".data) [(⟨0, 2⟩, ⟨1, 4⟩)] [(4, 1)] := by
  obtain ⟨g, hg⟩ := ok_of_isOk graphS2 (by decide)
  have h1 : (graphS2.map (fun g => decide (
      g.getSeedHitPositionsInMatrix "GTAC".data [(⟨0, 2⟩, ⟨1, 4⟩)] = .ok [(4, 1)]
      ∧ g.getLongestExactMatch "GTAC".data 0 1 = .ok ((3, 0), 1)
      ∧ g.getLongestExactMatch "GTAC".data 1 2 = .ok ((4, 1), 3)))) = .ok true := by decide
  rw [hg] at h1
  simp only [Except.map, Except.ok.injEq, decide_eq_true_eq] at h1
  obtain ⟨hrun, hf, hb⟩ := h1
  have hlen : "GTAC".data.length < 18446744073709551616 := by decide
  obtain ⟨hl, hall⟩ := (C32_seed_positions g "GTAC".data [(⟨0, 2⟩, ⟨1, 4⟩)] hlen).1
    [(4, 1)] hrun
  exact ⟨g, hg, hlen, hrun, hf, hb, hl, hall⟩

/-! ## Theorems: the rows that the fills of `getBandedRows` read -/

set_option maxRecDepth 1000000 in
/-- C33 fails on the code.  On the graph of scenario S1 (node `2 = "ACGT"`,
positions `0 .. 4`) with the seed position `(1, 0)`, the band width `3` and the
query length `4`, the seed loop leaves `forward[4][0] = 0`, and position `4` is
not the first base of its node.  So the round `j = 0`, `w = 4` of the forward
fill reads `forward[3][j - 1]`, the element before the first one of the row
vector: the matrix that the round leaves, and with it the band that
`getBandedRows` returns, depends on what this read yields.  In the same way the
round `j = 4`, `w = 3` of the backward fill reads `backward[4][5]`, the element
after the last one. -/
theorem C33_fill_reads_out_of_range :
    (graphS1.bind (fun g => (g.seedBand [(1, 0)] 3 4).map (fun fb =>
      (getCell fb.1 4 0 0, g.nodeStart.getD (g.indexToNode.getD 4 0) 0,
        g.forwardFillCell (fun _ => 0) fb.1 0 4,
        g.forwardFillCell (fun u => if u = 3 then 1 else 0) fb.1 0 4))))
      = .ok (0, 1,
        [[1, 0, 0, 0, 0], [3, 0, 0, 0, 0], [2, 0, 0, 0, 0], [1, 0, 0, 0, 0], [0, 0, 0, 0, 0]],
        [[1, 0, 0, 0, 0], [3, 0, 0, 0, 0], [2, 0, 0, 0, 0], [1, 0, 0, 0, 0], [1, 0, 0, 0, 0]])
    ∧ (graphS1.bind (fun g => (g.seedBand [(1, 0)] 3 4).map (fun fb =>
      (getCell fb.2 3 4 0, g.nodeEnd.getD (g.indexToNode.getD 3 0) 0 - 1,
        g.backwardFillCell (fun _ => 0) 4 fb.2 4 3,
        g.backwardFillCell (fun u => if u = 4 then 1 else 0) 4 fb.2 4 3))))
      = .ok (0, 4,
        [[1, 0, 0, 0, 0], [3, 0, 0, 0, 0], [2, 0, 0, 0, 0], [1, 0, 0, 0, 0], [0, 0, 0, 0, 0]],
        [[1, 0, 0, 0, 0], [3, 0, 0, 0, 0], [2, 0, 0, 0, 0], [1, 0, 0, 0, 1], [0, 0, 0, 0, 0]])
    ∧ (graphS1.bind (fun g => g.getBandedRows (fun _ => 0) (fun _ => 0) [(1, 0)] 3 4))
      = .ok [[true, true, true, true, true], [true, true, true, true, true],
        [true, true, true, true, true], [true, true, true, true, true],
        [false, true, true, true, true]]
    ∧ (graphS1.bind (fun g => g.getBandedRows (fun u => if u = 3 then 1 else 0) (fun _ => 0)
        [(1, 0)] 3 4))
      = .ok [[true, true, true, true, true], [true, true, true, true, true],
        [true, true, true, true, true], [true, true, true, true, true],
        [true, true, true, true, true]] := by
  refine ⟨by decide, by decide, by decide, by decide⟩

/-! ## Theorems: the distance between two base positions -/

set_option maxRecDepth 1000000 in
/-- C35 fails on the code.  On the one-node cycle `2 = "AC"`, `2 → 2` (positions
`1 = A`, `2 = C`) the position `2` is a predecessor of the position `1` across the
edge `2 → 2`, so the shortest walk from `2` to `1` takes one base step.  The
shortest-path routine leaves `0` on the diagonal, the loop over the diagonal sets
`result[1][1]` to `|bases| + 1 = 4` and lowers it only by sums over other nodes,
of which there is none to reach: the matrix is `[[4, 4], [4, 4]]`, and
`distanceFromSeqToSeq(2, 1)` is `4 + 1 - 2 = 3`.  On the cycle through the two
nodes `2 = "AC"` and `4 = "G"` the same computation gives the number of base steps
(`2` from the position `2` back to the position `1`), as it does forwards inside a
node and across the edge of scenario S2. -/
theorem C35_self_loop_distance :
    graphLoopAC.map (fun g => (g.getDistanceMatrixBoostJohnson, g.predecessors 1,
        g.walkDistance 2 1, g.distanceFromSeqToSeq 2 1 g.getDistanceMatrixBoostJohnson))
      = .ok ([[4, 4], [4, 4]], [2], some 1, 3)
    ∧ graphCycle.map (fun g => (g.getDistanceMatrixBoostJohnson,
        g.walkDistance 2 1, g.distanceFromSeqToSeq 2 1 g.getDistanceMatrixBoostJohnson))
      = .ok ([[5, 5, 5], [5, 3, 2], [5, 1, 3]], some 2, 2)
    ∧ graphLoopAC.map (fun g => (g.walkDistance 1 2,
        g.distanceFromSeqToSeq 1 2 g.getDistanceMatrixBoostJohnson))
      = .ok (some 1, 1)
    ∧ graphS2.map (fun g => (g.walkDistance 2 5,
        g.distanceFromSeqToSeq 2 5 g.getDistanceMatrixBoostJohnson))
      = .ok (some 3, 3) := by
  refine ⟨by decide, by decide, by decide, by decide⟩

/-! ## Theorems: the bound of the scores -/

theorem yields_ok {α : Type} {x : Except String α} {P : α → Prop} {a : α}
    (h : Yields x P) (hx : x = .ok a) : P a := by
  rw [hx] at h
  exact h

theorem yields_bind {α β : Type} {x : Except String α} {f : α → Except String β}
    {P : α → Prop} {Q : β → Prop} (hx : Yields x P)
    (hf : ∀ a, P a → Yields (f a) Q) : Yields (x >>= f) Q := by
  cases x with
  | error e => trivial
  | ok a => exact hf a hx

theorem yields_true {α : Type} (x : Except String α) : Yields x (fun _ => True) := by
  cases x <;> trivial

theorem yields_mono {α : Type} {x : Except String α} {P Q : α → Prop}
    (hx : Yields x P) (h : ∀ a, P a → Q a) : Yields x Q := by
  cases x with
  | error e => trivial
  | ok a => exact h a hx

theorem yields_assert {β : Type} {c : Bool} {msg : String} {f : Unit → Except String β}
    {Q : β → Prop} (hf : c = true → Yields (f ()) Q) : Yields (assert c msg >>= f) Q := by
  cases c with
  | false => trivial
  | true => exact hf rfl

theorem yields_foldlM {α β : Type} (f : α → β → Except String α) (P : α → Prop) :
    ∀ (l : List β), (∀ a b, b ∈ l → P a → Yields (f a b) P) →
      ∀ a, P a → Yields (l.foldlM f a) P := by
  intro l
  induction l with
  | nil => intro _ a ha; exact ha
  | cons x t ih =>
    intro hf a ha
    simp only [List.foldlM]
    exact yields_bind (hf a x (List.mem_cons_self x t) ha)
      (fun a1 h1 => ih (fun a b hb => hf a b (List.mem_cons_of_mem x hb)) a1 h1)

theorem foldl_inv_mem {α β : Type} (f : α → β → α) (P : α → Prop) :
    ∀ (l : List β), (∀ a b, b ∈ l → P a → P (f a b)) → ∀ a, P a → P (l.foldl f a) := by
  intro l
  induction l with
  | nil => intro _ a ha; exact ha
  | cons x t ih =>
    intro hf a ha
    exact ih (fun a b hb => hf a b (List.mem_cons_of_mem x hb)) (f a x)
      (hf a x (List.mem_cons_self x t) ha)

/-- A match or mismatch adds at most `1`. -/
theorem matchScore_le (a b : Char) : GraphAligner.matchScore a b ≤ 1 := by
  unfold GraphAligner.matchScore
  split <;> decide

/-- With both gap penalties `1`, the score `-gapPenalty(x)` of the dummy
position in row `x` is not above `x`. -/
theorem neg_gapPenalty_le (g : GraphAligner) (hs : g.gapStartPenalty = 1)
    (hc : g.gapContinuePenalty = 1) (x : Nat) : -(g.gapPenalty x) ≤ (x : Int) := by
  unfold GraphAligner.gapPenalty
  rw [hs, hc]
  split
  · omega
  · unfold toScoreType
    omega

theorem gapPenalty_one (g : GraphAligner) (hs : g.gapStartPenalty = 1)
    (hc : g.gapContinuePenalty = 1) : g.gapPenalty 1 = 1 := by
  unfold GraphAligner.gapPenalty
  rw [hs, hc]
  decide

/-- With both gap penalties `1`, the gap penalty of a distance that fits
`ScoreType` is not negative. -/
theorem gapPenalty_nonneg (g : GraphAligner) (hs : g.gapStartPenalty = 1)
    (hc : g.gapContinuePenalty = 1) (d : Nat) (hd : d < 2147483648) : 0 ≤ g.gapPenalty d := by
  unfold GraphAligner.gapPenalty
  rw [hs, hc]
  split
  · exact le_refl 0
  · unfold toScoreType
    omega

/-- A state whose vectors of the row are bounded and whose other vectors are
those of a bounded state is bounded. -/
theorem ScoreBound_of_fields (B : Int) (N : Nat) (s s' : SliceState) (h : ScoreBound B N s)
    (hM : ∀ u, s'.currentM.getD u 0 ≤ B) (hQ : ∀ u, s'.currentQ.getD u 0 ≤ B)
    (hR : ∀ u, s'.currentR.getD u 0 ≤ B) (e1 : s'.previousM = s.previousM)
    (e2 : s'.previousQ = s.previousQ) (e3 : s'.previousR = s.previousR)
    (e4 : s'.previousProcessableColumns = s.previousProcessableColumns)
    (e5 : s'.currentProcessableColumns = s.currentProcessableColumns) :
    ScoreBound B N s' := by
  obtain ⟨-, -, -, p1, p2, p3, p4, p5⟩ := h
  unfold ScoreBound
  rw [e1, e2, e3, e4, e5]
  exact ⟨hM, hQ, hR, p1, p2, p3, p4, p5⟩

theorem getD_set_le (l : List Int) (w u : Nat) (x B : Int) (hx : x ≤ B)
    (hold : l.getD u 0 ≤ B) : (l.set w x).getD u 0 ≤ B :=
  getD_set_prop (fun v => v ≤ B) l w u x 0 (fun _ => hx) hold

/-- The value of `fullR` is not above the bound of the candidates, when no gap
penalty is negative. -/
theorem fullR_score (g : GraphAligner) (w j : Nat) (RHelper : List (Nat × Int))
    (distanceMatrix : List (List Nat)) (start : Nat) (B : Int) (hB : 0 ≤ B)
    (hhelper : ∀ p ∈ RHelper, p.2 ≤ B
      ∧ (p.1 ≠ w → 0 ≤ g.gapPenalty (g.distanceFromSeqToSeq p.1 w distanceMatrix))) :
    Yields (g.fullR w j RHelper distanceMatrix start) (fun rr => rr.1 ≤ B) := by
  unfold GraphAligner.fullR
  refine yields_assert (fun _ => ?_)
  refine yields_assert (fun _ => ?_)
  refine yields_assert (fun _ => ?_)
  refine yields_assert (fun _ => ?_)
  refine yields_assert (fun _ => ?_)
  show (_ : Int × MatrixPosition).1 ≤ B
  apply foldl_inv_mem _ (fun (r : Int × MatrixPosition) => r.1 ≤ B)
  · intro a b hb ha
    simp only
    split
    · exact ha
    · rename_i hne
      split
      · obtain ⟨h1, h2⟩ := hhelper b hb
        have := h2 hne
        show b.2 - g.gapPenalty (g.distanceFromSeqToSeq b.1 w distanceMatrix) ≤ B
        omega
      · exact ha
  · show ScoreType.min + 99 ≤ B
    unfold ScoreType.min
    omega

theorem pick_two_le (B : Int) (r : Int × MatrixPosition) (a b : Int)
    (pa pb : MatrixPosition) (hr : r.1 ≤ B) (ha : a ≤ B) (hb : b ≤ B) :
    (if b > (if a > r.1 then (a, pa) else r).1 then (b, pb)
      else (if a > r.1 then (a, pa) else r)).1 ≤ B := by
  split_ifs <;> assumption

theorem pick_one_le (B : Int) (r : Int × MatrixPosition) (a : Int)
    (pa : MatrixPosition) (hr : r.1 ≤ B) (ha : a ≤ B) :
    (if a > r.1 then (a, pa) else r).1 ≤ B := by
  split_ifs <;> assumption

/-- The value of `recurrenceR` is not above the bound of the vectors `M` and `R`
of the row, when the two penalties are not negative. -/
theorem recurrenceR_score (g : GraphAligner) (w j : Nat) (currentM currentR : List Int)
    (currentRbacktrace : List MatrixPosition) (start : Nat) (currentInsideBand : List Bool)
    (B : Int) (hB : 0 ≤ B) (hgp : 0 ≤ g.gapPenalty 1) (hgc : 0 ≤ g.gapContinuePenalty)
    (hM : ∀ u, currentM.getD u 0 ≤ B) (hR : ∀ u, currentR.getD u 0 ≤ B) :
    Yields (g.recurrenceR w j currentM currentR currentRbacktrace start currentInsideBand)
      (fun rr => rr.1 ≤ B) := by
  have hfloor : ScoreType.min + 99 ≤ B := by
    unfold ScoreType.min
    omega
  unfold GraphAligner.recurrenceR
  refine yields_assert (fun _ => ?_)
  refine yields_assert (fun _ => ?_)
  have hend : ∀ r : Int × MatrixPosition, r.1 ≤ B →
      Yields
        (do assert (decide (r.1 ≥ scoreFloor)) "recurrenceR: maxValue too small"
            assert (decide (r.1 ≤ ScoreType.max - 100)) "recurrenceR: maxValue too large"
            pure r)
        (fun rr => rr.1 ≤ B) := by
    intro r hr
    refine yields_assert (fun _ => ?_)
    refine yields_assert (fun _ => ?_)
    exact hr
  dsimp only
  split
  · refine yields_bind (P := fun (r : Int × MatrixPosition) => r.1 ≤ B) ?_ hend
    refine yields_foldlM _ (fun (r : Int × MatrixPosition) => r.1 ≤ B) _ ?_ _ hfloor
    intro r nb _ hr
    split
    · exact hr
    · refine yields_assert (fun _ => ?_)
      have h1 := hM (g.nodeEnd.getD nb 0 - 1)
      have h2 := hR (g.nodeEnd.getD nb 0 - 1)
      exact pick_two_le B r _ _ _ _ hr (by omega) (by omega)
  · split
    · refine yields_bind (P := fun (r : Int × MatrixPosition) => r.1 ≤ B) ?_ hend
      have h1 := hM (w - 1)
      have h2 := hR (w - 1)
      exact pick_one_le B
        (currentR.getD (w - 1) 0 - g.gapContinuePenalty, currentRbacktrace.getD (w - 1) (0, 0))
        (currentM.getD (w - 1) 0 - g.gapPenalty 1) (w - 1, j + start)
        (by show currentR.getD (w - 1) 0 - g.gapContinuePenalty ≤ B; omega) (by omega)
    · exact yields_bind (P := fun (r : Int × MatrixPosition) => r.1 ≤ B) hfloor hend

/-- A candidate of `getRHelper` keeps the list of the best candidates bounded:
the score of an entry is the score of the previous row plus a match or mismatch,
and an entry that holds a score is one of a visited position. -/
theorem getRHelperCandidate_score (g : GraphAligner) (j : Nat) (previousM : List Int)
    (sequence : List Char) (previousInsideBand : List Bool) (v nodeIndex : Nat)
    (bestPerNode : List (Nat × Int × Int)) (u : Nat) (B : Int) (N : Nat) (hv : v < N)
    (hM : ∀ u, previousM.getD u 0 ≤ B - 1)
    (h : ∀ b ∈ bestPerNode, b.2.1 ≤ B ∧ (b.2.1 > ScoreType.min + 100 → b.1 < N)) :
    ∀ b ∈ g.getRHelperCandidate j previousM sequence previousInsideBand v nodeIndex
        bestPerNode u,
      b.2.1 ≤ B ∧ (b.2.1 > ScoreType.min + 100 → b.1 < N) := by
  unfold GraphAligner.getRHelperCandidate
  split
  · exact h
  · dsimp only
    split
    · intro b hb
      rcases List.mem_or_eq_of_mem_set hb with hb | hb
      · exact h b hb
      · subst hb
        refine ⟨?_, fun _ => hv⟩
        have h1 := hM u
        have h2 := matchScore_le (g.nodeSequences.getD v (Char.ofNat 0))
          (sequence.getD (j - 1) (Char.ofNat 0))
        show previousM.getD u 0 + GraphAligner.matchScore _ _ ≤ B
        omega
    · exact h

/-- The candidates that `getRHelper` returns are candidates of positions of the
graph, with scores not above the bound of the row. -/
theorem getRHelper_score (g : GraphAligner) (j start : Nat) (previousM : List Int)
    (sequence : List Char) (previousInsideBand : List Bool)
    (previousProcessableColumns : List Nat) (B : Int) (hB : 0 ≤ B)
    (hM : ∀ u, previousM.getD u 0 ≤ B - 1)
    (hcols : ∀ v ∈ previousProcessableColumns, v < g.nodeSequences.length) :
    Yields (g.getRHelper j start previousM sequence previousInsideBand
      previousProcessableColumns)
      (fun l => ∀ p ∈ l, p.2 ≤ B ∧ p.1 < g.nodeSequences.length) := by
  have hrange : ∀ p ∈ (List.range g.nodeSequences.length).map (fun v => (v, (0 : Int))),
      p.2 ≤ B ∧ p.1 < g.nodeSequences.length := by
    intro p hp
    obtain ⟨v, hv, e⟩ := List.mem_map.mp hp
    subst e
    exact ⟨hB, List.mem_range.mp hv⟩
  unfold GraphAligner.getRHelper
  split
  · exact hrange
  · split
    · exact hrange
    · dsimp only
      split
      · intro p hp
        obtain ⟨b, hb, e⟩ := List.mem_filterMap.mp hp
        have hall : ∀ b ∈ previousProcessableColumns.foldl (fun bestPerNode v =>
            let nodeIndex := g.indexToNode.getD v 0
            if g.nodeStart.getD nodeIndex 0 = v then
              (g.inNeighbors.getD nodeIndex []).foldl (fun bestPerNode nb =>
                g.getRHelperCandidate j previousM sequence previousInsideBand v nodeIndex
                  bestPerNode (g.nodeEnd.getD nb 0 - 1)) bestPerNode
            else
              g.getRHelperCandidate j previousM sequence previousInsideBand v nodeIndex
                bestPerNode (v - 1))
            (List.replicate g.nodeStart.length (0, ScoreType.min + 99, 0)),
            b.2.1 ≤ B ∧ (b.2.1 > ScoreType.min + 100 → b.1 < g.nodeSequences.length) := by
          apply foldl_inv_mem _ (fun (l : List (Nat × Int × Int)) => ∀ b ∈ l,
            b.2.1 ≤ B ∧ (b.2.1 > ScoreType.min + 100 → b.1 < g.nodeSequences.length))
          · intro l v hv hl
            dsimp only
            split
            · apply foldl_inv _ (fun (l : List (Nat × Int × Int)) => ∀ b ∈ l,
                b.2.1 ≤ B ∧ (b.2.1 > ScoreType.min + 100 → b.1 < g.nodeSequences.length))
              · intro l' nb hl'
                exact getRHelperCandidate_score g j previousM sequence previousInsideBand v _
                  l' _ B _ (hcols v hv) hM hl'
              · exact hl
            · exact getRHelperCandidate_score g j previousM sequence previousInsideBand v _
                l _ B _ (hcols v hv) hM hl
          · intro b hb
            rw [List.eq_of_mem_replicate hb]
            refine ⟨?_, fun hgt => absurd hgt (by decide)⟩
            show ScoreType.min + 99 ≤ B
            unfold ScoreType.min
            omega
        obtain ⟨h1, h2⟩ := hall b hb
        split at e
        · rename_i hgt
          injection e with e
          subst e
          exact ⟨h1, h2 hgt⟩
        · cases e
      · trivial

/-- The update of `Q` keeps the state bounded. -/
theorem cellQ_score (g : GraphAligner) (start j : Nat) (s : SliceState) (w : Nat) (B : Int)
    (N : Nat) (hgp : 0 ≤ g.gapPenalty 1) (hgc : 0 ≤ g.gapContinuePenalty)
    (h : ScoreBound B N s) : ScoreBound B N (g.cellQ start j s w) := by
  have hq : ∀ u, (s.currentQ.set w (s.previousQ.getD w 0 - g.gapContinuePenalty)).getD u 0 ≤ B := by
    intro u
    have := h.2.2.2.2.1 w
    exact getD_set_le _ _ _ _ _ (by omega) (h.2.1 u)
  unfold GraphAligner.cellQ
  simp only
  split
  · refine ScoreBound_of_fields B N s _ h h.1 ?_ h.2.2.1 rfl rfl rfl rfl rfl
    intro u
    have := h.2.2.2.1 w
    exact getD_set_le _ _ _ _ _ (by omega) (hq u)
  · exact ScoreBound_of_fields B N s _ h h.1 hq h.2.2.1 rfl rfl rfl rfl rfl

/-- The update of `R` keeps the state bounded. -/
theorem cellR_score (g : GraphAligner) (hasWrongOrders : Bool)
    (distanceMatrix : List (List Nat)) (Rhelper : List (Nat × Int)) (start j : Nat)
    (neighborInsideBand : Bool) (s : SliceState) (w : Nat) (B : Int) (N : Nat) (hB : 0 ≤ B)
    (hgp : 0 ≤ g.gapPenalty 1) (hgc : 0 ≤ g.gapContinuePenalty)
    (hfull : hasWrongOrders = true → ∀ p ∈ Rhelper, p.2 ≤ B
      ∧ (p.1 ≠ w → 0 ≤ g.gapPenalty (g.distanceFromSeqToSeq p.1 w distanceMatrix)))
    (h : ScoreBound B N s) :
    Yields (g.cellR hasWrongOrders distanceMatrix Rhelper start j neighborInsideBand s w)
      (ScoreBound B N) := by
  have hset : ∀ (value : Int) (p : MatrixPosition), value ≤ B →
      ScoreBound B N { s with currentR := s.currentR.set w value
                              currentRbacktrace := s.currentRbacktrace.set w p } := by
    intro value p hv
    exact ScoreBound_of_fields B N s _ h h.1 h.2.1
      (fun u => getD_set_le _ _ _ _ _ hv (h.2.2.1 u)) rfl rfl rfl rfl rfl
  unfold GraphAligner.cellR
  split
  · refine yields_assert (fun hwrong => ?_)
    refine yields_bind (fullR_score g w j Rhelper distanceMatrix start B hB (hfull hwrong))
      (fun rr hrr => ?_)
    refine yields_assert (fun _ => ?_)
    exact hset rr.1 rr.2 hrr
  · split
    · refine yields_bind (recurrenceR_score g w j s.currentM s.currentR s.currentRbacktrace
        start s.currentInsideBand B hB hgp hgc h.1 h.2.2.1) (fun rr hrr => ?_)
      refine yields_assert (fun _ => ?_)
      exact hset rr.1 rr.2 hrr
    · exact h

/-- The update of `M` from `Q` and `R` keeps the state bounded. -/
theorem cellMQR_score (g : GraphAligner) (start j : Nat) (neighborInsideBand : Bool)
    (s : SliceState) (w : Nat) (B : Int) (N : Nat) (hB : 0 ≤ B) (h : ScoreBound B N s) :
    Yields (g.cellMQR start j neighborInsideBand s w) (ScoreBound B N) := by
  have hfloor : ScoreType.min + 99 ≤ B := by
    unfold ScoreType.min
    omega
  have hjp : ∀ s1 : SliceState, ScoreBound B N s1 →
      Yields
        (if (g.usesFullR w || !g.usesFullR w && neighborInsideBand) = true then
          if s1.currentR.getD w 0 > s1.currentM.getD w 0 then do
            assert
              (orderOk
                (getCell (setCell s1.backtrace w j (s1.currentRbacktrace.getD w (0, 0))) w j (0, 0))
                (getCell (setCell s1.backtrace w j (s1.currentRbacktrace.getD w (0, 0))) w j (0, 0))
                w (j + start))
              "row loop: order after R"
            pure { s1 with
              currentM := s1.currentM.set w (s1.currentR.getD w 0)
              backtrace := setCell s1.backtrace w j (s1.currentRbacktrace.getD w (0, 0)) }
          else pure s1
        else pure s1)
        (ScoreBound B N) := by
    intro s1 h1
    split
    · split
      · refine yields_assert (fun _ => ?_)
        exact ScoreBound_of_fields B N s1 _ h1
          (fun u => getD_set_le _ _ _ _ _ (h1.2.2.1 w) (h1.1 u)) h1.2.1 h1.2.2.1 rfl rfl rfl rfl rfl
      · exact h1
    · exact h1
  have h0 : ∀ u, (s.currentM.set w (ScoreType.min + 99)).getD u 0 ≤ B :=
    fun u => getD_set_le _ _ _ _ _ hfloor (h.1 u)
  unfold GraphAligner.cellMQR
  dsimp only
  split
  · refine yields_assert (fun _ => ?_)
    refine hjp _ (ScoreBound_of_fields B N s _ h ?_ h.2.1 h.2.2.1 rfl rfl rfl rfl rfl)
    intro u
    exact getD_set_le _ _ _ _ _ (h.2.1 w) (h0 u)
  · exact hjp _ (ScoreBound_of_fields B N s _ h h0 h.2.1 h.2.2.1 rfl rfl rfl rfl rfl)

theorem cellMatchFrom_score (g : GraphAligner) (sequence : List Char) (start j w : Nat)
    (s : SliceState) (u : Nat) (B : Int) (N : Nat) (h : ScoreBound B N s) :
    Yields (g.cellMatchFrom sequence start j w s u) (ScoreBound B N) := by
  unfold GraphAligner.cellMatchFrom
  split
  · exact h
  · dsimp only
    split
    · refine yields_assert (fun _ => ?_)
      refine ScoreBound_of_fields B N s _ h ?_ h.2.1 h.2.2.1 rfl rfl rfl rfl rfl
      intro x
      have h1 := h.2.2.2.1 u
      have h2 := matchScore_le (g.nodeSequences.getD w (Char.ofNat 0))
        (sequence.getD (j + start - 1) (Char.ofNat 0))
      exact getD_set_le _ _ _ _ _ (by omega) (h.1 x)
    · exact h

/-- The match candidates keep the state bounded. -/
theorem cellMatch_score (g : GraphAligner) (sequence : List Char) (start j : Nat)
    (s : SliceState) (w : Nat) (B : Int) (N : Nat) (h : ScoreBound B N s) :
    Yields (g.cellMatch sequence start j s w) (ScoreBound B N) := by
  unfold GraphAligner.cellMatch
  dsimp only
  split
  · exact yields_foldlM _ (ScoreBound B N)  _
      (fun a nb _ ha => cellMatchFrom_score g sequence start j w a _ B N ha) s h
  · exact cellMatchFrom_score g sequence start j w s _ B N h

/-- The last part of the body keeps the state bounded. -/
theorem cellReset_score (g : GraphAligner) (start j : Nat) (neighborInsideBand : Bool)
    (s : SliceState) (w : Nat) (B : Int) (N : Nat) (h : ScoreBound B N s) :
    Yields (g.cellReset start j neighborInsideBand s w) (ScoreBound B N) := by
  have hstep1 : ScoreBound B N
      (if !s.previousInsideBand.getD w false then
        { s with currentQ := s.currentQ.set w (s.currentM.getD w 0)
                 Qbacktrace := s.Qbacktrace.set w (w, j + start) }
      else s) := by
    split
    · exact ScoreBound_of_fields B N s _ h h.1
        (fun u => getD_set_le _ _ _ _ _ (h.1 w) (h.2.1 u)) h.2.2.1 rfl rfl rfl rfl rfl
    · exact h
  have hstep2 : ∀ s1 : SliceState, ScoreBound B N s1 →
      ScoreBound B N
        (if !g.usesFullR w && !neighborInsideBand then
          { s1 with currentR := s1.currentR.set w (s1.currentM.getD w 0)
                    currentRbacktrace := s1.currentRbacktrace.set w (w, j + start) }
        else s1) := by
    intro s1 h1
    split
    · exact ScoreBound_of_fields B N s1 _ h1 h1.1 h1.2.1
        (fun u => getD_set_le _ _ _ _ _ (h1.1 w) (h1.2.2.1 u)) rfl rfl rfl rfl rfl
    · exact h1
  unfold GraphAligner.cellReset
  dsimp only
  refine yields_assert (fun _ => ?_)
  refine yields_assert (fun _ => ?_)
  refine yields_assert (fun _ => ?_)
  exact hstep2 _ hstep1

/-- The body of the row loop keeps the state bounded. -/
theorem sliceCell_score (g : GraphAligner) (sequence : List Char) (hasWrongOrders : Bool)
    (distanceMatrix : List (List Nat)) (Rhelper : List (Nat × Int)) (start j : Nat)
    (s : SliceState) (w : Nat) (B : Int) (N : Nat) (hB : 0 ≤ B)
    (hgp : 0 ≤ g.gapPenalty 1) (hgc : 0 ≤ g.gapContinuePenalty)
    (hfull : hasWrongOrders = true → ∀ p ∈ Rhelper, p.2 ≤ B
      ∧ (p.1 ≠ w → 0 ≤ g.gapPenalty (g.distanceFromSeqToSeq p.1 w distanceMatrix)))
    (h : ScoreBound B N s) :
    Yields (g.sliceCell sequence hasWrongOrders distanceMatrix Rhelper start j s w)
      (ScoreBound B N) := by
  unfold GraphAligner.sliceCell
  refine yields_assert (fun _ => ?_)
  dsimp only
  refine yields_bind (cellR_score g hasWrongOrders distanceMatrix Rhelper start j _ _ w B N hB
    hgp hgc hfull (cellQ_score g start j s w B N hgp hgc h)) (fun s2 hs2 => ?_)
  refine yields_bind (cellMQR_score g start j _ s2 w B N hB hs2) (fun s3 hs3 => ?_)
  refine yields_bind (cellMatch_score g sequence start j s3 w B N hs3) (fun s4 hs4 => ?_)
  exact cellReset_score g start j _ s4 w B N hs4

/-- A row of the slice takes a state bounded for the row to a state bounded for
the next row, when the positions of the node ordering are positions of the graph
and no gap penalty that `fullR` forms is negative. -/
theorem sliceRow_score (g : GraphAligner) (sequence : List Char) (hasWrongOrders : Bool)
    (nodeOrdering : List Nat) (distanceMatrix : List (List Nat)) (start : Nat)
    (band : List (List Bool)) (s : SliceState) (j : Nat)
    (hs : g.gapStartPenalty = 1) (hc : g.gapContinuePenalty = 1)
    (hord : ∀ w ∈ nodeOrdering, w < g.nodeSequences.length)
    (hfit : hasWrongOrders = true → ∀ v w, v < g.nodeSequences.length →
      w < g.nodeSequences.length → v ≠ w →
      0 ≤ g.gapPenalty (g.distanceFromSeqToSeq v w distanceMatrix))
    (h : ScoreBound ((start + j : Nat) : Int) g.nodeSequences.length s) :
    Yields (g.sliceRow sequence hasWrongOrders nodeOrdering distanceMatrix start band s j)
      (ScoreBound ((start + (j + 1) : Nat) : Int) g.nodeSequences.length) := by
  have hB : (0 : Int) ≤ ((start + j : Nat) : Int) := Int.ofNat_nonneg _
  have hgp : 0 ≤ g.gapPenalty 1 := by rw [gapPenalty_one g hs hc]; decide
  have hgc : 0 ≤ g.gapContinuePenalty := by rw [hc]; decide
  have hrest : ∀ (Rhelper : List (Nat × Int)) (s0 : SliceState),
      ScoreBound ((start + j : Nat) : Int) g.nodeSequences.length s0 →
      (∀ w ∈ s0.currentProcessableColumns, w < g.nodeSequences.length) →
      (∀ p ∈ Rhelper, p.2 ≤ ((start + j : Nat) : Int) ∧ p.1 < g.nodeSequences.length) →
      Yields
        (do let s ← s0.currentProcessableColumns.foldlM
              (g.sliceCell sequence hasWrongOrders distanceMatrix Rhelper start j) s0
            pure { s with
              currentM := s.previousM, previousM := s.currentM
              currentQ := s.previousQ, previousQ := s.currentQ
              currentR := s.previousR, previousR := s.currentR
              currentRbacktrace := s.previousRbacktrace
              previousRbacktrace := s.currentRbacktrace
              currentInsideBand := s.previousInsideBand
              previousInsideBand := s.currentInsideBand
              currentProcessableColumns := s.previousProcessableColumns
              previousProcessableColumns := s.currentProcessableColumns })
        (ScoreBound ((start + (j + 1) : Nat) : Int) g.nodeSequences.length) := by
    intro Rhelper s0 h0 hcols hhelper
    refine yields_bind (yields_foldlM _
      (ScoreBound ((start + j : Nat) : Int) g.nodeSequences.length) _ ?_ s0 h0)
      (fun s1 h1 => ?_)
    · intro a w hw ha
      refine sliceCell_score g sequence hasWrongOrders distanceMatrix Rhelper start j a w _ _
        hB hgp hgc ?_ ha
      intro hwrong p hp
      obtain ⟨p1, p2⟩ := hhelper p hp
      exact ⟨p1, fun hne => hfit hwrong p.1 w p2 (hcols w hw) hne⟩
    · obtain ⟨m, q, r, pm, pq, pr, pc, cc⟩ := h1
      have e : (((start + (j + 1) : Nat) : Int)) = ((start + j : Nat) : Int) + 1 := by
        push_cast
        omega
      rw [e]
      refine ⟨?_, ?_, ?_, ?_, ?_, ?_, cc, pc⟩
      · intro u
        have := pm u
        show s1.previousM.getD u 0 ≤ _
        omega
      · intro u
        have := pq u
        show s1.previousQ.getD u 0 ≤ _
        omega
      · intro u
        have := pr u
        show s1.previousR.getD u 0 ≤ _
        omega
      · intro u
        have := m u
        show s1.currentM.getD u 0 ≤ _
        omega
      · intro u
        have := q u
        show s1.currentQ.getD u 0 ≤ _
        omega
      · intro u
        have := r u
        show s1.currentR.getD u 0 ≤ _
        omega
  have hcols : ∀ w ∈ nodeOrdering.filter (fun w =>
      ((List.range g.nodeSequences.length).map
        (fun w => getCell band w (start + j) false)).getD w false),
      w < g.nodeSequences.length := fun w hw => hord w (List.mem_filter.mp hw).1
  have h0 : ScoreBound ((start + j : Nat) : Int) g.nodeSequences.length
      { s with
        currentInsideBand := (List.range g.nodeSequences.length).map
          (fun w => getCell band w (start + j) false)
        previousInsideBand := (List.range g.nodeSequences.length).map
          (fun w => getCell band w (start + j - 1) false)
        currentProcessableColumns := nodeOrdering.filter (fun w =>
          ((List.range g.nodeSequences.length).map
            (fun w => getCell band w (start + j) false)).getD w false)
        currentM := s.currentM.set 0 (-(g.gapPenalty (start + j)))
        currentR := s.currentR.set 0 (ScoreType.min + g.gapContinuePenalty + 100) } := by
    obtain ⟨m, q, r, pm, pq, pr, pc, -⟩ := h
    refine ⟨?_, q, ?_, pm, pq, pr, pc, hcols⟩
    · intro u
      exact getD_set_le _ _ _ _ _ (neg_gapPenalty_le g hs hc (start + j)) (m u)
    · intro u
      refine getD_set_le _ _ _ _ _ ?_ (r u)
      rw [hc]
      unfold ScoreType.min
      omega
  unfold GraphAligner.sliceRow
  dsimp only
  split
  · refine yields_bind (getRHelper_score g j start _ sequence _ _ _ hB h0.2.2.2.1
      h0.2.2.2.2.2.2.1) (fun y hy => hrest y _ h0 hcols hy)
  · exact hrest [] _ h0 hcols (fun p hp => absurd hp (List.not_mem_nil p))

theorem rows_score (g : GraphAligner) (sequence : List Char) (hasWrongOrders : Bool)
    (nodeOrdering : List Nat) (distanceMatrix : List (List Nat)) (start : Nat)
    (band : List (List Bool)) (hs : g.gapStartPenalty = 1) (hc : g.gapContinuePenalty = 1)
    (hord : ∀ w ∈ nodeOrdering, w < g.nodeSequences.length)
    (hfit : hasWrongOrders = true → ∀ v w, v < g.nodeSequences.length →
      w < g.nodeSequences.length → v ≠ w →
      0 ≤ g.gapPenalty (g.distanceFromSeqToSeq v w distanceMatrix)) :
    ∀ (k j : Nat) (s : SliceState),
      ScoreBound ((start + j : Nat) : Int) g.nodeSequences.length s →
      Yields
        ((List.range' j k).foldlM
          (g.sliceRow sequence hasWrongOrders nodeOrdering distanceMatrix start band) s)
        (ScoreBound ((start + (j + k) : Nat) : Int) g.nodeSequences.length) := by
  intro k
  induction k with
  | zero =>
    intro j s h
    exact h
  | succ k ih =>
    intro j s h
    rw [List.range'_succ]
    simp only [List.foldlM]
    refine yields_bind (sliceRow_score g sequence hasWrongOrders nodeOrdering distanceMatrix
      start band s j hs hc hord hfit h) (fun s1 h1 => ?_)
    have := ih (j + 1) s1 h1
    rw [show j + 1 + k = j + (k + 1) by omega] at this
    exact this

/-- A slice that starts from scores not above the index `start` of its first
row ends with scores not above the index of its last row. -/
theorem slice_score (g : GraphAligner) (sequence : List Char) (hasWrongOrders : Bool)
    (nodeOrdering : List Nat) (distanceMatrix : List (List Nat)) (previous : MatrixSlice)
    (start end_ : Nat) (band : List (List Bool))
    (hs : g.gapStartPenalty = 1) (hc : g.gapContinuePenalty = 1)
    (hord : ∀ w ∈ nodeOrdering, w < g.nodeSequences.length)
    (hfit : hasWrongOrders = true → ∀ v w, v < g.nodeSequences.length →
      w < g.nodeSequences.length → v ≠ w →
      0 ≤ g.gapPenalty (g.distanceFromSeqToSeq v w distanceMatrix))
    (hM : ∀ u, previous.M.getD u 0 ≤ (start : Int))
    (hQ : ∀ u, previous.Q.getD u 0 ≤ (start : Int))
    (hR : ∀ u, previous.R.getD u 0 ≤ (start : Int)) :
    Yields
      (g.getScoreAndBacktraceMatrixSlice sequence hasWrongOrders nodeOrdering distanceMatrix
        previous start end_ band)
      (fun slice => ∀ u,
        slice.M.getD u 0 ≤ ((start + (end_ - start - 1) : Nat) : Int)
        ∧ slice.Q.getD u 0 ≤ ((start + (end_ - start - 1) : Nat) : Int)
        ∧ slice.R.getD u 0 ≤ ((start + (end_ - start - 1) : Nat) : Int)) := by
  have hzero : ∀ u, (List.replicate g.nodeSequences.length (0 : Int)).getD u 0
      ≤ ((start + 1 : Nat) : Int) := by
    intro u
    rw [getD_replicate]
    split <;> exact Int.ofNat_nonneg _
  have hfloor : ScoreType.min + g.gapContinuePenalty + 100 ≤ (start : Int) := by
    rw [hc]
    unfold ScoreType.min
    omega
  have e1 : (((start + 1 : Nat) : Int)) - 1 = (start : Int) := by
    push_cast
    omega
  unfold GraphAligner.getScoreAndBacktraceMatrixSlice
  dsimp only
  refine yields_assert (fun _ => ?_)
  refine yields_assert (fun _ => ?_)
  refine yields_assert (fun _ => ?_)
  refine yields_assert (fun _ => ?_)
  refine yields_assert (fun _ => ?_)
  refine yields_assert (fun _ => ?_)
  refine yields_bind (rows_score g sequence hasWrongOrders nodeOrdering distanceMatrix start
    band hs hc hord hfit (end_ - start - 1) 1 _ ?_) (fun s1 h1 => ?_)
  · refine ⟨?_, hzero, ?_, ?_, ?_, ?_, ?_, ?_⟩
    · intro u
      exact getD_set_le _ _ _ _ _ (neg_gapPenalty_le g hs hc (start + 1)) (hzero u)
    · intro u
      refine getD_set_le _ _ _ _ _ ?_ (hzero u)
      have : ((start : Int)) ≤ ((start + 1 : Nat) : Int) := by
        push_cast
        omega
      omega
    · intro u
      rw [e1]
      exact getD_set_le _ _ _ _ _ (neg_gapPenalty_le g hs hc start) (hM u)
    · intro u
      rw [e1]
      exact hQ u
    · intro u
      rw [e1]
      exact getD_set_le _ _ _ _ _ hfloor (hR u)
    · intro v hv
      exact absurd hv (List.not_mem_nil v)
    · intro v hv
      exact absurd hv (List.not_mem_nil v)
  · obtain ⟨-, -, -, pm, pq, pr, -, -⟩ := h1
    have e2 : (((start + (1 + (end_ - start - 1)) : Nat) : Int)) - 1
        = ((start + (end_ - start - 1) : Nat) : Int) := by
      push_cast
      omega
    rw [e2] at pm pq pr
    intro u
    exact ⟨pm u, pq u, pr u⟩

/-- The slice loop ends with scores not above the query length, when it starts
from scores not above the index `start - 1` of the row reached. -/
theorem sliceLoop_score (g : GraphAligner) (sequence : List Char) (hasWrongOrders : Bool)
    (nodeOrdering : List Nat) (distanceMatrix : List (List Nat)) (band : List (List Bool))
    (sliceSize : Nat) (hs : g.gapStartPenalty = 1) (hc : g.gapContinuePenalty = 1)
    (hord : ∀ w ∈ nodeOrdering, w < g.nodeSequences.length)
    (hfit : hasWrongOrders = true → ∀ v w, v < g.nodeSequences.length →
      w < g.nodeSequences.length → v ≠ w →
      0 ≤ g.gapPenalty (g.distanceFromSeqToSeq v w distanceMatrix)) :
    ∀ (fuel start : Nat) (lastRow : MatrixSlice) (backtraceMatrix : List (List MatrixPosition)),
      1 ≤ start → start ≤ sequence.length + 1 →
      (∀ u, lastRow.M.getD u 0 ≤ ((start - 1 : Nat) : Int)
        ∧ lastRow.Q.getD u 0 ≤ ((start - 1 : Nat) : Int)
        ∧ lastRow.R.getD u 0 ≤ ((start - 1 : Nat) : Int)) →
      Yields
        (g.sliceLoop sequence hasWrongOrders nodeOrdering distanceMatrix band sliceSize fuel
          start lastRow backtraceMatrix)
        (fun r => ∀ u, r.1.M.getD u 0 ≤ (sequence.length : Int)) := by
  intro fuel
  induction fuel with
  | zero =>
    intro start lastRow backtraceMatrix h1 h2 hrow
    unfold GraphAligner.sliceLoop
    split
    · trivial
    · intro u
      have := (hrow u).1
      show lastRow.M.getD u 0 ≤ _
      omega
  | succ fuel ih =>
    intro start lastRow backtraceMatrix h1 h2 hrow
    unfold GraphAligner.sliceLoop
    split
    · rename_i hlt
      dsimp only
      refine yields_bind (slice_score g sequence hasWrongOrders nodeOrdering distanceMatrix
        lastRow (start - 1) _ band hs hc hord hfit (fun u => (hrow u).1) (fun u => (hrow u).2.1)
        (fun u => (hrow u).2.2)) (fun slice hslice => ?_)
      refine yields_bind (yields_true _) (fun bm _ => ?_)
      · by_cases hbig : start + sliceSize > sequence.length + 1
        · rw [if_pos hbig] at hslice ⊢
          refine ih sequence.length slice bm (by omega) (by omega) ?_
          have e : start - 1 + (sequence.length - (start - 1) - 1) = sequence.length - 1 := by
            omega
          rw [e] at hslice
          exact hslice
        · rw [if_neg hbig] at hslice ⊢
          refine ih (start + sliceSize) slice bm (by omega) (by omega) ?_
          have e : start - 1 + (start + sliceSize - (start - 1) - 1)
              = start + sliceSize - 1 := by
            omega
          rw [e] at hslice
          exact hslice
    · intro u
      have := (hrow u).1
      show lastRow.M.getD u 0 ≤ _
      omega

/-- The score that `backtrace` returns is an entry of the vector `M` it is
given. -/
theorem backtrace_score (g : GraphAligner) (Mslice : List Int)
    (backtrace : List (List MatrixPosition)) (insideBand : List Bool) :
    Yields (g.backtrace Mslice backtrace insideBand) (fun r => ∃ w, r.1 = Mslice.getD w 0) := by
  unfold GraphAligner.backtrace
  refine yields_assert (fun _ => ?_)
  refine yields_assert (fun _ => ?_)
  dsimp only
  refine yields_assert (fun _ => ?_)
  exact yields_bind (yields_true _) (fun trace _ => ⟨_, rfl⟩)

theorem nodeOrdering_lt (g : GraphAligner) :
    ∀ w ∈ g.nodeOrdering.1, w < g.nodeSequences.length := by
  intro w hw
  unfold GraphAligner.nodeOrdering at hw
  simp only [List.mem_append, List.mem_filter, List.mem_range'_1] at hw
  rcases hw with ⟨h, -⟩ | ⟨h, -⟩ <;> omega

/-- The two gap penalties of a graph built by calls are `1`. -/
theorem build_penalties (ops : List BuildOp) :
    ∀ g, GraphAligner.build ops = .ok g →
      g.gapStartPenalty = 1 ∧ g.gapContinuePenalty = 1 := by
  induction ops using List.reverseRecOn with
  | nil =>
    intro g h
    simp only [GraphAligner.build, List.foldlM, pure, Except.pure] at h
    injection h with h
    subst h
    exact ⟨rfl, rfl⟩
  | append_singleton ops op ih =>
    intro g h
    rw [build_append] at h
    cases h0 : GraphAligner.build ops with
    | error e => rw [h0] at h; cases h
    | ok g0 =>
      rw [h0, Except.bind_ok] at h
      have i := ih g0 h0
      cases op with
      | addNode nodeId sequence =>
        simp only [GraphAligner.apply, GraphAligner.AddNode] at h
        split at h
        · injection h with h
          subst h
          exact i
        · split at h
          · cases h
          · injection h with h
            subst h
            exact i
      | addEdge a b =>
        simp only [GraphAligner.apply, GraphAligner.AddEdgeNodeId] at h
        split at h
        · split at h
          · cases h
          · split at h
            · cases h
            · split at h
              · injection h with h
                subst h
                exact i
              · injection h with h
                subst h
                exact i
        · cases h
      | finalize =>
        simp only [GraphAligner.apply] at h
        injection h with h
        subst h
        exact i

/-- The score of the trace computed in a band is not above the query length. -/
theorem backtrackWithBand_score (g : GraphAligner) (sequence : List Char) (bandWidth : Int)
    (band : List (List Bool)) (hs : g.gapStartPenalty = 1) (hc : g.gapContinuePenalty = 1)
    (hfit : g.nodeOrdering.2 = true → ∀ v w, v < g.nodeSequences.length →
      w < g.nodeSequences.length → v ≠ w →
      0 ≤ g.gapPenalty (g.distanceFromSeqToSeq v w g.getDistanceMatrixBoostJohnson)) :
    Yields (g.backtrackWithBand sequence bandWidth band)
      (fun r => r.1 ≤ (sequence.length : Int)) := by
  have hzero : ∀ u, (List.replicate g.nodeSequences.length (0 : Int)).getD u 0
      ≤ ((1 - 1 : Nat) : Int) := by
    intro u
    rw [getD_replicate]
    split <;> exact le_refl _
  unfold GraphAligner.backtrackWithBand
  dsimp only
  refine yields_assert (fun _ => ?_)
  refine yields_assert (fun _ => ?_)
  refine yields_bind (yields_true _) (fun bm _ => ?_)
  refine yields_bind (sliceLoop_score g sequence g.nodeOrdering.2 g.nodeOrdering.1
    g.getDistanceMatrixBoostJohnson band sequence.length hs hc (nodeOrdering_lt g) hfit
    sequence.length 1 _ bm (le_refl 1) (by omega) ?_) (fun r hr => ?_)
  · intro u
    refine ⟨hzero u, hzero u, ?_⟩
    show ((List.replicate g.nodeSequences.length (0 : Int)).set 0
      (ScoreType.min + g.gapContinuePenalty + 100)).getD u 0 ≤ _
    refine getD_set_le _ _ _ _ _ ?_ (hzero u)
    rw [hc]
    decide
  · refine yields_mono (backtrace_score g r.1.M r.2 r.1.insideBand) (fun res hres => ?_)
    obtain ⟨w, e⟩ := hres
    rw [e]
    exact hr w

/-- The score of the alignment is the score of the trace. -/
theorem traceToAlignment_score (g : GraphAligner) (seq_id : String)
    (trace : Int × List MatrixPosition) (reverse : Bool) :
    Yields (g.traceToAlignment seq_id trace reverse) (fun a => a.score = trace.1) := by
  unfold GraphAligner.traceToAlignment
  dsimp only
  exact yields_bind (yields_true _) (fun r _ => rfl)

/-- C34.  Let the graph be built by calls of `AddNode`, `AddEdgeNodeId` and
`Finalize`, and, when it has a node that is not in order, let the distance between
any two positions of the graph as `distanceFromSeqToSeq` computes it from the
distance matrix fit `ScoreType`, the type `gapPenalty` converts it to.  Then for
every query, band and row `j ≥ 0` every entry of the vector `M` of row `j` (the
vector of the slice that ends with row `j`, inside the band or not) is at most
`j`, and the score of every alignment that `AlignOneWay` returns is at most the
query length, whatever the seeds, the band width and the out-of-range reads of
`getBandedRows`. -/
theorem C34_score_bound (ops : List BuildOp) (g : GraphAligner)
    (hg : GraphAligner.build ops = .ok g)
    (hfit : g.nodeOrdering.2 = true → ∀ v w, v < g.nodeSequences.length →
      w < g.nodeSequences.length →
      g.distanceFromSeqToSeq v w g.getDistanceMatrixBoostJohnson < 2147483648) :
    (∀ (sequence : List Char) (bandWidth : Int) (band : List (List Bool)) (j : Nat)
        (slice : MatrixSlice),
      g.getScoreAndBacktraceMatrixSlice sequence g.nodeOrdering.2 g.nodeOrdering.1
          g.getDistanceMatrixBoostJohnson
          (g.getFirstSlice g.getDistanceMatrixBoostJohnson bandWidth) 0 (j + 1) band
        = .ok slice →
      ∀ w, slice.M.getD w 0 ≤ (j : Int))
    ∧ (∀ (before after : Nat → Int) (seq_id sequence : String) (reverse : Bool)
        (bandWidth : Int) (seedHits : List (SeedHit × SeedHit)) (a : Alignment),
      g.AlignOneWay before after seq_id sequence reverse bandWidth seedHits = .ok a →
      a.score ≤ (sequence.length : Int)) := by
  obtain ⟨hs, hc⟩ := build_penalties ops g hg
  have hpen : g.nodeOrdering.2 = true → ∀ v w, v < g.nodeSequences.length →
      w < g.nodeSequences.length → v ≠ w →
      0 ≤ g.gapPenalty (g.distanceFromSeqToSeq v w g.getDistanceMatrixBoostJohnson) :=
    fun hwrong v w hv hw _ => gapPenalty_nonneg g hs hc _ (hfit hwrong v w hv hw)
  constructor
  · intro sequence bandWidth band j slice h w
    have hzero : ∀ u, (List.replicate g.nodeSequences.length (0 : Int)).getD u 0
        ≤ ((0 : Nat) : Int) := by
      intro u
      rw [getD_replicate]
      split <;> exact le_refl _
    have hy := slice_score g sequence g.nodeOrdering.2 g.nodeOrdering.1
      g.getDistanceMatrixBoostJohnson (g.getFirstSlice g.getDistanceMatrixBoostJohnson bandWidth)
      0 (j + 1) band hs hc (nodeOrdering_lt g) hpen hzero hzero (by
        intro u
        show ((List.replicate g.nodeSequences.length (0 : Int)).set 0
          (ScoreType.min + g.gapContinuePenalty + 100)).getD u 0 ≤ _
        refine getD_set_le _ _ _ _ _ ?_ (hzero u)
        rw [hc]
        decide)
    have := (yields_ok hy h w).1
    simpa using this
  · intro before after seq_id sequence reverse bandWidth seedHits a h
    have hy : Yields (g.AlignOneWay before after seq_id sequence reverse bandWidth seedHits)
        (fun a => a.score ≤ (sequence.length : Int)) := by
      unfold GraphAligner.AlignOneWay GraphAligner.backtrackWithSquareRootSlices
      refine yields_assert (fun _ => ?_)
      refine yields_bind (yields_true _) (fun seeds _ => ?_)
      refine yields_bind (P := fun (r : Int × List MatrixPosition) =>
        r.1 ≤ (sequence.length : Int)) ?_ (fun trace ht => ?_)
      · refine yields_bind (yields_true _) (fun band _ => ?_)
        exact backtrackWithBand_score g sequence.data bandWidth band hs hc hpen
      · refine yields_mono (traceToAlignment_score g seq_id trace reverse) (fun a' ha' => ?_)
        rw [ha']
        exact ht
    have hfin := yields_ok hy h
    exact hfin

set_option maxRecDepth 1000000 in
/-- C34 on the cycle through the two nodes `2 = "AC"` and `4 = "G"` (edges `2 → 4`
and `4 → 2`), a graph with a node that is not in order: all distances between its
four positions fit `ScoreType`, and `AlignOneWay` with the query `"GAC"`, the band
width `3` and the seed pair `(0, 4)` returns the score `3`, the query length (with
out-of-range reads that yield `0`). -/
theorem C34_witness :
    ∃ g, GraphAligner.build [.addNode 2 "AC", .addNode 4 "G", .addEdge 2 4, .addEdge 4 2,
        .finalize] = .ok g
      ∧ g.nodeOrdering.2 = true
      ∧ (∀ v w, v < g.nodeSequences.length → w < g.nodeSequences.length →
          g.distanceFromSeqToSeq v w g.getDistanceMatrixBoostJohnson < 2147483648)
      ∧ g.AlignOneWay (fun _ => 0) (fun _ => 0) "read" "GAC" false 3 [seedPair 4]
        = .ok { name := "read",
                path := [{ rank := 0, node_id := 2, is_reverse := false },
                         { rank := 1, node_id := 4, is_reverse := false },
                         { rank := 2, node_id := 2, is_reverse := false }],
                score := 3 }
      ∧ (3 : Int) ≤ ("GAC".length : Int) := by
  obtain ⟨g, hg⟩ := ok_of_isOk (GraphAligner.build [.addNode 2 "AC", .addNode 4 "G",
    .addEdge 2 4, .addEdge 4 2, .finalize]) (by decide)
  have h1 : ((GraphAligner.build [.addNode 2 "AC", .addNode 4 "G", .addEdge 2 4, .addEdge 4 2,
      .finalize]).map (fun g => decide (g.nodeOrdering.2 = true
        ∧ (∀ v, v < g.nodeSequences.length → ∀ w, w < g.nodeSequences.length →
          g.distanceFromSeqToSeq v w g.getDistanceMatrixBoostJohnson < 2147483648)
        ∧ g.AlignOneWay (fun _ => 0) (fun _ => 0) "read" "GAC" false 3 [seedPair 4]
          = .ok { name := "read",
                  path := [{ rank := 0, node_id := 2, is_reverse := false },
                           { rank := 1, node_id := 4, is_reverse := false },
                           { rank := 2, node_id := 2, is_reverse := false }],
                  score := 3 }))) = .ok true := by decide
  rw [hg] at h1
  simp only [Except.map, Except.ok.injEq, decide_eq_true_eq] at h1
  obtain ⟨hwrong, hdist, hrun⟩ := h1
  have hfit : ∀ v w, v < g.nodeSequences.length → w < g.nodeSequences.length →
      g.distanceFromSeqToSeq v w g.getDistanceMatrixBoostJohnson < 2147483648 :=
    fun v w hv hw => hdist v hv w hw
  exact ⟨g, hg, hwrong, hfit, hrun,
    (C34_score_bound _ g hg (fun _ => hfit)).2 (fun _ => 0) (fun _ => 0) "read" "GAC" false 3
      [seedPair 4] _ hrun⟩

end GsswWrapper
